import Mathlib

/-!
# ngx_http_brotli_filter_module: the streaming compression session

A shallow embedding of `src/ngx_http_brotli_filter_module.c`.

* Return codes are `ngx_int_t` values (`Int`).
* The buffers the module creates live in a heap (`World.heap`) and are
  addressed by index, because `ctx->out_buf` aliases links of `ctx->out`,
  `ctx->busy` and `ctx->free`.  Input buffers belong to the producer and are
  carried by value.
* `ctx->last_out` points at the `next` field of a link of `ctx->out` (or at
  `ctx->out` itself); it is kept as the index of that link.
* The brotli encoder, the pool allocator and the next body filter are external
  to the module.  The encoder is a parameter (`BrotliEncoder`); the allocator
  and the next body filter answer from a script (`Env`) indexed by call count.
* Ghost logs in `World` record what the module did to its environment:
  chains handed to the next filter, `ngx_pfree` calls, bytes consumed and
  produced by the encoder, encoder calls, encoders created and destroyed,
  failure events.
* The two `for ( ;; )` loops of the body filter carry an iteration budget;
  `Outcome.timeout` is the end of the budget.  Safety results hold for every
  budget and every environment; completion of a whole run is proved for a
  cooperative environment (`Cooperative`), the return of one invocation for
  every environment, both for an encoder that makes progress
  (`EncoderProgress`).
* The header filter and `accept_br` are modelled apart from the body filter:
  header values are byte lists, `ngx_http_test_content_type`,
  `ngx_http_weak_etag` and the next header filter are parameters
  (`HeaderEnv`), and `accept_br` records the offsets it reads.
-/

namespace NgxBrotli

/-! ## Return codes and basic types -/

abbrev NGX_OK : Int := 0
abbrev NGX_ERROR : Int := -1
abbrev NGX_AGAIN : Int := -2
abbrev NGX_DECLINED : Int := -5

/-- The `BrotliEncoderOperation` values the module uses. -/
inductive BrotliEncoderOperation where
  | PROCESS
  | FLUSH
  | FINISH
deriving DecidableEq, Repr

open BrotliEncoderOperation

/-- An `ngx_buf_t`.  `mem` is the buffer's address space; `pos`, `last` and
`start` are addresses in it.  `tag` is true when the tag is
`&ngx_http_brotli_filter_module`. -/
structure ngx_buf_t where
  pos : Nat
  last : Nat
  start : Nat
  mem : List Nat
  tag : Bool
  flush : Bool
  last_buf : Bool
  recycled : Bool
deriving DecidableEq, Repr

/-- The macro `ngx_buf_size` for a buffer without file part. -/
def ngx_buf_size (b : ngx_buf_t) : Nat := b.last - b.pos

/-- The byte range `[pos, last)` a chunk carries. -/
def ngx_buf_t.bytes (b : ngx_buf_t) : List Nat := (b.mem.drop b.pos).take (b.last - b.pos)

/-- What `ngx_calloc_buf` returns: an all-zero buffer header. -/
def zero_buf : ngx_buf_t :=
  { pos := 0, last := 0, start := 0, mem := [], tag := false, flush := false,
    last_buf := false, recycled := false }

/-- The fields of `ngx_http_brotli_conf_t` the filters read: `bufs` by the body
filter, `enable` and `min_length` by the header filter (with the defaults of
`ngx_http_brotli_merge_conf`).  The hash `types` is looked up by an nginx
function only; `level` is passed to the external encoder. -/
structure ngx_http_brotli_conf_t where
  bufs_num : Int
  bufs_size : Nat
  enable : Int := 0
  min_length : Int := 2048

/-- The external brotli encoder.  `create` is `BrotliEncoderCreateInstance`
(`none` is NULL).  `compressStream e op input avail_out` is
`BrotliEncoderCompressStream` on the available input bytes and the free
space of the output cursor: `none` is `BROTLI_FALSE`, otherwise the new encoder
state, the number of input bytes consumed and the bytes written. -/
structure BrotliEncoder (E : Type) where
  create : Option E
  compressStream : E → BrotliEncoderOperation → List Nat → Nat → Option (E × Nat × List Nat)
  isFinished : E → Bool

/-- Scripted answers of the pool allocator and of the next body filter.
`alloc_ok k` tells whether the `k`-th allocation succeeds; `next_rc k` is what
the `k`-th call of the next body filter returns and `next_consume k i` how
many bytes of buffer `i` it sends during that call. -/
structure Env where
  alloc_ok : Nat → Bool
  next_rc : Nat → Int
  next_consume : Nat → Nat → Nat

/-- Failure events of the environment, and the NULL dereference the C code
would perform if `compress` were entered without encoder or output buffer. -/
inductive Failure where
  | encoder_create
  | encoder_step
  | alloc
  | next_filter
  | null_deref
deriving DecidableEq, Repr

/-- The `ngx_http_brotli_ctx_t` session.  `input` and `output` are never read
by the module and are left out.  Input chunks are carried by value:
`copy_buf` is the chunk of the link `ctx->copy_buf`, which in the C code is
the buffer `ctx->in_buf` itself, and `copied` the chunks of the links of
`ctx->copied`. -/
structure ngx_http_brotli_ctx_t (E : Type) where
  in_ : List ngx_buf_t
  free : List Nat
  busy : List Nat
  out : List Nat
  last_out : Nat
  copied : List ngx_buf_t
  copy_buf : Option ngx_buf_t
  in_buf : Option ngx_buf_t
  out_buf : Option Nat
  bufs : Int
  bro : Option E
  next_in : Option Nat
  next_out : Nat
  available_in : Nat
  available_out : Nat
  flush : BrotliEncoderOperation
  redo : Bool
  done : Bool
  nomem : Bool

/-- The session as `ngx_pcalloc` leaves it in the header filter. -/
def fresh_ctx (E : Type) : ngx_http_brotli_ctx_t E :=
  { in_ := [], free := [], busy := [], out := [], last_out := 0, copied := [],
    copy_buf := none, in_buf := none, out_buf := none, bufs := 0, bro := none,
    next_in := none, next_out := 0, available_in := 0, available_out := 0,
    flush := PROCESS, redo := false, done := false, nomem := false }

/-- Everything of the request outside the session: the pool's buffers, the
`NGX_HTTP_GZIP_BUFFERED` bit, the script cursors and the ghost logs. -/
structure World (E : Type) where
  heap : List ngx_buf_t
  buffered : Bool
  nalloc : Nat
  nnext : Nat
  freed : List Nat
  sent : List (List ngx_buf_t)
  fed : List Nat
  produced : List Nat
  created : Nat
  steps : Nat
  destroyed : List E
  failures : List Failure

def fresh_world (E : Type) : World E :=
  { heap := [], buffered := false, nalloc := 0, nnext := 0, freed := [], sent := [],
    fed := [], produced := [], created := 0, steps := 0, destroyed := [], failures := [] }

/-- The request: the module context slot, `r->header_only` and the rest. -/
structure ngx_http_request_t (E : Type) where
  ctx : Option (ngx_http_brotli_ctx_t E)
  header_only : Bool
  w : World E

/-! ## Environment operations -/

/-- Read buffer `i` of the heap. -/
def getBuf (heap : List ngx_buf_t) (i : Nat) : ngx_buf_t := heap.getD i zero_buf

/-- Apply `f` to buffer `i` of the heap. -/
def updBuf (heap : List ngx_buf_t) (i : Nat) (f : ngx_buf_t → ngx_buf_t) : List ngx_buf_t :=
  heap.set i (f (getBuf heap i))

/-- Record a failure event. -/
def World.fail {E : Type} (w : World E) (f : Failure) : World E :=
  { w with failures := w.failures ++ [f] }

/-- One pool allocation attempt (`ngx_alloc_chain_link`, `ngx_calloc_buf`,
`ngx_create_temp_buf`): the script decides; a refusal is a failure event. -/
def ngx_alloc {E : Type} (env : Env) (w : World E) : Bool × World E :=
  if env.alloc_ok w.nalloc then (true, { w with nalloc := w.nalloc + 1 })
  else (false, { w with nalloc := w.nalloc + 1, failures := w.failures ++ [Failure.alloc] })

/-- The function `ngx_create_temp_buf`: a new buffer of `size` bytes with
`pos = last = start`. -/
def ngx_create_temp_buf {E : Type} (env : Env) (w : World E) (size : Nat) :
    Option Nat × World E :=
  match ngx_alloc env w with
  | (true, w1) =>
      (some w1.heap.length,
        { w1 with heap := w1.heap ++ [{ zero_buf with mem := List.replicate size 0 }] })
  | (false, w1) => (none, w1)

/-- The function `ngx_calloc_buf`. -/
def ngx_calloc_buf {E : Type} (env : Env) (w : World E) : Option Nat × World E :=
  match ngx_alloc env w with
  | (true, w1) => (some w1.heap.length, { w1 with heap := w1.heap ++ [zero_buf] })
  | (false, w1) => (none, w1)

/-- The next body filter sends bytes of the buffers it holds: `pos` advances,
never past `last`. -/
def consume (k : Nat → Nat) : List Nat → List ngx_buf_t → List ngx_buf_t
  | [], heap => heap
  | i :: is, heap =>
      consume k is (updBuf heap i (fun b => { b with pos := min b.last (b.pos + k i) }))

/-- One call `ngx_http_next_body_filter(r, chain)`.  `held` are the module's
buffers the next filter holds after the call (those still busy and those of
`chain`); `chain` is the chain as handed over. -/
def ngx_http_next_body_filter {E : Type} (env : Env) (w : World E) (held : List Nat)
    (chain : List ngx_buf_t) : Int × World E :=
  let rc := env.next_rc w.nnext
  let w1 : World E :=
    { w with sent := w.sent ++ [chain], heap := consume (env.next_consume w.nnext) held w.heap,
             nnext := w.nnext + 1 }
  (rc, if rc = NGX_ERROR then w1.fail Failure.next_filter else w1)

/-- The loop of `ngx_chain_update_chains` over the busy chain: a buffer that
is not fully sent stops the loop, a foreign buffer is dropped, a buffer of the
module is reset and pushed on the free chain. -/
def recycle : List ngx_buf_t → List Nat → List Nat → List ngx_buf_t × List Nat × List Nat
  | heap, free, [] => (heap, free, [])
  | heap, free, i :: rest =>
      if ngx_buf_size (getBuf heap i) ≠ 0 then (heap, free, i :: rest)
      else if (getBuf heap i).tag = false then recycle heap free rest
      else recycle (updBuf heap i (fun b => { b with pos := b.start, last := b.start }))
             (i :: free) rest

/-- The function `ngx_chain_update_chains(pool, &free, &busy, &out, tag)`: `out`
is appended to `busy`, then the busy chain is recycled.  Returns the heap and
the new free and busy chains; `out` becomes empty. -/
def ngx_chain_update_chains (heap : List ngx_buf_t) (free busy out : List Nat) :
    List ngx_buf_t × List Nat × List Nat :=
  recycle heap free (busy ++ out)

/-- The function `ngx_chain_add_copy`: one chain link is allocated per buffer
of `chain`; on a failed allocation the links made so far stay appended. -/
def ngx_chain_add_copy {E : Type} (env : Env) :
    World E → List ngx_buf_t → List ngx_buf_t → Int × World E × List ngx_buf_t
  | w, dst, [] => (NGX_OK, w, dst)
  | w, dst, b :: rest =>
      match ngx_alloc env w with
      | (true, w1) => ngx_chain_add_copy env w1 (dst ++ [b]) rest
      | (false, w1) => (NGX_ERROR, w1, dst)

/-- The statements `*ctx->last_out = cl; ctx->last_out = &cl->next` for a link
holding buffer `i`. -/
def link_out {E : Type} (c : ngx_http_brotli_ctx_t E) (i : Nat) : ngx_http_brotli_ctx_t E :=
  { c with out := c.out.take c.last_out ++ [i], last_out := c.last_out + 1 }

/-! ## The module's functions -/

variable {E : Type}

/-- The function `ngx_http_brotli_filter_free_copy_buf`. -/
def ngx_http_brotli_filter_free_copy_buf (w : World E) (c : ngx_http_brotli_ctx_t E) :
    World E × ngx_http_brotli_ctx_t E :=
  ({ w with freed := w.freed ++ c.copied.map (fun b => b.start) }, { c with copied := [] })

/-- The function `ngx_http_brotli_filter_start`.  The two
`BrotliEncoderSetParameter` calls configure the external encoder and have no
effect on the session. -/
def ngx_http_brotli_filter_start (enc : BrotliEncoder E) (w : World E)
    (c : ngx_http_brotli_ctx_t E) : Int × World E × ngx_http_brotli_ctx_t E :=
  match enc.create with
  | none => (NGX_ERROR, w.fail Failure.encoder_create, { c with bro := none })
  | some e =>
      (NGX_OK, { w with created := w.created + 1 },
        { c with bro := some e, last_out := 0, next_in := none, next_out := 0,
                 available_in := 0, available_out := 0 })

/-- The function `ngx_http_brotli_filter_add_data`.  A chunk is a byte range
with `pos ≤ last`; there `last - pos` is the value the C code stores in the
`size_t` field `available_in`. -/
def ngx_http_brotli_filter_add_data (c : ngx_http_brotli_ctx_t E) :
    Int × ngx_http_brotli_ctx_t E :=
  if c.available_in ≠ 0 ∨ c.flush ≠ PROCESS ∨ c.redo = true then (NGX_OK, c)
  else
    match c.in_ with
    | [] => (NGX_DECLINED, c)
    | b :: rest =>
        let copied := match c.copy_buf with
          | some cb => cb :: c.copied
          | none => c.copied
        let copy_buf := if b.tag = true then some b else none
        let available_in := b.last - b.pos
        let flush := if b.last_buf = true then FINISH
                     else if b.flush = true then FLUSH else c.flush
        let c1 : ngx_http_brotli_ctx_t E :=
          { c with copied := copied, copy_buf := copy_buf, in_buf := some b, in_ := rest,
                   next_in := some b.pos, available_in := available_in, flush := flush }
        if available_in = 0 ∧ flush = PROCESS then (NGX_AGAIN, c1) else (NGX_OK, c1)

/-- The function `ngx_http_brotli_filter_get_buf`. -/
def ngx_http_brotli_filter_get_buf (env : Env) (conf : ngx_http_brotli_conf_t) (w : World E)
    (c : ngx_http_brotli_ctx_t E) : Int × World E × ngx_http_brotli_ctx_t E :=
  if c.available_out ≠ 0 then (NGX_OK, w, c)
  else
    match c.free with
    | i :: rest =>
        (NGX_OK, w,
          { c with out_buf := some i, free := rest, next_out := (getBuf w.heap i).pos,
                   available_out := conf.bufs_size })
    | [] =>
        if c.bufs < conf.bufs_num then
          match ngx_create_temp_buf env w conf.bufs_size with
          | (none, w1) => (NGX_ERROR, w1, { c with out_buf := none })
          | (some i, w1) =>
              let heap := updBuf w1.heap i (fun b => { b with tag := true, recycled := true })
              (NGX_OK, { w1 with heap := heap },
                { c with out_buf := some i, bufs := c.bufs + 1, next_out := (getBuf heap i).pos,
                         available_out := conf.bufs_size })
        else (NGX_DECLINED, w, { c with nomem := true })

/-- The function `ngx_http_brotli_filter_end`, entered with the live encoder
`e` and the output buffer `ob` of the session. -/
def ngx_http_brotli_filter_end (env : Env) (w : World E) (c : ngx_http_brotli_ctx_t E)
    (e : E) (ob : Nat) : Int × World E × ngx_http_brotli_ctx_t E :=
  let w1 : World E := { w with destroyed := w.destroyed ++ [e] }
  let c1 : ngx_http_brotli_ctx_t E := { c with bro := none }
  match ngx_alloc env w1 with
  | (false, w2) => (NGX_ERROR, w2, c1)
  | (true, w2) =>
      (NGX_OK,
        { w2 with heap := updBuf w2.heap ob (fun b => { b with last_buf := true }),
                  buffered := false },
        { link_out c1 ob with done := true })

/-- Write `bytes` at address `at_` of a buffer's memory. -/
def write_mem (mem : List Nat) (at_ : Nat) (bytes : List Nat) : List Nat :=
  mem.take at_ ++ bytes ++ mem.drop (at_ + bytes.length)

/-- The bytes the encoder may read: `available_in` bytes at `next_in`. -/
def input_window (c : ngx_http_brotli_ctx_t E) : List Nat :=
  match c.next_in, c.in_buf with
  | some p, some b => (b.mem.drop p).take c.available_in
  | _, _ => []

/-- The world after a successful `BrotliEncoderCompressStream` call that
consumed `used` input bytes and wrote `outb` at `next_out` of buffer `ob`,
and after `ctx->out_buf->last = ctx->next_out`. -/
def encoder_call_world (w : World E) (c : ngx_http_brotli_ctx_t E) (ob used : Nat)
    (outb : List Nat) : World E :=
  { w with
    heap := updBuf (updBuf w.heap ob (fun b => { b with mem := write_mem b.mem c.next_out outb }))
              ob (fun b => { b with last := c.next_out + outb.length }),
    fed := w.fed ++ (input_window c).take used,
    produced := w.produced ++ outb,
    steps := w.steps + 1 }

/-- The session after that call: the four cursors as the encoder leaves
them, then `if (ctx->next_in) { in_buf->pos = next_in; if (available_in == 0)
next_in = NULL; }`.  The link `ctx->copy_buf`, when set, holds the buffer
`ctx->in_buf` itself (`add_data` sets it to the link it takes the buffer
from), so the chunk it carries advances its `pos` with `in_buf`. -/
def encoder_call_ctx (c : ngx_http_brotli_ctx_t E) (e1 : E) (used : Nat) (outb : List Nat) :
    ngx_http_brotli_ctx_t E :=
  { c with
    bro := some e1,
    next_in := if c.available_in - used = 0 then none else c.next_in.map (fun p => p + used),
    available_in := c.available_in - used,
    next_out := c.next_out + outb.length,
    available_out := c.available_out - outb.length,
    in_buf := match c.next_in with
      | some p => c.in_buf.map (fun b => { b with pos := p + used })
      | none => c.in_buf,
    copy_buf := match c.next_in with
      | some p => c.copy_buf.map (fun b => { b with pos := p + used })
      | none => c.copy_buf }

/-- The function `ngx_http_brotli_filter_compress`.  A call without encoder or
without output buffer would dereference NULL; it is reported as the event
`null_deref`. -/
def ngx_http_brotli_filter_compress (enc : BrotliEncoder E) (env : Env) (w : World E)
    (c : ngx_http_brotli_ctx_t E) : Int × World E × ngx_http_brotli_ctx_t E :=
  match c.bro, c.out_buf with
  | some e, some ob =>
      match enc.compressStream e c.flush (input_window c) c.available_out with
      | none => (NGX_ERROR, { w with steps := w.steps + 1 }.fail Failure.encoder_step, c)
      | some (e1, used, outb) =>
          let w1 := encoder_call_world w c ob used outb
          let c1 := encoder_call_ctx c e1 used outb
          if c1.available_out = 0 then
            -- brotli wants to output some more compressed data
            match ngx_alloc env w1 with
            | (false, w2) => (NGX_ERROR, w2, c1)
            | (true, w2) => (NGX_AGAIN, w2, { link_out c1 ob with redo := true })
          else
            let c2 : ngx_http_brotli_ctx_t E := { c1 with redo := false }
            if c2.flush = FLUSH then
              let c3 : ngx_http_brotli_ctx_t E := { c2 with flush := PROCESS }
              match ngx_alloc env w1 with
              | (false, w2) => (NGX_ERROR, w2, c3)
              | (true, w2) =>
                  if ngx_buf_size (getBuf w2.heap ob) = 0 then
                    match ngx_calloc_buf env w2 with
                    | (none, w3) => (NGX_ERROR, w3, c3)
                    | (some m, w3) =>
                        (NGX_OK,
                          { w3 with heap := updBuf w3.heap m (fun b => { b with flush := true }),
                                    buffered := false },
                          link_out c3 m)
                  else
                    (NGX_OK,
                      { w2 with heap := updBuf w2.heap ob (fun b => { b with flush := true }),
                                buffered := false },
                      link_out { c3 with available_out := 0 } ob)
            else if enc.isFinished e1 = true then
              ngx_http_brotli_filter_end env w1 c2 e1 ob
            else (NGX_AGAIN, w1, c2)
  | _, _ => (NGX_ERROR, w.fail Failure.null_deref, c)

/-- How one run of a loop of the body filter ends. -/
inductive Flow (E : Type) where
  | brk (w : World E) (c : ngx_http_brotli_ctx_t E)
  | failed (w : World E) (c : ngx_http_brotli_ctx_t E)
  | timeout (w : World E) (c : ngx_http_brotli_ctx_t E)

/-- The inner `for ( ;; )` of the body filter ("cycle while there is data to
feed"), at most `fuel` iterations. -/
def feed (enc : BrotliEncoder E) (env : Env) (conf : ngx_http_brotli_conf_t) :
    Nat → World E → ngx_http_brotli_ctx_t E → Flow E
  | 0, w, c => Flow.timeout w c
  | fuel + 1, w, c =>
      match ngx_http_brotli_filter_add_data c with
      | (rc, c1) =>
        if rc = NGX_DECLINED then Flow.brk w c1
        else if rc = NGX_AGAIN then feed enc env conf fuel w c1
        else
          match ngx_http_brotli_filter_get_buf env conf w c1 with
          | (rc2, w2, c2) =>
            if rc2 = NGX_DECLINED then Flow.brk w2 c2
            else if rc2 = NGX_ERROR then Flow.failed w2 c2
            else
              match ngx_http_brotli_filter_compress enc env w2 c2 with
              | (rc3, w3, c3) =>
                if rc3 = NGX_OK then Flow.brk w3 c3
                else if rc3 = NGX_ERROR then Flow.failed w3 c3
                else feed enc env conf fuel w3 c3

/-- What an invocation of the body filter yields: it returns `rc`, or the
iteration budget ran out. -/
inductive Outcome (E : Type) where
  | returned (rc : Int) (r : ngx_http_request_t E)
  | timeout (r : ngx_http_request_t E)

/-- The request an outcome carries. -/
def Outcome.req : Outcome E → ngx_http_request_t E
  | Outcome.returned _ r => r
  | Outcome.timeout r => r

/-- The label `failed:` of the body filter.  `BrotliEncoderDestroyInstance` on
NULL does nothing. -/
def body_filter_failed (header_only : Bool) (w : World E) (c : ngx_http_brotli_ctx_t E) :
    Outcome E :=
  let c1 : ngx_http_brotli_ctx_t E := { c with done := true }
  match ngx_http_brotli_filter_free_copy_buf w c1 with
  | (w2, c2) =>
      let w3 : World E := match c2.bro with
        | some e => { w2 with destroyed := w2.destroyed ++ [e] }
        | none => w2
      Outcome.returned NGX_ERROR
        { ctx := some { c2 with bro := none }, header_only := header_only, w := w3 }

/-- The exit of the outer loop when there is nothing to hand over:
`free_copy_buf`, then `return ctx->busy ? NGX_AGAIN : NGX_OK`. -/
def idle_return (header_only : Bool) (w : World E) (c : ngx_http_brotli_ctx_t E) :
    Outcome E :=
  match ngx_http_brotli_filter_free_copy_buf w c with
  | (w2, c2) =>
      Outcome.returned (if c2.busy ≠ [] then NGX_AGAIN else NGX_OK)
        { ctx := some c2, header_only := header_only, w := w2 }

/-- The statements of the outer loop after a successful hand-over:
`free_copy_buf`, `ngx_chain_update_chains` on `ctx->out`, and the resets of
`last_out` and `nomem`. -/
def after_next (w : World E) (c : ngx_http_brotli_ctx_t E) :
    World E × ngx_http_brotli_ctx_t E :=
  match ngx_http_brotli_filter_free_copy_buf w c with
  | (w3, c3) =>
      match ngx_chain_update_chains w3.heap c3.free c3.busy c3.out with
      | (heap, free, busy) =>
          ({ w3 with heap := heap },
           { c3 with free := free, busy := busy, out := [], last_out := 0, nomem := false })

/-- The outer `for ( ;; )` of the body filter ("cycle while we can write to a
client"), at most `fuel` iterations, each running the inner loop for at most
`fuel_in` iterations.  `flush` is the local variable of that name. -/
def cycle (enc : BrotliEncoder E) (env : Env) (conf : ngx_http_brotli_conf_t)
    (header_only : Bool) (fuel_in : Nat) :
    Nat → Bool → World E → ngx_http_brotli_ctx_t E → Outcome E
  | 0, _, w, c => Outcome.timeout { ctx := some c, header_only := header_only, w := w }
  | fuel + 1, flush, w, c =>
      match feed enc env conf fuel_in w c with
      | Flow.timeout w1 c1 =>
          Outcome.timeout { ctx := some c1, header_only := header_only, w := w1 }
      | Flow.failed w1 c1 => body_filter_failed header_only w1 c1
      | Flow.brk w1 c1 =>
          if c1.out = [] ∧ flush = false then idle_return header_only w1 c1
          else
            match ngx_http_next_body_filter env w1 (c1.busy ++ c1.out)
                    (c1.out.map (getBuf w1.heap)) with
            | (rc, w2) =>
                if rc = NGX_ERROR then body_filter_failed header_only w2 c1
                else
                  match after_next w2 c1 with
                  | (w4, c4) =>
                      if c4.done = true then
                        Outcome.returned rc
                          { ctx := some c4, header_only := header_only, w := w4 }
                      else cycle enc env conf header_only fuel_in fuel false w4 c4

/-- Where the statements before the loops of the body filter lead: to the
label `failed`, or into the outer loop with the local `flush`. -/
inductive Entry (E : Type) where
  | failed (w : World E) (c : ngx_http_brotli_ctx_t E)
  | go (flush : Bool) (w : World E) (c : ngx_http_brotli_ctx_t E)

/-- The statement `if (ctx->bro == NULL) start`, with the result of `start`
(`NGX_OK` when the encoder is already there). -/
def start_if_needed (enc : BrotliEncoder E) (w : World E) (c : ngx_http_brotli_ctx_t E) :
    Int × World E × ngx_http_brotli_ctx_t E :=
  match c.bro with
  | none => ngx_http_brotli_filter_start enc w c
  | some _ => (NGX_OK, w, c)

/-- The statement `if (in) { ngx_chain_add_copy(&ctx->in, in); buffered |=
NGX_HTTP_GZIP_BUFFERED; }`, with the result of `ngx_chain_add_copy`. -/
def add_input (env : Env) (w : World E) (c : ngx_http_brotli_ctx_t E)
    (chain : List ngx_buf_t) : Int × World E × ngx_http_brotli_ctx_t E :=
  match chain with
  | [] => (NGX_OK, w, c)
  | _ :: _ =>
      match ngx_chain_add_copy env w c.in_ chain with
      | (rc, w1, l) =>
          (rc, { w1 with buffered := if rc = NGX_OK then true else w1.buffered },
            { c with in_ := l })

/-- The statement `if (ctx->nomem) { flush busy buffers } else { flush =
ctx->busy ? 1 : 0; }` before the loops. -/
def flush_busy (env : Env) (w : World E) (c : ngx_http_brotli_ctx_t E) : Entry E :=
  if c.nomem = true then
    match ngx_http_next_body_filter env w c.busy [] with
    | (rc2, w2) =>
        if rc2 = NGX_ERROR then Entry.failed w2 c
        else
          match ngx_chain_update_chains w2.heap c.free c.busy [] with
          | (heap, free, busy) =>
              Entry.go false { w2 with heap := heap }
                { c with free := free, busy := busy, nomem := false }
  else Entry.go (decide (c.busy ≠ [])) w c

/-- The statements of the body filter between the pass-through check and the
loops. -/
def prologue (enc : BrotliEncoder E) (env : Env) (w : World E) (c : ngx_http_brotli_ctx_t E)
    (chain : List ngx_buf_t) : Entry E :=
  match start_if_needed enc w c with
  | (rc0, w0, c0) =>
    if rc0 ≠ NGX_OK then Entry.failed w0 c0
    else
      match add_input env w0 c0 chain with
      | (rc1, w1, c1) =>
        if rc1 ≠ NGX_OK then Entry.failed w1 c1
        else flush_busy env w1 c1

/-- The body filter past its pass-through check, on the session `c`: the
statements before the loops, then the label `failed` or the loops. -/
def body_filter_session (enc : BrotliEncoder E) (env : Env) (conf : ngx_http_brotli_conf_t)
    (fuel : Nat) (header_only : Bool) (w : World E) (c : ngx_http_brotli_ctx_t E)
    (chain : List ngx_buf_t) : Outcome E :=
  match prologue enc env w c chain with
  | Entry.failed w1 c1 => body_filter_failed header_only w1 c1
  | Entry.go flush w1 c1 => cycle enc env conf header_only fuel fuel flush w1 c1

/-- The function `ngx_http_brotli_body_filter` on the chain `chain`. -/
def ngx_http_brotli_body_filter (enc : BrotliEncoder E) (env : Env)
    (conf : ngx_http_brotli_conf_t) (fuel : Nat) (r : ngx_http_request_t E)
    (chain : List ngx_buf_t) : Outcome E :=
  match r.ctx with
  | none =>
      match ngx_http_next_body_filter env r.w [] chain with
      | (rc, w1) => Outcome.returned rc { r with w := w1 }
  | some c =>
      if c.done = true ∨ r.header_only = true then
        match ngx_http_next_body_filter env r.w c.busy chain with
        | (rc, w1) => Outcome.returned rc { r with w := w1 }
      else body_filter_session enc env conf fuel r.header_only r.w c chain

/-! ## Observations -/

/-- The bytes a list of chunks carries, in order. -/
def chunks_bytes : List ngx_buf_t → List Nat
  | [] => []
  | b :: l => b.bytes ++ chunks_bytes l

/-- The bytes of a chain of the module's buffers. -/
def chain_bytes (heap : List ngx_buf_t) (l : List Nat) : List Nat :=
  chunks_bytes (l.map (getBuf heap))

/-- All chunks handed to the next body filter, in hand-over order. -/
def sent_chunks : List (List ngx_buf_t) → List ngx_buf_t
  | [] => []
  | chain :: rest => chain ++ sent_chunks rest

/-- The concatenation of the byte ranges of all chunks handed to the next
body filter. -/
def sent_bytes (sent : List (List ngx_buf_t)) : List Nat :=
  chunks_bytes (sent_chunks sent)

/-- Drive the body filter with the chains `chains`, one invocation each,
until `ctx->done` is set.  `none` when an invocation runs out of its
iteration budget. -/
def drive (enc : BrotliEncoder E) (env : Env) (conf : ngx_http_brotli_conf_t) (fuel : Nat) :
    List (List ngx_buf_t) → ngx_http_request_t E → Option (ngx_http_request_t E)
  | [], r => some r
  | chain :: rest, r =>
      match r.ctx with
      | none => some r
      | some c =>
          if c.done = true then some r
          else
            match ngx_http_brotli_body_filter enc env conf fuel r chain with
            | Outcome.returned _ r1 => drive enc env conf fuel rest r1
            | Outcome.timeout _ => none

/-! ## Harnesses and test doubles -/

/-- A step of a driver exercising the buffer pool: a call of `get_buf`, a
reclaim that leaves `free` holding the given chain, or the encoder using the
output buffer up to `n` free bytes. -/
inductive PoolOp where
  | acquire
  | reclaim (free : List Nat)
  | fill (n : Nat)

/-- One step of the pool driver. -/
def pool_step (env : Env) (conf : ngx_http_brotli_conf_t)
    (s : World E × ngx_http_brotli_ctx_t E) : PoolOp → World E × ngx_http_brotli_ctx_t E
  | PoolOp.acquire => (ngx_http_brotli_filter_get_buf env conf s.1 s.2).2
  | PoolOp.reclaim free => (s.1, { s.2 with free := free })
  | PoolOp.fill n => (s.1, { s.2 with available_out := n })

/-- Run a sequence of pool driver steps. -/
def pool_run (env : Env) (conf : ngx_http_brotli_conf_t) :
    List PoolOp → World E × ngx_http_brotli_ctx_t E → World E × ngx_http_brotli_ctx_t E
  | [], s => s
  | op :: ops, s => pool_run env conf ops (pool_step env conf s op)

/-- An environment in which every allocation succeeds and the next body
filter sends everything at once and returns `NGX_OK`. -/
def env_ok : Env :=
  { alloc_ok := fun _ => true, next_rc := fun _ => NGX_OK, next_consume := fun _ _ => 1000 }

/-- State of the test encoder: bytes not yet written out, and whether the
stream has been closed by a FINISH operation. -/
structure ToyState where
  pending : List Nat
  closed : Bool
deriving DecidableEq, Repr

/-- A test encoder: it stores the input verbatim and closes the stream
with the trailer byte `3`; it takes all input at once and writes as much as
fits.  After the stream is closed it accepts only input-less FINISH calls. -/
def toy : BrotliEncoder ToyState :=
  { create := some { pending := [], closed := false },
    compressStream := fun e op input avail =>
      if e.closed = true ∧ (input ≠ [] ∨ op ≠ FINISH) then none
      else
        let queue := e.pending ++ input ++ (if op = FINISH ∧ e.closed = false then [3] else [])
        some ({ pending := queue.drop avail, closed := e.closed || decide (op = FINISH) },
              input.length, queue.take avail),
    isFinished := fun e => e.closed && decide (e.pending = []) }

/-- The decoder of the test encoder: drop the trailer. -/
def toy_decode (bytes : List Nat) : List Nat := bytes.dropLast

/-- An input chunk carrying `bytes`. -/
def chunk (bytes : List Nat) (flush last_buf : Bool) : ngx_buf_t :=
  { pos := 0, last := bytes.length, start := 0, mem := bytes, tag := false, flush := flush,
    last_buf := last_buf, recycled := false }

/-- A session of the test encoder that has just pulled the flush chunk
`[7, 8]` and holds the empty 4-byte output buffer 0. -/
def flush_ctx : ngx_http_brotli_ctx_t ToyState :=
  { fresh_ctx ToyState with
    bro := some { pending := [], closed := false }, out_buf := some 0, bufs := 1,
    available_out := 4, flush := FLUSH, in_buf := some (chunk [7, 8] true false),
    next_in := some 0, available_in := 2 }

/-- The world that goes with `flush_ctx`. -/
def flush_world : World ToyState :=
  { fresh_world ToyState with
    heap := [{ zero_buf with mem := [0, 0, 0, 0], tag := true, recycled := true }],
    nalloc := 1, created := 1 }

/-- A request whose session the header filter has just created. -/
def fresh_request (E : Type) : ngx_http_request_t E :=
  { ctx := some (fresh_ctx E), header_only := false, w := fresh_world E }

/-- An environment whose first allocation is refused. -/
def env_noalloc : Env :=
  { alloc_ok := fun k => decide (k ≠ 0), next_rc := fun _ => NGX_OK,
    next_consume := fun _ _ => 1000 }

/-- An environment whose next body filter accepts every chain but sends
nothing, so that every buffer handed over stays busy. -/
def env_stall : Env :=
  { alloc_ok := fun _ => true, next_rc := fun _ => NGX_AGAIN, next_consume := fun _ _ => 0 }

/-- An invocation that fails: the link for the input chunk cannot be
allocated. -/
def failing_run : Outcome ToyState :=
  ngx_http_brotli_body_filter toy env_noalloc { bufs_num := 2, bufs_size := 4 } 8
    (fresh_request ToyState) [chunk [1, 2] false true]

/-- An invocation under backpressure: one 1-byte buffer, three bytes of
input, a next filter that sends nothing. -/
def backpressure_run : Outcome ToyState :=
  ngx_http_brotli_body_filter toy env_stall { bufs_num := 1, bufs_size := 1 } 8
    (fresh_request ToyState) [chunk [1, 2, 3] false false]

/-- A body in two invocations, with a flush chunk, a zero-length chunk and a
final chunk, through 2-byte output buffers. -/
def two_call_run : Option (ngx_http_request_t ToyState) :=
  drive toy env_ok { bufs_num := 2, bufs_size := 2 } 16
    [[chunk [1, 2, 3] true false, chunk [] false false], [chunk [4, 5] false true]]
    (fresh_request ToyState)

/-! ## The buffer pool (C2, C3) -/

theorem get_buf_bufs_le (env : Env) (conf : ngx_http_brotli_conf_t) (w : World E)
    (c : ngx_http_brotli_ctx_t E) (h : c.bufs ≤ conf.bufs_num) :
    (ngx_http_brotli_filter_get_buf env conf w c).2.2.bufs ≤ conf.bufs_num := by
  unfold ngx_http_brotli_filter_get_buf ngx_create_temp_buf ngx_alloc
  by_cases h1 : c.available_out = 0
  · cases hf : c.free with
    | cons i rest => simpa [h1, hf] using h
    | nil =>
        by_cases h2 : c.bufs < conf.bufs_num
        · by_cases h3 : env.alloc_ok w.nalloc = true
          · simp [h1, hf, h2, h3]
            omega
          · simpa [h1, hf, h2, h3] using h
        · simpa [h1, hf, h2] using h
  · simpa [h1] using h

theorem pool_run_bufs_le (env : Env) (conf : ngx_http_brotli_conf_t) (ops : List PoolOp) :
    ∀ s : World E × ngx_http_brotli_ctx_t E, s.2.bufs ≤ conf.bufs_num →
      (pool_run env conf ops s).2.bufs ≤ conf.bufs_num := by
  induction ops with
  | nil => intro s h; exact h
  | cons op ops ih =>
      intro s h
      apply ih
      cases op with
      | acquire => exact get_buf_bufs_le env conf s.1 s.2 h
      | reclaim free => exact h
      | fill n => exact h

/-- C2: from a session with `ctx->bufs = 0` and a capacity `conf->bufs.num >= 0`,
after any sequence of `get_buf` calls interleaved with arbitrary reclaims into
`ctx->free` (and arbitrary use of the output buffer), under any allocator
script, `ctx->bufs <= conf->bufs.num`. -/
theorem C2_bufs_never_exceed_capacity (env : Env) (conf : ngx_http_brotli_conf_t)
    (ops : List PoolOp) (w : World E) (c : ngx_http_brotli_ctx_t E)
    (hfresh : c.bufs = 0) (hcap : 0 ≤ conf.bufs_num) :
    (pool_run env conf ops (w, c)).2.bufs ≤ conf.bufs_num :=
  pool_run_bufs_le env conf ops (w, c) (by simp [hfresh, hcap])

theorem C2_bufs_never_exceed_capacity_witness :
    (pool_run env_ok { bufs_num := 2, bufs_size := 4 }
        [PoolOp.acquire, PoolOp.fill 0, PoolOp.acquire, PoolOp.fill 0, PoolOp.acquire,
         PoolOp.reclaim [0], PoolOp.acquire]
        (fresh_world Unit, fresh_ctx Unit)).2.bufs ≤ 2 :=
  C2_bufs_never_exceed_capacity env_ok { bufs_num := 2, bufs_size := 4 } _ _ _ rfl (by decide)

/-- C3: the acquire contract of `ngx_http_brotli_filter_get_buf`.  With output
space left it returns `NGX_OK` and changes nothing.  Otherwise a non-empty
`ctx->free` gives up its head buffer, `ctx->bufs` unchanged.  Otherwise, below
capacity, a buffer the allocator grants is appended to the heap, tagged, and
`ctx->bufs` grows by one.  Otherwise `ctx->nomem` is set and `NGX_DECLINED`
returned with nothing else changed.  Both acquiring cases return `NGX_OK` with
`available_out = conf->bufs.size` and `next_out = out_buf->pos`. -/
theorem C3_get_buf_contract (env : Env) (conf : ngx_http_brotli_conf_t) (w : World E)
    (c : ngx_http_brotli_ctx_t E) :
    (c.available_out ≠ 0 →
        ngx_http_brotli_filter_get_buf env conf w c = (NGX_OK, w, c)) ∧
    (∀ i rest, c.available_out = 0 → c.free = i :: rest →
        ngx_http_brotli_filter_get_buf env conf w c =
          (NGX_OK, w, { c with out_buf := some i, free := rest,
                               next_out := (getBuf w.heap i).pos,
                               available_out := conf.bufs_size })) ∧
    (c.available_out = 0 → c.free = [] → c.bufs < conf.bufs_num →
        env.alloc_ok w.nalloc = true →
        ∃ w1, ngx_http_brotli_filter_get_buf env conf w c =
          (NGX_OK, w1, { c with out_buf := some w.heap.length, bufs := c.bufs + 1,
                                next_out := (getBuf w1.heap w.heap.length).pos,
                                available_out := conf.bufs_size }) ∧
          w1.heap = w.heap ++ [{ zero_buf with mem := List.replicate conf.bufs_size 0,
                                               tag := true, recycled := true }] ∧
          w1.failures = w.failures) ∧
    (c.available_out = 0 → c.free = [] → ¬ c.bufs < conf.bufs_num →
        ngx_http_brotli_filter_get_buf env conf w c =
          (NGX_DECLINED, w, { c with nomem := true })) := by
  refine ⟨?_, ?_, ?_, ?_⟩
  · intro h
    simp [ngx_http_brotli_filter_get_buf, h]
  · intro i rest h hf
    simp [ngx_http_brotli_filter_get_buf, h, hf]
  · intro h hf hlt ha
    refine ⟨{ w with nalloc := w.nalloc + 1,
                     heap := w.heap ++ [{ zero_buf with mem := List.replicate conf.bufs_size 0,
                                                        tag := true, recycled := true }] },
            ?_, rfl, rfl⟩
    simp [ngx_http_brotli_filter_get_buf, h, hf, hlt, ngx_create_temp_buf, ngx_alloc, ha,
      updBuf, getBuf]
  · intro h hf hlt
    simp [ngx_http_brotli_filter_get_buf, h, hf, hlt]

theorem C3_get_buf_contract_witness :
    ngx_http_brotli_filter_get_buf env_ok { bufs_num := 2, bufs_size := 4 } (fresh_world Unit)
        { fresh_ctx Unit with available_out := 3 }
      = (NGX_OK, fresh_world Unit, { fresh_ctx Unit with available_out := 3 }) ∧
    ngx_http_brotli_filter_get_buf env_ok { bufs_num := 2, bufs_size := 4 }
        { fresh_world Unit with heap := [zero_buf] } { fresh_ctx Unit with free := [0], bufs := 1 }
      = (NGX_OK, { fresh_world Unit with heap := [zero_buf] },
          { fresh_ctx Unit with out_buf := some 0, bufs := 1, available_out := 4 }) ∧
    (∃ w1, ngx_http_brotli_filter_get_buf env_ok { bufs_num := 2, bufs_size := 4 }
        (fresh_world Unit) (fresh_ctx Unit)
      = (NGX_OK, w1, { fresh_ctx Unit with out_buf := some 0, bufs := 1,
                                            next_out := (getBuf w1.heap 0).pos,
                                            available_out := 4 }) ∧
      w1.heap = [{ zero_buf with mem := [0, 0, 0, 0], tag := true, recycled := true }] ∧
      w1.failures = []) ∧
    ngx_http_brotli_filter_get_buf env_ok { bufs_num := 0, bufs_size := 4 } (fresh_world Unit)
        (fresh_ctx Unit)
      = (NGX_DECLINED, fresh_world Unit, { fresh_ctx Unit with nomem := true }) :=
  ⟨(C3_get_buf_contract env_ok { bufs_num := 2, bufs_size := 4 } (fresh_world Unit)
      { fresh_ctx Unit with available_out := 3 }).1 (by decide),
   (C3_get_buf_contract env_ok { bufs_num := 2, bufs_size := 4 }
      { fresh_world Unit with heap := [zero_buf] }
      { fresh_ctx Unit with free := [0], bufs := 1 }).2.1 0 [] rfl rfl,
   (C3_get_buf_contract env_ok { bufs_num := 2, bufs_size := 4 } (fresh_world Unit)
      (fresh_ctx Unit)).2.2.1 rfl rfl (by decide) rfl,
   (C3_get_buf_contract env_ok { bufs_num := 0, bufs_size := 4 } (fresh_world Unit)
      (fresh_ctx Unit)).2.2.2 rfl rfl (by decide)⟩

/-! ## Pass-through after the end (C5) -/

/-- C5: with `ctx->done` set, the body filter returns what the next body
filter returns for the chain `chain`, handed over unchanged; the session is
left as it was, the encoder is not called, nothing is allocated and no
encoder is created or destroyed. -/
theorem C5_inert_after_done (enc : BrotliEncoder E) (env : Env)
    (conf : ngx_http_brotli_conf_t) (fuel : Nat) (r : ngx_http_request_t E)
    (c : ngx_http_brotli_ctx_t E) (chain : List ngx_buf_t)
    (hctx : r.ctx = some c) (hdone : c.done = true) :
    ∃ w1, ngx_http_brotli_body_filter enc env conf fuel r chain
        = Outcome.returned (env.next_rc r.w.nnext) { r with w := w1 } ∧
      w1.sent = r.w.sent ++ [chain] ∧ w1.steps = r.w.steps ∧ w1.fed = r.w.fed ∧
      w1.produced = r.w.produced ∧ w1.nalloc = r.w.nalloc ∧ w1.created = r.w.created ∧
      w1.destroyed = r.w.destroyed ∧ w1.freed = r.w.freed := by
  refine ⟨(ngx_http_next_body_filter env r.w c.busy chain).2, ?_, ?_⟩
  · simp [ngx_http_brotli_body_filter, hctx, hdone, ngx_http_next_body_filter]
  · unfold ngx_http_next_body_filter World.fail
    by_cases h : env.next_rc r.w.nnext = NGX_ERROR <;> simp [h]

theorem C5_inert_after_done_witness :
    ∃ w1, ngx_http_brotli_body_filter toy env_ok { bufs_num := 2, bufs_size := 4 } 0
          { ctx := some { fresh_ctx ToyState with done := true }, header_only := false,
            w := fresh_world ToyState } [chunk [1, 2] false false]
        = Outcome.returned (env_ok.next_rc 0)
            { ctx := some { fresh_ctx ToyState with done := true }, header_only := false,
              w := w1 } ∧
      w1.sent = [] ++ [[chunk [1, 2] false false]] ∧ w1.steps = 0 ∧ w1.fed = [] ∧
      w1.produced = [] ∧ w1.nalloc = 0 ∧ w1.created = 0 ∧
      w1.destroyed = [] ∧ w1.freed = [] :=
  C5_inert_after_done toy env_ok { bufs_num := 2, bufs_size := 4 } 0
    { ctx := some { fresh_ctx ToyState with done := true }, header_only := false,
      w := fresh_world ToyState } { fresh_ctx ToyState with done := true }
    [chunk [1, 2] false false] rfl rfl

/-! ## Flush boundaries (C6) -/

theorem getBuf_updBuf_self (heap : List ngx_buf_t) (i : Nat) (f : ngx_buf_t → ngx_buf_t)
    (h : i < heap.length) : getBuf (updBuf heap i f) i = f (getBuf heap i) := by
  simp [getBuf, updBuf, List.getD, List.getElem?_set, h]

theorem getBuf_updBuf_ne (heap : List ngx_buf_t) (i j : Nat) (f : ngx_buf_t → ngx_buf_t)
    (h : i ≠ j) : getBuf (updBuf heap i f) j = getBuf heap j := by
  simp [getBuf, updBuf, List.getD, List.getElem?_set, h]

theorem length_updBuf (heap : List ngx_buf_t) (i : Nat) (f : ngx_buf_t → ngx_buf_t) :
    (updBuf heap i f).length = heap.length := by
  simp [updBuf]

theorem getBuf_append_left (heap l : List ngx_buf_t) (i : Nat) (h : i < heap.length) :
    getBuf (heap ++ l) i = getBuf heap i := by
  simp [getBuf, List.getD, List.getElem?_append_left h]

theorem getBuf_append_new (heap : List ngx_buf_t) (b : ngx_buf_t) :
    getBuf (heap ++ [b]) heap.length = b := by
  simp [getBuf, List.getD]

theorem getBuf_updBuf (heap : List ngx_buf_t) (i j : Nat) (f : ngx_buf_t → ngx_buf_t) :
    getBuf (updBuf heap i f) j
      = if i = j ∧ i < heap.length then f (getBuf heap i) else getBuf heap j := by
  by_cases h : i = j
  · subst h
    by_cases h2 : i < heap.length
    · simp [h2, getBuf_updBuf_self]
    · have h3 : heap.length ≤ i := by omega
      simp [h2, getBuf, updBuf, List.getD, List.getElem?_set, List.getElem?_eq_none h3]
  · simp [h, getBuf_updBuf_ne]

/-! ## Proof rules for the loops of the body filter -/

/-- Proof rule for the inner loop: `I` holds at the loop head, `J` before
`compress`, `B` at a `break`, `F` at a jump to `failed`. -/
theorem feed_rule (enc : BrotliEncoder E) (env : Env) (conf : ngx_http_brotli_conf_t)
    (I J B F : World E → ngx_http_brotli_ctx_t E → Prop)
    (hadd : ∀ w c rc c1, I w c → ngx_http_brotli_filter_add_data c = (rc, c1) →
        (rc = NGX_DECLINED → B w c1) ∧ (rc ≠ NGX_DECLINED → I w c1))
    (hget : ∀ w c rc w1 c1, I w c → ngx_http_brotli_filter_get_buf env conf w c = (rc, w1, c1) →
        (rc = NGX_DECLINED → B w1 c1) ∧ (rc = NGX_ERROR → F w1 c1) ∧
        (rc ≠ NGX_DECLINED → rc ≠ NGX_ERROR → J w1 c1))
    (hcmp : ∀ w c rc w1 c1, J w c → ngx_http_brotli_filter_compress enc env w c = (rc, w1, c1) →
        (rc = NGX_ERROR → F w1 c1) ∧ (rc = NGX_OK → B w1 c1) ∧
        (rc ≠ NGX_ERROR → rc ≠ NGX_OK → I w1 c1)) :
    ∀ (fuel : Nat) (w : World E) (c : ngx_http_brotli_ctx_t E), I w c →
      match feed enc env conf fuel w c with
      | Flow.brk w1 c1 => B w1 c1
      | Flow.failed w1 c1 => F w1 c1
      | Flow.timeout w1 c1 => I w1 c1 := by
  intro fuel
  induction fuel with
  | zero => intro w c h; exact h
  | succ n ih =>
      intro w c h
      unfold feed
      rcases hA : ngx_http_brotli_filter_add_data c with ⟨rc, c1⟩
      have h1 := hadd w c rc c1 h hA
      simp only []
      by_cases hd : rc = NGX_DECLINED
      · simp only [hd, if_true]; exact h1.1 hd
      · simp only [hd, if_false]
        by_cases ha : rc = NGX_AGAIN
        · simp only [ha, if_true]; exact ih w c1 (h1.2 hd)
        · simp only [ha, if_false]
          rcases hG : ngx_http_brotli_filter_get_buf env conf w c1 with ⟨rc2, w2, c2⟩
          have h2 := hget w c1 rc2 w2 c2 (h1.2 hd) hG
          simp only []
          by_cases hd2 : rc2 = NGX_DECLINED
          · simp only [hd2, if_true]; exact h2.1 hd2
          · simp only [hd2, if_false]
            by_cases he2 : rc2 = NGX_ERROR
            · simp only [he2, if_true]; exact h2.2.1 he2
            · simp only [he2, if_false]
              rcases hC : ngx_http_brotli_filter_compress enc env w2 c2 with ⟨rc3, w3, c3⟩
              have h3 := hcmp w2 c2 rc3 w3 c3 (h2.2.2 hd2 he2) hC
              simp only []
              by_cases ho3 : rc3 = NGX_OK
              · simp only [ho3, if_true]; exact h3.2.1 ho3
              · simp only [ho3, if_false]
                by_cases he3 : rc3 = NGX_ERROR
                · simp only [he3, if_true]; exact h3.1 he3
                · simp only [he3, if_false]; exact ih w3 c3 (h3.2.2 he3 ho3)

/-- Proof rule for the outer loop: `I` at the loop heads, `B` after the inner
loop, `F` at a jump to `failed`, `Q` for the outcome. -/
theorem cycle_rule (enc : BrotliEncoder E) (env : Env) (conf : ngx_http_brotli_conf_t)
    (ho : Bool) (I J B F : World E → ngx_http_brotli_ctx_t E → Prop) (Q : Outcome E → Prop)
    (hadd : ∀ w c rc c1, I w c → ngx_http_brotli_filter_add_data c = (rc, c1) →
        (rc = NGX_DECLINED → B w c1) ∧ (rc ≠ NGX_DECLINED → I w c1))
    (hget : ∀ w c rc w1 c1, I w c → ngx_http_brotli_filter_get_buf env conf w c = (rc, w1, c1) →
        (rc = NGX_DECLINED → B w1 c1) ∧ (rc = NGX_ERROR → F w1 c1) ∧
        (rc ≠ NGX_DECLINED → rc ≠ NGX_ERROR → J w1 c1))
    (hcmp : ∀ w c rc w1 c1, J w c → ngx_http_brotli_filter_compress enc env w c = (rc, w1, c1) →
        (rc = NGX_ERROR → F w1 c1) ∧ (rc = NGX_OK → B w1 c1) ∧
        (rc ≠ NGX_ERROR → rc ≠ NGX_OK → I w1 c1))
    (hfail : ∀ w c, F w c → Q (body_filter_failed ho w c))
    (htime : ∀ w c, I w c → Q (Outcome.timeout { ctx := some c, header_only := ho, w := w }))
    (hidle : ∀ w c, B w c → c.out = [] → Q (idle_return ho w c))
    (hnext : ∀ w c rc w2, B w c →
        ngx_http_next_body_filter env w (c.busy ++ c.out) (c.out.map (getBuf w.heap)) = (rc, w2) →
        (rc = NGX_ERROR → F w2 c) ∧
        (rc ≠ NGX_ERROR →
          ((after_next w2 c).2.done = true →
              Q (Outcome.returned rc { ctx := some (after_next w2 c).2, header_only := ho,
                                       w := (after_next w2 c).1 })) ∧
          ((after_next w2 c).2.done ≠ true → I (after_next w2 c).1 (after_next w2 c).2))) :
    ∀ (k fuel : Nat) (flush : Bool) (w : World E) (c : ngx_http_brotli_ctx_t E), I w c →
      Q (cycle enc env conf ho k fuel flush w c) := by
  intro k fuel
  induction fuel with
  | zero => intro flush w c h; exact htime w c h
  | succ n ih =>
      intro flush w c h
      unfold cycle
      have hf := feed_rule enc env conf I J B F hadd hget hcmp k w c h
      rcases hF : feed enc env conf k w c with ⟨w1, c1⟩ | ⟨w1, c1⟩ | ⟨w1, c1⟩
      · rw [hF] at hf
        simp only []
        by_cases h1 : c1.out = [] ∧ flush = false
        · simp only [h1, and_self, if_true]
          exact hidle w1 c1 hf h1.1
        · simp only [h1, if_false]
          rcases hN : ngx_http_next_body_filter env w1 (c1.busy ++ c1.out)
              (c1.out.map (getBuf w1.heap)) with ⟨rc, w2⟩
          have hn := hnext w1 c1 rc w2 hf hN
          simp only []
          by_cases he : rc = NGX_ERROR
          · simp only [he, if_true]; exact hfail _ _ (hn.1 he)
          · simp only [he, if_false]
            rcases hA : after_next w2 c1 with ⟨w4, c4⟩
            have hn2 := hn.2 he
            rw [hA] at hn2
            simp only []
            by_cases hd : c4.done = true
            · simp only [hd, if_true]; exact hn2.1 hd
            · simp only [hd, if_false]; exact ih false w4 c4 (hn2.2 hd)
      · rw [hF] at hf
        exact hfail w1 c1 hf
      · rw [hF] at hf
        exact htime w1 c1 hf

/-! ## Facts about the environment operations -/

theorem ngx_alloc_true (env : Env) (w w1 : World E) (h : ngx_alloc env w = (true, w1)) :
    w1 = { w with nalloc := w.nalloc + 1 } ∧ env.alloc_ok w.nalloc = true := by
  unfold ngx_alloc at h
  by_cases ha : env.alloc_ok w.nalloc = true
  · simp [ha] at h; exact ⟨h.symm, ha⟩
  · simp [ha] at h

theorem ngx_alloc_false (env : Env) (w w1 : World E) (h : ngx_alloc env w = (false, w1)) :
    w1 = { w with nalloc := w.nalloc + 1, failures := w.failures ++ [Failure.alloc] } ∧
      env.alloc_ok w.nalloc = false := by
  unfold ngx_alloc at h
  by_cases ha : env.alloc_ok w.nalloc = true
  · simp [ha] at h
  · simp [ha] at h; exact ⟨h.symm, by simpa using ha⟩

theorem next_body_filter_eq (env : Env) (w : World E) (held : List Nat)
    (chain : List ngx_buf_t) (rc : Int) (w2 : World E)
    (h : ngx_http_next_body_filter env w held chain = (rc, w2)) :
    rc = env.next_rc w.nnext ∧
    w2 = { w with sent := w.sent ++ [chain],
                  heap := consume (env.next_consume w.nnext) held w.heap,
                  nnext := w.nnext + 1,
                  failures := if rc = NGX_ERROR then w.failures ++ [Failure.next_filter]
                              else w.failures } := by
  unfold ngx_http_next_body_filter at h
  simp only [Prod.mk.injEq] at h
  obtain ⟨h1, h2⟩ := h
  subst h1
  refine ⟨rfl, ?_⟩
  rw [← h2]
  by_cases he : env.next_rc w.nnext = NGX_ERROR
  · simp [he, World.fail]
  · simp [he]

theorem add_copy_spec (env : Env) (chain : List ngx_buf_t) :
    ∀ (w : World E) (dst : List ngx_buf_t) (rc : Int) (w1 : World E) (l : List ngx_buf_t),
      ngx_chain_add_copy env w dst chain = (rc, w1, l) →
      w1.heap = w.heap ∧ w1.destroyed = w.destroyed ∧ w1.sent = w.sent ∧ w1.freed = w.freed ∧
      w1.fed = w.fed ∧ w1.produced = w.produced ∧ w1.steps = w.steps ∧
      w1.created = w.created ∧ w1.nnext = w.nnext ∧ w1.buffered = w.buffered ∧
      ((rc = NGX_OK ∧ w1.failures = w.failures ∧ l = dst ++ chain) ∨
       (rc = NGX_ERROR ∧ w1.failures = w.failures ++ [Failure.alloc])) := by
  induction chain with
  | nil =>
      intro w dst rc w1 l h
      simp [ngx_chain_add_copy] at h
      obtain ⟨rfl, rfl, rfl⟩ := h
      simp
  | cons b rest ih =>
      intro w dst rc w1 l h
      unfold ngx_chain_add_copy at h
      rcases hA : ngx_alloc env w with ⟨ok, w2⟩
      rw [hA] at h
      cases ok with
      | true =>
          simp only [] at h
          have h2 := ih w2 (dst ++ [b]) rc w1 l h
          obtain ⟨rfl, _⟩ := ngx_alloc_true env w w2 hA
          simpa using h2
      | false =>
          simp only [Prod.mk.injEq] at h
          obtain ⟨rfl, rfl, rfl⟩ := h
          obtain ⟨rfl, _⟩ := ngx_alloc_false env w w2 hA
          simp

/-! ## The cases of `compress` -/

/-- The encoder call of `compress` on session `c` succeeded: encoder `e`,
output buffer `ob`, new encoder state `e1`, `used` bytes consumed, `outb`
written. -/
def Stepped (enc : BrotliEncoder E) (c : ngx_http_brotli_ctx_t E) (e : E) (ob : Nat) (e1 : E)
    (used : Nat) (outb : List Nat) : Prop :=
  c.bro = some e ∧ c.out_buf = some ob ∧
    enc.compressStream e c.flush (input_window c) c.available_out = some (e1, used, outb)

/-- The ways through `ngx_http_brotli_filter_compress`, with the result of
each. -/
inductive CompressCase (enc : BrotliEncoder E) (env : Env) (w : World E)
    (c : ngx_http_brotli_ctx_t E) : Int → World E → ngx_http_brotli_ctx_t E → Prop where
  | null (h : c.bro = none ∨ c.out_buf = none) :
      CompressCase enc env w c NGX_ERROR (w.fail Failure.null_deref) c
  | step_failed (e : E) (ob : Nat) (hb : c.bro = some e) (ho : c.out_buf = some ob)
      (hs : enc.compressStream e c.flush (input_window c) c.available_out = none) :
      CompressCase enc env w c NGX_ERROR
        ({ w with steps := w.steps + 1 }.fail Failure.encoder_step) c
  | full_nolink (e : E) (ob : Nat) (e1 : E) (used : Nat) (outb : List Nat)
      (hs : Stepped enc c e ob e1 used outb)
      (h0 : (encoder_call_ctx c e1 used outb).available_out = 0)
      (ha : env.alloc_ok w.nalloc = false) :
      CompressCase enc env w c NGX_ERROR
        { encoder_call_world w c ob used outb with
          nalloc := w.nalloc + 1, failures := w.failures ++ [Failure.alloc] }
        (encoder_call_ctx c e1 used outb)
  | full (e : E) (ob : Nat) (e1 : E) (used : Nat) (outb : List Nat)
      (hs : Stepped enc c e ob e1 used outb)
      (h0 : (encoder_call_ctx c e1 used outb).available_out = 0)
      (ha : env.alloc_ok w.nalloc = true) :
      CompressCase enc env w c NGX_AGAIN
        { encoder_call_world w c ob used outb with nalloc := w.nalloc + 1 }
        { link_out (encoder_call_ctx c e1 used outb) ob with redo := true }
  | flush_nolink (e : E) (ob : Nat) (e1 : E) (used : Nat) (outb : List Nat)
      (hs : Stepped enc c e ob e1 used outb)
      (h0 : (encoder_call_ctx c e1 used outb).available_out ≠ 0)
      (hf : c.flush = FLUSH) (ha : env.alloc_ok w.nalloc = false) :
      CompressCase enc env w c NGX_ERROR
        { encoder_call_world w c ob used outb with
          nalloc := w.nalloc + 1, failures := w.failures ++ [Failure.alloc] }
        { encoder_call_ctx c e1 used outb with redo := false, flush := PROCESS }
  | flush_nomarker (e : E) (ob : Nat) (e1 : E) (used : Nat) (outb : List Nat)
      (hs : Stepped enc c e ob e1 used outb)
      (h0 : (encoder_call_ctx c e1 used outb).available_out ≠ 0)
      (hf : c.flush = FLUSH) (ha : env.alloc_ok w.nalloc = true)
      (hz : ngx_buf_size (getBuf (encoder_call_world w c ob used outb).heap ob) = 0)
      (ha2 : env.alloc_ok (w.nalloc + 1) = false) :
      CompressCase enc env w c NGX_ERROR
        { encoder_call_world w c ob used outb with
          nalloc := w.nalloc + 2, failures := w.failures ++ [Failure.alloc] }
        { encoder_call_ctx c e1 used outb with redo := false, flush := PROCESS }
  | flush_marker (e : E) (ob : Nat) (e1 : E) (used : Nat) (outb : List Nat)
      (hs : Stepped enc c e ob e1 used outb)
      (h0 : (encoder_call_ctx c e1 used outb).available_out ≠ 0)
      (hf : c.flush = FLUSH) (ha : env.alloc_ok w.nalloc = true)
      (hz : ngx_buf_size (getBuf (encoder_call_world w c ob used outb).heap ob) = 0)
      (ha2 : env.alloc_ok (w.nalloc + 1) = true) :
      CompressCase enc env w c NGX_OK
        { encoder_call_world w c ob used outb with
          nalloc := w.nalloc + 2, buffered := false,
          heap := (encoder_call_world w c ob used outb).heap ++ [{ zero_buf with flush := true }] }
        (link_out { encoder_call_ctx c e1 used outb with redo := false, flush := PROCESS }
          (encoder_call_world w c ob used outb).heap.length)
  | flush_buf (e : E) (ob : Nat) (e1 : E) (used : Nat) (outb : List Nat)
      (hs : Stepped enc c e ob e1 used outb)
      (h0 : (encoder_call_ctx c e1 used outb).available_out ≠ 0)
      (hf : c.flush = FLUSH) (ha : env.alloc_ok w.nalloc = true)
      (hz : ngx_buf_size (getBuf (encoder_call_world w c ob used outb).heap ob) ≠ 0) :
      CompressCase enc env w c NGX_OK
        { encoder_call_world w c ob used outb with
          nalloc := w.nalloc + 1, buffered := false,
          heap := updBuf (encoder_call_world w c ob used outb).heap ob
                    (fun b => { b with flush := true }) }
        (link_out { encoder_call_ctx c e1 used outb with
                    redo := false, flush := PROCESS, available_out := 0 } ob)
  | end_nolink (e : E) (ob : Nat) (e1 : E) (used : Nat) (outb : List Nat)
      (hs : Stepped enc c e ob e1 used outb)
      (h0 : (encoder_call_ctx c e1 used outb).available_out ≠ 0)
      (hf : c.flush ≠ FLUSH) (hfin : enc.isFinished e1 = true)
      (ha : env.alloc_ok w.nalloc = false) :
      CompressCase enc env w c NGX_ERROR
        { encoder_call_world w c ob used outb with
          destroyed := w.destroyed ++ [e1], nalloc := w.nalloc + 1,
          failures := w.failures ++ [Failure.alloc] }
        { encoder_call_ctx c e1 used outb with redo := false, bro := none }
  | ended (e : E) (ob : Nat) (e1 : E) (used : Nat) (outb : List Nat)
      (hs : Stepped enc c e ob e1 used outb)
      (h0 : (encoder_call_ctx c e1 used outb).available_out ≠ 0)
      (hf : c.flush ≠ FLUSH) (hfin : enc.isFinished e1 = true)
      (ha : env.alloc_ok w.nalloc = true) :
      CompressCase enc env w c NGX_OK
        { encoder_call_world w c ob used outb with
          destroyed := w.destroyed ++ [e1], nalloc := w.nalloc + 1, buffered := false,
          heap := updBuf (encoder_call_world w c ob used outb).heap ob
                    (fun b => { b with last_buf := true }) }
        { link_out { encoder_call_ctx c e1 used outb with redo := false, bro := none } ob with
          done := true }
  | more (e : E) (ob : Nat) (e1 : E) (used : Nat) (outb : List Nat)
      (hs : Stepped enc c e ob e1 used outb)
      (h0 : (encoder_call_ctx c e1 used outb).available_out ≠ 0)
      (hf : c.flush ≠ FLUSH) (hfin : enc.isFinished e1 ≠ true) :
      CompressCase enc env w c NGX_AGAIN (encoder_call_world w c ob used outb)
        { encoder_call_ctx c e1 used outb with redo := false }

theorem updBuf_append_new (heap : List ngx_buf_t) (b : ngx_buf_t) (f : ngx_buf_t → ngx_buf_t) :
    updBuf (heap ++ [b]) heap.length f = heap ++ [f b] := by
  simp [updBuf, getBuf_append_new]

theorem compress_cases (enc : BrotliEncoder E) (env : Env) (w : World E)
    (c : ngx_http_brotli_ctx_t E) (rc : Int) (w1 : World E) (c1 : ngx_http_brotli_ctx_t E)
    (h : ngx_http_brotli_filter_compress enc env w c = (rc, w1, c1)) :
    CompressCase enc env w c rc w1 c1 := by
  unfold ngx_http_brotli_filter_compress at h
  cases hb : c.bro with
  | none =>
      simp only [hb, Prod.mk.injEq] at h
      obtain ⟨rfl, rfl, rfl⟩ := h
      exact CompressCase.null (Or.inl hb)
  | some e =>
    cases ho : c.out_buf with
    | none =>
        simp only [hb, ho, Prod.mk.injEq] at h
        obtain ⟨rfl, rfl, rfl⟩ := h
        exact CompressCase.null (Or.inr ho)
    | some ob =>
      simp only [hb, ho] at h
      cases hs : enc.compressStream e c.flush (input_window c) c.available_out with
      | none =>
          simp only [hs, Prod.mk.injEq] at h
          obtain ⟨rfl, rfl, rfl⟩ := h
          exact CompressCase.step_failed e ob hb ho hs
      | some r =>
        obtain ⟨e1, used, outb⟩ := r
        have hS : Stepped enc c e ob e1 used outb := ⟨hb, ho, hs⟩
        simp only [hs] at h
        by_cases h0 : (encoder_call_ctx c e1 used outb).available_out = 0
        · rw [if_pos h0] at h
          by_cases ha : env.alloc_ok w.nalloc = true
          · have hA : ngx_alloc env (encoder_call_world w c ob used outb)
                = (true, { encoder_call_world w c ob used outb with nalloc := w.nalloc + 1 }) := by
              simp [ngx_alloc, encoder_call_world, ha]
            rw [hA] at h
            simp only [Prod.mk.injEq] at h
            obtain ⟨rfl, rfl, rfl⟩ := h
            exact CompressCase.full e ob e1 used outb hS h0 ha
          · have ha' : env.alloc_ok w.nalloc = false := by simpa using ha
            have hA : ngx_alloc env (encoder_call_world w c ob used outb)
                = (false, { encoder_call_world w c ob used outb with
                            nalloc := w.nalloc + 1,
                            failures := w.failures ++ [Failure.alloc] }) := by
              simp [ngx_alloc, encoder_call_world, ha']
            rw [hA] at h
            simp only [Prod.mk.injEq] at h
            obtain ⟨rfl, rfl, rfl⟩ := h
            exact CompressCase.full_nolink e ob e1 used outb hS h0 ha'
        · rw [if_neg h0] at h
          by_cases hf : c.flush = FLUSH
          · have hf' : (encoder_call_ctx c e1 used outb).flush = FLUSH := hf
            simp only [hf', if_true] at h
            by_cases ha : env.alloc_ok w.nalloc = true
            · have hA : ngx_alloc env (encoder_call_world w c ob used outb)
                  = (true, { encoder_call_world w c ob used outb with nalloc := w.nalloc + 1 }) := by
                simp [ngx_alloc, encoder_call_world, ha]
              rw [hA] at h
              simp only [] at h
              by_cases hz : ngx_buf_size (getBuf (encoder_call_world w c ob used outb).heap ob) = 0
              · rw [if_pos hz] at h
                by_cases ha2 : env.alloc_ok (w.nalloc + 1) = true
                · have hB : ngx_calloc_buf env
                      { encoder_call_world w c ob used outb with nalloc := w.nalloc + 1 }
                      = (some (encoder_call_world w c ob used outb).heap.length,
                         { encoder_call_world w c ob used outb with
                           nalloc := w.nalloc + 2,
                           heap := (encoder_call_world w c ob used outb).heap ++ [zero_buf] }) := by
                    simp [ngx_calloc_buf, ngx_alloc, ha2]
                  rw [hB] at h
                  simp only [Prod.mk.injEq, updBuf_append_new] at h
                  obtain ⟨rfl, rfl, rfl⟩ := h
                  exact CompressCase.flush_marker e ob e1 used outb hS h0 hf ha hz ha2
                · have ha2' : env.alloc_ok (w.nalloc + 1) = false := by simpa using ha2
                  have hB : ngx_calloc_buf env
                      { encoder_call_world w c ob used outb with nalloc := w.nalloc + 1 }
                      = (none,
                         { encoder_call_world w c ob used outb with
                           nalloc := w.nalloc + 2,
                           failures := w.failures ++ [Failure.alloc] }) := by
                    simp [ngx_calloc_buf, ngx_alloc, ha2', encoder_call_world]
                  rw [hB] at h
                  simp only [Prod.mk.injEq] at h
                  obtain ⟨rfl, rfl, rfl⟩ := h
                  exact CompressCase.flush_nomarker e ob e1 used outb hS h0 hf ha hz ha2'
              · rw [if_neg hz] at h
                simp only [Prod.mk.injEq] at h
                obtain ⟨rfl, rfl, rfl⟩ := h
                exact CompressCase.flush_buf e ob e1 used outb hS h0 hf ha hz
            · have ha' : env.alloc_ok w.nalloc = false := by simpa using ha
              have hA : ngx_alloc env (encoder_call_world w c ob used outb)
                  = (false, { encoder_call_world w c ob used outb with
                              nalloc := w.nalloc + 1,
                              failures := w.failures ++ [Failure.alloc] }) := by
                simp [ngx_alloc, encoder_call_world, ha']
              rw [hA] at h
              simp only [Prod.mk.injEq] at h
              obtain ⟨rfl, rfl, rfl⟩ := h
              exact CompressCase.flush_nolink e ob e1 used outb hS h0 hf ha'
          · have hf' : ¬ (encoder_call_ctx c e1 used outb).flush = FLUSH := hf
            simp only [hf', if_false] at h
            by_cases hfin : enc.isFinished e1 = true
            · rw [if_pos hfin] at h
              unfold ngx_http_brotli_filter_end at h
              by_cases ha : env.alloc_ok w.nalloc = true
              · simp [ngx_alloc, encoder_call_world, ha] at h
                obtain ⟨rfl, rfl, rfl⟩ := h
                exact CompressCase.ended e ob e1 used outb hS h0 hf hfin ha
              · have ha' : env.alloc_ok w.nalloc = false := by simpa using ha
                simp [ngx_alloc, encoder_call_world, ha'] at h
                obtain ⟨rfl, rfl, rfl⟩ := h
                exact CompressCase.end_nolink e ob e1 used outb hS h0 hf hfin ha'
            · rw [if_neg hfin] at h
              simp only [Prod.mk.injEq] at h
              obtain ⟨rfl, rfl, rfl⟩ := h
              exact CompressCase.more e ob e1 used outb hS h0 hf hfin

theorem Stepped_unique (enc : BrotliEncoder E) (c : ngx_http_brotli_ctx_t E)
    (e e' : E) (ob ob' : Nat) (e1 e1' : E) (used used' : Nat) (outb outb' : List Nat)
    (h : Stepped enc c e ob e1 used outb) (h' : Stepped enc c e' ob' e1' used' outb') :
    e' = e ∧ ob' = ob ∧ e1' = e1 ∧ used' = used ∧ outb' = outb := by
  obtain ⟨hb, ho, hs⟩ := h
  obtain ⟨hb', ho', hs'⟩ := h'
  rw [hb] at hb'
  rw [ho] at ho'
  cases hb'
  cases ho'
  rw [hs] at hs'
  cases hs'
  exact ⟨rfl, rfl, rfl, rfl, rfl⟩

theorem encoder_call_world_heap_length (w : World E) (c : ngx_http_brotli_ctx_t E)
    (ob used : Nat) (outb : List Nat) :
    (encoder_call_world w c ob used outb).heap.length = w.heap.length := by
  simp [encoder_call_world, length_updBuf]

/-! ## Flush boundaries (C6) -/

/-- C6: flush semantics of `ngx_http_brotli_filter_compress`.  In FLUSH mode,
when the encoder call succeeds leaving output space (`available_out != 0`) and
the allocations succeed, it returns `NGX_OK` with `flush = PROCESS`,
`redo = 0`, and exactly one link is appended at the tail of `ctx->out`: the
output buffer itself, flagged `flush`, with `available_out` set to 0, when it
holds at least one byte; otherwise a fresh all-zero buffer flagged `flush`,
the output buffer and its `available_out` being kept. -/
theorem C6_flush_boundary (enc : BrotliEncoder E) (env : Env) (w : World E)
    (c : ngx_http_brotli_ctx_t E) (e e1 : E) (ob used : Nat) (outb : List Nat)
    (rc : Int) (w1 : World E) (c1 : ngx_http_brotli_ctx_t E)
    (hbro : c.bro = some e) (hob : c.out_buf = some ob) (hvalid : ob < w.heap.length)
    (hflush : c.flush = FLUSH)
    (hstep : enc.compressStream e FLUSH (input_window c) c.available_out
              = some (e1, used, outb))
    (hmore : c.available_out - outb.length ≠ 0)
    (htail : c.last_out = c.out.length)
    (ha1 : env.alloc_ok w.nalloc = true) (ha2 : env.alloc_ok (w.nalloc + 1) = true)
    (hres : ngx_http_brotli_filter_compress enc env w c = (rc, w1, c1)) :
    rc = NGX_OK ∧ c1.flush = PROCESS ∧ c1.redo = false ∧ c1.out_buf = some ob ∧
      ((ngx_buf_size (getBuf w1.heap ob) ≠ 0 ∧ c1.out = c.out ++ [ob] ∧
          (getBuf w1.heap ob).flush = true ∧ c1.available_out = 0 ∧
          w1.heap.length = w.heap.length) ∨
       (ngx_buf_size (getBuf w1.heap ob) = 0 ∧ c1.out = c.out ++ [w.heap.length] ∧
          getBuf w1.heap w.heap.length = { zero_buf with flush := true } ∧
          c1.available_out = c.available_out - outb.length ∧
          w1.heap.length = w.heap.length + 1)) := by
  have hS : Stepped enc c e ob e1 used outb := ⟨hbro, hob, by rw [hflush]; exact hstep⟩
  have hl := encoder_call_world_heap_length w c ob used outb
  have hv : ob < (encoder_call_world w c ob used outb).heap.length := by omega
  have hcase := compress_cases enc env w c rc w1 c1 hres
  cases hcase with
  | null h => rcases h with h | h <;> simp_all
  | step_failed e' ob' hb ho hs =>
      rw [hbro] at hb; cases hb
      rw [hflush, hstep] at hs; cases hs
  | full_nolink e' ob' e1' used' outb' hs h0 ha =>
      obtain ⟨rfl, rfl, rfl, rfl, rfl⟩ := Stepped_unique enc c _ _ _ _ _ _ _ _ _ _ hS hs
      exact absurd h0 hmore
  | full e' ob' e1' used' outb' hs h0 ha =>
      obtain ⟨rfl, rfl, rfl, rfl, rfl⟩ := Stepped_unique enc c _ _ _ _ _ _ _ _ _ _ hS hs
      exact absurd h0 hmore
  | flush_nolink e' ob' e1' used' outb' hs h0 hf ha => simp_all
  | flush_nomarker e' ob' e1' used' outb' hs h0 hf ha hz ha2' => simp_all
  | flush_marker e' ob' e1' used' outb' hs h0 hf ha hz ha2' =>
      obtain ⟨rfl, rfl, rfl, rfl, rfl⟩ := Stepped_unique enc c _ _ _ _ _ _ _ _ _ _ hS hs
      refine ⟨rfl, rfl, rfl, hob, Or.inr ⟨?_, ?_, ?_, rfl, ?_⟩⟩
      · show ngx_buf_size (getBuf ((encoder_call_world w c ob' used' outb').heap ++ _) ob') = 0
        rw [getBuf_append_left _ _ _ hv]; exact hz
      · show (c.out.take c.last_out ++ [(encoder_call_world w c ob' used' outb').heap.length])
            = c.out ++ [w.heap.length]
        rw [hl, htail, List.take_length]
      · show getBuf ((encoder_call_world w c ob' used' outb').heap ++ _) w.heap.length = _
        rw [← hl, getBuf_append_new]
      · show ((encoder_call_world w c ob' used' outb').heap ++ _).length = _
        simp [hl]
  | flush_buf e' ob' e1' used' outb' hs h0 hf ha hz =>
      obtain ⟨rfl, rfl, rfl, rfl, rfl⟩ := Stepped_unique enc c _ _ _ _ _ _ _ _ _ _ hS hs
      refine ⟨rfl, rfl, rfl, hob, Or.inl ⟨?_, ?_, ?_, rfl, ?_⟩⟩
      · dsimp only
        rw [getBuf_updBuf_self _ _ _ hv]; exact hz
      · show (c.out.take c.last_out ++ [ob']) = c.out ++ [ob']
        rw [htail, List.take_length]
      · dsimp only
        rw [getBuf_updBuf_self _ _ _ hv]
      · dsimp only
        rw [length_updBuf, hl]
  | end_nolink e' ob' e1' used' outb' hs h0 hf hfin ha => exact absurd hflush hf
  | ended e' ob' e1' used' outb' hs h0 hf hfin ha => exact absurd hflush hf
  | more e' ob' e1' used' outb' hs h0 hf hfin => exact absurd hflush hf

theorem C6_flush_boundary_witness :
    (ngx_http_brotli_filter_compress toy env_ok flush_world flush_ctx).1 = NGX_OK ∧
    (ngx_http_brotli_filter_compress toy env_ok flush_world flush_ctx).2.2.flush = PROCESS ∧
    (ngx_http_brotli_filter_compress toy env_ok flush_world flush_ctx).2.2.redo = false ∧
    (ngx_http_brotli_filter_compress toy env_ok flush_world flush_ctx).2.2.out_buf = some 0 ∧
    ((ngx_buf_size (getBuf
          (ngx_http_brotli_filter_compress toy env_ok flush_world flush_ctx).2.1.heap 0) ≠ 0 ∧
        (ngx_http_brotli_filter_compress toy env_ok flush_world flush_ctx).2.2.out
          = flush_ctx.out ++ [0] ∧
        (getBuf (ngx_http_brotli_filter_compress toy env_ok flush_world flush_ctx).2.1.heap
          0).flush = true ∧
        (ngx_http_brotli_filter_compress toy env_ok flush_world flush_ctx).2.2.available_out
          = 0 ∧
        (ngx_http_brotli_filter_compress toy env_ok flush_world flush_ctx).2.1.heap.length
          = flush_world.heap.length) ∨
      (ngx_buf_size (getBuf
          (ngx_http_brotli_filter_compress toy env_ok flush_world flush_ctx).2.1.heap 0) = 0 ∧
        (ngx_http_brotli_filter_compress toy env_ok flush_world flush_ctx).2.2.out
          = flush_ctx.out ++ [flush_world.heap.length] ∧
        getBuf (ngx_http_brotli_filter_compress toy env_ok flush_world flush_ctx).2.1.heap
          flush_world.heap.length = { zero_buf with flush := true } ∧
        (ngx_http_brotli_filter_compress toy env_ok flush_world flush_ctx).2.2.available_out
          = flush_ctx.available_out - [7, 8].length ∧
        (ngx_http_brotli_filter_compress toy env_ok flush_world flush_ctx).2.1.heap.length
          = flush_world.heap.length + 1)) :=
  C6_flush_boundary toy env_ok flush_world flush_ctx { pending := [], closed := false }
    { pending := [], closed := false } 0 2 [7, 8] _ _ _ rfl rfl (by decide) rfl rfl
    (by decide) rfl rfl rfl rfl

/-! ## Failure, completion and the life of the encoder (C7, C9, C10) -/

/-- Output space left implies an output buffer. -/
def has_out_buf (c : ngx_http_brotli_ctx_t E) : Prop :=
  c.available_out ≠ 0 → c.out_buf ≠ none

/-- The session is running: no failure event since the log was `f0`, no
encoder destroyed since `d0`, not done, encoder alive. -/
def Alive (G : Prop) (f0 : List Failure) (d0 : List E) (w : World E)
    (c : ngx_http_brotli_ctx_t E) : Prop :=
  w.failures = f0 ∧ w.destroyed = d0 ∧ c.done = false ∧ c.bro ≠ none ∧ (G → has_out_buf c)

/-- The session is running or has completed: no failure event; either it is
alive, or it is done, the encoder is gone and the one encoder destroyed had
reported that it finished. -/
def Settled (enc : BrotliEncoder E) (G : Prop) (f0 : List Failure) (d0 : List E)
    (w : World E) (c : ngx_http_brotli_ctx_t E) : Prop :=
  w.failures = f0 ∧ (G → has_out_buf c) ∧
    ((c.done = false ∧ c.bro ≠ none ∧ w.destroyed = d0) ∨
     (c.done = true ∧ c.bro = none ∧ ∃ e, w.destroyed = d0 ++ [e] ∧ enc.isFinished e = true))

/-- Exactly one failure event has been logged. -/
def Failing (G : Prop) (f0 : List Failure) (w : World E) : Prop :=
  ∃ f, w.failures = f0 ++ [f] ∧ (G → f ≠ Failure.null_deref)

/-- What an invocation past the pass-through check ends with. -/
def Verdict (enc : BrotliEncoder E) (G : Prop) (f0 : List Failure) (d0 : List E) :
    Outcome E → Prop
  | Outcome.timeout r => ∃ c1, r.ctx = some c1 ∧ Alive G f0 d0 r.w c1
  | Outcome.returned rc r => ∃ c1, r.ctx = some c1 ∧
      ((rc = NGX_ERROR ∧ c1.done = true ∧ c1.bro = none ∧ Failing G f0 r.w) ∨
       (rc ≠ NGX_ERROR ∧ Settled enc G f0 d0 r.w c1))

/-- The session after `add_data` has pulled the chunk `b`, `rest` remaining. -/
def pulled (c : ngx_http_brotli_ctx_t E) (b : ngx_buf_t) (rest : List ngx_buf_t) :
    ngx_http_brotli_ctx_t E :=
  { c with copied := (match c.copy_buf with
                      | some cb => cb :: c.copied
                      | none => c.copied),
           copy_buf := if b.tag = true then some b else none, in_buf := some b, in_ := rest,
           next_in := some b.pos, available_in := b.last - b.pos,
           flush := if b.last_buf = true then FINISH
                    else if b.flush = true then FLUSH else c.flush }

theorem add_data_cases (c : ngx_http_brotli_ctx_t E) (rc : Int) (c1 : ngx_http_brotli_ctx_t E)
    (h : ngx_http_brotli_filter_add_data c = (rc, c1)) :
    (rc = NGX_OK ∧ c1 = c ∧ (c.available_in ≠ 0 ∨ c.flush ≠ PROCESS ∨ c.redo = true)) ∨
    (rc = NGX_DECLINED ∧ c1 = c ∧ c.in_ = [] ∧
      ¬ (c.available_in ≠ 0 ∨ c.flush ≠ PROCESS ∨ c.redo = true)) ∨
    (∃ b rest, c.in_ = b :: rest ∧ ¬ (c.available_in ≠ 0 ∨ c.flush ≠ PROCESS ∨ c.redo = true) ∧
      c1 = pulled c b rest ∧
      rc = if (pulled c b rest).available_in = 0 ∧ (pulled c b rest).flush = PROCESS
           then NGX_AGAIN else NGX_OK) := by
  by_cases h1 : c.available_in ≠ 0 ∨ c.flush ≠ PROCESS ∨ c.redo = true
  · unfold ngx_http_brotli_filter_add_data at h
    rw [if_pos h1] at h
    simp only [Prod.mk.injEq] at h
    exact Or.inl ⟨h.1.symm, h.2.symm, h1⟩
  · cases hin : c.in_ with
    | nil =>
        unfold ngx_http_brotli_filter_add_data at h
        rw [if_neg h1] at h
        simp only [hin, Prod.mk.injEq] at h
        exact Or.inr (Or.inl ⟨h.1.symm, h.2.symm, rfl, h1⟩)
    | cons b rest =>
        refine Or.inr (Or.inr ⟨b, rest, rfl, h1, ?_⟩)
        have hE : ngx_http_brotli_filter_add_data c =
            (if (pulled c b rest).available_in = 0 ∧ (pulled c b rest).flush = PROCESS
             then NGX_AGAIN else NGX_OK, pulled c b rest) := by
          unfold ngx_http_brotli_filter_add_data
          rw [if_neg h1]
          simp only [hin]
          by_cases hc : (pulled c b rest).available_in = 0 ∧ (pulled c b rest).flush = PROCESS
          · rw [if_pos hc]
            have hc2 := hc
            simp only [pulled] at hc2
            rw [if_pos hc2]
            rfl
          · rw [if_neg hc]
            have hc2 := hc
            simp only [pulled] at hc2
            rw [if_neg hc2]
            rfl
        rw [hE] at h
        simp only [Prod.mk.injEq] at h
        exact ⟨h.2.symm, h.1.symm⟩

theorem add_data_frame (c : ngx_http_brotli_ctx_t E) (rc : Int) (c1 : ngx_http_brotli_ctx_t E)
    (h : ngx_http_brotli_filter_add_data c = (rc, c1)) :
    c1.done = c.done ∧ c1.bro = c.bro ∧ c1.available_out = c.available_out ∧
    c1.out_buf = c.out_buf ∧ c1.out = c.out ∧ c1.busy = c.busy ∧ c1.free = c.free ∧
    c1.last_out = c.last_out ∧ c1.next_out = c.next_out ∧ c1.bufs = c.bufs ∧
    c1.nomem = c.nomem ∧ c1.redo = c.redo := by
  rcases add_data_cases c rc c1 h with ⟨_, rfl, _⟩ | ⟨_, rfl, _⟩ | ⟨b, rest, _, _, rfl, _⟩
  · simp
  · simp
  · simp [pulled]

theorem alive_add (G : Prop) (f0 : List Failure) (d0 : List E) (enc : BrotliEncoder E)
    (w : World E) (c : ngx_http_brotli_ctx_t E) (rc : Int) (c1 : ngx_http_brotli_ctx_t E)
    (hI : Alive G f0 d0 w c) (h : ngx_http_brotli_filter_add_data c = (rc, c1)) :
    (rc = NGX_DECLINED → Settled enc G f0 d0 w c1) ∧ (rc ≠ NGX_DECLINED → Alive G f0 d0 w c1) := by
  obtain ⟨hd, hb, hao, hob, _⟩ := add_data_frame c rc c1 h
  obtain ⟨h1, h2, h3, h4, h5⟩ := hI
  have hA : Alive G f0 d0 w c1 :=
    ⟨h1, h2, by rw [hd]; exact h3, by rw [hb]; exact h4,
      fun g => by unfold has_out_buf; rw [hao, hob]; exact h5 g⟩
  exact ⟨fun _ => ⟨hA.1, hA.2.2.2.2, Or.inl ⟨hA.2.2.1, hA.2.2.2.1, hA.2.1⟩⟩, fun _ => hA⟩

/-- The buffer `get_buf` makes: `ngx_create_temp_buf`, then the tag and the
`recycled` flag. -/
def tagged_temp_buf (size : Nat) : ngx_buf_t :=
  { zero_buf with mem := List.replicate size 0, tag := true, recycled := true }

theorem get_buf_cases (env : Env) (conf : ngx_http_brotli_conf_t) (w w1 : World E)
    (c c1 : ngx_http_brotli_ctx_t E) (rc : Int)
    (h : ngx_http_brotli_filter_get_buf env conf w c = (rc, w1, c1)) :
    (rc = NGX_OK ∧ c.available_out ≠ 0 ∧ w1 = w ∧ c1 = c) ∨
    (rc = NGX_OK ∧ c.available_out = 0 ∧ w1 = w ∧
      ∃ i rest, c.free = i :: rest ∧
        c1 = { c with out_buf := some i, free := rest, next_out := (getBuf w.heap i).pos,
                      available_out := conf.bufs_size }) ∨
    (rc = NGX_OK ∧ c.available_out = 0 ∧ c.free = [] ∧ c.bufs < conf.bufs_num ∧
      env.alloc_ok w.nalloc = true ∧
      w1 = { w with nalloc := w.nalloc + 1,
                    heap := w.heap ++ [tagged_temp_buf conf.bufs_size] } ∧
      c1 = { c with out_buf := some w.heap.length, bufs := c.bufs + 1, next_out := 0,
                    available_out := conf.bufs_size }) ∨
    (rc = NGX_ERROR ∧ c.available_out = 0 ∧ c.free = [] ∧ c.bufs < conf.bufs_num ∧
      env.alloc_ok w.nalloc = false ∧
      w1 = { w with nalloc := w.nalloc + 1, failures := w.failures ++ [Failure.alloc] } ∧
      c1 = { c with out_buf := none }) ∨
    (rc = NGX_DECLINED ∧ c.available_out = 0 ∧ c.free = [] ∧ ¬ c.bufs < conf.bufs_num ∧
      w1 = w ∧ c1 = { c with nomem := true }) := by
  unfold ngx_http_brotli_filter_get_buf at h
  by_cases h1 : c.available_out = 0
  · cases hf : c.free with
    | cons i rest =>
        simp only [h1, hf, ne_eq, not_true_eq_false, if_false, Prod.mk.injEq] at h
        obtain ⟨rfl, rfl, rfl⟩ := h
        refine Or.inr (Or.inl ⟨rfl, h1, rfl, i, rest, rfl, ?_⟩)
        cases c; simp_all
    | nil =>
        by_cases h2 : c.bufs < conf.bufs_num
        · by_cases h3 : env.alloc_ok w.nalloc = true
          · simp [h1, hf, h2, h3, ngx_create_temp_buf, ngx_alloc, updBuf, getBuf] at h
            obtain ⟨rfl, rfl, rfl⟩ := h
            refine Or.inr (Or.inr (Or.inl ⟨rfl, h1, rfl, h2, h3, rfl, ?_⟩))
            cases c; simp_all [zero_buf]
          · simp [h1, hf, h2, h3, ngx_create_temp_buf, ngx_alloc] at h
            obtain ⟨rfl, rfl, rfl⟩ := h
            refine Or.inr (Or.inr (Or.inr (Or.inl
              ⟨rfl, h1, rfl, h2, by simpa using h3, rfl, ?_⟩)))
            cases c; simp_all
        · simp only [h1, hf, h2, ne_eq, not_true_eq_false, if_false, Prod.mk.injEq] at h
          obtain ⟨rfl, rfl, rfl⟩ := h
          refine Or.inr (Or.inr (Or.inr (Or.inr ⟨rfl, h1, rfl, h2, rfl, ?_⟩)))
          cases c; simp_all
  · simp only [h1, ne_eq, not_false_eq_true, if_true, Prod.mk.injEq] at h
    obtain ⟨rfl, rfl, rfl⟩ := h
    exact Or.inl ⟨rfl, h1, rfl, rfl⟩

theorem alive_get (G : Prop) (f0 : List Failure) (d0 : List E) (enc : BrotliEncoder E)
    (env : Env) (conf : ngx_http_brotli_conf_t) (w : World E) (c : ngx_http_brotli_ctx_t E)
    (rc : Int) (w1 : World E) (c1 : ngx_http_brotli_ctx_t E)
    (hI : Alive G f0 d0 w c)
    (h : ngx_http_brotli_filter_get_buf env conf w c = (rc, w1, c1)) :
    (rc = NGX_DECLINED → Settled enc G f0 d0 w1 c1) ∧ (rc = NGX_ERROR → Failing G f0 w1) ∧
    (rc ≠ NGX_DECLINED → rc ≠ NGX_ERROR → Alive G f0 d0 w1 c1 ∧ (G → c1.out_buf ≠ none)) := by
  obtain ⟨h1, h2, h3, h4, h5⟩ := hI
  rcases get_buf_cases env conf w w1 c c1 rc h with
    ⟨rfl, ha, rfl, rfl⟩ | ⟨rfl, ha, rfl, i, rest, hf, rfl⟩ | ⟨rfl, ha, hf, hlt, hok, rfl, rfl⟩ |
    ⟨rfl, ha, hf, hlt, hok, rfl, rfl⟩ | ⟨rfl, ha, hf, hlt, rfl, rfl⟩
  · refine ⟨fun h => absurd h (by decide), fun h => absurd h (by decide), fun _ _ => ?_⟩
    exact ⟨⟨h1, h2, h3, h4, h5⟩, fun g => h5 g ha⟩
  · refine ⟨fun h => absurd h (by decide), fun h => absurd h (by decide), fun _ _ => ?_⟩
    exact ⟨⟨h1, h2, h3, h4, fun _ _ => by simp⟩, fun _ => by simp⟩
  · refine ⟨fun h => absurd h (by decide), fun h => absurd h (by decide), fun _ _ => ?_⟩
    exact ⟨⟨h1, h2, h3, h4, fun _ _ => by simp⟩, fun _ => by simp⟩
  · refine ⟨fun h => absurd h (by decide), fun _ => ?_, fun _ h => absurd rfl h⟩
    exact ⟨Failure.alloc, by simp [h1], fun _ => by decide⟩
  · refine ⟨fun _ => ?_, fun h => absurd h (by decide), fun h _ => absurd rfl h⟩
    exact ⟨h1, fun g => h5 g, Or.inl ⟨h3, h4, h2⟩⟩

theorem alive_cmp (G : Prop) (f0 : List Failure) (d0 : List E) (enc : BrotliEncoder E)
    (env : Env) (w : World E) (c : ngx_http_brotli_ctx_t E)
    (rc : Int) (w1 : World E) (c1 : ngx_http_brotli_ctx_t E)
    (hJ : Alive G f0 d0 w c ∧ (G → c.out_buf ≠ none))
    (h : ngx_http_brotli_filter_compress enc env w c = (rc, w1, c1)) :
    (rc = NGX_ERROR → Failing G f0 w1) ∧ (rc = NGX_OK → Settled enc G f0 d0 w1 c1) ∧
    (rc ≠ NGX_ERROR → rc ≠ NGX_OK → Alive G f0 d0 w1 c1) := by
  obtain ⟨⟨h1, h2, h3, h4, h5⟩, h6⟩ := hJ
  have hcase := compress_cases enc env w c rc w1 c1 h
  have hob : ∀ e ob e1 used outb, Stepped enc c e ob e1 used outb →
      ∀ n, has_out_buf { encoder_call_ctx c e1 used outb with available_out := n } := by
    intro e ob e1 used outb hs n _
    show c.out_buf ≠ none
    rw [hs.2.1]; simp
  cases hcase with
  | null hn =>
      refine ⟨fun _ => ⟨Failure.null_deref, by simp [World.fail, h1], fun g => ?_⟩,
        fun h => absurd h (by decide), fun h => absurd rfl h⟩
      rcases hn with hn | hn
      · exact absurd hn h4
      · exact absurd hn (h6 g)
  | step_failed e ob hb ho hs =>
      exact ⟨fun _ => ⟨Failure.encoder_step, by simp [World.fail, h1], fun _ => by decide⟩,
        fun h => absurd h (by decide), fun h => absurd rfl h⟩
  | full_nolink e ob e1 used outb hs h0 ha =>
      exact ⟨fun _ => ⟨Failure.alloc, by simp [h1], fun _ => by decide⟩,
        fun h => absurd h (by decide), fun h => absurd rfl h⟩
  | full e ob e1 used outb hs h0 ha =>
      refine ⟨fun h => absurd h (by decide), fun h => absurd h (by decide), fun _ _ => ?_⟩
      exact ⟨h1, h2, h3, by simp [link_out, encoder_call_ctx],
        fun _ => hob e ob e1 used outb hs _⟩
  | flush_nolink e ob e1 used outb hs h0 hf ha =>
      exact ⟨fun _ => ⟨Failure.alloc, by simp [h1], fun _ => by decide⟩,
        fun h => absurd h (by decide), fun h => absurd rfl h⟩
  | flush_nomarker e ob e1 used outb hs h0 hf ha hz ha2 =>
      exact ⟨fun _ => ⟨Failure.alloc, by simp [h1], fun _ => by decide⟩,
        fun h => absurd h (by decide), fun h => absurd rfl h⟩
  | flush_marker e ob e1 used outb hs h0 hf ha hz ha2 =>
      refine ⟨fun h => absurd h (by decide), fun _ => ?_, fun _ h => absurd rfl h⟩
      exact ⟨h1, fun _ => hob e ob e1 used outb hs _,
        Or.inl ⟨h3, by simp [link_out, encoder_call_ctx], h2⟩⟩
  | flush_buf e ob e1 used outb hs h0 hf ha hz =>
      refine ⟨fun h => absurd h (by decide), fun _ => ?_, fun _ h => absurd rfl h⟩
      exact ⟨h1, fun _ => hob e ob e1 used outb hs _,
        Or.inl ⟨h3, by simp [link_out, encoder_call_ctx], h2⟩⟩
  | end_nolink e ob e1 used outb hs h0 hf hfin ha =>
      exact ⟨fun _ => ⟨Failure.alloc, by simp [h1], fun _ => by decide⟩,
        fun h => absurd h (by decide), fun h => absurd rfl h⟩
  | ended e ob e1 used outb hs h0 hf hfin ha =>
      refine ⟨fun h => absurd h (by decide), fun _ => ?_, fun _ h => absurd rfl h⟩
      exact ⟨h1, fun _ => hob e ob e1 used outb hs _,
        Or.inr ⟨rfl, rfl, e1, by simp [h2], hfin⟩⟩
  | more e ob e1 used outb hs h0 hf hfin =>
      refine ⟨fun h => absurd h (by decide), fun h => absurd h (by decide), fun _ _ => ?_⟩
      exact ⟨h1, h2, h3, by simp [encoder_call_ctx], fun _ => hob e ob e1 used outb hs _⟩

theorem after_next_frame (w : World E) (c : ngx_http_brotli_ctx_t E) :
    (after_next w c).2.done = c.done ∧ (after_next w c).2.bro = c.bro ∧
    (after_next w c).2.available_out = c.available_out ∧
    (after_next w c).2.out_buf = c.out_buf ∧
    (after_next w c).1.failures = w.failures ∧ (after_next w c).1.destroyed = w.destroyed ∧
    (after_next w c).2.copied = [] ∧ (after_next w c).2.copy_buf = c.copy_buf ∧
    (after_next w c).1.freed = w.freed ++ c.copied.map (fun b => b.start) := by
  simp [after_next, ngx_http_brotli_filter_free_copy_buf]

theorem failed_verdict (enc : BrotliEncoder E) (G : Prop) (f0 : List Failure) (d0 : List E)
    (ho : Bool) (w : World E) (c : ngx_http_brotli_ctx_t E) (h : Failing G f0 w) :
    Verdict enc G f0 d0 (body_filter_failed ho w c) := by
  unfold body_filter_failed ngx_http_brotli_filter_free_copy_buf
  refine ⟨_, rfl, Or.inl ⟨rfl, rfl, rfl, ?_⟩⟩
  obtain ⟨f, hf, hg⟩ := h
  refine ⟨f, ?_, hg⟩
  cases c.bro <;> exact hf

theorem next_body_filter_frame (env : Env) (w : World E) (held : List Nat)
    (chain : List ngx_buf_t) (rc : Int) (w2 : World E)
    (h : ngx_http_next_body_filter env w held chain = (rc, w2)) :
    w2.destroyed = w.destroyed ∧ w2.freed = w.freed ∧ w2.fed = w.fed ∧
    w2.produced = w.produced ∧ w2.steps = w.steps ∧ w2.created = w.created ∧
    w2.nalloc = w.nalloc ∧ w2.heap.length = w.heap.length ∧
    (rc = NGX_ERROR → w2.failures = w.failures ++ [Failure.next_filter]) ∧
    (rc ≠ NGX_ERROR → w2.failures = w.failures) := by
  obtain ⟨_, rfl⟩ := next_body_filter_eq env w held chain rc w2 h
  have hlen : ∀ (k : Nat → Nat) (l : List Nat) (hp : List ngx_buf_t),
      (consume k l hp).length = hp.length := by
    intro k l
    induction l with
    | nil => intro hp; rfl
    | cons i is ih => intro hp; simp [consume, ih, length_updBuf]
  refine ⟨rfl, rfl, rfl, rfl, rfl, rfl, rfl, hlen _ _ _, ?_, ?_⟩
  · intro he; simp [he]
  · intro he; simp [he]

theorem settled_next (enc : BrotliEncoder E) (G : Prop) (f0 : List Failure) (d0 : List E)
    (env : Env) (ho : Bool) (w : World E) (c : ngx_http_brotli_ctx_t E) (rc : Int)
    (w2 : World E) (held : List Nat) (chain : List ngx_buf_t)
    (hB : Settled enc G f0 d0 w c)
    (h : ngx_http_next_body_filter env w held chain = (rc, w2)) :
    (rc = NGX_ERROR → Failing G f0 w2) ∧
    (rc ≠ NGX_ERROR →
      ((after_next w2 c).2.done = true →
          Verdict enc G f0 d0
            (Outcome.returned rc { ctx := some (after_next w2 c).2, header_only := ho,
                                   w := (after_next w2 c).1 })) ∧
      ((after_next w2 c).2.done ≠ true →
          Alive G f0 d0 (after_next w2 c).1 (after_next w2 c).2)) := by
  obtain ⟨n1, _, _, _, _, _, _, _, n9, n10⟩ := next_body_filter_frame env w held chain rc w2 h
  obtain ⟨h1, h2, h3⟩ := hB
  obtain ⟨a1, a2, a3, a4, a5, a6, _⟩ := after_next_frame w2 c
  constructor
  · intro he
    exact ⟨Failure.next_filter, by rw [n9 he, h1], fun _ => by decide⟩
  · intro he
    have hwf : G → has_out_buf (after_next w2 c).2 := by
      intro g
      unfold has_out_buf
      rw [a3, a4]
      exact h2 g
    constructor
    · intro hd
      refine ⟨_, rfl, Or.inr ⟨he, ?_, hwf, ?_⟩⟩
      · rw [a5, n10 he, h1]
      · rw [a1, a2, a6, n1]; exact h3
    · intro hd
      rw [a1] at hd
      rcases h3 with ⟨b1, b2, b3⟩ | ⟨b1, _⟩
      · refine ⟨?_, ?_, ?_, ?_, hwf⟩
        · rw [a5, n10 he, h1]
        · rw [a6, n1]; exact b3
        · rw [a1]; exact b1
        · rw [a2]; exact b2
      · exact absurd b1 hd

theorem settled_idle (enc : BrotliEncoder E) (G : Prop) (f0 : List Failure) (d0 : List E)
    (ho : Bool) (w : World E) (c : ngx_http_brotli_ctx_t E) (hB : Settled enc G f0 d0 w c) :
    Verdict enc G f0 d0 (idle_return ho w c) := by
  unfold idle_return ngx_http_brotli_filter_free_copy_buf
  refine ⟨_, rfl, Or.inr ⟨?_, hB⟩⟩
  dsimp only
  split <;> decide

theorem start_if_needed_cases (enc : BrotliEncoder E) (w : World E)
    (c : ngx_http_brotli_ctx_t E) (rc0 : Int) (w0 : World E) (c0 : ngx_http_brotli_ctx_t E)
    (h : start_if_needed enc w c = (rc0, w0, c0)) :
    (rc0 = NGX_OK ∧ c.bro ≠ none ∧ w0 = w ∧ c0 = c) ∨
    (rc0 = NGX_ERROR ∧ c.bro = none ∧ enc.create = none ∧
      w0 = w.fail Failure.encoder_create ∧ c0 = { c with bro := none }) ∨
    (∃ e, rc0 = NGX_OK ∧ c.bro = none ∧ enc.create = some e ∧
      w0 = { w with created := w.created + 1 } ∧
      c0 = { c with bro := some e, last_out := 0, next_in := none, next_out := 0,
                    available_in := 0, available_out := 0 }) := by
  unfold start_if_needed at h
  cases hb : c.bro with
  | some e =>
      simp only [hb, Prod.mk.injEq] at h
      obtain ⟨rfl, rfl, rfl⟩ := h
      exact Or.inl ⟨rfl, by simp [hb], rfl, rfl⟩
  | none =>
      simp only [hb] at h
      unfold ngx_http_brotli_filter_start at h
      cases hc : enc.create with
      | none =>
          simp only [hc, Prod.mk.injEq] at h
          obtain ⟨rfl, rfl, rfl⟩ := h
          exact Or.inr (Or.inl ⟨rfl, rfl, rfl, rfl, rfl⟩)
      | some e =>
          simp only [hc, Prod.mk.injEq] at h
          obtain ⟨rfl, rfl, rfl⟩ := h
          exact Or.inr (Or.inr ⟨e, rfl, rfl, rfl, rfl, rfl⟩)

theorem add_input_cases (env : Env) (w : World E) (c : ngx_http_brotli_ctx_t E)
    (chain : List ngx_buf_t) (rc1 : Int) (w1 : World E) (c1 : ngx_http_brotli_ctx_t E)
    (h : add_input env w c chain = (rc1, w1, c1)) :
    w1.heap = w.heap ∧ w1.destroyed = w.destroyed ∧ w1.sent = w.sent ∧ w1.freed = w.freed ∧
    w1.fed = w.fed ∧ w1.produced = w.produced ∧ w1.steps = w.steps ∧
    w1.created = w.created ∧ w1.nnext = w.nnext ∧ (∃ l, c1 = { c with in_ := l }) ∧
    ((rc1 = NGX_OK ∧ w1.failures = w.failures ∧ c1 = { c with in_ := c.in_ ++ chain }) ∨
     (rc1 = NGX_ERROR ∧ w1.failures = w.failures ++ [Failure.alloc])) := by
  unfold add_input at h
  cases chain with
  | nil =>
      simp only [Prod.mk.injEq] at h
      obtain ⟨rfl, rfl, rfl⟩ := h
      exact ⟨rfl, rfl, rfl, rfl, rfl, rfl, rfl, rfl, rfl, ⟨c.in_, rfl⟩, Or.inl ⟨rfl, rfl, by simp⟩⟩
  | cons b rest =>
      simp only [] at h
      rcases hA : ngx_chain_add_copy env w c.in_ (b :: rest) with ⟨rc, w1', l'⟩
      rw [hA] at h
      simp only [Prod.mk.injEq] at h
      obtain ⟨rfl, rfl, rfl⟩ := h
      obtain ⟨b1, b2, b3, b4, b5, b6, b7, b8, b9, _, b11⟩ := add_copy_spec env _ _ _ _ _ _ hA
      refine ⟨b1, b2, b3, b4, b5, b6, b7, b8, b9, ⟨l', rfl⟩, ?_⟩
      rcases b11 with ⟨c1, c2, c3⟩ | ⟨c1, c2⟩
      · exact Or.inl ⟨c1, c2, by rw [c3]⟩
      · exact Or.inr ⟨c1, c2⟩

/-- The statements before the loops keep the session alive or jump to
`failed` with one failure event logged. -/
theorem alive_prologue (enc : BrotliEncoder E) (G : Prop) (env : Env) (w : World E)
    (c : ngx_http_brotli_ctx_t E) (chain : List ngx_buf_t)
    (hd : c.done = false) (hG : G → has_out_buf c) :
    match prologue enc env w c chain with
    | Entry.failed w1 _ => Failing G w.failures w1
    | Entry.go _ w1 c1 => Alive G w.failures w.destroyed w1 c1 := by
  unfold prologue
  rcases h0 : start_if_needed enc w c with ⟨rc0, w0, c0⟩
  have hA0 : (rc0 ≠ NGX_OK → Failing G w.failures w0) ∧
      (rc0 = NGX_OK → Alive G w.failures w.destroyed w0 c0) := by
    rcases start_if_needed_cases enc w c rc0 w0 c0 h0 with
      ⟨rfl, hb, rfl, rfl⟩ | ⟨rfl, hb, hc, rfl, rfl⟩ | ⟨e, rfl, hb, hc, rfl, rfl⟩
    · exact ⟨fun h => absurd rfl h, fun _ => ⟨rfl, rfl, hd, hb, hG⟩⟩
    · exact ⟨fun _ => ⟨Failure.encoder_create, rfl, fun _ => by decide⟩,
        fun h => absurd h (by decide)⟩
    · exact ⟨fun h => absurd rfl h,
        fun _ => ⟨rfl, rfl, hd, by simp, fun _ h => absurd rfl h⟩⟩
  simp only []
  by_cases hrc0 : rc0 = NGX_OK
  · rw [if_neg (by simpa using hrc0)]
    obtain ⟨a1, a2, a3, a4, a5⟩ := hA0.2 hrc0
    rcases h1 : add_input env w0 c0 chain with ⟨rc1, w1, c1⟩
    obtain ⟨_, k1, _, _, _, _, _, _, _, ⟨l, rfl⟩, k3⟩ := add_input_cases env w0 c0 chain rc1 w1 c1 h1
    simp only []
    rcases k3 with ⟨rfl, k4, _⟩ | ⟨rfl, k4⟩
    · simp only [ne_eq, not_true_eq_false, if_false]
      have hA1 : Alive G w.failures w.destroyed w1 { c0 with in_ := l } :=
        ⟨by rw [k4, a1], by rw [k1, a2], a3, a4, a5⟩
      unfold flush_busy
      by_cases hn : c0.nomem = true
      · simp only [hn, if_true]
        rcases hN : ngx_http_next_body_filter env w1 c0.busy [] with ⟨rc2, w2⟩
        obtain ⟨n1, _, _, _, _, _, _, _, n9, n10⟩ := next_body_filter_frame env w1 _ _ rc2 w2 hN
        simp only []
        by_cases he : rc2 = NGX_ERROR
        · simp only [he, if_true]
          exact ⟨Failure.next_filter, by rw [n9 he, k4, a1], fun _ => by decide⟩
        · simp only [he, if_false]
          exact ⟨by rw [n10 he, k4, a1], by rw [n1, k1, a2], a3, a4, a5⟩
      · simp only [hn, if_false]
        exact hA1
    · simp only [ne_eq, show ¬ (NGX_ERROR = NGX_OK) by decide, not_false_eq_true, if_true]
      exact ⟨Failure.alloc, by rw [k4, a1], fun _ => by decide⟩
  · rw [if_pos (by simpa using hrc0)]
    exact hA0.1 hrc0

/-- Every invocation past the pass-through check ends in a `Verdict`. -/
theorem session_verdict (enc : BrotliEncoder E) (G : Prop) (env : Env)
    (conf : ngx_http_brotli_conf_t) (fuel : Nat) (ho : Bool) (w : World E)
    (c : ngx_http_brotli_ctx_t E) (chain : List ngx_buf_t)
    (hd : c.done = false) (hG : G → has_out_buf c) :
    Verdict enc G w.failures w.destroyed (body_filter_session enc env conf fuel ho w c chain) := by
  unfold body_filter_session
  have hp := alive_prologue enc G env w c chain hd hG
  rcases hP : prologue enc env w c chain with ⟨w1, c1⟩ | ⟨flush, w1, c1⟩
  · rw [hP] at hp
    exact failed_verdict enc G _ _ ho w1 c1 hp
  · rw [hP] at hp
    exact cycle_rule enc env conf ho (Alive G w.failures w.destroyed)
      (fun w' c' => Alive G w.failures w.destroyed w' c' ∧ (G → c'.out_buf ≠ none))
      (Settled enc G w.failures w.destroyed) (fun w' _ => Failing G w.failures w')
      (Verdict enc G w.failures w.destroyed)
      (fun w c rc c1 => alive_add G _ _ enc w c rc c1)
      (fun w c rc w1 c1 => alive_get G _ _ enc env conf w c rc w1 c1)
      (fun w c rc w1 c1 => alive_cmp G _ _ enc env w c rc w1 c1)
      (fun w c h => failed_verdict enc G _ _ ho w c h)
      (fun w c h => ⟨c, rfl, h⟩)
      (fun w c h _ => settled_idle enc G _ _ ho w c h)
      (fun w c rc w2 hB hN => settled_next enc G _ _ env ho w c rc w2 _ _ hB hN)
      fuel fuel flush w1 c1 hp

theorem body_filter_past_check (enc : BrotliEncoder E) (env : Env)
    (conf : ngx_http_brotli_conf_t) (fuel : Nat) (r : ngx_http_request_t E)
    (c : ngx_http_brotli_ctx_t E) (chain : List ngx_buf_t)
    (hctx : r.ctx = some c) (hdone : c.done = false) (hho : r.header_only = false) :
    ngx_http_brotli_body_filter enc env conf fuel r chain
      = body_filter_session enc env conf fuel r.header_only r.w c chain := by
  simp [ngx_http_brotli_body_filter, hctx, hdone, hho]

/-- C7: in an invocation of the body filter past the pass-through check in
which a failure event occurs (encoder creation fails, the encoder step
fails, an allocation is refused, or the next body filter returns `NGX_ERROR`),
the body filter returns `NGX_ERROR`, and on return `ctx->done = 1` and
`ctx->bro = NULL`. -/
theorem C7_failure_is_fatal (enc : BrotliEncoder E) (env : Env)
    (conf : ngx_http_brotli_conf_t) (fuel : Nat) (r : ngx_http_request_t E)
    (c : ngx_http_brotli_ctx_t E) (chain : List ngx_buf_t)
    (hctx : r.ctx = some c) (hdone : c.done = false) (hho : r.header_only = false)
    (hfail : (ngx_http_brotli_body_filter enc env conf fuel r chain).req.w.failures
              ≠ r.w.failures) :
    ∃ r1 c1 f, ngx_http_brotli_body_filter enc env conf fuel r chain
        = Outcome.returned NGX_ERROR r1 ∧
      r1.ctx = some c1 ∧ c1.done = true ∧ c1.bro = none ∧
      r1.w.failures = r.w.failures ++ [f] := by
  have hv := session_verdict enc False env conf fuel r.header_only r.w c chain hdone
    (fun h => absurd h id)
  rw [body_filter_past_check enc env conf fuel r c chain hctx hdone hho] at hfail ⊢
  rcases hO : body_filter_session enc env conf fuel r.header_only r.w c chain with
    ⟨rc, r1⟩ | ⟨r1⟩
  · rw [hO] at hv hfail
    obtain ⟨c1, h1, h2⟩ := hv
    rcases h2 with ⟨rfl, h3, h4, f, h5, _⟩ | ⟨_, h3, _⟩
    · exact ⟨r1, c1, f, rfl, h1, h3, h4, h5⟩
    · exact absurd h3 hfail
  · rw [hO] at hv hfail
    obtain ⟨c1, _, h2, _⟩ := hv
    exact absurd h2 hfail

set_option maxRecDepth 4000 in
theorem C7_failure_is_fatal_witness :
    ∃ r1 c1 f, failing_run = Outcome.returned NGX_ERROR r1 ∧
      r1.ctx = some c1 ∧ c1.done = true ∧ c1.bro = none ∧
      r1.w.failures = (fresh_request ToyState).w.failures ++ [f] :=
  C7_failure_is_fatal toy env_noalloc { bufs_num := 2, bufs_size := 4 } 8
    (fresh_request ToyState) (fresh_ctx ToyState) [chunk [1, 2] false true] rfl rfl rfl
    (by decide)

/-- C9: backpressure is not an error.  In an invocation past the pass-through
check, on a session whose output cursor has a buffer, in which no failure
event occurs (encoder creation and every encoder step succeed, no allocation
is refused, the next body filter never returns `NGX_ERROR`), whatever the pool
capacity and the busy buffers: the body filter does not return `NGX_ERROR`;
on return either the session is not done and its encoder is alive, or it is
done and the one encoder destroyed had reported that it finished.  And
`get_buf` returning `NGX_DECLINED` (with `ctx->nomem` set) only ends the inner
loop. -/
theorem C9_backpressure_is_not_an_error (enc : BrotliEncoder E) (env : Env)
    (conf : ngx_http_brotli_conf_t) (fuel : Nat) (r : ngx_http_request_t E)
    (c : ngx_http_brotli_ctx_t E) (chain : List ngx_buf_t) (rc : Int)
    (r1 : ngx_http_request_t E)
    (hctx : r.ctx = some c) (hdone : c.done = false) (hho : r.header_only = false)
    (hwf : has_out_buf c)
    (hret : ngx_http_brotli_body_filter enc env conf fuel r chain = Outcome.returned rc r1)
    (hquiet : ∀ f, r1.w.failures = r.w.failures ++ [f] → f = Failure.null_deref) :
    (rc ≠ NGX_ERROR ∧ r1.w.failures = r.w.failures ∧
      ∃ c1, r1.ctx = some c1 ∧
        ((c1.done = false ∧ c1.bro ≠ none ∧ r1.w.destroyed = r.w.destroyed) ∨
         (c1.done = true ∧ c1.bro = none ∧
            ∃ e, r1.w.destroyed = r.w.destroyed ++ [e] ∧ enc.isFinished e = true))) ∧
    (∀ k w0 c0 c1 w2 c2, ngx_http_brotli_filter_add_data c0 = (NGX_OK, c1) →
        ngx_http_brotli_filter_get_buf env conf w0 c1 = (NGX_DECLINED, w2, c2) →
        feed enc env conf (k + 1) w0 c0 = Flow.brk w2 c2 ∧ c2.nomem = true ∧
          w2.failures = w0.failures) := by
  constructor
  · have hv := session_verdict enc True env conf fuel r.header_only r.w c chain hdone
      (fun _ => hwf)
    rw [body_filter_past_check enc env conf fuel r c chain hctx hdone hho] at hret
    rw [hret] at hv
    obtain ⟨c1, h1, h2⟩ := hv
    rcases h2 with ⟨_, _, _, f, h5, h6⟩ | ⟨h3, h4, _, h5⟩
    · exact absurd (hquiet f h5) (h6 trivial)
    · exact ⟨h3, h4, c1, h1, h5⟩
  · intro k w0 c0 c1 w2 c2 hA hG
    refine ⟨?_, ?_, ?_⟩
    · unfold feed
      rw [hA]
      simp only [show ¬ (NGX_OK = NGX_DECLINED) by decide, show ¬ (NGX_OK = NGX_AGAIN) by decide,
        if_false, hG, if_true]
    · rcases get_buf_cases env conf w0 w2 c1 c2 NGX_DECLINED hG with
        ⟨h, _⟩ | ⟨h, _⟩ | ⟨h, _⟩ | ⟨h, _⟩ | ⟨_, _, _, _, _, rfl⟩
      · exact absurd h (by decide)
      · exact absurd h (by decide)
      · exact absurd h (by decide)
      · exact absurd h (by decide)
      · rfl
    · rcases get_buf_cases env conf w0 w2 c1 c2 NGX_DECLINED hG with
        ⟨h, _⟩ | ⟨h, _⟩ | ⟨h, _⟩ | ⟨h, _⟩ | ⟨_, _, _, _, rfl, _⟩
      · exact absurd h (by decide)
      · exact absurd h (by decide)
      · exact absurd h (by decide)
      · exact absurd h (by decide)
      · rfl

set_option maxRecDepth 4000 in
theorem C9_backpressure_is_not_an_error_witness :
    NGX_AGAIN ≠ NGX_ERROR ∧
    backpressure_run.req.w.failures = (fresh_request ToyState).w.failures ∧
    ∃ c1, backpressure_run.req.ctx = some c1 ∧
      ((c1.done = false ∧ c1.bro ≠ none ∧
          backpressure_run.req.w.destroyed = (fresh_request ToyState).w.destroyed) ∨
       (c1.done = true ∧ c1.bro = none ∧
          ∃ e, backpressure_run.req.w.destroyed = (fresh_request ToyState).w.destroyed ++ [e] ∧
            toy.isFinished e = true)) :=
  (C9_backpressure_is_not_an_error toy env_stall { bufs_num := 1, bufs_size := 1 } 8
    (fresh_request ToyState) (fresh_ctx ToyState) [chunk [1, 2, 3] false false] NGX_AGAIN
    backpressure_run.req rfl rfl rfl (fun h => absurd rfl h) rfl
    (fun f h => by
      have h0 : backpressure_run.req.w.failures = [] := by decide
      rw [h0] at h
      exact absurd h (by simp [fresh_request, fresh_world]))).1

/-- C10: at every return of the body filter past the pass-through check,
`ctx->done` set implies `ctx->bro = NULL`, and a return other than `NGX_ERROR`
with `ctx->done` unset implies `ctx->bro != NULL`. -/
theorem C10_encoder_liveness (enc : BrotliEncoder E) (env : Env)
    (conf : ngx_http_brotli_conf_t) (fuel : Nat) (r : ngx_http_request_t E)
    (c : ngx_http_brotli_ctx_t E) (chain : List ngx_buf_t) (rc : Int)
    (r1 : ngx_http_request_t E)
    (hctx : r.ctx = some c) (hdone : c.done = false) (hho : r.header_only = false)
    (hret : ngx_http_brotli_body_filter enc env conf fuel r chain = Outcome.returned rc r1) :
    ∃ c1, r1.ctx = some c1 ∧ (c1.done = true → c1.bro = none) ∧
      (rc ≠ NGX_ERROR → c1.done = false → c1.bro ≠ none) := by
  have hv := session_verdict enc False env conf fuel r.header_only r.w c chain hdone
    (fun h => absurd h id)
  rw [body_filter_past_check enc env conf fuel r c chain hctx hdone hho] at hret
  rw [hret] at hv
  obtain ⟨c1, h1, h2⟩ := hv
  refine ⟨c1, h1, ?_, ?_⟩
  · intro hd
    rcases h2 with ⟨_, _, h4, _⟩ | ⟨_, _, _, h5⟩
    · exact h4
    · rcases h5 with ⟨h6, _⟩ | ⟨_, h7, _⟩
      · rw [hd] at h6; cases h6
      · exact h7
  · intro hne hd
    rcases h2 with ⟨h3, _⟩ | ⟨_, _, _, h5⟩
    · exact absurd h3 hne
    · rcases h5 with ⟨_, h7, _⟩ | ⟨h6, _⟩
      · exact h7
      · rw [hd] at h6; cases h6

set_option maxRecDepth 4000 in
theorem C10_encoder_liveness_witness :
    ∃ c1, backpressure_run.req.ctx = some c1 ∧ (c1.done = true → c1.bro = none) ∧
      (NGX_AGAIN ≠ NGX_ERROR → c1.done = false → c1.bro ≠ none) :=
  C10_encoder_liveness toy env_stall { bufs_num := 1, bufs_size := 1 } 8
    (fresh_request ToyState) (fresh_ctx ToyState) [chunk [1, 2, 3] false false] NGX_AGAIN
    backpressure_run.req rfl rfl rfl rfl

/-! ## Copied input on failure (C8) -/

theorem get_buf_frame (env : Env) (conf : ngx_http_brotli_conf_t) (w w1 : World E)
    (c c1 : ngx_http_brotli_ctx_t E) (rc : Int)
    (h : ngx_http_brotli_filter_get_buf env conf w c = (rc, w1, c1)) :
    c1.copied = c.copied ∧ c1.copy_buf = c.copy_buf ∧ w1.freed = w.freed ∧ c1.in_ = c.in_ ∧
    w1.sent = w.sent ∧ c1.busy = c.busy ∧ c1.out = c.out ∧ c1.last_out = c.last_out ∧
    w1.fed = w.fed ∧ w1.produced = w.produced ∧ w1.steps = w.steps ∧
    w1.created = w.created ∧ w1.destroyed = w.destroyed ∧ w1.nnext = w.nnext ∧
    c1.done = c.done ∧ c1.bro = c.bro ∧ c1.flush = c.flush ∧ c1.in_buf = c.in_buf ∧
    c1.next_in = c.next_in ∧ c1.available_in = c.available_in ∧ c1.redo = c.redo := by
  rcases get_buf_cases env conf w w1 c c1 rc h with
    ⟨_, _, rfl, rfl⟩ | ⟨_, _, rfl, i, rest, _, rfl⟩ | ⟨_, _, _, _, _, rfl, rfl⟩ |
    ⟨_, _, _, _, _, rfl, rfl⟩ | ⟨_, _, _, _, rfl, rfl⟩ <;> simp

theorem chunks_bytes_append (l1 l2 : List ngx_buf_t) :
    chunks_bytes (l1 ++ l2) = chunks_bytes l1 ++ chunks_bytes l2 := by
  induction l1 with
  | nil => rfl
  | cons b l ih => simp [chunks_bytes, ih]

theorem sent_chunks_append (s1 s2 : List (List ngx_buf_t)) :
    sent_chunks (s1 ++ s2) = sent_chunks s1 ++ sent_chunks s2 := by
  induction s1 with
  | nil => rfl
  | cons b l ih => simp [sent_chunks, ih]

theorem sent_bytes_snoc (s : List (List ngx_buf_t)) (chain : List ngx_buf_t) :
    sent_bytes (s ++ [chain]) = sent_bytes s ++ chunks_bytes chain := by
  simp [sent_bytes, sent_chunks_append, chunks_bytes_append, sent_chunks]

theorem chain_bytes_append (heap : List ngx_buf_t) (l1 l2 : List Nat) :
    chain_bytes heap (l1 ++ l2) = chain_bytes heap l1 ++ chain_bytes heap l2 := by
  simp [chain_bytes, chunks_bytes_append]

theorem chain_bytes_single (heap : List ngx_buf_t) (i : Nat) :
    chain_bytes heap [i] = (getBuf heap i).bytes := by
  simp [chain_bytes, chunks_bytes]

theorem chain_bytes_congr (h1 h2 : List ngx_buf_t) (l : List Nat)
    (h : ∀ i ∈ l, (getBuf h1 i).bytes = (getBuf h2 i).bytes) :
    chain_bytes h1 l = chain_bytes h2 l := by
  induction l with
  | nil => rfl
  | cons i l ih =>
      simp only [chain_bytes, List.map_cons, chunks_bytes]
      rw [h i (by simp)]
      congr 1
      exact ih (fun j hj => h j (by simp [hj]))

/-- The encoder respects its cursors: it consumes no more than the input it
is given and writes no more than the output space it is given. -/
def EncoderBounds (enc : BrotliEncoder E) : Prop :=
  ∀ e op inp avail e1 used outb, enc.compressStream e op inp avail = some (e1, used, outb) →
    used ≤ inp.length ∧ outb.length ≤ avail

/-- Layout of a running session: `last_out` at the tail of `out`; the chains
`out`, `busy`, `free` hold distinct valid buffers; free buffers are reset and
carry the module's tag; the module's buffers start at 0 and have
`conf->bufs.size` bytes; no buffer and no chunk handed over carries
`last_buf`; no failure event so far. -/
structure Shape (conf : ngx_http_brotli_conf_t) (w : World E) (c : ngx_http_brotli_ctx_t E) :
    Prop where
  tail : c.last_out = c.out.length
  nodup : (c.out ++ c.busy ++ c.free).Nodup
  valid : ∀ i ∈ c.out ++ c.busy ++ c.free, i < w.heap.length
  free_ok : ∀ i ∈ c.free, (getBuf w.heap i).pos = 0 ∧ (getBuf w.heap i).last = 0 ∧
    (getBuf w.heap i).tag = true
  heap_ok : ∀ i, i < w.heap.length → (getBuf w.heap i).start = 0 ∧
    ((getBuf w.heap i).tag = true → (getBuf w.heap i).mem.length = conf.bufs_size)
  nolast : ∀ i, i < w.heap.length → (getBuf w.heap i).last_buf = false
  sent_nolast : ∀ b ∈ sent_chunks w.sent, b.last_buf = false
  quiet : w.failures = []
  running : c.done = false

/-- Buffer `ob` is the output buffer being filled: it is in none of the
chains, `next_out` is its `last`, and the bytes handed over, those of `out`
and those of `ob` make up what the encoder has produced. -/
structure Live (conf : ngx_http_brotli_conf_t) (w : World E) (c : ngx_http_brotli_ctx_t E)
    (ob : Nat) : Prop where
  cur : c.out_buf = some ob
  valid : ob < w.heap.length
  fresh : ob ∉ c.out ++ c.busy ++ c.free
  pos0 : (getBuf w.heap ob).pos = 0
  last : (getBuf w.heap ob).last = c.next_out
  room : c.next_out + c.available_out = conf.bufs_size
  size : (getBuf w.heap ob).mem.length = conf.bufs_size
  bytes : sent_bytes w.sent ++ chain_bytes w.heap c.out ++ (getBuf w.heap ob).bytes = w.produced

/-- No output buffer is being filled, and the bytes handed over and those of
`out` make up what the encoder has produced. -/
def Rest (w : World E) (c : ngx_http_brotli_ctx_t E) : Prop :=
  c.available_out = 0 ∧ sent_bytes w.sent ++ chain_bytes w.heap c.out = w.produced

/-- The output-side invariant at the head of the loops. -/
def OutRun (conf : ngx_http_brotli_conf_t) (w : World E) (c : ngx_http_brotli_ctx_t E) : Prop :=
  Shape conf w c ∧ c.bro ≠ none ∧ ((∃ ob, Live conf w c ob ∧ c.available_out ≠ 0) ∨ Rest w c)

/-- The output-side invariant before `compress`. -/
def OutReady (conf : ngx_http_brotli_conf_t) (w : World E) (c : ngx_http_brotli_ctx_t E) :
    Prop :=
  Shape conf w c ∧ c.bro ≠ none ∧ ∃ ob, Live conf w c ob

/-- The session right after `filter_end`: the last link of `out` is the one
buffer flagged `last_buf`. -/
def OutEnded (w : World E) (c : ngx_http_brotli_ctx_t E) : Prop :=
  c.done = true ∧ w.failures = [] ∧
  (∃ pre ob, c.out = pre ++ [ob] ∧ (getBuf w.heap ob).last_buf = true ∧
    ∀ i ∈ pre, (getBuf w.heap i).last_buf = false) ∧
  (∀ b ∈ sent_chunks w.sent, b.last_buf = false) ∧
  sent_bytes w.sent ++ chain_bytes w.heap c.out = w.produced

/-- The session after the final hand-over: what was handed over is what the
encoder produced, and exactly the last chunk handed over carries `last_buf`. -/
def OutDone (w : World E) (c : ngx_http_brotli_ctx_t E) : Prop :=
  c.done = true ∧ sent_bytes w.sent = w.produced ∧
  ∃ init b, sent_chunks w.sent = init ++ [b] ∧ b.last_buf = true ∧
    ∀ x ∈ init, x.last_buf = false

theorem shape_transfer {conf : ngx_http_brotli_conf_t} {w w1 : World E}
    {c c1 : ngx_http_brotli_ctx_t E} (h : Shape conf w c)
    (hh : w1.heap = w.heap) (hs : w1.sent = w.sent) (hf : w1.failures = w.failures)
    (h1 : c1.last_out = c.last_out) (h2 : c1.out = c.out) (h3 : c1.busy = c.busy)
    (h4 : c1.free = c.free) (h5 : c1.done = c.done) : Shape conf w1 c1 where
  tail := by rw [h1, h2]; exact h.tail
  nodup := by rw [h2, h3, h4]; exact h.nodup
  valid := by rw [h2, h3, h4, hh]; exact h.valid
  free_ok := by rw [h4, hh]; exact h.free_ok
  heap_ok := by rw [hh]; exact h.heap_ok
  nolast := by rw [hh]; exact h.nolast
  sent_nolast := by rw [hs]; exact h.sent_nolast
  quiet := by rw [hf]; exact h.quiet
  running := by rw [h5]; exact h.running

theorem live_transfer {conf : ngx_http_brotli_conf_t} {w w1 : World E}
    {c c1 : ngx_http_brotli_ctx_t E} {ob : Nat} (h : Live conf w c ob)
    (hh : w1.heap = w.heap) (hs : w1.sent = w.sent) (hp : w1.produced = w.produced)
    (h1 : c1.out_buf = c.out_buf) (h2 : c1.out = c.out) (h3 : c1.busy = c.busy)
    (h4 : c1.free = c.free) (h5 : c1.next_out = c.next_out)
    (h6 : c1.available_out = c.available_out) : Live conf w1 c1 ob where
  cur := by rw [h1]; exact h.cur
  valid := by rw [hh]; exact h.valid
  fresh := by rw [h2, h3, h4]; exact h.fresh
  pos0 := by rw [hh]; exact h.pos0
  last := by rw [hh, h5]; exact h.last
  room := by rw [h5, h6]; exact h.room
  size := by rw [hh]; exact h.size
  bytes := by rw [hh, hs, hp, h2]; exact h.bytes

theorem outrun_transfer {conf : ngx_http_brotli_conf_t} {w w1 : World E}
    {c c1 : ngx_http_brotli_ctx_t E} (h : OutRun conf w c)
    (hh : w1.heap = w.heap) (hs : w1.sent = w.sent) (hf : w1.failures = w.failures)
    (hp : w1.produced = w.produced)
    (h1 : c1.last_out = c.last_out) (h2 : c1.out = c.out) (h3 : c1.busy = c.busy)
    (h4 : c1.free = c.free) (h5 : c1.done = c.done) (h6 : c1.out_buf = c.out_buf)
    (h7 : c1.next_out = c.next_out) (h8 : c1.available_out = c.available_out)
    (h9 : c1.bro = c.bro) : OutRun conf w1 c1 := by
  obtain ⟨a, b, d⟩ := h
  refine ⟨shape_transfer a hh hs hf h1 h2 h3 h4 h5, by rw [h9]; exact b, ?_⟩
  rcases d with ⟨ob, l, n⟩ | ⟨r1, r2⟩
  · exact Or.inl ⟨ob, live_transfer l hh hs hp h6 h2 h3 h4 h7 h8, by rw [h8]; exact n⟩
  · exact Or.inr ⟨by rw [h8]; exact r1, by rw [hh, hs, hp, h2]; exact r2⟩

theorem out_add (conf : ngx_http_brotli_conf_t) (w : World E) (c : ngx_http_brotli_ctx_t E)
    (rc : Int) (c1 : ngx_http_brotli_ctx_t E) (hI : OutRun conf w c)
    (h : ngx_http_brotli_filter_add_data c = (rc, c1)) : OutRun conf w c1 := by
  obtain ⟨a1, a2, a3, a4, a5, a6, a7, a8, a9, _⟩ := add_data_frame c rc c1 h
  exact outrun_transfer hI rfl rfl rfl rfl a8 a5 a6 a7 a1 a4 a9 a3 a2

theorem bytes_of_reset (b : ngx_buf_t) (h1 : b.pos = 0) (h2 : b.last = 0) : b.bytes = [] := by
  simp [ngx_buf_t.bytes, h1, h2]

theorem out_get (conf : ngx_http_brotli_conf_t) (env : Env) (w : World E)
    (c : ngx_http_brotli_ctx_t E) (rc : Int) (w1 : World E) (c1 : ngx_http_brotli_ctx_t E)
    (hI : OutRun conf w c)
    (h : ngx_http_brotli_filter_get_buf env conf w c = (rc, w1, c1)) :
    (rc = NGX_DECLINED → OutRun conf w1 c1) ∧ (rc = NGX_ERROR → w1.failures ≠ []) ∧
    (rc ≠ NGX_DECLINED → rc ≠ NGX_ERROR → OutReady conf w1 c1) := by
  obtain ⟨hS, hB, hL⟩ := hI
  rcases get_buf_cases env conf w w1 c c1 rc h with
    ⟨rfl, ha, hw, hc⟩ | ⟨rfl, ha, hw, i, rest, hf, hc⟩ | ⟨rfl, ha, hf, hlt, hok, hw, hc⟩ |
    ⟨rfl, ha, hf, hlt, hok, hw, hc⟩ | ⟨rfl, ha, hf, hlt, hw, hc⟩
  · -- output space left
    rw [hw, hc]
    refine ⟨fun h => absurd h (by decide), fun h => absurd h (by decide), fun _ _ => ?_⟩
    rcases hL with ⟨ob, l, _⟩ | ⟨r1, _⟩
    · exact ⟨hS, hB, ob, l⟩
    · exact absurd r1 ha
  · -- a free buffer
    rw [hw, hc]
    refine ⟨fun h => absurd h (by decide), fun h => absurd h (by decide), fun _ _ => ?_⟩
    have hr : sent_bytes w.sent ++ chain_bytes w.heap c.out = w.produced := by
      rcases hL with ⟨ob, _, n⟩ | ⟨_, r2⟩
      · exact absurd ha n
      · exact r2
    have hnd := hS.nodup
    rw [hf] at hnd
    have hi_free : i ∈ c.free := by rw [hf]; simp
    obtain ⟨f1, f2, f3⟩ := hS.free_ok i hi_free
    have hiv : i < w.heap.length := hS.valid i (by simp [hi_free])
    refine ⟨⟨hS.tail, ?_, ?_, ?_, hS.heap_ok, hS.nolast, hS.sent_nolast, hS.quiet, hS.running⟩,
      hB, i, ⟨rfl, hiv, ?_, f1, ?_, ?_, ?_, ?_⟩⟩
    · show (c.out ++ c.busy ++ rest).Nodup
      have := hnd
      rw [List.nodup_append] at this ⊢
      obtain ⟨n1, n2, n3⟩ := this
      exact ⟨n1, (List.nodup_cons.mp n2).2, fun x hx1 hx2 => n3 hx1 (List.mem_cons_of_mem _ hx2)⟩
    · intro j hj
      apply hS.valid
      simp only [List.mem_append] at hj ⊢
      rcases hj with hj | hj
      · exact Or.inl hj
      · right; rw [hf]; exact List.mem_cons_of_mem _ hj
    · intro j hj
      apply hS.free_ok
      rw [hf]; exact List.mem_cons_of_mem _ hj
    · show i ∉ c.out ++ c.busy ++ rest
      rw [List.nodup_append] at hnd
      obtain ⟨n1, n2, n3⟩ := hnd
      intro hi
      rw [List.mem_append] at hi
      rcases hi with hi | hi
      · exact n3 hi (by simp)
      · exact (List.nodup_cons.mp n2).1 hi
    · show (getBuf w.heap i).last = (getBuf w.heap i).pos
      rw [f1, f2]
    · show (getBuf w.heap i).pos + conf.bufs_size = conf.bufs_size
      rw [f1]; simp
    · exact (hS.heap_ok i hiv).2 f3
    · show sent_bytes w.sent ++ chain_bytes w.heap c.out ++ (getBuf w.heap i).bytes = w.produced
      rw [bytes_of_reset _ f1 f2, List.append_nil]
      exact hr
  · -- a new buffer
    rw [hw, hc]
    refine ⟨fun h => absurd h (by decide), fun h => absurd h (by decide), fun _ _ => ?_⟩
    have hr : sent_bytes w.sent ++ chain_bytes w.heap c.out = w.produced := by
      rcases hL with ⟨ob, _, n⟩ | ⟨_, r2⟩
      · exact absurd ha n
      · exact r2
    have hold : ∀ j, j < w.heap.length →
        getBuf (w.heap ++ [tagged_temp_buf conf.bufs_size]) j = getBuf w.heap j :=
      fun j hj => getBuf_append_left _ _ _ hj
    have hnew := getBuf_append_new w.heap (tagged_temp_buf conf.bufs_size)
    have hcases : ∀ j, j < (w.heap ++ [tagged_temp_buf conf.bufs_size]).length →
        j < w.heap.length ∨ j = w.heap.length := by
      intro j hj
      simp at hj
      omega
    refine ⟨⟨hS.tail, hS.nodup, ?_, ?_, ?_, ?_, hS.sent_nolast, hS.quiet, hS.running⟩,
      hB, w.heap.length, ⟨rfl, ?_, ?_, ?_, ?_, ?_, ?_, ?_⟩⟩
    · intro j hj
      have := hS.valid j hj
      show j < (w.heap ++ _).length
      simp; omega
    · intro j hj
      have hv := hS.valid j (by simp [hj])
      show (getBuf (w.heap ++ _) j).pos = 0 ∧ _
      rw [hold j hv]
      exact hS.free_ok j hj
    · intro j hj
      show (getBuf (w.heap ++ _) j).start = 0 ∧ _
      rcases hcases j hj with hj | rfl
      · rw [hold j hj]; exact hS.heap_ok j hj
      · rw [hnew]; exact ⟨rfl, fun _ => by simp [tagged_temp_buf]⟩
    · intro j hj
      show (getBuf (w.heap ++ _) j).last_buf = false
      rcases hcases j hj with hj | rfl
      · rw [hold j hj]; exact hS.nolast j hj
      · rw [hnew]; rfl
    · show w.heap.length < (w.heap ++ _).length
      simp
    · intro hmem
      have := hS.valid _ hmem
      omega
    · show (getBuf (w.heap ++ _) w.heap.length).pos = 0
      rw [hnew]; rfl
    · show (getBuf (w.heap ++ _) w.heap.length).last = 0
      rw [hnew]; rfl
    · show 0 + conf.bufs_size = conf.bufs_size
      simp
    · show (getBuf (w.heap ++ _) w.heap.length).mem.length = conf.bufs_size
      rw [hnew]; simp [tagged_temp_buf]
    · show sent_bytes w.sent ++ chain_bytes (w.heap ++ _) c.out
          ++ (getBuf (w.heap ++ _) w.heap.length).bytes = w.produced
      rw [hnew]
      have : chain_bytes (w.heap ++ [tagged_temp_buf conf.bufs_size]) c.out
          = chain_bytes w.heap c.out :=
        chain_bytes_congr _ _ _ (fun j hj => by rw [hold j (hS.valid j (by simp [hj]))])
      rw [this]
      simp [ngx_buf_t.bytes, zero_buf, tagged_temp_buf]
      exact hr
  · -- the allocation is refused
    rw [hw]
    exact ⟨fun h => absurd h (by decide), fun _ => by simp, fun _ h => absurd rfl h⟩
  · -- out of buffers
    rw [hw, hc]
    refine ⟨fun _ => ?_, fun h => absurd h (by decide), fun h _ => absurd rfl h⟩
    exact outrun_transfer ⟨hS, hB, hL⟩ rfl rfl rfl rfl rfl rfl rfl rfl rfl rfl rfl rfl rfl

theorem write_mem_length (mem : List Nat) (o : Nat) (bs : List Nat)
    (h : o + bs.length ≤ mem.length) : (write_mem mem o bs).length = mem.length := by
  simp [write_mem]
  omega

theorem write_mem_take (mem : List Nat) (o : Nat) (bs : List Nat) (h : o ≤ mem.length) :
    (write_mem mem o bs).take (o + bs.length) = mem.take o ++ bs := by
  unfold write_mem
  rw [List.append_assoc, List.take_append_eq_append_take, List.take_append_eq_append_take]
  simp [List.length_take, Nat.min_eq_left h]

theorem encoder_call_heap (w : World E) (c : ngx_http_brotli_ctx_t E) (ob used : Nat)
    (outb : List Nat) (hv : ob < w.heap.length) (j : Nat) :
    getBuf (encoder_call_world w c ob used outb).heap j =
      if j = ob then
        { getBuf w.heap ob with mem := write_mem (getBuf w.heap ob).mem c.next_out outb,
                                last := c.next_out + outb.length }
      else getBuf w.heap j := by
  unfold encoder_call_world
  simp only [getBuf_updBuf, length_updBuf]
  by_cases h : j = ob
  · subst h
    simp [hv]
  · have h' : ¬ ob = j := fun e => h e.symm
    simp [h, h']

theorem nodup_link (o b f : List Nat) (x : Nat) (h : (o ++ b ++ f).Nodup)
    (hx : x ∉ o ++ b ++ f) : (o ++ [x] ++ b ++ f).Nodup := by
  have : (o ++ [x] ++ b ++ f).Perm (x :: (o ++ b ++ f)) := by
    simp only [List.append_assoc]
    exact List.perm_middle
  rw [this.nodup_iff]
  exact List.nodup_cons.mpr ⟨hx, h⟩

theorem mem_link (o b f : List Nat) (x j : Nat) :
    j ∈ o ++ [x] ++ b ++ f ↔ j = x ∨ j ∈ o ++ b ++ f := by
  simp only [List.mem_append, List.mem_singleton]
  tauto

/-- The encoder call keeps the layout and the output buffer in step with what
the encoder has produced. -/
theorem live_step (conf : ngx_http_brotli_conf_t) (w : World E)
    (c : ngx_http_brotli_ctx_t E) (ob : Nat) (e1 : E) (used : Nat) (outb : List Nat)
    (hS : Shape conf w c) (hL : Live conf w c ob) (hn : outb.length ≤ c.available_out) :
    Shape conf (encoder_call_world w c ob used outb) (encoder_call_ctx c e1 used outb) ∧
    Live conf (encoder_call_world w c ob used outb) (encoder_call_ctx c e1 used outb) ob := by
  have hg := encoder_call_heap w c ob used outb hL.valid
  have hlen := encoder_call_world_heap_length w c ob used outb
  have hroom := hL.room
  have hsz := hL.size
  have hother : ∀ j, j ≠ ob →
      getBuf (encoder_call_world w c ob used outb).heap j = getBuf w.heap j := by
    intro j hj
    rw [hg j, if_neg hj]
  have hself : getBuf (encoder_call_world w c ob used outb).heap ob =
      { getBuf w.heap ob with mem := write_mem (getBuf w.heap ob).mem c.next_out outb,
                              last := c.next_out + outb.length } := by
    rw [hg ob, if_pos rfl]
  have hne : ∀ j ∈ c.out ++ c.busy ++ c.free, j ≠ ob := by
    intro j hj e
    rw [e] at hj
    exact hL.fresh hj
  constructor
  · refine ⟨hS.tail, hS.nodup, ?_, ?_, ?_, ?_, hS.sent_nolast, hS.quiet, hS.running⟩
    · intro j hj
      rw [hlen]; exact hS.valid j hj
    · intro j hj
      have hj' : j ∈ c.free := hj
      rw [hother j (hne j (by simp [hj']))]
      exact hS.free_ok j hj'
    · intro j hj
      rw [hlen] at hj
      by_cases hjo : j = ob
      · subst hjo
        rw [hself]
        refine ⟨(hS.heap_ok j hj).1, fun _ => ?_⟩
        show (write_mem (getBuf w.heap j).mem c.next_out outb).length = conf.bufs_size
        rw [write_mem_length _ _ _ (by omega)]
        exact hsz
      · rw [hother j hjo]; exact hS.heap_ok j hj
    · intro j hj
      rw [hlen] at hj
      by_cases hjo : j = ob
      · subst hjo
        rw [hself]
        exact hS.nolast j hj
      · rw [hother j hjo]; exact hS.nolast j hj
  · refine ⟨hL.cur, by rw [hlen]; exact hL.valid, hL.fresh, ?_, ?_, ?_, ?_, ?_⟩
    · rw [hself]; exact hL.pos0
    · rw [hself]; rfl
    · show c.next_out + outb.length + (c.available_out - outb.length) = conf.bufs_size
      omega
    · rw [hself]
      show (write_mem (getBuf w.heap ob).mem c.next_out outb).length = conf.bufs_size
      rw [write_mem_length _ _ _ (by omega)]
      exact hsz
    · have hb1 : (getBuf (encoder_call_world w c ob used outb).heap ob).bytes
          = (getBuf w.heap ob).bytes ++ outb := by
        rw [hself]
        simp only [ngx_buf_t.bytes, hL.pos0, hL.last, List.drop_zero, Nat.sub_zero]
        rw [write_mem_take _ _ _ (by omega)]
      have hb2 : chain_bytes (encoder_call_world w c ob used outb).heap c.out
          = chain_bytes w.heap c.out :=
        chain_bytes_congr _ _ _ (fun j hj => by
          rw [hother j (hne j (by simp [hj]))])
      show sent_bytes w.sent ++ chain_bytes (encoder_call_world w c ob used outb).heap c.out
          ++ (getBuf (encoder_call_world w c ob used outb).heap ob).bytes = w.produced ++ outb
      rw [hb1, hb2, ← List.append_assoc, hL.bytes]

/-- Two buffer headers that differ at most in their flags. -/
def SameData (b b1 : ngx_buf_t) : Prop :=
  b1.pos = b.pos ∧ b1.last = b.last ∧ b1.start = b.start ∧ b1.mem = b.mem ∧ b1.tag = b.tag

theorem sameData_bytes {b b1 : ngx_buf_t} (h : SameData b b1) : b1.bytes = b.bytes := by
  obtain ⟨h1, h2, _, h4, _⟩ := h
  simp [ngx_buf_t.bytes, h1, h2, h4]

theorem shape_reheap {conf : ngx_http_brotli_conf_t} {w w1 : World E}
    {c c1 : ngx_http_brotli_ctx_t E} (h : Shape conf w c)
    (hlen : w1.heap.length = w.heap.length)
    (hd : ∀ j, SameData (getBuf w.heap j) (getBuf w1.heap j))
    (hl : ∀ j, j < w.heap.length → (getBuf w1.heap j).last_buf = false)
    (hs : w1.sent = w.sent) (hf : w1.failures = w.failures)
    (h1 : c1.last_out = c.last_out) (h2 : c1.out = c.out) (h3 : c1.busy = c.busy)
    (h4 : c1.free = c.free) (h5 : c1.done = c.done) : Shape conf w1 c1 where
  tail := by rw [h1, h2]; exact h.tail
  nodup := by rw [h2, h3, h4]; exact h.nodup
  valid := by rw [h2, h3, h4, hlen]; exact h.valid
  free_ok := by
    intro i hi
    rw [h4] at hi
    obtain ⟨a1, a2, _, _, a5⟩ := hd i
    rw [a1, a2, a5]
    exact h.free_ok i hi
  heap_ok := by
    intro i hi
    rw [hlen] at hi
    obtain ⟨_, _, a3, a4, a5⟩ := hd i
    rw [a3, a4, a5]
    exact h.heap_ok i hi
  nolast := by rw [hlen]; exact hl
  sent_nolast := by rw [hs]; exact h.sent_nolast
  quiet := by rw [hf]; exact h.quiet
  running := by rw [h5]; exact h.running

theorem updBuf_sameData (heap : List ngx_buf_t) (ob : Nat) (f : ngx_buf_t → ngx_buf_t)
    (hf : ∀ b, SameData b (f b)) (j : Nat) :
    SameData (getBuf heap j) (getBuf (updBuf heap ob f) j) := by
  rw [getBuf_updBuf]
  split
  · rename_i h
    rw [← h.1]
    exact hf _
  · exact ⟨rfl, rfl, rfl, rfl, rfl⟩

theorem take_tail_append (l : List Nat) (n x : Nat) (h : n = l.length) :
    l.take n ++ [x] = l ++ [x] := by
  rw [h, List.take_length]

/-- `compress` keeps the output-side invariant, ends the session, or logs a
failure. -/
theorem out_cmp (enc : BrotliEncoder E) (hb : EncoderBounds enc)
    (conf : ngx_http_brotli_conf_t) (env : Env) (w : World E)
    (c : ngx_http_brotli_ctx_t E) (rc : Int) (w1 : World E) (c1 : ngx_http_brotli_ctx_t E)
    (hJ : OutReady conf w c)
    (h : ngx_http_brotli_filter_compress enc env w c = (rc, w1, c1)) :
    (rc = NGX_ERROR → w1.failures ≠ []) ∧
    (rc = NGX_OK → OutRun conf w1 c1 ∨ OutEnded w1 c1) ∧
    (rc ≠ NGX_ERROR → rc ≠ NGX_OK → OutRun conf w1 c1) := by
  obtain ⟨hS, hB, ob, hL⟩ := hJ
  have hcase := compress_cases enc env w c rc w1 c1 h
  have key : ∀ e ob' e1 used outb, Stepped enc c e ob' e1 used outb →
      ob' = ob ∧
      Shape conf (encoder_call_world w c ob used outb) (encoder_call_ctx c e1 used outb) ∧
      Live conf (encoder_call_world w c ob used outb) (encoder_call_ctx c e1 used outb) ob := by
    intro e ob' e1 used outb hs
    have ho : ob' = ob := by
      have := hs.2.1
      rw [hL.cur] at this
      exact (Option.some.inj this).symm
    exact ⟨ho, live_step conf w c ob e1 used outb hS hL (hb _ _ _ _ _ _ _ hs.2.2).2⟩
  cases hcase with
  | null hn =>
      exact ⟨fun _ => by simp [World.fail], fun h => absurd h (by decide), fun h => absurd rfl h⟩
  | step_failed e ob' hbro ho hs =>
      exact ⟨fun _ => by simp [World.fail], fun h => absurd h (by decide), fun h => absurd rfl h⟩
  | full_nolink e ob' e1 used outb hs h0 ha =>
      exact ⟨fun _ => by simp, fun h => absurd h (by decide), fun h => absurd rfl h⟩
  | flush_nolink e ob' e1 used outb hs h0 hf ha =>
      exact ⟨fun _ => by simp, fun h => absurd h (by decide), fun h => absurd rfl h⟩
  | flush_nomarker e ob' e1 used outb hs h0 hf ha hz ha2 =>
      exact ⟨fun _ => by simp, fun h => absurd h (by decide), fun h => absurd rfl h⟩
  | end_nolink e ob' e1 used outb hs h0 hf hfin ha =>
      exact ⟨fun _ => by simp, fun h => absurd h (by decide), fun h => absurd rfl h⟩
  | full e ob' e1 used outb hs h0 ha =>
      obtain ⟨rfl, hS1, hL1⟩ := key e ob' e1 used outb hs
      refine ⟨fun h => absurd h (by decide), fun h => absurd h (by decide), fun _ _ => ?_⟩
      refine ⟨⟨?_, ?_, ?_, hS1.free_ok, hS1.heap_ok, hS1.nolast, hS1.sent_nolast, hS1.quiet,
        hS1.running⟩, by simp [link_out, encoder_call_ctx], Or.inr ⟨h0, ?_⟩⟩
      · show c.last_out + 1 = (c.out.take c.last_out ++ [ob']).length
        rw [take_tail_append _ _ _ hS.tail, hS.tail]; simp
      · show (c.out.take c.last_out ++ [ob'] ++ c.busy ++ c.free).Nodup
        rw [take_tail_append _ _ _ hS.tail]
        exact nodup_link _ _ _ _ hS.nodup hL.fresh
      · intro j hj
        have hj' : j ∈ c.out.take c.last_out ++ [ob'] ++ c.busy ++ c.free := hj
        rw [take_tail_append _ _ _ hS.tail, mem_link] at hj'
        rcases hj' with rfl | hj'
        · exact hL1.valid
        · exact hS1.valid j hj'
      · show sent_bytes w.sent
            ++ chain_bytes (encoder_call_world w c ob' used outb).heap
                (c.out.take c.last_out ++ [ob']) = w.produced ++ outb
        rw [take_tail_append _ _ _ hS.tail, chain_bytes_append, chain_bytes_single,
          ← List.append_assoc]
        exact hL1.bytes
  | flush_marker e ob' e1 used outb hs h0 hf ha hz ha2 =>
      obtain ⟨rfl, hS1, hL1⟩ := key e ob' e1 used outb hs
      refine ⟨fun h => absurd h (by decide), fun _ => Or.inl ?_, fun _ h => absurd rfl h⟩
      have hlen := encoder_call_world_heap_length w c ob' used outb
      have hold : ∀ j, j < w.heap.length →
          getBuf ((encoder_call_world w c ob' used outb).heap ++ [{ zero_buf with flush := true }]) j
            = getBuf (encoder_call_world w c ob' used outb).heap j :=
        fun j hj => getBuf_append_left _ _ _ (by rw [hlen]; exact hj)
      have hnew := getBuf_append_new (encoder_call_world w c ob' used outb).heap
        { zero_buf with flush := true }
      have hm : (encoder_call_world w c ob' used outb).heap.length ∉ c.out ++ c.busy ++ c.free := by
        intro hmem
        have := hS1.valid _ hmem
        omega
      have hsplit : ∀ j, j < w.heap.length + 1 → j < w.heap.length ∨
          j = (encoder_call_world w c ob' used outb).heap.length := by
        intro j hj
        rw [hlen]; omega
      refine ⟨⟨?_, ?_, ?_, ?_, ?_, ?_, hS1.sent_nolast, hS1.quiet, hS1.running⟩,
        by simp [link_out, encoder_call_ctx], Or.inl ⟨ob', ⟨hL1.cur, ?_, ?_, ?_, ?_, hL1.room, ?_, ?_⟩, h0⟩⟩
      · show c.last_out + 1 = (c.out.take c.last_out ++ [(encoder_call_world w c ob' used outb).heap.length]).length
        rw [take_tail_append _ _ _ hS.tail, hS.tail]; simp
      · show (c.out.take c.last_out ++ [(encoder_call_world w c ob' used outb).heap.length] ++ c.busy ++ c.free).Nodup
        rw [take_tail_append _ _ _ hS.tail]
        exact nodup_link _ _ _ _ hS.nodup hm
      · intro j hj
        have hj' : j ∈ c.out.take c.last_out ++ [(encoder_call_world w c ob' used outb).heap.length] ++ c.busy ++ c.free := hj
        rw [take_tail_append _ _ _ hS.tail, mem_link] at hj'
        show j < ((encoder_call_world w c ob' used outb).heap ++ _).length
        rcases hj' with rfl | hj'
        · simp
        · have := hS1.valid j hj'
          simp; omega
      · intro j hj
        have hv := hS.valid j (by simp [show j ∈ c.free from hj])
        show (getBuf ((encoder_call_world w c ob' used outb).heap ++ _) j).pos = 0 ∧ _
        rw [hold j hv]
        exact hS1.free_ok j hj
      · intro j hj
        have hj' : j < w.heap.length + 1 := by
          have : j < ((encoder_call_world w c ob' used outb).heap
              ++ [{ zero_buf with flush := true }]).length := hj
          simpa [hlen] using this
        show (getBuf ((encoder_call_world w c ob' used outb).heap ++ _) j).start = 0 ∧ _
        rcases hsplit j hj' with hj2 | rfl
        · rw [hold j hj2]; exact hS1.heap_ok j (by rw [hlen]; exact hj2)
        · rw [hnew]; exact ⟨rfl, fun h => absurd h (by simp [zero_buf])⟩
      · intro j hj
        have hj' : j < w.heap.length + 1 := by
          have : j < ((encoder_call_world w c ob' used outb).heap
              ++ [{ zero_buf with flush := true }]).length := hj
          simpa [hlen] using this
        show (getBuf ((encoder_call_world w c ob' used outb).heap ++ _) j).last_buf = false
        rcases hsplit j hj' with hj2 | rfl
        · rw [hold j hj2]; exact hS1.nolast j (by rw [hlen]; exact hj2)
        · rw [hnew]; rfl
      · show ob' < ((encoder_call_world w c ob' used outb).heap ++ _).length
        have := hL1.valid
        simp; omega
      · show ob' ∉ c.out.take c.last_out ++ [(encoder_call_world w c ob' used outb).heap.length] ++ c.busy ++ c.free
        rw [take_tail_append _ _ _ hS.tail, mem_link]
        intro hmem
        rcases hmem with hmem | hmem
        · have := hL1.valid
          omega
        · exact hL.fresh hmem
      · show (getBuf ((encoder_call_world w c ob' used outb).heap ++ _) ob').pos = 0
        rw [hold ob' hL.valid]; exact hL1.pos0
      · show (getBuf ((encoder_call_world w c ob' used outb).heap ++ _) ob').last = _
        rw [hold ob' hL.valid]; exact hL1.last
      · show (getBuf ((encoder_call_world w c ob' used outb).heap ++ _) ob').mem.length = _
        rw [hold ob' hL.valid]; exact hL1.size
      · show sent_bytes w.sent
            ++ chain_bytes ((encoder_call_world w c ob' used outb).heap ++ _)
                (c.out.take c.last_out ++ [(encoder_call_world w c ob' used outb).heap.length])
            ++ (getBuf ((encoder_call_world w c ob' used outb).heap ++ _) ob').bytes
            = w.produced ++ outb
        rw [take_tail_append _ _ _ hS.tail, chain_bytes_append, chain_bytes_single, hnew,
          hold ob' hL.valid]
        have hcb : chain_bytes ((encoder_call_world w c ob' used outb).heap
              ++ [{ zero_buf with flush := true }]) c.out
            = chain_bytes (encoder_call_world w c ob' used outb).heap c.out :=
          chain_bytes_congr _ _ _ (fun j hj => by rw [hold j (hS.valid j (by simp [hj]))])
        rw [hcb]
        have hz0 : ({ zero_buf with flush := true } : ngx_buf_t).bytes = [] := by
          simp [ngx_buf_t.bytes, zero_buf]
        rw [hz0, List.append_nil]
        exact hL1.bytes
  | flush_buf e ob' e1 used outb hs h0 hf ha hz =>
      obtain ⟨rfl, hS1, hL1⟩ := key e ob' e1 used outb hs
      refine ⟨fun h => absurd h (by decide), fun _ => Or.inl ?_, fun _ h => absurd rfl h⟩
      have hsd := updBuf_sameData (encoder_call_world w c ob' used outb).heap ob'
        (fun b => { b with flush := true }) (fun b => ⟨rfl, rfl, rfl, rfl, rfl⟩)
      have hS2 : Shape conf
          ({ encoder_call_world w c ob' used outb with
              nalloc := w.nalloc + 1, buffered := false,
              heap := updBuf (encoder_call_world w c ob' used outb).heap ob'
                        (fun b => { b with flush := true }) } : World E)
          (encoder_call_ctx c e1 used outb) :=
        shape_reheap hS1 (by simp [length_updBuf]) hsd
          (fun j hj => by
            rw [getBuf_updBuf]
            split
            · rename_i hh
              exact hS1.nolast _ hh.2
            · exact hS1.nolast j hj) rfl rfl rfl rfl rfl rfl rfl
      refine ⟨⟨?_, ?_, ?_, hS2.free_ok, hS2.heap_ok, hS2.nolast, hS2.sent_nolast, hS2.quiet,
        hS2.running⟩, by simp [link_out, encoder_call_ctx], Or.inr ⟨rfl, ?_⟩⟩
      · show c.last_out + 1 = (c.out.take c.last_out ++ [ob']).length
        rw [take_tail_append _ _ _ hS.tail, hS.tail]; simp
      · show (c.out.take c.last_out ++ [ob'] ++ c.busy ++ c.free).Nodup
        rw [take_tail_append _ _ _ hS.tail]
        exact nodup_link _ _ _ _ hS.nodup hL.fresh
      · intro j hj
        have hj' : j ∈ c.out.take c.last_out ++ [ob'] ++ c.busy ++ c.free := hj
        rw [take_tail_append _ _ _ hS.tail, mem_link] at hj'
        rcases hj' with rfl | hj'
        · dsimp only
          rw [length_updBuf]; exact hL1.valid
        · exact hS2.valid j hj'
      · show sent_bytes w.sent
            ++ chain_bytes (updBuf (encoder_call_world w c ob' used outb).heap ob'
                  (fun b => { b with flush := true }))
                (c.out.take c.last_out ++ [ob']) = w.produced ++ outb
        have hcb : chain_bytes (updBuf (encoder_call_world w c ob' used outb).heap ob'
                  (fun b => { b with flush := true })) (c.out ++ [ob'])
            = chain_bytes (encoder_call_world w c ob' used outb).heap (c.out ++ [ob']) :=
          chain_bytes_congr _ _ _ (fun j _ => sameData_bytes (hsd j))
        rw [take_tail_append _ _ _ hS.tail, hcb, chain_bytes_append, chain_bytes_single,
          ← List.append_assoc]
        exact hL1.bytes
  | ended e ob' e1 used outb hs h0 hf hfin ha =>
      obtain ⟨rfl, hS1, hL1⟩ := key e ob' e1 used outb hs
      refine ⟨fun h => absurd h (by decide), fun _ => Or.inr ?_, fun _ h => absurd rfl h⟩
      have hsd := updBuf_sameData (encoder_call_world w c ob' used outb).heap ob'
        (fun b => { b with last_buf := true }) (fun b => ⟨rfl, rfl, rfl, rfl, rfl⟩)
      refine ⟨rfl, hS1.quiet, ⟨c.out, ob', ?_, ?_, ?_⟩, hS1.sent_nolast, ?_⟩
      · show c.out.take c.last_out ++ [ob'] = c.out ++ [ob']
        exact take_tail_append _ _ _ hS.tail
      · show (getBuf (updBuf (encoder_call_world w c ob' used outb).heap ob'
                  (fun b => { b with last_buf := true })) ob').last_buf = true
        rw [getBuf_updBuf_self _ _ _ hL1.valid]
      · intro i hi
        show (getBuf (updBuf (encoder_call_world w c ob' used outb).heap ob'
                  (fun b => { b with last_buf := true })) i).last_buf = false
        have hne : ob' ≠ i := by
          intro e
          rw [← e] at hi
          exact hL.fresh (by simp [hi])
        rw [getBuf_updBuf_ne _ _ _ _ hne]
        exact hS1.nolast i (hS1.valid i (by
          have : i ∈ c.out ++ c.busy ++ c.free := by simp [hi]
          exact this))
      · show sent_bytes w.sent
            ++ chain_bytes (updBuf (encoder_call_world w c ob' used outb).heap ob'
                  (fun b => { b with last_buf := true }))
                (c.out.take c.last_out ++ [ob']) = w.produced ++ outb
        have hcb : chain_bytes (updBuf (encoder_call_world w c ob' used outb).heap ob'
                  (fun b => { b with last_buf := true })) (c.out ++ [ob'])
            = chain_bytes (encoder_call_world w c ob' used outb).heap (c.out ++ [ob']) :=
          chain_bytes_congr _ _ _ (fun j _ => sameData_bytes (hsd j))
        rw [take_tail_append _ _ _ hS.tail, hcb, chain_bytes_append, chain_bytes_single,
          ← List.append_assoc]
        exact hL1.bytes
  | more e ob' e1 used outb hs h0 hf hfin =>
      obtain ⟨rfl, hS1, hL1⟩ := key e ob' e1 used outb hs
      refine ⟨fun h => absurd h (by decide), fun h => absurd h (by decide), fun _ _ => ?_⟩
      exact ⟨shape_transfer hS1 rfl rfl rfl rfl rfl rfl rfl rfl, by simp [encoder_call_ctx],
        Or.inl ⟨ob', live_transfer hL1 rfl rfl rfl rfl rfl rfl rfl rfl rfl, h0⟩⟩

/-- Two buffer headers that differ at most in `pos` and `last`. -/
def SameStore (b b1 : ngx_buf_t) : Prop :=
  b1.start = b.start ∧ b1.mem = b.mem ∧ b1.tag = b.tag ∧ b1.flush = b.flush ∧
  b1.last_buf = b.last_buf ∧ b1.recycled = b.recycled

theorem sameStore_refl (b : ngx_buf_t) : SameStore b b := ⟨rfl, rfl, rfl, rfl, rfl, rfl⟩

theorem sameStore_trans {a b c : ngx_buf_t} (h1 : SameStore a b) (h2 : SameStore b c) :
    SameStore a c :=
  ⟨h2.1.trans h1.1, h2.2.1.trans h1.2.1, h2.2.2.1.trans h1.2.2.1,
    h2.2.2.2.1.trans h1.2.2.2.1, h2.2.2.2.2.1.trans h1.2.2.2.2.1,
    h2.2.2.2.2.2.trans h1.2.2.2.2.2⟩

theorem updBuf_sameStore (heap : List ngx_buf_t) (i : Nat) (f : ngx_buf_t → ngx_buf_t)
    (hf : ∀ b, SameStore b (f b)) (j : Nat) :
    SameStore (getBuf heap j) (getBuf (updBuf heap i f) j) := by
  rw [getBuf_updBuf]
  split
  · rename_i h
    rw [← h.1]
    exact hf _
  · exact sameStore_refl _

/-- What the next body filter does to the heap: only `pos` of the buffers
it holds changes. -/
theorem consume_spec (k : Nat → Nat) (l : List Nat) :
    ∀ heap : List ngx_buf_t, (consume k l heap).length = heap.length ∧
      (∀ j, SameStore (getBuf heap j) (getBuf (consume k l heap) j) ∧
            (getBuf (consume k l heap) j).last = (getBuf heap j).last) ∧
      (∀ j, j ∉ l → getBuf (consume k l heap) j = getBuf heap j) := by
  induction l with
  | nil => intro heap; exact ⟨rfl, fun j => ⟨sameStore_refl _, rfl⟩, fun _ _ => rfl⟩
  | cons i is ih =>
      intro heap
      obtain ⟨a1, a2, a3⟩ := ih (updBuf heap i (fun b => { b with pos := min b.last (b.pos + k i) }))
      refine ⟨by rw [consume, a1, length_updBuf], fun j => ⟨?_, ?_⟩, fun j hj => ?_⟩
      · exact sameStore_trans (updBuf_sameStore heap i
          (fun b => { b with pos := min b.last (b.pos + k i) })
          (fun b => ⟨rfl, rfl, rfl, rfl, rfl, rfl⟩) j) (a2 j).1
      · rw [consume, (a2 j).2, getBuf_updBuf]
        split
        · rename_i h; rw [← h.1]
        · rfl
      · rw [consume, a3 j (fun h => hj (List.mem_cons_of_mem _ h)),
          getBuf_updBuf_ne _ _ _ _ (fun e => hj (by rw [e]; simp))]

/-- What the loop of `ngx_chain_update_chains` does, for a busy chain of
distinct valid buffers. -/
theorem recycle_spec (l : List Nat) :
    ∀ (heap : List ngx_buf_t) (free : List Nat) (heap1 : List ngx_buf_t) (free1 busy1 : List Nat),
      recycle heap free l = (heap1, free1, busy1) → (l ++ free).Nodup →
      (∀ i ∈ l, i < heap.length) →
      heap1.length = heap.length ∧
      (∀ j, SameStore (getBuf heap j) (getBuf heap1 j)) ∧
      (∀ j, j ∉ l → getBuf heap1 j = getBuf heap j) ∧
      (∀ i ∈ busy1, i ∈ l) ∧
      (∀ i ∈ free1, i ∈ free ∨
        (i ∈ l ∧ (getBuf heap i).tag = true ∧ (getBuf heap1 i).pos = (getBuf heap i).start ∧
          (getBuf heap1 i).last = (getBuf heap i).start)) ∧
      (busy1 ++ free1).Nodup := by
  induction l with
  | nil =>
      intro heap free heap1 free1 busy1 h hnd _
      simp only [recycle, Prod.mk.injEq] at h
      obtain ⟨rfl, rfl, rfl⟩ := h
      exact ⟨rfl, fun j => sameStore_refl _, fun _ _ => rfl, fun i hi => hi,
        fun i hi => Or.inl hi, hnd⟩
  | cons i rest ih =>
      intro heap free heap1 free1 busy1 h hnd hv
      unfold recycle at h
      by_cases hsz : ngx_buf_size (getBuf heap i) ≠ 0
      · rw [if_pos hsz] at h
        simp only [Prod.mk.injEq] at h
        obtain ⟨rfl, rfl, rfl⟩ := h
        exact ⟨rfl, fun j => sameStore_refl _, fun _ _ => rfl, fun i hi => hi,
          fun i hi => Or.inl hi, hnd⟩
      · rw [if_neg hsz] at h
        have hnd' : (rest ++ free).Nodup := by
          rw [List.cons_append] at hnd
          exact (List.nodup_cons.mp hnd).2
        have hi_notin : i ∉ rest ++ free := by
          rw [List.cons_append] at hnd
          exact (List.nodup_cons.mp hnd).1
        have hv' : ∀ j ∈ rest, j < heap.length := fun j hj => hv j (List.mem_cons_of_mem _ hj)
        by_cases htag : (getBuf heap i).tag = false
        · rw [if_pos htag] at h
          obtain ⟨a1, a2, a3, a4, a5, a6⟩ := ih heap free heap1 free1 busy1 h hnd' hv'
          refine ⟨a1, a2, fun j hj => a3 j (fun h => hj (List.mem_cons_of_mem _ h)),
            fun j hj => List.mem_cons_of_mem _ (a4 j hj), fun j hj => ?_, a6⟩
          rcases a5 j hj with h1 | ⟨h1, h2⟩
          · exact Or.inl h1
          · exact Or.inr ⟨List.mem_cons_of_mem _ h1, h2⟩
        · rw [if_neg htag] at h
          have htag' : (getBuf heap i).tag = true := by simpa using htag
          have hiv : i < heap.length := hv i (by simp)
          have hnd2 : (rest ++ i :: free).Nodup := by
            have hp : (rest ++ i :: free).Perm (i :: (rest ++ free)) := List.perm_middle
            rw [hp.nodup_iff]
            exact List.nodup_cons.mpr ⟨hi_notin, hnd'⟩
          obtain ⟨a1, a2, a3, a4, a5, a6⟩ :=
            ih (updBuf heap i (fun b => { b with pos := b.start, last := b.start }))
              (i :: free) heap1 free1 busy1 h hnd2
              (fun j hj => by rw [length_updBuf]; exact hv' j hj)
          have hss : ∀ j, SameStore (getBuf heap j)
              (getBuf (updBuf heap i (fun b => { b with pos := b.start, last := b.start })) j) :=
            updBuf_sameStore heap i _ (fun b => ⟨rfl, rfl, rfl, rfl, rfl, rfl⟩)
          have hi_rest : i ∉ rest := fun h => hi_notin (by simp [h])
          refine ⟨by rw [a1, length_updBuf], fun j => sameStore_trans (hss j) (a2 j), fun j hj => ?_,
            fun j hj => List.mem_cons_of_mem _ (a4 j hj), fun j hj => ?_, a6⟩
          · rw [a3 j (fun h => hj (List.mem_cons_of_mem _ h)),
              getBuf_updBuf_ne _ _ _ _ (fun e => hj (by rw [e]; simp))]
          · rcases a5 j hj with h1 | ⟨h1, h2, h3, h4⟩
            · rcases List.mem_cons.mp h1 with rfl | h1
              · right
                refine ⟨by simp, htag', ?_, ?_⟩
                · rw [a3 j hi_rest, getBuf_updBuf_self _ _ _ hiv]
                · rw [a3 j hi_rest, getBuf_updBuf_self _ _ _ hiv]
              · exact Or.inl h1
            · right
              have hji : i ≠ j := fun e => hi_rest (by rw [e]; exact h1)
              rw [getBuf_updBuf_ne _ _ _ _ hji] at h2 h3 h4
              exact ⟨List.mem_cons_of_mem _ h1, h2, h3, h4⟩

theorem after_next_eq (w : World E) (c : ngx_http_brotli_ctx_t E) :
    after_next w c =
      ({ w with freed := w.freed ++ c.copied.map (fun b => b.start),
                heap := (recycle w.heap c.free (c.busy ++ c.out)).1 },
       { c with copied := [], free := (recycle w.heap c.free (c.busy ++ c.out)).2.1,
                busy := (recycle w.heap c.free (c.busy ++ c.out)).2.2, out := [],
                last_out := 0, nomem := false }) := by
  simp [after_next, ngx_http_brotli_filter_free_copy_buf, ngx_chain_update_chains]

theorem nodup_busy_out (o b f : List Nat) (h : (o ++ b ++ f).Nodup) :
    ((b ++ o) ++ f).Nodup := by
  have hp : ((b ++ o) ++ f).Perm (o ++ b ++ f) :=
    List.Perm.append_right f List.perm_append_comm
  exact hp.nodup_iff.mpr h

/-- The hand-over of `out` (sending, then recycling `busy ++ out`) keeps the
layout; the chunks of `out` join the chunks handed over. -/
theorem handoff_shape (conf : ngx_http_brotli_conf_t) (k : Nat → Nat) (w w2 : World E)
    (c c2 : ngx_http_brotli_ctx_t E) (hS : Shape conf w c)
    (hh : w2.heap = (recycle (consume k (c.busy ++ c.out) w.heap) c.free (c.busy ++ c.out)).1)
    (hf : c2.free = (recycle (consume k (c.busy ++ c.out) w.heap) c.free (c.busy ++ c.out)).2.1)
    (hbz : c2.busy = (recycle (consume k (c.busy ++ c.out) w.heap) c.free (c.busy ++ c.out)).2.2)
    (hs : w2.sent = w.sent ++ [c.out.map (getBuf w.heap)]) (hq : w2.failures = w.failures)
    (ho : c2.out = []) (hl : c2.last_out = 0) (hd : c2.done = c.done) :
    Shape conf w2 c2 ∧
    (∀ j, j ∉ c.out ++ c.busy ++ c.free → getBuf w2.heap j = getBuf w.heap j) ∧
    (∀ j, j ∉ c.out ++ c.busy ++ c.free → j ∉ c2.out ++ c2.busy ++ c2.free) ∧
    w2.heap.length = w.heap.length := by
  obtain ⟨c1, c2', c3⟩ := consume_spec k (c.busy ++ c.out) w.heap
  have hvalid : ∀ i ∈ c.busy ++ c.out, i < (consume k (c.busy ++ c.out) w.heap).length := by
    intro i hi
    rw [c1]
    apply hS.valid
    simp only [List.mem_append] at hi ⊢
    tauto
  rcases hR : recycle (consume k (c.busy ++ c.out) w.heap) c.free (c.busy ++ c.out) with
    ⟨heap2, free2, busy2⟩
  rw [hR] at hh hf hbz
  obtain ⟨r1, r2, r3, r4, r5, r6⟩ := recycle_spec _ _ _ _ _ _ hR
    (nodup_busy_out _ _ _ hS.nodup) hvalid
  have hlen : w2.heap.length = w.heap.length := by rw [hh, r1, c1]
  have hstore : ∀ j, SameStore (getBuf w.heap j) (getBuf w2.heap j) := by
    intro j
    rw [hh]
    exact sameStore_trans (c2' j).1 (r2 j)
  have hsame : ∀ j, j ∉ c.out ++ c.busy ++ c.free → getBuf w2.heap j = getBuf w.heap j := by
    intro j hj
    have hj' : j ∉ c.busy ++ c.out := by
      intro h
      apply hj
      simp only [List.mem_append] at h ⊢
      tauto
    rw [hh, r3 j hj', c3 j hj']
  have hsub : ∀ j, j ∈ c2.out ++ c2.busy ++ c2.free → j ∈ c.out ++ c.busy ++ c.free := by
    intro j hj
    rw [ho, hbz, hf] at hj
    simp only [List.nil_append, List.mem_append] at hj ⊢
    rcases hj with hj | hj
    · have := r4 j hj
      simp only [List.mem_append] at this
      tauto
    · rcases r5 j hj with h | ⟨h, _⟩
      · exact Or.inr h
      · simp only [List.mem_append] at h
        tauto
  refine ⟨⟨by rw [hl, ho]; rfl, ?_, ?_, ?_, ?_, ?_, ?_, by rw [hq]; exact hS.quiet,
    by rw [hd]; exact hS.running⟩, hsame, fun j hj h => hj (hsub j h), hlen⟩
  · rw [ho, hbz, hf]
    simpa using r6
  · intro j hj
    rw [hlen]
    exact hS.valid j (hsub j hj)
  · intro j hj
    rw [hf] at hj
    rcases r5 j hj with h | ⟨h, h2, h3, h4⟩
    · have hjn : j ∉ c.busy ++ c.out := by
        intro hm
        have hnd := nodup_busy_out _ _ _ hS.nodup
        exact (List.nodup_append.mp hnd).2.2 hm h
      rw [hh, r3 j hjn, c3 j hjn]
      exact hS.free_ok j h
    · have hjv : j < w.heap.length := by
        apply hS.valid
        simp only [List.mem_append] at h ⊢
        tauto
      have hst := (hS.heap_ok j hjv).1
      have hcs := (c2' j).1
      rw [hh]
      refine ⟨by rw [h3, hcs.1, hst], by rw [h4, hcs.1, hst], ?_⟩
      rw [(r2 j).2.2.1]
      exact h2
  · intro j hj
    rw [hlen] at hj
    obtain ⟨s1, s2, s3, _⟩ := hstore j
    rw [s1, s2, s3]
    exact hS.heap_ok j hj
  · intro j hj
    rw [hlen] at hj
    rw [(hstore j).2.2.2.2.1]
    exact hS.nolast j hj
  · intro b hb
    rw [hs, sent_chunks_append] at hb
    simp only [sent_chunks, List.append_nil, List.mem_append, List.mem_map] at hb
    rcases hb with hb | ⟨i, hi, rfl⟩
    · exact hS.sent_nolast b hb
    · exact hS.nolast i (hS.valid i (by simp [hi]))

theorem handoff_run (conf : ngx_http_brotli_conf_t) (k : Nat → Nat) (w w2 : World E)
    (c c2 : ngx_http_brotli_ctx_t E) (hI : OutRun conf w c)
    (hh : w2.heap = (recycle (consume k (c.busy ++ c.out) w.heap) c.free (c.busy ++ c.out)).1)
    (hf : c2.free = (recycle (consume k (c.busy ++ c.out) w.heap) c.free (c.busy ++ c.out)).2.1)
    (hbz : c2.busy = (recycle (consume k (c.busy ++ c.out) w.heap) c.free (c.busy ++ c.out)).2.2)
    (hs : w2.sent = w.sent ++ [c.out.map (getBuf w.heap)]) (hq : w2.failures = w.failures)
    (hp : w2.produced = w.produced)
    (ho : c2.out = []) (hl : c2.last_out = 0) (hd : c2.done = c.done)
    (h1 : c2.out_buf = c.out_buf) (h2 : c2.next_out = c.next_out)
    (h3 : c2.available_out = c.available_out) (h4 : c2.bro = c.bro) :
    OutRun conf w2 c2 := by
  obtain ⟨hS, hB, hL⟩ := hI
  obtain ⟨hS2, hsame, hfresh, hlen⟩ := handoff_shape conf k w w2 c c2 hS hh hf hbz hs hq ho hl hd
  have hbytes : sent_bytes w2.sent = sent_bytes w.sent ++ chain_bytes w.heap c.out := by
    rw [hs, sent_bytes_snoc]; rfl
  refine ⟨hS2, by rw [h4]; exact hB, ?_⟩
  rcases hL with ⟨ob, l, n⟩ | ⟨r1, r2⟩
  · refine Or.inl ⟨ob, ⟨by rw [h1]; exact l.cur, by rw [hlen]; exact l.valid, hfresh ob l.fresh,
      ?_, ?_, by rw [h2, h3]; exact l.room, ?_, ?_⟩, by rw [h3]; exact n⟩
    · rw [hsame ob l.fresh]; exact l.pos0
    · rw [hsame ob l.fresh, h2]; exact l.last
    · rw [hsame ob l.fresh]; exact l.size
    · rw [hbytes, ho, hsame ob l.fresh, hp]
      simp only [chain_bytes, List.map_nil, chunks_bytes, List.append_nil]
      exact l.bytes
  · refine Or.inr ⟨by rw [h3]; exact r1, ?_⟩
    rw [hbytes, ho, hp]
    simp only [chain_bytes, List.map_nil, chunks_bytes, List.append_nil]
    exact r2

/-- The final hand-over: exactly the last chunk handed over carries
`last_buf`, and what was handed over is what the encoder produced. -/
theorem handoff_ended (w w2 : World E) (c c2 : ngx_http_brotli_ctx_t E) (hE : OutEnded w c)
    (hs : w2.sent = w.sent ++ [c.out.map (getBuf w.heap)]) (hp : w2.produced = w.produced)
    (hd : c2.done = c.done) : OutDone w2 c2 := by
  obtain ⟨e1, _, ⟨pre, ob, e3, e4, e5⟩, e6, e7⟩ := hE
  refine ⟨by rw [hd]; exact e1, ?_,
    sent_chunks w.sent ++ pre.map (getBuf w.heap), getBuf w.heap ob, ?_, e4, ?_⟩
  · rw [hs, sent_bytes_snoc, hp]
    exact e7
  · rw [hs, sent_chunks_append, e3]
    simp [sent_chunks]
  · intro x hx
    simp only [List.mem_append, List.mem_map] at hx
    rcases hx with hx | ⟨i, hi, rfl⟩
    · exact e6 x hx
    · exact e5 i hi

/-- The output-side invariant between invocations: `out` is empty, and an
output buffer is being filled only if the encoder exists. -/
def OutIdle (conf : ngx_http_brotli_conf_t) (w : World E) (c : ngx_http_brotli_ctx_t E) :
    Prop :=
  Shape conf w c ∧ c.out = [] ∧
    ((∃ ob, Live conf w c ob ∧ c.available_out ≠ 0 ∧ c.bro ≠ none) ∨ Rest w c)

/-- What an invocation leaves on the output side, unless a failure event
occurred. -/
def OutVerdict (conf : ngx_http_brotli_conf_t) : Outcome E → Prop
  | Outcome.timeout _ => True
  | Outcome.returned _ r => r.w.failures = [] →
      ∃ c1, r.ctx = some c1 ∧ (OutIdle conf r.w c1 ∨ OutDone r.w c1)

theorem outrun_idle {conf : ngx_http_brotli_conf_t} {w : World E}
    {c : ngx_http_brotli_ctx_t E} (h : OutRun conf w c) (ho : c.out = []) :
    OutIdle conf w c := by
  obtain ⟨hS, hB, hL⟩ := h
  refine ⟨hS, ho, ?_⟩
  rcases hL with ⟨ob, l, n⟩ | hr
  · exact Or.inl ⟨ob, l, n, hB⟩
  · exact Or.inr hr

theorem failed_failures (ho : Bool) (w : World E) (c : ngx_http_brotli_ctx_t E) :
    ∃ r, body_filter_failed ho w c = Outcome.returned NGX_ERROR r ∧
      r.w.failures = w.failures ∧ r.header_only = ho ∧ ∃ c1, r.ctx = some c1 := by
  unfold body_filter_failed ngx_http_brotli_filter_free_copy_buf
  refine ⟨_, rfl, ?_, rfl, _, rfl⟩
  cases c.bro <;> rfl

theorem out_failed (conf : ngx_http_brotli_conf_t) (ho : Bool) (w : World E)
    (c : ngx_http_brotli_ctx_t E) (h : w.failures ≠ []) :
    OutVerdict conf (body_filter_failed ho w c) := by
  obtain ⟨r, h1, h2, _⟩ := failed_failures ho w c
  rw [h1]
  intro hq
  rw [h2] at hq
  exact absurd hq h

theorem out_idle (conf : ngx_http_brotli_conf_t) (ho : Bool) (w : World E)
    (c : ngx_http_brotli_ctx_t E) (hB : OutRun conf w c ∨ OutEnded w c) (hout : c.out = []) :
    OutVerdict conf (idle_return ho w c) := by
  unfold idle_return ngx_http_brotli_filter_free_copy_buf
  intro _
  refine ⟨_, rfl, Or.inl ?_⟩
  rcases hB with hR | ⟨_, _, ⟨pre, ob, h3, _⟩, _⟩
  · have hR2 : OutRun conf
        ({ w with freed := w.freed ++ c.copied.map (fun b => b.start) } : World E)
        { c with copied := [] } :=
      outrun_transfer hR rfl rfl rfl rfl rfl rfl rfl rfl rfl rfl rfl rfl rfl
    exact outrun_idle hR2 hout
  · rw [hout] at h3
    simp at h3

theorem out_next (conf : ngx_http_brotli_conf_t) (env : Env) (ho : Bool) (w : World E)
    (c : ngx_http_brotli_ctx_t E) (rc : Int) (w2 : World E)
    (hB : OutRun conf w c ∨ OutEnded w c)
    (h : ngx_http_next_body_filter env w (c.busy ++ c.out) (c.out.map (getBuf w.heap))
          = (rc, w2)) :
    (rc = NGX_ERROR → w2.failures ≠ []) ∧
    (rc ≠ NGX_ERROR →
      ((after_next w2 c).2.done = true →
          OutVerdict conf
            (Outcome.returned rc { ctx := some (after_next w2 c).2, header_only := ho,
                                   w := (after_next w2 c).1 })) ∧
      ((after_next w2 c).2.done ≠ true →
          OutRun conf (after_next w2 c).1 (after_next w2 c).2)) := by
  obtain ⟨_, hw2⟩ := next_body_filter_eq env w _ _ rc w2 h
  constructor
  · intro he
    rw [hw2]
    simp [he]
  · intro he
    have hfl : w2.failures = w.failures := by rw [hw2]; simp [he]
    have hheap : w2.heap = consume (env.next_consume w.nnext) (c.busy ++ c.out) w.heap := by
      rw [hw2]
    have hsent : w2.sent = w.sent ++ [c.out.map (getBuf w.heap)] := by rw [hw2]
    have hprod : w2.produced = w.produced := by rw [hw2]
    rw [after_next_eq]
    constructor
    · intro hd
      intro _
      refine ⟨_, rfl, ?_⟩
      rcases hB with hR | hE
      · exact absurd hd (by simp [hR.1.running])
      · exact Or.inr (handoff_ended w _ c _ hE hsent hprod rfl)
    · intro hd
      rcases hB with hR | hE
      · exact handoff_run conf (env.next_consume w.nnext) w _ c _ hR
          (by rw [hheap]) (by rw [hheap]) (by rw [hheap]) hsent hfl hprod rfl rfl rfl rfl rfl
          rfl rfl
      · exact absurd hE.1 hd

theorem out_prologue (enc : BrotliEncoder E) (conf : ngx_http_brotli_conf_t) (env : Env)
    (w : World E) (c : ngx_http_brotli_ctx_t E) (chain : List ngx_buf_t)
    (hP : OutIdle conf w c) :
    match prologue enc env w c chain with
    | Entry.failed w1 _ => w1.failures ≠ []
    | Entry.go _ w1 c1 => OutRun conf w1 c1 := by
  obtain ⟨hS, hout, hL⟩ := hP
  unfold prologue
  rcases h0 : start_if_needed enc w c with ⟨rc0, w0, c0⟩
  have hA0 : (rc0 ≠ NGX_OK → w0.failures ≠ []) ∧
      (rc0 = NGX_OK → OutRun conf w0 c0 ∧ c0.out = []) := by
    rcases start_if_needed_cases enc w c rc0 w0 c0 h0 with
      ⟨rfl, hb, hw, hc⟩ | ⟨rfl, hb, hc, rfl, rfl⟩ | ⟨e, rfl, hb, hc, rfl, rfl⟩
    · rw [hw, hc]
      refine ⟨fun h => absurd rfl h, fun _ => ⟨⟨hS, hb, ?_⟩, hout⟩⟩
      rcases hL with ⟨ob, l, n, _⟩ | hr
      · exact Or.inl ⟨ob, l, n⟩
      · exact Or.inr hr
    · exact ⟨fun _ => by simp [World.fail], fun h => absurd h (by decide)⟩
    · refine ⟨fun h => absurd rfl h, fun _ => ⟨⟨?_, by simp, Or.inr ⟨rfl, ?_⟩⟩, hout⟩⟩
      · exact ⟨by show 0 = c.out.length; rw [hout]; rfl, hS.nodup, hS.valid, hS.free_ok,
          hS.heap_ok, hS.nolast, hS.sent_nolast, hS.quiet, hS.running⟩
      · rcases hL with ⟨ob, _, _, hbro⟩ | hr
        · exact absurd hb hbro
        · exact hr.2
  simp only []
  by_cases hrc0 : rc0 = NGX_OK
  · rw [if_neg (by simpa using hrc0)]
    obtain ⟨hR0, hout0⟩ := hA0.2 hrc0
    rcases h1 : add_input env w0 c0 chain with ⟨rc1, w1, c1⟩
    obtain ⟨k1, _, k3, _, _, k6, _, _, _, ⟨l, rfl⟩, k11⟩ :=
      add_input_cases env w0 c0 chain rc1 w1 c1 h1
    simp only []
    rcases k11 with ⟨rfl, k12, _⟩ | ⟨rfl, k12⟩
    · simp only [ne_eq, not_true_eq_false, if_false]
      have hR1 : OutRun conf w1 { c0 with in_ := l } :=
        outrun_transfer hR0 k1 k3 k12 k6 rfl rfl rfl rfl rfl rfl rfl rfl rfl
      unfold flush_busy
      by_cases hn : c0.nomem = true
      · simp only [hn, if_true]
        rcases hN : ngx_http_next_body_filter env w1 c0.busy [] with ⟨rc2, w2⟩
        obtain ⟨_, hw2⟩ := next_body_filter_eq env w1 _ _ rc2 w2 hN
        simp only []
        by_cases he : rc2 = NGX_ERROR
        · simp only [he, if_true]
          rw [hw2]
          simp [he]
        · simp only [he, if_false]
          have hbo : c0.busy ++ c0.out = c0.busy := by rw [hout0]; simp
          have hfl : w2.failures = w1.failures := by rw [hw2]; simp [he]
          refine handoff_run conf (env.next_consume w1.nnext) w1 _ { c0 with in_ := l } _ hR1
            ?_ ?_ ?_ ?_ hfl (by rw [hw2]) hout0 ?_ rfl rfl rfl rfl rfl
          · show (ngx_chain_update_chains w2.heap c0.free c0.busy []).1 = _
            rw [hbo, hw2]
            simp [ngx_chain_update_chains]
          · show (ngx_chain_update_chains w2.heap c0.free c0.busy []).2.1 = _
            rw [hbo, hw2]
            simp [ngx_chain_update_chains]
          · show (ngx_chain_update_chains w2.heap c0.free c0.busy []).2.2 = _
            rw [hbo, hw2]
            simp [ngx_chain_update_chains]
          · rw [hw2]
            show w1.sent ++ [[]] = w1.sent ++ [c0.out.map (getBuf w1.heap)]
            rw [hout0]; rfl
          · show c0.last_out = 0
            rw [hR0.1.tail, hout0]; rfl
      · simp only [hn, Bool.false_eq_true, if_false]
        exact outrun_transfer hR1 rfl rfl rfl rfl rfl rfl rfl rfl rfl rfl rfl rfl rfl
    · simp only [ne_eq, show ¬ (NGX_ERROR = NGX_OK) by decide, not_false_eq_true, if_true]
      rw [k12]; simp
  · rw [if_pos (by simpa using hrc0)]
    exact hA0.1 hrc0

/-- On the output side every invocation past the pass-through check, under an
encoder that respects its cursors, leaves the session idle or done, unless a
failure event occurred. -/
theorem session_out_verdict (enc : BrotliEncoder E) (hb : EncoderBounds enc) (env : Env)
    (conf : ngx_http_brotli_conf_t) (fuel : Nat) (ho : Bool) (w : World E)
    (c : ngx_http_brotli_ctx_t E) (chain : List ngx_buf_t) (hP : OutIdle conf w c) :
    OutVerdict conf (body_filter_session enc env conf fuel ho w c chain) := by
  unfold body_filter_session
  have hp := out_prologue enc conf env w c chain hP
  rcases hPr : prologue enc env w c chain with ⟨w1, c1⟩ | ⟨flush, w1, c1⟩
  · rw [hPr] at hp
    exact out_failed conf ho w1 c1 hp
  · rw [hPr] at hp
    refine cycle_rule enc env conf ho (OutRun conf) (OutReady conf)
      (fun w' c' => OutRun conf w' c' ∨ OutEnded w' c') (fun w' _ => w'.failures ≠ [])
      (OutVerdict conf) ?_ ?_ ?_ ?_ ?_ ?_ ?_ fuel fuel flush w1 c1 hp
    · intro w' c' rc c1' hI h
      exact ⟨fun _ => Or.inl (out_add conf w' c' rc c1' hI h),
        fun _ => out_add conf w' c' rc c1' hI h⟩
    · intro w' c' rc w1' c1' hI h
      obtain ⟨g1, g2, g3⟩ := out_get conf env w' c' rc w1' c1' hI h
      exact ⟨fun hr => Or.inl (g1 hr), g2, g3⟩
    · intro w' c' rc w1' c1' hJ h
      exact out_cmp enc hb conf env w' c' rc w1' c1' hJ h
    · intro w' c' hF
      exact out_failed conf ho w' c' hF
    · intro w' c' _
      trivial
    · intro w' c' hB hout
      exact out_idle conf ho w' c' hB hout
    · intro w' c' rc w2 hB hN
      obtain ⟨n1, n2⟩ := out_next conf env ho w' c' rc w2 hB hN
      refine ⟨n1, fun he => ⟨(n2 he).1, ?_⟩⟩
      exact (n2 he).2

/-! ## Whole runs of a session -/

theorem session_header_only (enc : BrotliEncoder E) (env : Env)
    (conf : ngx_http_brotli_conf_t) (fuel : Nat) (ho : Bool) (w : World E)
    (c : ngx_http_brotli_ctx_t E) (chain : List ngx_buf_t) :
    (body_filter_session enc env conf fuel ho w c chain).req.header_only = ho := by
  unfold body_filter_session
  rcases prologue enc env w c chain with ⟨w1, c1⟩ | ⟨flush, w1, c1⟩
  · obtain ⟨r, h1, _, h3, _⟩ := failed_failures ho w1 c1
    simp only [h1]
    exact h3
  · refine cycle_rule enc env conf ho (fun _ _ => True) (fun _ _ => True) (fun _ _ => True)
      (fun _ _ => True) (fun o => o.req.header_only = ho) ?_ ?_ ?_ ?_ ?_ ?_ ?_
      fuel fuel flush w1 c1 trivial
    · intros; exact ⟨fun _ => trivial, fun _ => trivial⟩
    · intros; exact ⟨fun _ => trivial, fun _ => trivial, fun _ _ => trivial⟩
    · intros; exact ⟨fun _ => trivial, fun _ => trivial, fun _ _ => trivial⟩
    · intro w' c' _
      obtain ⟨r, h1, _, h3, _⟩ := failed_failures ho w' c'
      simp only [h1]
      exact h3
    · intros; rfl
    · intros; rfl
    · intros; exact ⟨fun _ => trivial, fun _ => ⟨fun _ => rfl, fun _ => trivial⟩⟩

/-- An invocation past the pass-through check never removes a failure
event. -/
theorem session_failures_mono (enc : BrotliEncoder E) (env : Env)
    (conf : ngx_http_brotli_conf_t) (fuel : Nat) (ho : Bool) (w : World E)
    (c : ngx_http_brotli_ctx_t E) (chain : List ngx_buf_t) (rc : Int)
    (r1 : ngx_http_request_t E) (hd : c.done = false)
    (h : body_filter_session enc env conf fuel ho w c chain = Outcome.returned rc r1)
    (hq : r1.w.failures = []) : w.failures = [] ∧ ∃ c1, r1.ctx = some c1 := by
  have hv := session_verdict enc False env conf fuel ho w c chain hd (fun h => absurd h id)
  rw [h] at hv
  obtain ⟨c1, h1, h2⟩ := hv
  refine ⟨?_, c1, h1⟩
  rcases h2 with ⟨_, _, _, f, h5, _⟩ | ⟨_, h5, _⟩
  · rw [hq] at h5
    simp at h5
  · rw [← h5]; exact hq

/-- The output-side invariant holds along every run of `drive`. -/
theorem drive_out (enc : BrotliEncoder E) (hb : EncoderBounds enc) (env : Env)
    (conf : ngx_http_brotli_conf_t) (fuel : Nat) (chains : List (List ngx_buf_t)) :
    ∀ (r r1 : ngx_http_request_t E), r.header_only = false →
      (∃ c, r.ctx = some c ∧ (r.w.failures = [] → OutIdle conf r.w c ∨ OutDone r.w c)) →
      drive enc env conf fuel chains r = some r1 →
      ∃ c1, r1.ctx = some c1 ∧ (r1.w.failures = [] → OutIdle conf r1.w c1 ∨ OutDone r1.w c1) := by
  induction chains with
  | nil =>
      intro r r1 _ hI h
      simp only [drive, Option.some.injEq] at h
      rw [← h]; exact hI
  | cons chain rest ih =>
      intro r r1 hho hI h
      obtain ⟨c, hc, hinv⟩ := hI
      unfold drive at h
      rw [hc] at h
      simp only [] at h
      by_cases hd : c.done = true
      · rw [if_pos hd] at h
        simp only [Option.some.injEq] at h
        rw [← h]; exact ⟨c, hc, hinv⟩
      · rw [if_neg hd] at h
        have hd' : c.done = false := by simpa using hd
        rw [body_filter_past_check enc env conf fuel r c chain hc hd' hho] at h
        rcases hO : body_filter_session enc env conf fuel r.header_only r.w c chain with
          ⟨rc, r2⟩ | ⟨r2⟩
        · rw [hO] at h
          simp only [] at h
          refine ih r2 r1 ?_ ?_ h
          · have := session_header_only enc env conf fuel r.header_only r.w c chain
            rw [hO] at this
            rw [← hho]; exact this
          · by_cases hq : r2.w.failures = []
            · obtain ⟨hq0, _⟩ := session_failures_mono enc env conf fuel _ _ _ _ _ _ hd' hO hq
              have hP : OutIdle conf r.w c := by
                rcases hinv hq0 with h1 | h1
                · exact h1
                · exact absurd h1.1 hd
              have hv := session_out_verdict enc hb env conf fuel r.header_only r.w c chain hP
              rw [hO] at hv
              obtain ⟨c2, hc2, hv2⟩ := hv hq
              exact ⟨c2, hc2, fun _ => hv2⟩
            · have hv := session_verdict enc False env conf fuel r.header_only r.w c chain hd'
                (fun h => absurd h id)
              rw [hO] at hv
              obtain ⟨c2, hc2, _⟩ := hv
              exact ⟨c2, hc2, fun h => absurd h hq⟩
        · rw [hO] at h
          simp at h

theorem fresh_out_idle (conf : ngx_http_brotli_conf_t) :
    OutIdle conf (fresh_world E) (fresh_ctx E) := by
  refine ⟨⟨rfl, by simp [fresh_ctx], ?_, ?_, ?_, ?_, ?_, rfl, rfl⟩, rfl, Or.inr ⟨rfl, rfl⟩⟩
  · intro i hi; simp [fresh_ctx] at hi
  · intro i hi; simp [fresh_ctx] at hi
  · intro i hi; simp [fresh_world] at hi
  · intro i hi; simp [fresh_world] at hi
  · intro b hb; simp [fresh_world, sent_chunks] at hb

/-- At the end of a run that completed without a failure event, what was
handed to the next body filter is what the encoder produced, and exactly the
last chunk handed over carries `last_buf`. -/
theorem drive_out_done (enc : BrotliEncoder E) (hb : EncoderBounds enc) (env : Env)
    (conf : ngx_http_brotli_conf_t) (fuel : Nat) (chains : List (List ngx_buf_t))
    (r1 : ngx_http_request_t E) (c1 : ngx_http_brotli_ctx_t E)
    (hrun : drive enc env conf fuel chains (fresh_request E) = some r1)
    (hctx : r1.ctx = some c1) (hdone : c1.done = true) (hquiet : r1.w.failures = []) :
    OutDone r1.w c1 := by
  obtain ⟨c2, h1, h2⟩ := drive_out enc hb env conf fuel chains (fresh_request E) r1 rfl
    ⟨fresh_ctx E, rfl, fun _ => Or.inl (fresh_out_idle conf)⟩ hrun
  rw [hctx] at h1
  cases h1
  rcases h2 hquiet with h3 | h3
  · have := h3.1.running
    rw [hdone] at this
    cases this
  · exact h3

/-! ## The final flag (C4) -/

theorem toy_bounds : EncoderBounds toy := by
  intro e op inp avail e1 used outb h
  simp only [toy] at h
  split at h
  · cases h
  · simp only [Option.some.injEq, Prod.mk.injEq] at h
    obtain ⟨_, h2, h3⟩ := h
    rw [← h2, ← h3]
    exact ⟨Nat.le_refl _, by simp [List.length_take]⟩

/-- An empty body whose compressed form is shorter than the output buffer
gives exactly one output chunk, flagged `last_buf`, in one invocation. -/
theorem empty_body_one_chunk (enc : BrotliEncoder E) (env : Env)
    (conf : ngx_http_brotli_conf_t) (fuel : Nat) (b : ngx_buf_t) (e0 e1 : E) (used : Nat)
    (outb : List Nat)
    (hz : b.last - b.pos = 0) (hlb : b.last_buf = true)
    (hcreate : enc.create = some e0)
    (hstep : enc.compressStream e0 FINISH [] conf.bufs_size = some (e1, used, outb))
    (hfit : outb.length < conf.bufs_size) (hfin : enc.isFinished e1 = true)
    (hcap : 0 < conf.bufs_num)
    (ha0 : env.alloc_ok 0 = true) (ha1 : env.alloc_ok 1 = true) (ha2 : env.alloc_ok 2 = true)
    (hrc : env.next_rc 0 ≠ NGX_ERROR) :
    ngx_http_brotli_body_filter enc env conf (fuel + 1) (fresh_request E) [b]
        = Outcome.returned (env.next_rc 0)
            (ngx_http_brotli_body_filter enc env conf (fuel + 1) (fresh_request E) [b]).req ∧
    (∃ c1, (ngx_http_brotli_body_filter enc env conf (fuel + 1) (fresh_request E) [b]).req.ctx
        = some c1 ∧ c1.done = true) ∧
    ∃ x, (ngx_http_brotli_body_filter enc env conf (fuel + 1) (fresh_request E) [b]).req.w.sent
        = [[x]] ∧ x.last_buf = true ∧ x.bytes = outb := by
  have hne : conf.bufs_size - outb.length ≠ 0 := by omega
  have hP : prologue enc env (fresh_world E) (fresh_ctx E) [b]
      = Entry.go false { fresh_world E with created := 1, nalloc := 1, buffered := true }
          { fresh_ctx E with bro := some e0, in_ := [b] } := by
    simp [prologue, start_if_needed, ngx_http_brotli_filter_start, hcreate, add_input,
      ngx_chain_add_copy, ngx_alloc, fresh_world, fresh_ctx, ha0, flush_busy]
  have hO : ngx_http_brotli_body_filter enc env conf (fuel + 1) (fresh_request E) [b]
      = cycle enc env conf false (fuel + 1) (fuel + 1) false
          { fresh_world E with created := 1, nalloc := 1, buffered := true }
          { fresh_ctx E with bro := some e0, in_ := [b] } := by
    simp only [ngx_http_brotli_body_filter, fresh_request, fresh_ctx, body_filter_session]
    simp only [Bool.false_eq_true, or_self, if_false]
    have := hP
    simp only [fresh_ctx] at this
    rw [this]
  rw [hO]
  simp [cycle, feed, ngx_http_brotli_filter_add_data, fresh_ctx, hz, hlb,
      ngx_http_brotli_filter_get_buf, hcap, ngx_create_temp_buf, ngx_alloc, fresh_world, ha1,
      ngx_http_brotli_filter_compress, input_window, hstep, encoder_call_ctx,
      encoder_call_world, hne, hfin, ngx_http_brotli_filter_end, ha2, link_out, updBuf, getBuf,
      tagged_temp_buf, zero_buf, ngx_http_next_body_filter, hrc, after_next,
      ngx_http_brotli_filter_free_copy_buf, ngx_chain_update_chains, Outcome.req]
  simp [ngx_buf_t.bytes, write_mem]

/-- `ngx_http_brotli_filter_compress` sets `ctx->done` only by calling
`ngx_http_brotli_filter_end`, after a successful step that left the encoder
finished. -/
theorem compress_done (enc : BrotliEncoder E) (env : Env) (w w1 : World E)
    (c c1 : ngx_http_brotli_ctx_t E) (rc : Int)
    (h : ngx_http_brotli_filter_compress enc env w c = (rc, w1, c1))
    (hd : c.done = false) (hd1 : c1.done = true) :
    ∃ e ob e1 used outb, Stepped enc c e ob e1 used outb ∧ enc.isFinished e1 = true ∧
      ngx_http_brotli_filter_end env (encoder_call_world w c ob used outb)
        { encoder_call_ctx c e1 used outb with redo := false } e1 ob = (rc, w1, c1) := by
  have hcase := compress_cases enc env w c rc w1 c1 h
  cases hcase with
  | null _ => rw [hd] at hd1; cases hd1
  | step_failed _ _ _ _ _ => rw [hd] at hd1; cases hd1
  | full_nolink e ob e1 used outb hs _ _ =>
      have : c.done = true := hd1
      rw [hd] at this; cases this
  | full e ob e1 used outb hs _ _ =>
      have : c.done = true := hd1
      rw [hd] at this; cases this
  | flush_nolink e ob e1 used outb hs _ _ _ =>
      have : c.done = true := hd1
      rw [hd] at this; cases this
  | flush_nomarker e ob e1 used outb hs _ _ _ _ _ =>
      have : c.done = true := hd1
      rw [hd] at this; cases this
  | flush_marker e ob e1 used outb hs _ _ _ _ _ =>
      have : c.done = true := hd1
      rw [hd] at this; cases this
  | flush_buf e ob e1 used outb hs _ _ _ _ =>
      have : c.done = true := hd1
      rw [hd] at this; cases this
  | end_nolink e ob e1 used outb hs _ _ _ _ =>
      have : c.done = true := hd1
      rw [hd] at this; cases this
  | ended e ob e1 used outb hs _ _ hfin ha =>
      refine ⟨e, ob, e1, used, outb, hs, hfin, ?_⟩
      have key : ∀ W : World E, env.alloc_ok W.nalloc = true →
          ngx_alloc env W = (true, { W with nalloc := W.nalloc + 1 }) := by
        intro W hW
        unfold ngx_alloc
        rw [if_pos hW]
      have hA := key ({ encoder_call_world w c ob used outb with
        destroyed := (encoder_call_world w c ob used outb).destroyed ++ [e1] } : World E) ha
      unfold ngx_http_brotli_filter_end
      simp only [hA]
      rfl
  | more e ob e1 used outb hs _ _ _ =>
      have : c.done = true := hd1
      rw [hd] at this; cases this

/-- What a successful `ngx_http_brotli_filter_end` does to the output side:
the buffer `ob` is appended to `ctx->out` with `last_buf` set, no other buffer
is touched, and `ctx->done` is set. -/
theorem filter_end_flags (env : Env) (w w1 : World E) (c c1 : ngx_http_brotli_ctx_t E)
    (e : E) (ob : Nat) (hv : ob < w.heap.length)
    (h : ngx_http_brotli_filter_end env w c e ob = (NGX_OK, w1, c1)) :
    c1.done = true ∧ c1.out = c.out.take c.last_out ++ [ob] ∧
    (getBuf w1.heap ob).last_buf = true ∧ ∀ j, j ≠ ob → getBuf w1.heap j = getBuf w.heap j := by
  unfold ngx_http_brotli_filter_end at h
  simp only [] at h
  rcases hA : ngx_alloc env { w with destroyed := w.destroyed ++ [e] } with ⟨ok, w2⟩
  rw [hA] at h
  cases ok with
  | false =>
      simp only [Prod.mk.injEq] at h
      exact absurd h.1 (by decide)
  | true =>
      simp only [Prod.mk.injEq] at h
      obtain ⟨_, rfl, rfl⟩ := h
      obtain ⟨rfl, _⟩ := ngx_alloc_true env _ _ hA
      refine ⟨rfl, rfl, ?_, ?_⟩
      · show (getBuf (updBuf w.heap ob (fun b => { b with last_buf := true })) ob).last_buf = true
        rw [getBuf_updBuf_self _ _ _ hv]
      · intro j hj
        show getBuf (updBuf w.heap ob (fun b => { b with last_buf := true })) j = getBuf w.heap j
        exact getBuf_updBuf_ne _ _ _ _ (fun h => hj h.symm)

/-- C4: the final flag.  Over every run of the body filter on a fresh session
without failure event, for an encoder that respects its cursors: once
`ctx->done` is set exactly one chunk handed to the next body filter carries
`last_buf`, and it is the last one handed over; before that no chunk handed
over and no buffer of the module carries it.  `ctx->done` is set by
`ngx_http_brotli_filter_compress` only through `ngx_http_brotli_filter_end`,
called after a step that left the encoder finished, and
`ngx_http_brotli_filter_end` sets `last_buf` on the buffer it appends to
`ctx->out` and on no other.  For an empty body (one zero-length chunk marked
`last_buf`) whose compressed form is shorter than `conf->bufs.size`, one
invocation hands over exactly one chunk, which carries `last_buf` and the
compressed form, and sets `ctx->done`. -/
theorem C4_final_flag (enc : BrotliEncoder E) (env : Env) (conf : ngx_http_brotli_conf_t)
    (fuel : Nat) :
    (EncoderBounds enc →
      ∀ (chains : List (List ngx_buf_t)) (r1 : ngx_http_request_t E)
        (c1 : ngx_http_brotli_ctx_t E),
        drive enc env conf fuel chains (fresh_request E) = some r1 → r1.ctx = some c1 →
        r1.w.failures = [] →
        (c1.done = true →
          ∃ init b, sent_chunks r1.w.sent = init ++ [b] ∧ b.last_buf = true ∧
            ∀ x ∈ init, x.last_buf = false) ∧
        (c1.done = false →
          (∀ x ∈ sent_chunks r1.w.sent, x.last_buf = false) ∧
          ∀ i, i < r1.w.heap.length → (getBuf r1.w.heap i).last_buf = false)) ∧
    (∀ (w w1 : World E) (c c1 : ngx_http_brotli_ctx_t E) (rc : Int),
        ngx_http_brotli_filter_compress enc env w c = (rc, w1, c1) →
        c.done = false → c1.done = true →
        ∃ e ob e1 used outb, Stepped enc c e ob e1 used outb ∧ enc.isFinished e1 = true ∧
          ngx_http_brotli_filter_end env (encoder_call_world w c ob used outb)
            { encoder_call_ctx c e1 used outb with redo := false } e1 ob = (rc, w1, c1)) ∧
    (∀ (w w1 : World E) (c c1 : ngx_http_brotli_ctx_t E) (e : E) (ob : Nat),
        ob < w.heap.length →
        ngx_http_brotli_filter_end env w c e ob = (NGX_OK, w1, c1) →
        c1.done = true ∧ c1.out = c.out.take c.last_out ++ [ob] ∧
        (getBuf w1.heap ob).last_buf = true ∧
        ∀ j, j ≠ ob → getBuf w1.heap j = getBuf w.heap j) ∧
    (∀ (b : ngx_buf_t) (e0 e1 : E) (used : Nat) (outb : List Nat),
        b.last = b.pos → b.last_buf = true → enc.create = some e0 →
        enc.compressStream e0 FINISH [] conf.bufs_size = some (e1, used, outb) →
        outb.length < conf.bufs_size → enc.isFinished e1 = true → 0 < conf.bufs_num →
        env.alloc_ok 0 = true → env.alloc_ok 1 = true → env.alloc_ok 2 = true →
        env.next_rc 0 ≠ NGX_ERROR →
        ngx_http_brotli_body_filter enc env conf (fuel + 1) (fresh_request E) [b]
            = Outcome.returned (env.next_rc 0)
                (ngx_http_brotli_body_filter enc env conf (fuel + 1) (fresh_request E) [b]).req ∧
        (∃ c1, (ngx_http_brotli_body_filter enc env conf (fuel + 1)
                  (fresh_request E) [b]).req.ctx = some c1 ∧ c1.done = true) ∧
        ∃ x, (ngx_http_brotli_body_filter enc env conf (fuel + 1)
                  (fresh_request E) [b]).req.w.sent = [[x]] ∧ x.last_buf = true ∧
          x.bytes = outb) := by
  refine ⟨?_, ?_, ?_, ?_⟩
  · intro hb chains r1 c1 hrun hctx hquiet
    obtain ⟨c2, h1, h2⟩ := drive_out enc hb env conf fuel chains (fresh_request E) r1 rfl
      ⟨fresh_ctx E, rfl, fun _ => Or.inl (fresh_out_idle conf)⟩ hrun
    rw [hctx] at h1
    cases h1
    rcases h2 hquiet with h3 | h3
    · refine ⟨fun hd => ?_, fun _ => ⟨h3.1.sent_nolast, h3.1.nolast⟩⟩
      have := h3.1.running
      rw [hd] at this
      cases this
    · refine ⟨fun _ => h3.2.2, fun hd => ?_⟩
      have := h3.1
      rw [hd] at this
      cases this
  · intro w w1 c c1 rc h hd hd1
    exact compress_done enc env w w1 c c1 rc h hd hd1
  · intro w w1 c c1 e ob hv h
    exact filter_end_flags env w w1 c c1 e ob hv h
  · intro b e0 e1 used outb hz hlb hcreate hstep hfit hfin hcap ha0 ha1 ha2 hrc
    exact empty_body_one_chunk enc env conf fuel b e0 e1 used outb (by omega) hlb hcreate hstep
      hfit hfin hcap ha0 ha1 ha2 hrc

set_option maxRecDepth 8000 in
theorem C4_final_flag_witness :
    (∃ init b, sent_chunks (two_call_run.getD (fresh_request ToyState)).w.sent = init ++ [b] ∧
        b.last_buf = true ∧ ∀ x ∈ init, x.last_buf = false) ∧
    (∃ x, (ngx_http_brotli_body_filter toy env_ok { bufs_num := 32, bufs_size := 4096 } (7 + 1)
              (fresh_request ToyState) [chunk [] false true]).req.w.sent = [[x]] ∧
        x.last_buf = true ∧ x.bytes = [3]) :=
  ⟨((C4_final_flag toy env_ok { bufs_num := 2, bufs_size := 2 } 16).1 toy_bounds
      [[chunk [1, 2, 3] true false, chunk [] false false], [chunk [4, 5] false true]]
      (two_call_run.getD (fresh_request ToyState)) _ rfl rfl rfl).1 rfl,
   ((C4_final_flag toy env_ok { bufs_num := 32, bufs_size := 4096 } 7).2.2.2
      (chunk [] false true)
      { pending := [], closed := false } { pending := [], closed := true } 0 [3]
      rfl rfl rfl rfl (by decide) rfl (by decide) rfl rfl rfl (by decide)).2.2⟩

/-! ## The input side: what the encoder has been fed (C1) -/

/-- The chunks of a sequence of chains, in order. -/
def chain_chunks : List (List ngx_buf_t) → List ngx_buf_t
  | [] => []
  | chain :: rest => chain ++ chain_chunks rest

/-- No chunk but the last one carries `last_buf`. -/
def NoEarlyLast : List ngx_buf_t → Prop
  | [] => True
  | b :: rest => (b.last_buf = true → rest = []) ∧ NoEarlyLast rest

/-- The encoder state `e` is reached from a new instance by successful
`BrotliEncoderCompressStream` calls that consumed `i` and wrote `o` in all;
`fin` tells whether one of them had the operation FINISH. -/
inductive EncReach (enc : BrotliEncoder E) : E → List Nat → List Nat → Bool → Prop where
  | init (e : E) (h : enc.create = some e) : EncReach enc e [] [] false
  | step (e : E) (i o : List Nat) (fin : Bool) (op : BrotliEncoderOperation) (inp : List Nat)
      (avail : Nat) (e1 : E) (used : Nat) (outb : List Nat) (h : EncReach enc e i o fin)
      (hs : enc.compressStream e op inp avail = some (e1, used, outb)) :
      EncReach enc e1 (i ++ inp.take used) (o ++ outb) (fin || decide (op = FINISH))

/-- The contract of the encoder with its decoder `decode`: the encoder
respects its cursors, and a call that leaves the stream finished belongs to a
stream for which FINISH was requested, has consumed all the input it was
given, and completes an output that decodes to everything consumed. -/
def EncoderContract (enc : BrotliEncoder E) (decode : List Nat → List Nat) : Prop :=
  EncoderBounds enc ∧
  ∀ e i o fin, EncReach enc e i o fin →
    ∀ op inp avail e1 used outb, enc.compressStream e op inp avail = some (e1, used, outb) →
      enc.isFinished e1 = true →
      (fin = true ∨ op = FINISH) ∧ inp.take used = inp ∧ decode (o ++ outb) = i ++ inp

/-- The input-side invariant of a running session for the whole input `total`
of which the chunks `fut` are still to come in later invocations: what the
encoder consumed, the window it may read, the chunks queued and the chunks to
come make up `total`; once FINISH is requested no input is left. -/
def InRun (enc : BrotliEncoder E) (total : List Nat) (fut : List ngx_buf_t) (w : World E)
    (c : ngx_http_brotli_ctx_t E) : Prop :=
  c.done = false ∧
  w.fed ++ input_window c ++ chunks_bytes c.in_ ++ chunks_bytes fut = total ∧
  NoEarlyLast (c.in_ ++ fut) ∧
  (c.flush = FINISH → c.in_ ++ fut = []) ∧
  ∃ e fin, c.bro = some e ∧ EncReach enc e w.fed w.produced fin ∧
    (fin = true → c.flush = FINISH)

/-- The input-side invariant between invocations: as `InRun`, or the encoder
has not been created yet. -/
def InIdle (enc : BrotliEncoder E) (total : List Nat) (fut : List ngx_buf_t) (w : World E)
    (c : ngx_http_brotli_ctx_t E) : Prop :=
  InRun enc total fut w c ∨
  (c.done = false ∧ c.bro = none ∧ w.fed = [] ∧ w.produced = [] ∧ input_window c = [] ∧
    chunks_bytes c.in_ ++ chunks_bytes fut = total ∧ NoEarlyLast (c.in_ ++ fut) ∧
    (c.flush = FINISH → c.in_ ++ fut = []))

/-- The session is done and what the encoder produced decodes to the whole
input. -/
def InEnd (decode : List Nat → List Nat) (total : List Nat) (w : World E)
    (c : ngx_http_brotli_ctx_t E) : Prop :=
  c.done = true ∧ decode w.produced = total

/-- What an invocation leaves on the input side, unless a failure event
occurred. -/
def InVerdict (enc : BrotliEncoder E) (decode : List Nat → List Nat) (total : List Nat)
    (fut : List ngx_buf_t) : Outcome E → Prop
  | Outcome.timeout _ => True
  | Outcome.returned _ r => r.w.failures = [] →
      ∃ c1, r.ctx = some c1 ∧ (InIdle enc total fut r.w c1 ∨ InEnd decode total r.w c1)

theorem inrun_transfer {enc : BrotliEncoder E} {total : List Nat} {fut : List ngx_buf_t}
    {w w1 : World E} {c c1 : ngx_http_brotli_ctx_t E} (h : InRun enc total fut w c)
    (h1 : w1.fed = w.fed) (h2 : w1.produced = w.produced) (h3 : c1.done = c.done)
    (h4 : c1.in_ = c.in_) (h5 : c1.flush = c.flush) (h6 : c1.bro = c.bro)
    (h7 : c1.next_in = c.next_in) (h8 : c1.in_buf = c.in_buf)
    (h9 : c1.available_in = c.available_in) : InRun enc total fut w1 c1 := by
  have hw : input_window c1 = input_window c := by
    unfold input_window
    rw [h7, h8, h9]
  unfold InRun at h ⊢
  rw [h1, h2, h3, h4, h5, h6, hw]
  exact h

theorem input_window_zero (c : ngx_http_brotli_ctx_t E) (h : c.available_in = 0) :
    input_window c = [] := by
  unfold input_window
  rw [h]
  cases c.next_in <;> cases c.in_buf <;> simp

theorem input_window_step (c : ngx_http_brotli_ctx_t E) (e1 : E) (used : Nat)
    (outb : List Nat) :
    input_window (encoder_call_ctx c e1 used outb) = (input_window c).drop used := by
  unfold input_window encoder_call_ctx
  cases hn : c.next_in with
  | none => cases c.in_buf <;> simp
  | some p =>
      cases hb : c.in_buf with
      | none => by_cases h0 : c.available_in - used = 0 <;> simp [h0]
      | some b =>
          by_cases h0 : c.available_in - used = 0
          · simp only [h0, if_true]
            symm
            apply List.drop_eq_nil_of_le
            simp only [List.length_take]
            omega
          · simp only [h0, if_false, Option.map_some']
            rw [List.drop_take, List.drop_drop]

theorem chain_chunks_bytes_cons (chain : List ngx_buf_t) (rest : List (List ngx_buf_t)) :
    chunks_bytes (chain_chunks (chain :: rest))
      = chunks_bytes chain ++ chunks_bytes (chain_chunks rest) := by
  simp [chain_chunks, chunks_bytes_append]

theorem in_add (enc : BrotliEncoder E) (total : List Nat) (fut : List ngx_buf_t) (w : World E)
    (c : ngx_http_brotli_ctx_t E) (rc : Int) (c1 : ngx_http_brotli_ctx_t E)
    (hI : InRun enc total fut w c) (h : ngx_http_brotli_filter_add_data c = (rc, c1)) :
    InRun enc total fut w c1 := by
  rcases add_data_cases c rc c1 h with ⟨_, hc, _⟩ | ⟨_, hc, _⟩ | ⟨b, rest, hin, hg, hc, _⟩
  · rw [hc]; exact hI
  · rw [hc]; exact hI
  · have ha : c.available_in = 0 := by
      by_contra h0
      exact hg (Or.inl h0)
    have hf : c.flush = PROCESS := by
      by_contra h0
      exact hg (Or.inr (Or.inl h0))
    obtain ⟨i1, i2, i3, i4, e, fin, i5, i6, i7⟩ := hI
    have hw0 : input_window c = [] := input_window_zero c ha
    have hw1 : input_window (pulled c b rest) = b.bytes := by
      simp [input_window, pulled, ngx_buf_t.bytes]
    rw [hin] at i2 i3
    simp only [List.cons_append, NoEarlyLast] at i3
    rw [hc]
    refine ⟨i1, ?_, i3.2, ?_, e, fin, i5, i6, ?_⟩
    · rw [hw1]
      rw [hw0] at i2
      simpa [chunks_bytes, pulled] using i2
    · intro hfl
      show rest ++ fut = []
      apply i3.1
      by_contra hlb
      have : (pulled c b rest).flush = (if b.flush = true then FLUSH else c.flush) := by
        simp [pulled, hlb]
      rw [this, hf] at hfl
      by_cases hbf : b.flush = true
      · rw [if_pos hbf] at hfl; cases hfl
      · rw [if_neg hbf] at hfl; cases hfl
    · intro hfin
      have := i7 hfin
      rw [hf] at this
      cases this

theorem in_get (enc : BrotliEncoder E) (total : List Nat) (fut : List ngx_buf_t)
    (conf : ngx_http_brotli_conf_t) (env : Env) (w : World E)
    (c : ngx_http_brotli_ctx_t E) (rc : Int) (w1 : World E) (c1 : ngx_http_brotli_ctx_t E)
    (hI : InRun enc total fut w c)
    (h : ngx_http_brotli_filter_get_buf env conf w c = (rc, w1, c1)) :
    (rc = NGX_ERROR → w1.failures ≠ []) ∧ (rc ≠ NGX_ERROR → InRun enc total fut w1 c1) := by
  rcases get_buf_cases env conf w w1 c c1 rc h with
    ⟨rfl, _, rfl, rfl⟩ | ⟨rfl, _, rfl, i, rest, _, rfl⟩ | ⟨rfl, _, _, _, _, rfl, rfl⟩ |
    ⟨rfl, _, _, _, _, rfl, rfl⟩ | ⟨rfl, _, _, _, rfl, rfl⟩
  · exact ⟨fun h => absurd h (by decide), fun _ => hI⟩
  · exact ⟨fun h => absurd h (by decide),
      fun _ => inrun_transfer hI rfl rfl rfl rfl rfl rfl rfl rfl rfl⟩
  · exact ⟨fun h => absurd h (by decide),
      fun _ => inrun_transfer hI rfl rfl rfl rfl rfl rfl rfl rfl rfl⟩
  · exact ⟨fun _ => by simp, fun h => absurd rfl h⟩
  · exact ⟨fun h => absurd h (by decide),
      fun _ => inrun_transfer hI rfl rfl rfl rfl rfl rfl rfl rfl rfl⟩

/-- One successful encoder call keeps the input-side account. -/
theorem in_step (enc : BrotliEncoder E) (total : List Nat) (fut : List ngx_buf_t) (w : World E)
    (c : ngx_http_brotli_ctx_t E) (e : E) (ob : Nat) (e1 : E) (used : Nat) (outb : List Nat)
    (hI : InRun enc total fut w c) (hs : Stepped enc c e ob e1 used outb) :
    InRun enc total fut (encoder_call_world w c ob used outb)
      (encoder_call_ctx c e1 used outb) := by
  obtain ⟨i1, i2, i3, i4, e0, fin, i5, i6, i7⟩ := hI
  obtain ⟨s1, _, s3⟩ := hs
  rw [s1] at i5
  cases i5
  refine ⟨i1, ?_, i3, i4, e1, fin || decide (c.flush = FINISH), rfl, ?_, ?_⟩
  · rw [input_window_step]
    show (w.fed ++ (input_window c).take used) ++ (input_window c).drop used
      ++ chunks_bytes c.in_ ++ chunks_bytes fut = total
    rw [List.append_assoc w.fed, List.take_append_drop]
    exact i2
  · exact EncReach.step _ w.fed w.produced fin c.flush (input_window c) c.available_out e1
      used outb i6 s3
  · intro hfin
    show c.flush = FINISH
    rcases Bool.or_eq_true _ _ |>.mp hfin with h | h
    · exact i7 h
    · exact of_decide_eq_true h

theorem inrun_unflush {enc : BrotliEncoder E} {total : List Nat} {fut : List ngx_buf_t}
    {w w1 : World E} {c c1 : ngx_http_brotli_ctx_t E} (h : InRun enc total fut w c)
    (hf : c.flush = FLUSH) (hf1 : c1.flush = PROCESS)
    (h1 : w1.fed = w.fed) (h2 : w1.produced = w.produced) (h3 : c1.done = c.done)
    (h4 : c1.in_ = c.in_) (h6 : c1.bro = c.bro)
    (h7 : c1.next_in = c.next_in) (h8 : c1.in_buf = c.in_buf)
    (h9 : c1.available_in = c.available_in) : InRun enc total fut w1 c1 := by
  have hw : input_window c1 = input_window c := by
    unfold input_window
    rw [h7, h8, h9]
  obtain ⟨i1, i2, i3, _, e, fin, i5, i6, i7⟩ := h
  refine ⟨by rw [h3]; exact i1, by rw [h1, hw, h4]; exact i2, by rw [h4]; exact i3, ?_,
    e, fin, by rw [h6]; exact i5, by rw [h1, h2]; exact i6, ?_⟩
  · intro hfin
    rw [hf1] at hfin
    cases hfin
  · intro hfin
    have := i7 hfin
    rw [hf] at this
    cases this

/-- The call that leaves the stream finished completes the round trip. -/
theorem in_finish (enc : BrotliEncoder E) (decode : List Nat → List Nat)
    (hk : EncoderContract enc decode) (total : List Nat) (fut : List ngx_buf_t) (w : World E)
    (c : ngx_http_brotli_ctx_t E) (e : E) (ob : Nat) (e1 : E) (used : Nat) (outb : List Nat)
    (hI : InRun enc total fut w c) (hs : Stepped enc c e ob e1 used outb)
    (hfin : enc.isFinished e1 = true) :
    decode (w.produced ++ outb) = total := by
  obtain ⟨_, i2, _, i4, e0, fin, i5, i6, i7⟩ := hI
  obtain ⟨s1, _, s3⟩ := hs
  rw [s1] at i5
  cases i5
  obtain ⟨k1, _, k3⟩ := hk.2 _ _ _ _ i6 _ _ _ _ _ _ s3 hfin
  have hfl : c.flush = FINISH := by
    rcases k1 with h | h
    · exact i7 h
    · exact h
  have hnil := i4 hfl
  rw [List.append_eq_nil] at hnil
  rw [k3, ← i2, hnil.1, hnil.2]
  simp [chunks_bytes]

theorem in_cmp (enc : BrotliEncoder E) (decode : List Nat → List Nat)
    (hk : EncoderContract enc decode) (total : List Nat) (fut : List ngx_buf_t) (env : Env)
    (w : World E) (c : ngx_http_brotli_ctx_t E) (rc : Int) (w1 : World E)
    (c1 : ngx_http_brotli_ctx_t E) (hJ : InRun enc total fut w c)
    (h : ngx_http_brotli_filter_compress enc env w c = (rc, w1, c1)) :
    (rc = NGX_ERROR → w1.failures ≠ []) ∧
    (rc = NGX_OK → InRun enc total fut w1 c1 ∨ InEnd decode total w1 c1) ∧
    (rc ≠ NGX_ERROR → rc ≠ NGX_OK → InRun enc total fut w1 c1) := by
  have hcase := compress_cases enc env w c rc w1 c1 h
  cases hcase with
  | null h0 =>
      exact ⟨fun _ => by simp [World.fail], fun h => absurd h (by decide), fun h => absurd rfl h⟩
  | step_failed e ob hb ho hs =>
      exact ⟨fun _ => by simp [World.fail], fun h => absurd h (by decide), fun h => absurd rfl h⟩
  | full_nolink e ob e1 used outb hs h0 ha =>
      exact ⟨fun _ => by simp, fun h => absurd h (by decide), fun h => absurd rfl h⟩
  | full e ob e1 used outb hs h0 ha =>
      refine ⟨fun h => absurd h (by decide), fun h => absurd h (by decide), fun _ _ => ?_⟩
      exact inrun_transfer (in_step enc total fut w c e ob e1 used outb hJ hs)
        rfl rfl rfl rfl rfl rfl rfl rfl rfl
  | flush_nolink e ob e1 used outb hs h0 hf ha =>
      exact ⟨fun _ => by simp, fun h => absurd h (by decide), fun h => absurd rfl h⟩
  | flush_nomarker e ob e1 used outb hs h0 hf ha hz ha2 =>
      exact ⟨fun _ => by simp, fun h => absurd h (by decide), fun h => absurd rfl h⟩
  | flush_marker e ob e1 used outb hs h0 hf ha hz ha2 =>
      refine ⟨fun h => absurd h (by decide), fun _ => Or.inl ?_, fun _ h => absurd rfl h⟩
      exact inrun_unflush (in_step enc total fut w c e ob e1 used outb hJ hs) hf rfl
        rfl rfl rfl rfl rfl rfl rfl rfl
  | flush_buf e ob e1 used outb hs h0 hf ha hz =>
      refine ⟨fun h => absurd h (by decide), fun _ => Or.inl ?_, fun _ h => absurd rfl h⟩
      exact inrun_unflush (in_step enc total fut w c e ob e1 used outb hJ hs) hf rfl
        rfl rfl rfl rfl rfl rfl rfl rfl
  | end_nolink e ob e1 used outb hs h0 hf hfin ha =>
      exact ⟨fun _ => by simp, fun h => absurd h (by decide), fun h => absurd rfl h⟩
  | ended e ob e1 used outb hs h0 hf hfin ha =>
      refine ⟨fun h => absurd h (by decide), fun _ => Or.inr ⟨rfl, ?_⟩, fun _ h => absurd rfl h⟩
      exact in_finish enc decode hk total fut w c e ob e1 used outb hJ hs hfin
  | more e ob e1 used outb hs h0 hf hfin =>
      refine ⟨fun h => absurd h (by decide), fun h => absurd h (by decide), fun _ _ => ?_⟩
      exact inrun_transfer (in_step enc total fut w c e ob e1 used outb hJ hs)
        rfl rfl rfl rfl rfl rfl rfl rfl rfl

theorem in_failed (enc : BrotliEncoder E) (decode : List Nat → List Nat) (total : List Nat)
    (fut : List ngx_buf_t) (ho : Bool) (w : World E) (c : ngx_http_brotli_ctx_t E)
    (h : w.failures ≠ []) : InVerdict enc decode total fut (body_filter_failed ho w c) := by
  obtain ⟨r, h1, h2, _⟩ := failed_failures ho w c
  rw [h1]
  intro hq
  rw [h2] at hq
  exact absurd hq h

theorem in_idle (enc : BrotliEncoder E) (decode : List Nat → List Nat) (total : List Nat)
    (fut : List ngx_buf_t) (ho : Bool) (w : World E) (c : ngx_http_brotli_ctx_t E)
    (hB : InRun enc total fut w c ∨ InEnd decode total w c) :
    InVerdict enc decode total fut (idle_return ho w c) := by
  unfold idle_return ngx_http_brotli_filter_free_copy_buf
  intro _
  refine ⟨_, rfl, ?_⟩
  rcases hB with hR | hE
  · exact Or.inl (Or.inl (inrun_transfer hR rfl rfl rfl rfl rfl rfl rfl rfl rfl))
  · exact Or.inr ⟨hE.1, hE.2⟩

theorem in_next (enc : BrotliEncoder E) (decode : List Nat → List Nat) (total : List Nat)
    (fut : List ngx_buf_t) (env : Env) (ho : Bool) (w : World E)
    (c : ngx_http_brotli_ctx_t E) (rc : Int) (w2 : World E) (held : List Nat)
    (chain : List ngx_buf_t)
    (hB : InRun enc total fut w c ∨ InEnd decode total w c)
    (h : ngx_http_next_body_filter env w held chain = (rc, w2)) :
    (rc = NGX_ERROR → w2.failures ≠ []) ∧
    (rc ≠ NGX_ERROR →
      ((after_next w2 c).2.done = true →
          InVerdict enc decode total fut
            (Outcome.returned rc { ctx := some (after_next w2 c).2, header_only := ho,
                                   w := (after_next w2 c).1 })) ∧
      ((after_next w2 c).2.done ≠ true →
          InRun enc total fut (after_next w2 c).1 (after_next w2 c).2)) := by
  obtain ⟨_, hw2⟩ := next_body_filter_eq env w _ _ rc w2 h
  constructor
  · intro he
    rw [hw2]
    simp [he]
  · intro he
    have hfed : w2.fed = w.fed := by rw [hw2]
    have hprod : w2.produced = w.produced := by rw [hw2]
    rw [after_next_eq]
    constructor
    · intro hd
      intro _
      refine ⟨_, rfl, ?_⟩
      rcases hB with hR | hE
      · exact absurd hd (by simp [hR.1])
      · exact Or.inr ⟨hE.1, by show decode w2.produced = total; rw [hprod]; exact hE.2⟩
    · intro hd
      rcases hB with hR | hE
      · exact inrun_transfer hR hfed hprod rfl rfl rfl rfl rfl rfl rfl
      · exact absurd hE.1 hd

/-- Queuing the chain of an invocation moves its chunks from the chunks to
come to `ctx->in`. -/
theorem inrun_queue {enc : BrotliEncoder E} {total : List Nat} {fut chain : List ngx_buf_t}
    {w w1 : World E} {c : ngx_http_brotli_ctx_t E} (h : InRun enc total (chain ++ fut) w c)
    (h1 : w1.fed = w.fed) (h2 : w1.produced = w.produced) :
    InRun enc total fut w1 { c with in_ := c.in_ ++ chain } := by
  obtain ⟨i1, i2, i3, i4, e, fin, i5, i6, i7⟩ := h
  have hw : input_window { c with in_ := c.in_ ++ chain } = input_window c := rfl
  refine ⟨i1, ?_, ?_, ?_, e, fin, i5, by rw [h1, h2]; exact i6, i7⟩
  · rw [h1, hw]
    show w.fed ++ input_window c ++ chunks_bytes (c.in_ ++ chain) ++ chunks_bytes fut = total
    rw [← i2, chunks_bytes_append, chunks_bytes_append]
    simp only [List.append_assoc]
  · show NoEarlyLast ((c.in_ ++ chain) ++ fut)
    rw [List.append_assoc]; exact i3
  · intro hf
    show (c.in_ ++ chain) ++ fut = []
    rw [List.append_assoc]; exact i4 hf

theorem in_prologue (enc : BrotliEncoder E) (total : List Nat) (fut : List ngx_buf_t)
    (env : Env) (w : World E) (c : ngx_http_brotli_ctx_t E) (chain : List ngx_buf_t)
    (hP : InIdle enc total (chain ++ fut) w c) :
    match prologue enc env w c chain with
    | Entry.failed w1 _ => w1.failures ≠ []
    | Entry.go _ w1 c1 => InRun enc total fut w1 c1 := by
  unfold prologue
  rcases h0 : start_if_needed enc w c with ⟨rc0, w0, c0⟩
  have hA0 : (rc0 ≠ NGX_OK → w0.failures ≠ []) ∧
      (rc0 = NGX_OK → InRun enc total (chain ++ fut) w0 c0) := by
    rcases start_if_needed_cases enc w c rc0 w0 c0 h0 with
      ⟨rfl, hb, hw, hc⟩ | ⟨rfl, hb, hc, rfl, rfl⟩ | ⟨e, rfl, hb, hc, rfl, rfl⟩
    · rw [hw, hc]
      refine ⟨fun h => absurd rfl h, fun _ => ?_⟩
      rcases hP with hR | ⟨_, hn, _⟩
      · exact hR
      · exact absurd hn hb
    · exact ⟨fun _ => by simp [World.fail], fun h => absurd h (by decide)⟩
    · refine ⟨fun h => absurd rfl h, fun _ => ?_⟩
      rcases hP with ⟨_, _, _, _, e0, _, hR, _⟩ | ⟨p1, _, p3, p4, _, p6, p7, p8⟩
      · rw [hb] at hR; cases hR
      · refine ⟨p1, ?_, p7, p8, e, false, rfl, ?_, fun h => absurd h (by decide)⟩
        · show w.fed ++ [] ++ chunks_bytes c.in_ ++ chunks_bytes (chain ++ fut) = total
          rw [p3]
          simpa using p6
        · show EncReach enc e w.fed w.produced false
          rw [p3, p4]
          exact EncReach.init e hc
  simp only []
  by_cases hrc0 : rc0 = NGX_OK
  · rw [if_neg (by simpa using hrc0)]
    have hR0 := hA0.2 hrc0
    rcases h1 : add_input env w0 c0 chain with ⟨rc1, w1, c1⟩
    obtain ⟨_, _, _, _, k5, k6, _, _, _, ⟨l, rfl⟩, k11⟩ :=
      add_input_cases env w0 c0 chain rc1 w1 c1 h1
    simp only []
    rcases k11 with ⟨rfl, _, k13⟩ | ⟨rfl, k12⟩
    · simp only [ne_eq, not_true_eq_false, if_false]
      have hR1 : InRun enc total fut w1 { c0 with in_ := l } := by
        rw [k13]
        exact inrun_queue hR0 k5 k6
      unfold flush_busy
      by_cases hn : c0.nomem = true
      · simp only [hn, if_true]
        rcases hN : ngx_http_next_body_filter env w1 c0.busy [] with ⟨rc2, w2⟩
        obtain ⟨_, hw2⟩ := next_body_filter_eq env w1 _ _ rc2 w2 hN
        simp only []
        by_cases he : rc2 = NGX_ERROR
        · simp only [he, if_true]
          rw [hw2]
          simp [he]
        · simp only [he, if_false]
          exact inrun_transfer hR1 (by rw [hw2]) (by rw [hw2]) rfl rfl rfl rfl rfl rfl rfl
      · simp only [hn, Bool.false_eq_true, if_false]
        exact hR1
    · simp only [ne_eq, show ¬ (NGX_ERROR = NGX_OK) by decide, not_false_eq_true, if_true]
      rw [k12]; simp
  · rw [if_pos (by simpa using hrc0)]
    exact hA0.1 hrc0

/-- On the input side every invocation past the pass-through check, under the
encoder contract, leaves the session idle with its account kept, or done with
the round trip complete, unless a failure event occurred. -/
theorem session_in_verdict (enc : BrotliEncoder E) (decode : List Nat → List Nat)
    (hk : EncoderContract enc decode) (total : List Nat) (fut : List ngx_buf_t) (env : Env)
    (conf : ngx_http_brotli_conf_t) (fuel : Nat) (ho : Bool) (w : World E)
    (c : ngx_http_brotli_ctx_t E) (chain : List ngx_buf_t)
    (hP : InIdle enc total (chain ++ fut) w c) :
    InVerdict enc decode total fut (body_filter_session enc env conf fuel ho w c chain) := by
  unfold body_filter_session
  have hp := in_prologue enc total fut env w c chain hP
  rcases hPr : prologue enc env w c chain with ⟨w1, c1⟩ | ⟨flush, w1, c1⟩
  · rw [hPr] at hp
    exact in_failed enc decode total fut ho w1 c1 hp
  · rw [hPr] at hp
    refine cycle_rule enc env conf ho (InRun enc total fut) (InRun enc total fut)
      (fun w' c' => InRun enc total fut w' c' ∨ InEnd decode total w' c')
      (fun w' _ => w'.failures ≠ [])
      (InVerdict enc decode total fut) ?_ ?_ ?_ ?_ ?_ ?_ ?_ fuel fuel flush w1 c1 hp
    · intro w' c' rc c1' hI h
      exact ⟨fun _ => Or.inl (in_add enc total fut w' c' rc c1' hI h),
        fun _ => in_add enc total fut w' c' rc c1' hI h⟩
    · intro w' c' rc w1' c1' hI h
      obtain ⟨g1, g2⟩ := in_get enc total fut conf env w' c' rc w1' c1' hI h
      exact ⟨fun hr => Or.inl (g2 (by rw [hr]; decide)), g1, fun _ he => g2 he⟩
    · intro w' c' rc w1' c1' hJ h
      exact in_cmp enc decode hk total fut env w' c' rc w1' c1' hJ h
    · intro w' c' hF
      exact in_failed enc decode total fut ho w' c' hF
    · intro w' c' _
      trivial
    · intro w' c' hB _
      exact in_idle enc decode total fut ho w' c' hB
    · intro w' c' rc w2 hB hN
      exact in_next enc decode total fut env ho w' c' rc w2 _ _ hB hN

theorem inidle_running {enc : BrotliEncoder E} {total : List Nat} {fut : List ngx_buf_t}
    {w : World E} {c : ngx_http_brotli_ctx_t E} (h : InIdle enc total fut w c) :
    c.done = false := by
  rcases h with h | h
  · exact h.1
  · exact h.1

/-- The input-side invariant holds along every run of `drive`. -/
theorem drive_in (enc : BrotliEncoder E) (decode : List Nat → List Nat)
    (hk : EncoderContract enc decode) (total : List Nat) (env : Env)
    (conf : ngx_http_brotli_conf_t) (fuel : Nat) (chains : List (List ngx_buf_t)) :
    ∀ (r r1 : ngx_http_request_t E), r.header_only = false →
      (∃ c, r.ctx = some c ∧
        (r.w.failures = [] →
          InIdle enc total (chain_chunks chains) r.w c ∨ InEnd decode total r.w c)) →
      drive enc env conf fuel chains r = some r1 →
      ∃ c1, r1.ctx = some c1 ∧
        (r1.w.failures = [] → c1.done = true → decode r1.w.produced = total) := by
  induction chains with
  | nil =>
      intro r r1 _ hI h
      simp only [drive, Option.some.injEq] at h
      rw [← h]
      obtain ⟨c, hc, hinv⟩ := hI
      refine ⟨c, hc, fun hq hd => ?_⟩
      rcases hinv hq with h1 | h1
      · rw [inidle_running h1] at hd; cases hd
      · exact h1.2
  | cons chain rest ih =>
      intro r r1 hho hI h
      obtain ⟨c, hc, hinv⟩ := hI
      unfold drive at h
      rw [hc] at h
      simp only [] at h
      by_cases hd : c.done = true
      · rw [if_pos hd] at h
        simp only [Option.some.injEq] at h
        rw [← h]
        refine ⟨c, hc, fun hq _ => ?_⟩
        rcases hinv hq with h1 | h1
        · rw [inidle_running h1] at hd; cases hd
        · exact h1.2
      · rw [if_neg hd] at h
        have hd' : c.done = false := by simpa using hd
        rw [body_filter_past_check enc env conf fuel r c chain hc hd' hho] at h
        rcases hO : body_filter_session enc env conf fuel r.header_only r.w c chain with
          ⟨rc, r2⟩ | ⟨r2⟩
        · rw [hO] at h
          simp only [] at h
          refine ih r2 r1 ?_ ?_ h
          · have := session_header_only enc env conf fuel r.header_only r.w c chain
            rw [hO] at this
            rw [← hho]; exact this
          · by_cases hq : r2.w.failures = []
            · obtain ⟨hq0, _⟩ := session_failures_mono enc env conf fuel _ _ _ _ _ _ hd' hO hq
              have hP : InIdle enc total (chain ++ chain_chunks rest) r.w c := by
                rcases hinv hq0 with h1 | h1
                · exact h1
                · exact absurd h1.1 hd
              have hv := session_in_verdict enc decode hk total (chain_chunks rest) env conf
                fuel r.header_only r.w c chain hP
              rw [hO] at hv
              obtain ⟨c2, hc2, hv2⟩ := hv hq
              exact ⟨c2, hc2, fun _ => hv2⟩
            · have hv := session_verdict enc False env conf fuel r.header_only r.w c chain hd'
                (fun h => absurd h id)
              rw [hO] at hv
              obtain ⟨c2, hc2, _⟩ := hv
              exact ⟨c2, hc2, fun h => absurd h hq⟩
        · rw [hO] at h
          simp at h

theorem fresh_in_idle (enc : BrotliEncoder E) (fut : List ngx_buf_t) (hl : NoEarlyLast fut) :
    InIdle enc (chunks_bytes fut) fut (fresh_world E) (fresh_ctx E) :=
  Or.inr ⟨rfl, rfl, rfl, rfl, rfl, rfl, hl, fun h => by cases h⟩

/-- The test encoder honours the contract with its decoder. -/
theorem toy_reach (e : ToyState) (i o : List Nat) (fin : Bool) (h : EncReach toy e i o fin) :
    e.closed = fin ∧ o ++ e.pending = i ++ (if fin = true then [3] else []) := by
  induction h with
  | init e h =>
      simp only [toy, Option.some.injEq] at h
      rw [← h]
      exact ⟨rfl, rfl⟩
  | step e i o fin op inp avail e1 used outb _ hs ih =>
      obtain ⟨ih1, ih2⟩ := ih
      simp only [toy] at hs
      split at hs
      · cases hs
      · rename_i hg
        simp only [Option.some.injEq, Prod.mk.injEq] at hs
        obtain ⟨h1, h2, h3⟩ := hs
        rw [← h1, ← h2, ← h3]
        refine ⟨by simp [ih1], ?_⟩
        simp only [List.take_length, List.append_assoc, List.take_append_drop]
        rw [← List.append_assoc o, ih2]
        cases fin <;> by_cases hop : op = FINISH <;> simp_all

theorem toy_contract : EncoderContract toy toy_decode := by
  refine ⟨toy_bounds, ?_⟩
  intro e i o fin hr op inp avail e1 used outb hs hfin
  obtain ⟨r1, r2⟩ := toy_reach e1 _ _ _
    (EncReach.step e i o fin op inp avail e1 used outb hr hs)
  have hused : inp.take used = inp := by
    simp only [toy] at hs
    split at hs
    · cases hs
    · simp only [Option.some.injEq, Prod.mk.injEq] at hs
      rw [← hs.2.1]
      exact List.take_length inp
  simp only [toy, Bool.and_eq_true, decide_eq_true_eq] at hfin
  obtain ⟨hc, hp⟩ := hfin
  rw [hc] at r1
  rw [hp, ← r1, hused] at r2
  refine ⟨?_, hused, ?_⟩
  · have := r1.symm
    simpa using this
  · simp only [List.append_nil, if_true] at r2
    rw [r2]
    simp [toy_decode]

/-! ## Termination in a cooperative environment (C1) -/

/-- A cooperative environment: every allocation succeeds, the next body
filter never fails and sends every byte of every buffer it holds. -/
def Cooperative (env : Env) (conf : ngx_http_brotli_conf_t) : Prop :=
  (∀ k, env.alloc_ok k = true) ∧ (∀ k, env.next_rc k ≠ NGX_ERROR) ∧
  ∀ k i, conf.bufs_size ≤ env.next_consume k i

/-- Progress of the encoder: a successful call that is given output space
either fills it, and then `rank` of the state, the operation and the input left
goes down, or it consumes all its input and, for FINISH, leaves the stream
finished. -/
def EncoderProgress (enc : BrotliEncoder E)
    (rank : E → BrotliEncoderOperation → Nat → Nat) : Prop :=
  ∀ e op inp avail e1 used outb, enc.compressStream e op inp avail = some (e1, used, outb) →
    0 < avail →
    (outb.length = avail → rank e1 op (inp.length - used) < rank e op inp.length) ∧
    (outb.length ≠ avail → used = inp.length ∧ (op = FINISH → enc.isFinished e1 = true))

/-- The encoder has taken everything it was offered: `add_data` will pull the
next chunk. -/
def Fed (c : ngx_http_brotli_ctx_t E) : Prop :=
  c.available_in = 0 ∧ c.flush = PROCESS ∧ c.redo = false

/-- Nothing is left to do in this invocation. -/
def Drained (c : ngx_http_brotli_ctx_t E) : Prop := c.in_ = [] ∧ Fed c

/-- The encoder calls the current operation may still need. -/
def work (rank : E → BrotliEncoderOperation → Nat → Nat) (c : ngx_http_brotli_ctx_t E) : Nat :=
  if c.available_in = 0 ∧ c.flush = PROCESS ∧ c.redo = false then 0
  else 1 + match c.bro with
    | some e => rank e c.flush c.available_in
    | none => 0

/-- The order in which the loops advance: fewer chunks queued, or as many and
less work on the current one. -/
def Less (rank : E → BrotliEncoderOperation → Nat → Nat) (c1 c : ngx_http_brotli_ctx_t E) :
    Prop :=
  c1.in_.length < c.in_.length ∨ (c1.in_.length = c.in_.length ∧ work rank c1 < work rank c)

/-- What a cooperative environment adds to the output-side invariant: no
buffer stays busy; a pool that has created a buffer has one at hand; the
buffer being filled carries the module's tag; the buffers of `out` end within
`conf->bufs.size`; `available_in` bytes are readable at `next_in`; the queued
chunks lie within their memory; and the chunk closing the body is still to
come unless FINISH is requested already. -/
structure CoExtra (conf : ngx_http_brotli_conf_t) (fut : List ngx_buf_t) (w : World E)
    (c : ngx_http_brotli_ctx_t E) : Prop where
  nobusy : c.busy = []
  pool : 1 ≤ c.bufs → c.available_out ≠ 0 ∨ c.free ≠ [] ∨
    ∃ i ∈ c.out, (getBuf w.heap i).tag = true
  cur_tag : c.available_out ≠ 0 → ∀ ob, c.out_buf = some ob → (getBuf w.heap ob).tag = true
  out_last : ∀ i ∈ c.out, (getBuf w.heap i).last ≤ conf.bufs_size
  win : (input_window c).length = c.available_in
  wf : ∀ b ∈ c.in_, b.last ≤ b.mem.length
  closing : c.flush = FINISH ∨ ∃ b ∈ c.in_ ++ fut, b.last_buf = true

theorem coextra_transfer {conf : ngx_http_brotli_conf_t} {fut : List ngx_buf_t}
    {w w1 : World E} {c c1 : ngx_http_brotli_ctx_t E} (h : CoExtra conf fut w c)
    (hh : w1.heap = w.heap) (h1 : c1.busy = c.busy) (h2 : c1.bufs = c.bufs)
    (h3 : c1.available_out = c.available_out) (h4 : c1.free = c.free) (h5 : c1.out = c.out)
    (h6 : c1.out_buf = c.out_buf) (h7 : c1.next_in = c.next_in) (h8 : c1.in_buf = c.in_buf)
    (h9 : c1.available_in = c.available_in) (h10 : c1.in_ = c.in_)
    (h11 : c1.flush = c.flush) : CoExtra conf fut w1 c1 where
  nobusy := by rw [h1]; exact h.nobusy
  pool := by rw [h2, h3, h4, h5, hh]; exact h.pool
  cur_tag := by rw [h3, h6, hh]; exact h.cur_tag
  out_last := by rw [h5, hh]; exact h.out_last
  win := by
    have hw : input_window c1 = input_window c := by
      unfold input_window
      rw [h7, h8, h9]
    rw [hw, h9]; exact h.win
  wf := by rw [h10]; exact h.wf
  closing := by rw [h11, h10]; exact h.closing

theorem add_measure (c : ngx_http_brotli_ctx_t E) (rc : Int) (c1 : ngx_http_brotli_ctx_t E)
    (h : ngx_http_brotli_filter_add_data c = (rc, c1)) :
    (rc = NGX_DECLINED ∧ c1 = c ∧ Drained c) ∨
    (rc = NGX_AGAIN ∧ c1.in_.length < c.in_.length) ∨
    (rc = NGX_OK ∧ ¬ Fed c1 ∧ (c1 = c ∨ c1.in_.length < c.in_.length)) := by
  rcases add_data_cases c rc c1 h with ⟨hrc, hc, hg⟩ | ⟨hrc, hc, hin, hg⟩ |
    ⟨b, rest, hin, hg, hc, hrc⟩
  · refine Or.inr (Or.inr ⟨hrc, ?_, Or.inl hc⟩)
    rw [hc]
    intro hf
    rcases hg with h1 | h1 | h1
    · exact h1 hf.1
    · exact h1 hf.2.1
    · rw [hf.2.2] at h1; cases h1
  · refine Or.inl ⟨hrc, hc, hin, ?_⟩
    refine ⟨?_, ?_, ?_⟩
    · by_contra h0; exact hg (Or.inl h0)
    · by_contra h0; exact hg (Or.inr (Or.inl h0))
    · by_contra h0; exact hg (Or.inr (Or.inr (by simpa using h0)))
  · have hlen : c1.in_.length < c.in_.length := by
      rw [hc, hin]; simp [pulled]
    by_cases hp : (pulled c b rest).available_in = 0 ∧ (pulled c b rest).flush = PROCESS
    · rw [if_pos hp] at hrc
      exact Or.inr (Or.inl ⟨hrc, hlen⟩)
    · rw [if_neg hp] at hrc
      refine Or.inr (Or.inr ⟨hrc, ?_, Or.inr hlen⟩)
      rw [hc]
      intro hf
      exact hp ⟨hf.1, hf.2.1⟩

theorem coextra_add (conf : ngx_http_brotli_conf_t) (fut : List ngx_buf_t) (w : World E)
    (c : ngx_http_brotli_ctx_t E) (rc : Int) (c1 : ngx_http_brotli_ctx_t E)
    (hX : CoExtra conf fut w c) (h : ngx_http_brotli_filter_add_data c = (rc, c1)) :
    CoExtra conf fut w c1 := by
  rcases add_data_cases c rc c1 h with ⟨_, hc, _⟩ | ⟨_, hc, _⟩ | ⟨b, rest, hin, hg, hc, _⟩
  · rw [hc]; exact hX
  · rw [hc]; exact hX
  · have hf : c.flush = PROCESS := by
      by_contra h0
      exact hg (Or.inr (Or.inl h0))
    have hwf := hX.wf
    rw [hin] at hwf
    rw [hc]
    refine ⟨hX.nobusy, hX.pool, hX.cur_tag, hX.out_last, ?_, ?_, ?_⟩
    · have hb := hwf b (List.mem_cons_self _ _)
      simp only [input_window, pulled, List.length_take, List.length_drop]
      omega
    · intro x hx
      exact hwf x (List.mem_cons_of_mem _ hx)
    · rcases hX.closing with h1 | ⟨x, hx, hl⟩
      · rw [hf] at h1; cases h1
      · rw [hin] at hx
        simp only [List.cons_append, List.mem_cons] at hx
        rcases hx with rfl | hx
        · left; simp [pulled, hl]
        · right; exact ⟨x, hx, hl⟩

theorem coextra_get (conf : ngx_http_brotli_conf_t) (fut : List ngx_buf_t) (env : Env)
    (w : World E) (c : ngx_http_brotli_ctx_t E) (rc : Int) (w1 : World E)
    (c1 : ngx_http_brotli_ctx_t E) (hco : Cooperative env conf) (hsz : 0 < conf.bufs_size)
    (hnum : 1 ≤ conf.bufs_num) (hR : OutRun conf w c) (hX : CoExtra conf fut w c)
    (h : ngx_http_brotli_filter_get_buf env conf w c = (rc, w1, c1)) :
    rc ≠ NGX_ERROR ∧ CoExtra conf fut w1 c1 ∧
    (rc = NGX_DECLINED → c1.out ≠ [] ∧ c1.out = c.out) ∧
    (rc ≠ NGX_DECLINED → c1.available_out ≠ 0) := by
  have hsz' : conf.bufs_size ≠ 0 := by omega
  rcases get_buf_cases env conf w w1 c c1 rc h with
    ⟨rfl, h0, rfl, rfl⟩ | ⟨rfl, h0, rfl, i, rest, hfree, rfl⟩ |
    ⟨rfl, h0, hfree, hlt, ha, rfl, rfl⟩ | ⟨rfl, _, _, _, ha, _, _⟩ |
    ⟨rfl, h0, hfree, hlt, rfl, rfl⟩
  · exact ⟨by decide, hX, fun h => absurd h (by decide), fun _ => h0⟩
  · refine ⟨by decide, ?_, fun h => absurd h (by decide), fun _ => hsz'⟩
    refine ⟨hX.nobusy, fun _ => Or.inl hsz', ?_, hX.out_last, hX.win, hX.wf, hX.closing⟩
    intro _ ob hob
    simp only [Option.some.injEq] at hob
    rw [← hob]
    exact (hR.1.free_ok i (by rw [hfree]; exact List.mem_cons_self _ _)).2.2
  · refine ⟨by decide, ?_, fun h => absurd h (by decide), fun _ => hsz'⟩
    refine ⟨hX.nobusy, fun _ => Or.inl hsz', ?_, ?_, hX.win, hX.wf, hX.closing⟩
    · intro _ ob hob
      simp only [Option.some.injEq] at hob
      rw [← hob]
      show (getBuf (w.heap ++ [tagged_temp_buf conf.bufs_size]) w.heap.length).tag = true
      rw [getBuf_append_new]
      rfl
    · intro i hi
      show (getBuf (w.heap ++ [tagged_temp_buf conf.bufs_size]) i).last ≤ conf.bufs_size
      rw [getBuf_append_left _ _ _ (hR.1.valid i (by simp [hi]))]
      exact hX.out_last i hi
  · rw [hco.1] at ha
    cases ha
  · refine ⟨by decide, coextra_transfer hX rfl rfl rfl rfl rfl rfl rfl rfl rfl rfl rfl rfl,
      fun _ => ⟨?_, rfl⟩, fun h => absurd rfl h⟩
    have hb : 1 ≤ c.bufs := by omega
    rcases hX.pool hb with h1 | h1 | ⟨i, hi, _⟩
    · exact absurd h0 h1
    · exact absurd hfree h1
    · intro hnil
      show False
      have : i ∈ c.out := hi
      rw [show c.out = [] from hnil] at this
      cases this

theorem work_fed (rank : E → BrotliEncoderOperation → Nat → Nat) (c : ngx_http_brotli_ctx_t E)
    (h : Fed c) : work rank c = 0 := by
  unfold work
  unfold Fed at h
  rw [if_pos h]

theorem work_unfed (rank : E → BrotliEncoderOperation → Nat → Nat)
    (c : ngx_http_brotli_ctx_t E) (e : E) (h : ¬ Fed c) (hb : c.bro = some e) :
    work rank c = 1 + rank e c.flush c.available_in := by
  unfold work
  unfold Fed at h
  rw [if_neg h, hb]

/-- What one successful encoder call leaves of the heap and of the input
window. -/
theorem co_step (enc : BrotliEncoder E) (hb : EncoderBounds enc)
    (conf : ngx_http_brotli_conf_t) (fut : List ngx_buf_t) (w : World E)
    (c : ngx_http_brotli_ctx_t E) (e : E) (ob : Nat) (e1 : E) (used : Nat) (outb : List Nat)
    (hJ : OutReady conf w c) (hX : CoExtra conf fut w c)
    (hs : Stepped enc c e ob e1 used outb) :
    Live conf w c ob ∧ used ≤ c.available_in ∧ outb.length ≤ c.available_out ∧
    (∀ j, (getBuf (encoder_call_world w c ob used outb).heap j).tag = (getBuf w.heap j).tag) ∧
    (∀ j, j ≠ ob → getBuf (encoder_call_world w c ob used outb).heap j = getBuf w.heap j) ∧
    (getBuf (encoder_call_world w c ob used outb).heap ob).last = c.next_out + outb.length ∧
    (input_window (encoder_call_ctx c e1 used outb)).length = c.available_in - used := by
  obtain ⟨_, _, ob', hL⟩ := hJ
  obtain ⟨s1, s2, s3⟩ := hs
  have ho : ob' = ob := by
    have := hL.cur
    rw [s2] at this
    simp only [Option.some.injEq] at this
    exact this.symm
  rw [ho] at hL
  obtain ⟨b1, b2⟩ := hb _ _ _ _ _ _ _ s3
  rw [hX.win] at b1
  have hheap := encoder_call_heap w c ob used outb hL.valid
  refine ⟨hL, b1, b2, ?_, ?_, ?_, ?_⟩
  · intro j
    rw [hheap j]
    by_cases hj : j = ob
    · rw [if_pos hj, hj]
    · rw [if_neg hj]
  · intro j hj
    rw [hheap j, if_neg hj]
  · rw [hheap ob, if_pos rfl]
  · rw [input_window_step, List.length_drop, hX.win]

theorem mem_link_out (l : List Nat) (n ob i : Nat) (h : i ∈ l.take n ++ [ob]) :
    i ∈ l ∨ i = ob := by
  rcases List.mem_append.mp h with h1 | h1
  · exact Or.inl (List.mem_of_mem_take h1)
  · exact Or.inr (by simpa using h1)

theorem coextra_cmp (enc : BrotliEncoder E) (hb : EncoderBounds enc)
    (rank : E → BrotliEncoderOperation → Nat → Nat) (hp : EncoderProgress enc rank)
    (conf : ngx_http_brotli_conf_t) (fut : List ngx_buf_t) (env : Env) (w : World E)
    (c : ngx_http_brotli_ctx_t E) (rc : Int) (w1 : World E) (c1 : ngx_http_brotli_ctx_t E)
    (hco : Cooperative env conf) (hJ : OutReady conf w c) (hX : CoExtra conf fut w c)
    (h0 : c.available_out ≠ 0) (hnf : ¬ Fed c)
    (h : ngx_http_brotli_filter_compress enc env w c = (rc, w1, c1)) :
    (rc = NGX_ERROR ∧ w1.failures = [Failure.encoder_step]) ∨
    (rc = NGX_AGAIN ∧ CoExtra conf fut w1 c1 ∧ c1.in_.length = c.in_.length ∧
      work rank c1 < work rank c) ∨
    (rc = NGX_OK ∧ c1.out ≠ [] ∧
      (c1.done = true ∨ (CoExtra conf fut w1 c1 ∧ Fed c1 ∧ c1.in_.length = c.in_.length))) := by
  have hq : w.failures = [] := hJ.1.quiet
  have hpos : 0 < c.available_out := Nat.pos_of_ne_zero h0
  have hcase := compress_cases enc env w c rc w1 c1 h
  cases hcase with
  | null hn =>
      obtain ⟨_, hbro, ob, hL⟩ := hJ
      rcases hn with hn | hn
      · exact absurd hn hbro
      · rw [hL.cur] at hn; cases hn
  | step_failed e ob hbro ho hs =>
      exact Or.inl ⟨rfl, by simp [World.fail, hq]⟩
  | full_nolink e ob e1 used outb hs h1 ha => rw [hco.1] at ha; cases ha
  | flush_nolink e ob e1 used outb hs h1 hf ha => rw [hco.1] at ha; cases ha
  | flush_nomarker e ob e1 used outb hs h1 hf ha hz ha2 => rw [hco.1] at ha2; cases ha2
  | end_nolink e ob e1 used outb hs h1 hf hfin ha => rw [hco.1] at ha; cases ha
  | full e ob e1 used outb hs h1 ha =>
      obtain ⟨hL, k1, k2, k3, k4, k5, k6⟩ := co_step enc hb conf fut w c e ob e1 used outb hJ hX hs
      have hfull : outb.length = c.available_out := by
        have : c.available_out - outb.length = 0 := h1
        omega
      have hr := (hp _ _ _ _ _ _ _ hs.2.2 hpos).1 hfull
      rw [hX.win] at hr
      refine Or.inr (Or.inl ⟨rfl, ⟨hX.nobusy, fun _ => Or.inr (Or.inr ⟨ob, ?_, ?_⟩),
        fun hne => absurd h1 hne, ?_, k6, hX.wf, hX.closing⟩, rfl, ?_⟩)
      · simp [link_out, encoder_call_ctx]
      · show (getBuf (encoder_call_world w c ob used outb).heap ob).tag = true
        rw [k3]; exact hX.cur_tag h0 ob hL.cur
      · intro i hi
        show (getBuf (encoder_call_world w c ob used outb).heap i).last ≤ conf.bufs_size
        rcases mem_link_out c.out c.last_out ob i hi with hi1 | hi1
        · have hne : i ≠ ob := fun h => hL.fresh (by rw [← h]; simp [hi1])
          rw [k4 i hne]; exact hX.out_last i hi1
        · rw [hi1, k5]
          have := hL.room
          omega
      · rw [work_unfed rank c e hnf hs.1]
        have hnf1 : ¬ Fed ({ link_out (encoder_call_ctx c e1 used outb) ob with redo := true }
            : ngx_http_brotli_ctx_t E) := fun hf => by cases hf.2.2
        rw [work_unfed rank _ e1 hnf1 rfl]
        show 1 + rank e1 c.flush (c.available_in - used) < 1 + rank e c.flush c.available_in
        omega
  | more e ob e1 used outb hs h1 hf hfin =>
      obtain ⟨hL, k1, k2, k3, k4, k5, k6⟩ := co_step enc hb conf fut w c e ob e1 used outb hJ hX hs
      have hnfull : outb.length ≠ c.available_out := by
        have : c.available_out - outb.length ≠ 0 := h1
        omega
      obtain ⟨p1, p2⟩ := (hp _ _ _ _ _ _ _ hs.2.2 hpos).2 hnfull
      rw [hX.win] at p1
      have hfl : c.flush = PROCESS := by
        cases hc : c.flush with
        | PROCESS => rfl
        | FLUSH => exact absurd hc hf
        | FINISH => exact absurd (p2 hc) hfin
      have hfed : Fed ({ encoder_call_ctx c e1 used outb with redo := false }
          : ngx_http_brotli_ctx_t E) := by
        refine ⟨?_, hfl, rfl⟩
        show c.available_in - used = 0
        omega
      refine Or.inr (Or.inl ⟨rfl, ⟨hX.nobusy, fun _ => Or.inl h1, ?_, ?_, k6, hX.wf,
        hX.closing⟩, rfl, ?_⟩)
      · intro _ ob' hob'
        show (getBuf (encoder_call_world w c ob used outb).heap ob').tag = true
        rw [k3]; exact hX.cur_tag h0 ob' hob'
      · intro i hi
        show (getBuf (encoder_call_world w c ob used outb).heap i).last ≤ conf.bufs_size
        have hne : i ≠ ob := fun h => hL.fresh (by rw [← h]; simp [show i ∈ c.out from hi])
        rw [k4 i hne]; exact hX.out_last i hi
      · rw [work_fed rank _ hfed, work_unfed rank c e hnf hs.1]
        omega
  | flush_marker e ob e1 used outb hs h1 hf ha hz ha2 =>
      obtain ⟨hL, k1, k2, k3, k4, k5, k6⟩ := co_step enc hb conf fut w c e ob e1 used outb hJ hX hs
      have hnfull : outb.length ≠ c.available_out := by
        have : c.available_out - outb.length ≠ 0 := h1
        omega
      obtain ⟨p1, _⟩ := (hp _ _ _ _ _ _ _ hs.2.2 hpos).2 hnfull
      rw [hX.win] at p1
      have hlen := encoder_call_world_heap_length w c ob used outb
      have hcl : ∃ b ∈ c.in_ ++ fut, b.last_buf = true := by
        rcases hX.closing with h2 | h2
        · rw [hf] at h2; cases h2
        · exact h2
      refine Or.inr (Or.inr ⟨rfl, by simp [link_out], Or.inr ⟨⟨hX.nobusy, fun _ => Or.inl h1,
        ?_, ?_, k6, hX.wf, Or.inr hcl⟩, ⟨?_, rfl, rfl⟩, rfl⟩⟩)
      · intro _ ob' hob'
        have ho : ob' = ob := by
          have h3 : c.out_buf = some ob' := hob'
          rw [hL.cur] at h3
          simp only [Option.some.injEq] at h3
          exact h3.symm
        show (getBuf ((encoder_call_world w c ob used outb).heap ++ _) ob').tag = true
        rw [ho, getBuf_append_left _ _ _ (by rw [hlen]; exact hL.valid), k3]
        exact hX.cur_tag h0 ob hL.cur
      · intro i hi
        show (getBuf ((encoder_call_world w c ob used outb).heap ++ _) i).last ≤ conf.bufs_size
        rcases mem_link_out c.out c.last_out _ i hi with hi1 | hi1
        · have hne : i ≠ ob := fun h => hL.fresh (by rw [← h]; simp [hi1])
          rw [getBuf_append_left _ _ _ (by rw [hlen]; exact hJ.1.valid i (by simp [hi1])),
            k4 i hne]
          exact hX.out_last i hi1
        · rw [hi1, getBuf_append_new]
          exact Nat.zero_le _
      · show c.available_in - used = 0
        omega
  | flush_buf e ob e1 used outb hs h1 hf ha hz =>
      obtain ⟨hL, k1, k2, k3, k4, k5, k6⟩ := co_step enc hb conf fut w c e ob e1 used outb hJ hX hs
      have hnfull : outb.length ≠ c.available_out := by
        have : c.available_out - outb.length ≠ 0 := h1
        omega
      obtain ⟨p1, _⟩ := (hp _ _ _ _ _ _ _ hs.2.2 hpos).2 hnfull
      rw [hX.win] at p1
      have hcl : ∃ b ∈ c.in_ ++ fut, b.last_buf = true := by
        rcases hX.closing with h2 | h2
        · rw [hf] at h2; cases h2
        · exact h2
      have hsd := updBuf_sameData (encoder_call_world w c ob used outb).heap ob
        (fun b => { b with flush := true }) (fun b => ⟨rfl, rfl, rfl, rfl, rfl⟩)
      refine Or.inr (Or.inr ⟨rfl, by simp [link_out], Or.inr ⟨⟨hX.nobusy,
        fun _ => Or.inr (Or.inr ⟨ob, by simp [link_out, encoder_call_ctx], ?_⟩),
        fun hne => absurd rfl hne, ?_, k6, hX.wf, Or.inr hcl⟩, ⟨?_, rfl, rfl⟩, rfl⟩⟩)
      · show (getBuf (updBuf (encoder_call_world w c ob used outb).heap ob
          (fun b => { b with flush := true })) ob).tag = true
        rw [(hsd ob).2.2.2.2, k3]
        exact hX.cur_tag h0 ob hL.cur
      · intro i hi
        show (getBuf (updBuf (encoder_call_world w c ob used outb).heap ob
          (fun b => { b with flush := true })) i).last ≤ conf.bufs_size
        rw [(hsd i).2.1]
        rcases mem_link_out c.out c.last_out ob i hi with hi1 | hi1
        · have hne : i ≠ ob := fun h => hL.fresh (by rw [← h]; simp [hi1])
          rw [k4 i hne]; exact hX.out_last i hi1
        · rw [hi1, k5]
          have := hL.room
          omega
      · show c.available_in - used = 0
        omega
  | ended e ob e1 used outb hs h1 hf hfin ha =>
      refine Or.inr (Or.inr ⟨rfl, ?_, Or.inl rfl⟩)
      simp [link_out, encoder_call_ctx]

theorem consume_drained (k : Nat → Nat) (l : List Nat) :
    ∀ heap : List ngx_buf_t, l.Nodup →
      (∀ i ∈ l, i < heap.length ∧ (getBuf heap i).last ≤ (getBuf heap i).pos + k i) →
      ∀ i ∈ l, ngx_buf_size (getBuf (consume k l heap) i) = 0 := by
  induction l with
  | nil => intro heap _ _ i hi; cases hi
  | cons a rest ih =>
      intro heap hnd hpre i hi
      have hnd' := List.nodup_cons.mp hnd
      have ha := hpre a (List.mem_cons_self _ _)
      rw [consume]
      rcases List.mem_cons.mp hi with rfl | hi'
      · rw [(consume_spec k rest _).2.2 i hnd'.1, getBuf_updBuf_self _ _ _ ha.1]
        simp only [ngx_buf_size]
        have := ha.2
        omega
      · refine ih _ hnd'.2 ?_ i hi'
        intro j hj
        have hne : a ≠ j := fun h => hnd'.1 (by rw [h]; exact hj)
        rw [length_updBuf, getBuf_updBuf_ne _ _ _ _ hne]
        exact hpre j (List.mem_cons_of_mem _ hj)

theorem recycle_drained (l : List Nat) :
    ∀ (heap : List ngx_buf_t) (free : List Nat), l.Nodup →
      (∀ i ∈ l, ngx_buf_size (getBuf heap i) = 0) →
      (recycle heap free l).2.2 = [] ∧ (∀ i ∈ free, i ∈ (recycle heap free l).2.1) ∧
      (∀ i ∈ l, (getBuf heap i).tag = true → i ∈ (recycle heap free l).2.1) := by
  induction l with
  | nil =>
      intro heap free _ _
      exact ⟨rfl, fun i hi => hi, fun i hi => by cases hi⟩
  | cons a rest ih =>
      intro heap free hnd hz
      have hnd' := List.nodup_cons.mp hnd
      have ha := hz a (List.mem_cons_self _ _)
      rw [recycle]
      rw [if_neg (by simpa using ha)]
      by_cases ht : (getBuf heap a).tag = false
      · rw [if_pos ht]
        obtain ⟨r1, r2, r3⟩ := ih heap free hnd'.2
          (fun i hi => hz i (List.mem_cons_of_mem _ hi))
        refine ⟨r1, r2, fun i hi htag => ?_⟩
        rcases List.mem_cons.mp hi with rfl | hi'
        · rw [ht] at htag; cases htag
        · exact r3 i hi' htag
      · rw [if_neg ht]
        have hsame : ∀ j ∈ rest,
            getBuf (updBuf heap a (fun b => { b with pos := b.start, last := b.start })) j
              = getBuf heap j := by
          intro j hj
          have hne : a ≠ j := fun h => hnd'.1 (by rw [h]; exact hj)
          exact getBuf_updBuf_ne _ _ _ _ hne
        obtain ⟨r1, r2, r3⟩ := ih
          (updBuf heap a (fun b => { b with pos := b.start, last := b.start })) (a :: free)
          hnd'.2 (fun i hi => by rw [hsame i hi]; exact hz i (List.mem_cons_of_mem _ hi))
        refine ⟨r1, fun i hi => r2 i (List.mem_cons_of_mem _ hi), fun i hi htag => ?_⟩
        rcases List.mem_cons.mp hi with rfl | hi'
        · exact r2 i (List.mem_cons_self _ _)
        · exact r3 i hi' (by rw [hsame i hi']; exact htag)

theorem recycle_tag (l : List Nat) :
    ∀ (heap : List ngx_buf_t) (free : List Nat) (j : Nat),
      (getBuf (recycle heap free l).1 j).tag = (getBuf heap j).tag := by
  induction l with
  | nil => intro heap free j; rfl
  | cons a rest ih =>
      intro heap free j
      rw [recycle]
      by_cases hz : ngx_buf_size (getBuf heap a) ≠ 0
      · rw [if_pos hz]
      · rw [if_neg hz]
        by_cases ht : (getBuf heap a).tag = false
        · rw [if_pos ht]; exact ih heap free j
        · rw [if_neg ht, ih, getBuf_updBuf]
          by_cases hj : a = j ∧ a < heap.length
          · rw [if_pos hj, hj.1]
          · rw [if_neg hj]

/-- The hand-over in a cooperative environment: every buffer handed over comes
back to the free chain, and nothing stays busy. -/
theorem coextra_next (conf : ngx_http_brotli_conf_t) (fut : List ngx_buf_t) (env : Env)
    (w : World E) (c : ngx_http_brotli_ctx_t E) (rc : Int) (w2 : World E)
    (hco : Cooperative env conf) (hS : Shape conf w c) (hX : CoExtra conf fut w c)
    (h : ngx_http_next_body_filter env w (c.busy ++ c.out) (c.out.map (getBuf w.heap))
          = (rc, w2)) :
    rc ≠ NGX_ERROR ∧ CoExtra conf fut (after_next w2 c).1 (after_next w2 c).2 ∧
    (after_next w2 c).2.out = [] ∧ (after_next w2 c).2.in_ = c.in_ ∧
    (after_next w2 c).2.available_in = c.available_in ∧
    (after_next w2 c).2.flush = c.flush ∧ (after_next w2 c).2.redo = c.redo ∧
    (after_next w2 c).2.bro = c.bro := by
  obtain ⟨hrc, hw2⟩ := next_body_filter_eq env w _ _ rc w2 h
  have hheap : w2.heap = consume (env.next_consume w.nnext) (c.busy ++ c.out) w.heap := by
    rw [hw2]
  have hbo : c.busy ++ c.out = c.out := by rw [hX.nobusy]; rfl
  have hnd : (c.busy ++ c.out).Nodup := by
    rw [hbo]
    exact (List.nodup_append.mp (List.nodup_append.mp hS.nodup).1).1
  have hzero : ∀ i ∈ c.busy ++ c.out, ngx_buf_size (getBuf w2.heap i) = 0 := by
    rw [hheap]
    refine consume_drained _ _ _ hnd ?_
    intro i hi
    rw [hbo] at hi
    refine ⟨hS.valid i (by simp [hi]), ?_⟩
    have h1 := hX.out_last i hi
    have h2 := hco.2.2 w.nnext i
    omega
  have htag : ∀ j, (getBuf w2.heap j).tag = (getBuf w.heap j).tag := by
    intro j
    rw [hheap]
    exact ((consume_spec _ _ w.heap).2.1 j).1.2.2.1
  obtain ⟨d1, d2, d3⟩ := recycle_drained (c.busy ++ c.out) w2.heap c.free hnd hzero
  rw [after_next_eq]
  refine ⟨by rw [hrc]; exact hco.2.1 _, ⟨d1, ?_, ?_, ?_, hX.win, hX.wf, hX.closing⟩,
    rfl, rfl, rfl, rfl, rfl, rfl⟩
  · intro hb
    rcases hX.pool hb with h1 | h1 | ⟨i, hi, ht⟩
    · exact Or.inl h1
    · right; left
      obtain ⟨x, hx⟩ := List.exists_mem_of_ne_nil _ h1
      exact List.ne_nil_of_mem (d2 x hx)
    · right; left
      exact List.ne_nil_of_mem (d3 i (by rw [hbo]; exact hi) (by rw [htag]; exact ht))
  · intro hne ob hob
    show (getBuf (recycle w2.heap c.free (c.busy ++ c.out)).1 ob).tag = true
    rw [recycle_tag, htag]
    exact hX.cur_tag hne ob hob
  · intro i hi
    cases hi

/-- The invariant of the loops in a cooperative environment. -/
def CoRun (conf : ngx_http_brotli_conf_t) (fut : List ngx_buf_t) (w : World E)
    (c : ngx_http_brotli_ctx_t E) : Prop :=
  OutRun conf w c ∧ CoExtra conf fut w c

/-- Not later in the order of the loops. -/
def LessEq (rank : E → BrotliEncoderOperation → Nat → Nat) (c1 c : ngx_http_brotli_ctx_t E) :
    Prop :=
  Less rank c1 c ∨ (c1.in_.length = c.in_.length ∧ work rank c1 = work rank c)

theorem less_of_le_of_less (rank : E → BrotliEncoderOperation → Nat → Nat)
    (c1 c2 c : ngx_http_brotli_ctx_t E) (h1 : LessEq rank c1 c2) (h2 : Less rank c2 c) :
    Less rank c1 c := by
  unfold LessEq Less at *
  omega

theorem less_of_less_of_le (rank : E → BrotliEncoderOperation → Nat → Nat)
    (c1 c2 c : ngx_http_brotli_ctx_t E) (h1 : Less rank c1 c2) (h2 : LessEq rank c2 c) :
    Less rank c1 c := by
  unfold LessEq Less at *
  omega

theorem le_of_le_of_le (rank : E → BrotliEncoderOperation → Nat → Nat)
    (c1 c2 c : ngx_http_brotli_ctx_t E) (h1 : LessEq rank c1 c2) (h2 : LessEq rank c2 c) :
    LessEq rank c1 c := by
  unfold LessEq Less at *
  omega

theorem work_congr (rank : E → BrotliEncoderOperation → Nat → Nat)
    (c1 c : ngx_http_brotli_ctx_t E) (h1 : c1.available_in = c.available_in)
    (h2 : c1.flush = c.flush) (h3 : c1.redo = c.redo) (h4 : c1.bro = c.bro) :
    work rank c1 = work rank c ∧ (Fed c1 ↔ Fed c) := by
  unfold work Fed
  rw [h1, h2, h3, h4]
  exact ⟨rfl, Iff.rfl⟩

theorem work_pos (rank : E → BrotliEncoderOperation → Nat → Nat) (c : ngx_http_brotli_ctx_t E)
    (h : ¬ Fed c) : 0 < work rank c := by
  unfold work
  unfold Fed at h
  rw [if_neg h]
  omega

/-- Induction along the order of the loops. -/
theorem less_induction (rank : E → BrotliEncoderOperation → Nat → Nat)
    (P : ngx_http_brotli_ctx_t E → Prop)
    (h : ∀ c, (∀ c1, Less rank c1 c → P c1) → P c) : ∀ c, P c := by
  have key : ∀ n m c, c.in_.length = n → work rank c = m → P c := by
    intro n
    induction n using Nat.strong_induction_on with
    | _ n ihn =>
        intro m
        induction m using Nat.strong_induction_on with
        | _ m ihm =>
            intro c hn hm
            apply h
            intro c1 hl
            rcases hl with h1 | ⟨h1, h2⟩
            · exact ihn c1.in_.length (by omega) _ c1 rfl rfl
            · exact ihm (work rank c1) (by omega) c1 (by omega) rfl
  intro c
  exact key _ _ c rfl rfl

theorem feed_declined (enc : BrotliEncoder E) (env : Env) (conf : ngx_http_brotli_conf_t)
    (k : Nat) (w : World E) (c c1 : ngx_http_brotli_ctx_t E)
    (h : ngx_http_brotli_filter_add_data c = (NGX_DECLINED, c1)) :
    feed enc env conf (k + 1) w c = Flow.brk w c1 := by
  rw [feed, h]
  rfl

theorem feed_again (enc : BrotliEncoder E) (env : Env) (conf : ngx_http_brotli_conf_t)
    (k : Nat) (w : World E) (c c1 : ngx_http_brotli_ctx_t E)
    (h : ngx_http_brotli_filter_add_data c = (NGX_AGAIN, c1)) :
    feed enc env conf (k + 1) w c = feed enc env conf k w c1 := by
  rw [feed, h]
  rfl

theorem feed_get_declined (enc : BrotliEncoder E) (env : Env) (conf : ngx_http_brotli_conf_t)
    (k : Nat) (w w2 : World E) (c c1 c2 : ngx_http_brotli_ctx_t E)
    (h : ngx_http_brotli_filter_add_data c = (NGX_OK, c1))
    (hg : ngx_http_brotli_filter_get_buf env conf w c1 = (NGX_DECLINED, w2, c2)) :
    feed enc env conf (k + 1) w c = Flow.brk w2 c2 := by
  rw [feed, h]
  simp only [show ¬ (NGX_OK = NGX_DECLINED) by decide, show ¬ (NGX_OK = NGX_AGAIN) by decide,
    if_false, hg, if_true]

theorem feed_compress (enc : BrotliEncoder E) (env : Env) (conf : ngx_http_brotli_conf_t)
    (k : Nat) (w w2 w3 : World E) (c c1 c2 c3 : ngx_http_brotli_ctx_t E) (rc3 : Int)
    (h : ngx_http_brotli_filter_add_data c = (NGX_OK, c1))
    (hg : ngx_http_brotli_filter_get_buf env conf w c1 = (NGX_OK, w2, c2))
    (hc : ngx_http_brotli_filter_compress enc env w2 c2 = (rc3, w3, c3)) :
    feed enc env conf (k + 1) w c =
      if rc3 = NGX_OK then Flow.brk w3 c3
      else if rc3 = NGX_ERROR then Flow.failed w3 c3
      else feed enc env conf k w3 c3 := by
  rw [feed, h]
  simp only [show ¬ (NGX_OK = NGX_DECLINED) by decide, show ¬ (NGX_OK = NGX_AGAIN) by decide,
    show ¬ (NGX_OK = NGX_ERROR) by decide, if_false, hg, hc]

/-- What the inner loop reaches from the session `c`: never the end of the
iteration budget; a failure only by a refusal of the encoder; otherwise a break
after `filter_end`, or a break in a state of the invariant that is not later
in the order of the loops, with something to hand over unless nothing is left
to do. -/
def FeedGood (rank : E → BrotliEncoderOperation → Nat → Nat) (conf : ngx_http_brotli_conf_t)
    (fut : List ngx_buf_t) (c : ngx_http_brotli_ctx_t E) : Flow E → Prop
  | Flow.timeout _ _ => False
  | Flow.failed w1 _ => w1.failures = [Failure.encoder_step]
  | Flow.brk w1 c1 =>
      (c1.out ≠ [] ∧ OutEnded w1 c1) ∨
      (CoRun conf fut w1 c1 ∧ (Drained c1 ∨ c1.out ≠ []) ∧ LessEq rank c1 c ∧
        (c.out = [] → (Drained c1 ∧ c1.out = []) ∨ Less rank c1 c))

theorem feedGood_of_less (rank : E → BrotliEncoderOperation → Nat → Nat)
    (conf : ngx_http_brotli_conf_t) (fut : List ngx_buf_t) (c1 c : ngx_http_brotli_ctx_t E)
    (fl : Flow E) (h : FeedGood rank conf fut c1 fl) (hl : Less rank c1 c) :
    FeedGood rank conf fut c fl := by
  cases fl with
  | timeout w2 c2 => exact h
  | failed w2 c2 => exact h
  | brk w2 c2 =>
      rcases h with h1 | ⟨h1, h2, h3, _⟩
      · exact Or.inl h1
      · have hl2 := less_of_le_of_less rank c2 c1 c h3 hl
        exact Or.inr ⟨h1, h2, Or.inl hl2, fun _ => Or.inr hl2⟩

theorem get_buf_rc (env : Env) (conf : ngx_http_brotli_conf_t) (w w1 : World E)
    (c c1 : ngx_http_brotli_ctx_t E) (rc : Int)
    (h : ngx_http_brotli_filter_get_buf env conf w c = (rc, w1, c1)) :
    rc = NGX_OK ∨ rc = NGX_ERROR ∨ rc = NGX_DECLINED := by
  rcases get_buf_cases env conf w w1 c c1 rc h with
    ⟨h1, _⟩ | ⟨h1, _⟩ | ⟨h1, _⟩ | ⟨h1, _⟩ | ⟨h1, _⟩
  · exact Or.inl h1
  · exact Or.inl h1
  · exact Or.inl h1
  · exact Or.inr (Or.inl h1)
  · exact Or.inr (Or.inr h1)

/-- One pass of the inner loop from a state where `add_data` returned
`NGX_OK`. -/
theorem feed_pass (enc : BrotliEncoder E) (hb : EncoderBounds enc)
    (rank : E → BrotliEncoderOperation → Nat → Nat) (hp : EncoderProgress enc rank)
    (conf : ngx_http_brotli_conf_t) (fut : List ngx_buf_t) (env : Env)
    (hco : Cooperative env conf) (hsz : 0 < conf.bufs_size) (hnum : 1 ≤ conf.bufs_num)
    (w : World E) (c c1 : ngx_http_brotli_ctx_t E)
    (ih : ∀ c2, Less rank c2 c1 → ∀ w2, CoRun conf fut w2 c2 →
      ∃ N fl, (∀ k, N ≤ k → feed enc env conf k w2 c2 = fl) ∧ FeedGood rank conf fut c2 fl)
    (hA : ngx_http_brotli_filter_add_data c = (NGX_OK, c1))
    (hR : CoRun conf fut w c1) (hnf : ¬ Fed c1) :
    ∃ N fl, (∀ k, N ≤ k → feed enc env conf k w c = fl) ∧
      (FeedGood rank conf fut c1 fl ∨
        ∃ w2 c2, fl = Flow.brk w2 c2 ∧ CoRun conf fut w2 c2 ∧ c2.out ≠ [] ∧ c2.out = c1.out ∧
          c2.in_.length = c1.in_.length ∧ work rank c2 = work rank c1) := by
  obtain ⟨hO, hX⟩ := hR
  rcases hG : ngx_http_brotli_filter_get_buf env conf w c1 with ⟨rc2, w2, c2⟩
  obtain ⟨g1, g2, g3, g4⟩ := coextra_get conf fut env w c1 rc2 w2 c2 hco hsz hnum hO hX hG
  obtain ⟨o1, _, o3⟩ := out_get conf env w c1 rc2 w2 c2 hO hG
  have hfr := get_buf_frame env conf w w2 c1 c2 rc2 hG
  have hin : c2.in_ = c1.in_ := hfr.2.2.2.1
  obtain ⟨hwk, hfd⟩ := work_congr rank c2 c1 hfr.2.2.2.2.2.2.2.2.2.2.2.2.2.2.2.2.2.2.2.1
    hfr.2.2.2.2.2.2.2.2.2.2.2.2.2.2.2.2.1 hfr.2.2.2.2.2.2.2.2.2.2.2.2.2.2.2.2.2.2.2.2
    hfr.2.2.2.2.2.2.2.2.2.2.2.2.2.2.2.1
  rcases get_buf_rc env conf w w2 c1 c2 rc2 hG with hrc | hrc | hrc
  · -- the encoder is called
    rw [hrc] at hG
    have hJ := o3 (by rw [hrc]; decide) (by rw [hrc]; decide)
    have h0 := g4 (by rw [hrc]; decide)
    have hnf2 : ¬ Fed c2 := fun h => hnf (hfd.mp h)
    rcases hC : ngx_http_brotli_filter_compress enc env w2 c2 with ⟨rc3, w3, c3⟩
    obtain ⟨_, q2, q3⟩ := out_cmp enc hb conf env w2 c2 rc3 w3 c3 hJ hC
    rcases coextra_cmp enc hb rank hp conf fut env w2 c2 rc3 w3 c3 hco hJ g2 h0 hnf2 hC with
      ⟨r1, r2⟩ | ⟨r1, r2, r3, r4⟩ | ⟨r1, r2, r3⟩
    · refine ⟨1, Flow.failed w3 c3, fun k hk => ?_, Or.inl r2⟩
      obtain ⟨k', rfl⟩ : ∃ k', k = k' + 1 := ⟨k - 1, by omega⟩
      rw [feed_compress enc env conf k' w w2 w3 c c1 c2 c3 rc3 hA hG hC, r1]
      rfl
    · have hR3 : CoRun conf fut w3 c3 :=
        ⟨q3 (by rw [r1]; decide) (by rw [r1]; decide), r2⟩
      have hl : Less rank c3 c1 := Or.inr ⟨by rw [r3, hin], by rw [← hwk]; exact r4⟩
      obtain ⟨N, fl, hN, hfl⟩ := ih c3 hl w3 hR3
      refine ⟨N + 1, fl, fun k hk => ?_, Or.inl (feedGood_of_less rank conf fut c3 c1 fl hfl hl)⟩
      obtain ⟨k', rfl⟩ : ∃ k', k = k' + 1 := ⟨k - 1, by omega⟩
      rw [feed_compress enc env conf k' w w2 w3 c c1 c2 c3 rc3 hA hG hC, r1]
      simp only [show ¬ (NGX_AGAIN = NGX_OK) by decide,
        show ¬ (NGX_AGAIN = NGX_ERROR) by decide, if_false]
      exact hN k' (by omega)
    · refine ⟨1, Flow.brk w3 c3, fun k hk => ?_, Or.inl ?_⟩
      · obtain ⟨k', rfl⟩ : ∃ k', k = k' + 1 := ⟨k - 1, by omega⟩
        rw [feed_compress enc env conf k' w w2 w3 c c1 c2 c3 rc3 hA hG hC, r1]
        rfl
      · rcases q2 r1 with hO3 | hE3
        · rcases r3 with hd | ⟨x1, x2, x3⟩
          · rw [hO3.1.running] at hd; cases hd
          · have hl : Less rank c3 c1 := by
              refine Or.inr ⟨by rw [x3, hin], ?_⟩
              rw [work_fed rank c3 x2, ← hwk]
              exact work_pos rank c2 hnf2
            exact Or.inr ⟨⟨hO3, x1⟩, Or.inr r2, Or.inl hl, fun _ => Or.inr hl⟩
        · exact Or.inl ⟨r2, hE3⟩
  · exact absurd hrc g1
  · rw [hrc] at hG
    obtain ⟨d1, d2⟩ := g3 hrc
    refine ⟨1, Flow.brk w2 c2, fun k hk => ?_, Or.inr ⟨w2, c2, rfl, ⟨o1 hrc, g2⟩, d1, d2,
      by rw [hin], hwk⟩⟩
    obtain ⟨k', rfl⟩ : ∃ k', k = k' + 1 := ⟨k - 1, by omega⟩
    exact feed_get_declined enc env conf k' w w2 c c1 c2 hA hG

/-- In a cooperative environment, with an encoder that makes progress, the
inner loop ends within some number of iterations, and then as `FeedGood`
tells. -/
theorem feed_total (enc : BrotliEncoder E) (hb : EncoderBounds enc)
    (rank : E → BrotliEncoderOperation → Nat → Nat) (hp : EncoderProgress enc rank)
    (conf : ngx_http_brotli_conf_t) (fut : List ngx_buf_t) (env : Env)
    (hco : Cooperative env conf) (hsz : 0 < conf.bufs_size) (hnum : 1 ≤ conf.bufs_num) :
    ∀ (c : ngx_http_brotli_ctx_t E) (w : World E), CoRun conf fut w c →
      ∃ N fl, (∀ k, N ≤ k → feed enc env conf k w c = fl) ∧ FeedGood rank conf fut c fl := by
  intro c
  refine less_induction rank (fun c => ∀ w, CoRun conf fut w c →
    ∃ N fl, (∀ k, N ≤ k → feed enc env conf k w c = fl) ∧ FeedGood rank conf fut c fl) ?_ c
  intro c ih w hR
  rcases hA : ngx_http_brotli_filter_add_data c with ⟨rc, c1⟩
  have hR1 : CoRun conf fut w c1 :=
    ⟨out_add conf w c rc c1 hR.1 hA, coextra_add conf fut w c rc c1 hR.2 hA⟩
  rcases add_measure c rc c1 hA with ⟨h1, h2, h3⟩ | ⟨h1, h2⟩ | ⟨h1, h2, h3⟩
  · rw [h1] at hA
    rw [h2] at hA hR1
    refine ⟨1, Flow.brk w c, fun k hk => ?_, Or.inr ⟨hR1, Or.inl h3, Or.inr ⟨rfl, rfl⟩,
      fun ho => Or.inl ⟨h3, ho⟩⟩⟩
    obtain ⟨k', rfl⟩ : ∃ k', k = k' + 1 := ⟨k - 1, by omega⟩
    exact feed_declined enc env conf k' w c c hA
  · rw [h1] at hA
    have hl : Less rank c1 c := Or.inl h2
    obtain ⟨N, fl, hN, hfl⟩ := ih c1 hl w hR1
    refine ⟨N + 1, fl, fun k hk => ?_, feedGood_of_less rank conf fut c1 c fl hfl hl⟩
    obtain ⟨k', rfl⟩ : ∃ k', k = k' + 1 := ⟨k - 1, by omega⟩
    rw [feed_again enc env conf k' w c c1 hA]
    exact hN k' (by omega)
  · rw [h1] at hA
    have hle : LessEq rank c1 c := by
      rcases h3 with h3 | h3
      · rw [h3]; exact Or.inr ⟨rfl, rfl⟩
      · exact Or.inl (Or.inl h3)
    have hout : c1.out = c.out := (add_data_frame c NGX_OK c1 hA).2.2.2.2.1
    obtain ⟨N, fl, hN, hfl⟩ := feed_pass enc hb rank hp conf fut env hco hsz hnum w c c1
      (fun c2 hl2 => ih c2 (less_of_less_of_le rank c2 c1 c hl2 hle)) hA hR1 h2
    refine ⟨N, fl, hN, ?_⟩
    rcases hfl with hfl | ⟨w2, c2, rfl, d1, d2, d3, d4, d5⟩
    · rcases hle with hl | ⟨e1, e2⟩
      · exact feedGood_of_less rank conf fut c1 c fl hfl hl
      · cases fl with
        | timeout w2 c2 => exact hfl
        | failed w2 c2 => exact hfl
        | brk w2 c2 =>
            rcases hfl with f1 | ⟨f1, f2, f3, f4⟩
            · exact Or.inl f1
            · refine Or.inr ⟨f1, f2, le_of_le_of_le rank c2 c1 c f3 (Or.inr ⟨e1, e2⟩),
                fun ho => ?_⟩
              rcases f4 (by rw [hout]; exact ho) with f5 | f5
              · exact Or.inl f5
              · exact Or.inr (less_of_less_of_le rank c2 c1 c f5 (Or.inr ⟨e1, e2⟩))
    · have hle2 : LessEq rank c2 c := le_of_le_of_le rank c2 c1 c (Or.inr ⟨d4, d5⟩) hle
      refine Or.inr ⟨d1, Or.inr d2, hle2, fun ho => ?_⟩
      rw [d3, hout] at d2
      exact absurd ho d2

theorem cycle_failed (enc : BrotliEncoder E) (env : Env) (conf : ngx_http_brotli_conf_t)
    (ho : Bool) (k fuel : Nat) (flush : Bool) (w w1 : World E)
    (c c1 : ngx_http_brotli_ctx_t E) (h : feed enc env conf k w c = Flow.failed w1 c1) :
    cycle enc env conf ho k (fuel + 1) flush w c = body_filter_failed ho w1 c1 := by
  rw [cycle, h]

theorem cycle_idle (enc : BrotliEncoder E) (env : Env) (conf : ngx_http_brotli_conf_t)
    (ho : Bool) (k fuel : Nat) (w w1 : World E)
    (c c1 : ngx_http_brotli_ctx_t E) (h : feed enc env conf k w c = Flow.brk w1 c1)
    (hout : c1.out = []) :
    cycle enc env conf ho k (fuel + 1) false w c = idle_return ho w1 c1 := by
  rw [cycle, h]
  simp only [hout, and_self, if_true]

theorem cycle_next (enc : BrotliEncoder E) (env : Env) (conf : ngx_http_brotli_conf_t)
    (ho : Bool) (k fuel : Nat) (flush : Bool) (w w1 w2 : World E)
    (c c1 : ngx_http_brotli_ctx_t E) (rc : Int)
    (h : feed enc env conf k w c = Flow.brk w1 c1) (hout : c1.out ≠ [])
    (hN : ngx_http_next_body_filter env w1 (c1.busy ++ c1.out) (c1.out.map (getBuf w1.heap))
          = (rc, w2))
    (hrc : rc ≠ NGX_ERROR) :
    cycle enc env conf ho k (fuel + 1) flush w c =
      if (after_next w2 c1).2.done = true then
        Outcome.returned rc { ctx := some (after_next w2 c1).2, header_only := ho,
                              w := (after_next w2 c1).1 }
      else cycle enc env conf ho k fuel false (after_next w2 c1).1 (after_next w2 c1).2 := by
  rw [cycle, h]
  simp only [hout, false_and, if_false, hN, hrc]

theorem failed_done (ho : Bool) (w : World E) (c : ngx_http_brotli_ctx_t E) :
    ∃ r c1, body_filter_failed ho w c = Outcome.returned NGX_ERROR r ∧
      r.w.failures = w.failures ∧ r.ctx = some c1 ∧ c1.done = true := by
  unfold body_filter_failed ngx_http_brotli_filter_free_copy_buf
  refine ⟨_, _, rfl, ?_, rfl, rfl⟩
  cases c.bro <;> rfl

/-- The invariant between invocations in a cooperative environment. -/
def CoIdle (conf : ngx_http_brotli_conf_t) (fut : List ngx_buf_t) (w : World E)
    (c : ngx_http_brotli_ctx_t E) : Prop :=
  OutIdle conf w c ∧ CoExtra conf fut w c

/-- What an invocation reaches in a cooperative environment: it returns; with
`ctx->done` set, and then without failure event unless the encoder refused a
call or could not be created; or with nothing left to do, in a state of the
invariant. -/
def SessionGood (conf : ngx_http_brotli_conf_t) (fut : List ngx_buf_t) : Outcome E → Prop
  | Outcome.timeout _ => False
  | Outcome.returned _ r => ∃ c1, r.ctx = some c1 ∧
      ((c1.done = true ∧ (r.w.failures = [] ∨ r.w.failures = [Failure.encoder_step] ∨
          r.w.failures = [Failure.encoder_create])) ∨
       (CoIdle conf fut r.w c1 ∧ Drained c1))

theorem idle_good (conf : ngx_http_brotli_conf_t) (fut : List ngx_buf_t) (ho : Bool)
    (w : World E) (c : ngx_http_brotli_ctx_t E) (hR : CoRun conf fut w c) (hout : c.out = [])
    (hd : Drained c) : SessionGood conf fut (idle_return ho w c) := by
  unfold idle_return ngx_http_brotli_filter_free_copy_buf
  refine ⟨_, rfl, Or.inr ⟨⟨?_, ?_⟩, hd⟩⟩
  · have hR2 : OutRun conf
        ({ w with freed := w.freed ++ c.copied.map (fun b => b.start) } : World E)
        { c with copied := [] } :=
      outrun_transfer hR.1 rfl rfl rfl rfl rfl rfl rfl rfl rfl rfl rfl rfl rfl
    exact outrun_idle hR2 hout
  · exact coextra_transfer hR.2 rfl rfl rfl rfl rfl rfl rfl rfl rfl rfl rfl rfl

/-- In a cooperative environment, with an encoder that makes progress, the
loops of the body filter end within some number of iterations, and then as
`SessionGood` tells. -/
theorem cycle_total (enc : BrotliEncoder E) (hb : EncoderBounds enc)
    (rank : E → BrotliEncoderOperation → Nat → Nat) (hp : EncoderProgress enc rank)
    (conf : ngx_http_brotli_conf_t) (fut : List ngx_buf_t) (env : Env)
    (hco : Cooperative env conf) (hsz : 0 < conf.bufs_size) (hnum : 1 ≤ conf.bufs_num)
    (ho : Bool) :
    ∀ (c : ngx_http_brotli_ctx_t E) (w : World E), CoRun conf fut w c → c.out = [] →
      ∃ N o, (∀ k fuel, N ≤ k → N ≤ fuel → cycle enc env conf ho k fuel false w c = o) ∧
        SessionGood conf fut o := by
  intro c
  refine less_induction rank (fun c => ∀ w, CoRun conf fut w c → c.out = [] →
    ∃ N o, (∀ k fuel, N ≤ k → N ≤ fuel → cycle enc env conf ho k fuel false w c = o) ∧
      SessionGood conf fut o) ?_ c
  intro c ih w hR hout
  obtain ⟨N1, fl, hN1, hfl⟩ := feed_total enc hb rank hp conf fut env hco hsz hnum c w hR
  cases fl with
  | timeout w1 c1 => exact False.elim hfl
  | failed w1 c1 =>
      obtain ⟨r, c2, e1, e2, e3, e4⟩ := failed_done ho w1 c1
      refine ⟨N1 + 1, Outcome.returned NGX_ERROR r, fun k fuel hk hf => ?_,
        ⟨c2, e3, Or.inl ⟨e4, Or.inr (Or.inl (by rw [e2]; exact hfl))⟩⟩⟩
      obtain ⟨f', rfl⟩ : ∃ f', fuel = f' + 1 := ⟨fuel - 1, by omega⟩
      rw [cycle_failed enc env conf ho k f' false w w1 c c1 (hN1 k (by omega)), e1]
  | brk w1 c1 =>
      rcases hNx : ngx_http_next_body_filter env w1 (c1.busy ++ c1.out)
          (c1.out.map (getBuf w1.heap)) with ⟨rc, w2⟩
      obtain ⟨hrc, _⟩ := next_body_filter_eq env w1 _ _ rc w2 hNx
      have hne : rc ≠ NGX_ERROR := by rw [hrc]; exact hco.2.1 _
      have hfr := after_next_frame w2 c1
      have hq2 : w2.failures = w1.failures :=
        (next_body_filter_frame env w1 _ _ rc w2 hNx).2.2.2.2.2.2.2.2.2 hne
      rcases hfl with ⟨e1, e2⟩ | ⟨f1, f2, f3, f4⟩
      · have hd : (after_next w2 c1).2.done = true := by rw [hfr.1]; exact e2.1
        refine ⟨N1 + 1, Outcome.returned rc ⟨some (after_next w2 c1).2, ho, (after_next w2 c1).1⟩,
          fun k fuel hk hf => ?_, ⟨_, rfl, Or.inl ⟨hd, Or.inl ?_⟩⟩⟩
        · obtain ⟨f', rfl⟩ : ∃ f', fuel = f' + 1 := ⟨fuel - 1, by omega⟩
          rw [cycle_next enc env conf ho k f' false w w1 w2 c c1 rc (hN1 k (by omega)) e1 hNx
            hne, if_pos hd]
        · show (after_next w2 c1).1.failures = []
          rw [hfr.2.2.2.2.1, hq2]
          exact e2.2.1
      · by_cases ho1 : c1.out = []
        · have hdr : Drained c1 := by
            rcases f2 with h | h
            · exact h
            · exact absurd ho1 h
          refine ⟨N1 + 1, idle_return ho w1 c1, fun k fuel hk hf => ?_,
            idle_good conf fut ho w1 c1 f1 ho1 hdr⟩
          obtain ⟨f', rfl⟩ : ∃ f', fuel = f' + 1 := ⟨fuel - 1, by omega⟩
          exact cycle_idle enc env conf ho k f' w w1 c c1 (hN1 k (by omega)) ho1
        · have hl : Less rank c1 c := by
            rcases f4 hout with h | h
            · exact absurd h.2 ho1
            · exact h
          obtain ⟨_, x2, x3, x4, x5, x6, x7, x8⟩ :=
            coextra_next conf fut env w1 c1 rc w2 hco f1.1.1 f1.2 hNx
          have hnd : (after_next w2 c1).2.done ≠ true := by
            rw [hfr.1, f1.1.1.running]
            exact Bool.false_ne_true
          have hO4 := ((out_next conf env ho w1 c1 rc w2 (Or.inl f1.1) hNx).2 hne).2 hnd
          have hl4 : Less rank (after_next w2 c1).2 c := by
            refine less_of_le_of_less rank _ c1 c (Or.inr ⟨by rw [x4], ?_⟩) hl
            exact (work_congr rank _ c1 x5 x6 x7 x8).1
          obtain ⟨N2, o, hN2, hgood⟩ := ih _ hl4 _ ⟨hO4, x2⟩ x3
          refine ⟨max N1 N2 + 1, o, fun k fuel hk hf => ?_, hgood⟩
          obtain ⟨f', rfl⟩ : ∃ f', fuel = f' + 1 := ⟨fuel - 1, by omega⟩
          have hk1 : N1 ≤ k := le_trans (le_max_left N1 N2) (by omega)
          have hk2 : N2 ≤ k := le_trans (le_max_right N1 N2) (by omega)
          have hf2 : N2 ≤ f' := by
            have := le_max_right N1 N2
            omega
          rw [cycle_next enc env conf ho k f' false w w1 w2 c c1 rc (hN1 k hk1) ho1 hNx hne,
            if_neg hnd]
          exact hN2 k f' hk2 hf2

theorem add_copy_ok (env : Env) (ha : ∀ k, env.alloc_ok k = true) (chain : List ngx_buf_t) :
    ∀ (w : World E) (dst : List ngx_buf_t), (ngx_chain_add_copy env w dst chain).1 = NGX_OK := by
  induction chain with
  | nil => intro w dst; rfl
  | cons b rest ih =>
      intro w dst
      have h1 : ngx_alloc env w = (true, { w with nalloc := w.nalloc + 1 }) := by
        unfold ngx_alloc
        rw [if_pos (ha _)]
      rw [ngx_chain_add_copy, h1]
      exact ih _ _

theorem add_input_ok (env : Env) (ha : ∀ k, env.alloc_ok k = true) (w : World E)
    (c : ngx_http_brotli_ctx_t E) (chain : List ngx_buf_t) :
    (add_input env w c chain).1 = NGX_OK := by
  unfold add_input
  cases chain with
  | nil => rfl
  | cons b rest =>
      have h := add_copy_ok env ha (b :: rest) w c.in_
      rcases h2 : ngx_chain_add_copy env w c.in_ (b :: rest) with ⟨rc, w1, l⟩
      rw [h2] at h
      exact h

/-- The statements before the loops, in a cooperative environment: the encoder
is created if need be, the chain is queued, and the loops are entered with
the local `flush` unset. -/
theorem coextra_prologue (enc : BrotliEncoder E) (conf : ngx_http_brotli_conf_t)
    (fut : List ngx_buf_t) (env : Env) (w : World E) (c : ngx_http_brotli_ctx_t E)
    (chain : List ngx_buf_t) (hco : Cooperative env conf)
    (hX : CoExtra conf (chain ++ fut) w c) (hrest : c.bro = none → c.available_out = 0)
    (hwf : ∀ b ∈ chain, b.last ≤ b.mem.length) :
    match prologue enc env w c chain with
    | Entry.failed w1 _ => w1.failures = w.failures ++ [Failure.encoder_create]
    | Entry.go flush w1 c1 => flush = false ∧ CoExtra conf fut w1 c1 ∧ c1.out = c.out := by
  unfold prologue
  rcases h0 : start_if_needed enc w c with ⟨rc0, w0, c0⟩
  have hA0 : (rc0 ≠ NGX_OK → w0.failures = w.failures ++ [Failure.encoder_create]) ∧
      (rc0 = NGX_OK → CoExtra conf (chain ++ fut) w0 c0 ∧ c0.out = c.out) := by
    rcases start_if_needed_cases enc w c rc0 w0 c0 h0 with
      ⟨rfl, hb, hw, hc⟩ | ⟨rfl, hb, hc, rfl, rfl⟩ | ⟨e, rfl, hb, hc, rfl, rfl⟩
    · rw [hw, hc]
      exact ⟨fun h => absurd rfl h, fun _ => ⟨hX, rfl⟩⟩
    · exact ⟨fun _ => rfl, fun h => absurd h (by decide)⟩
    · refine ⟨fun h => absurd rfl h, fun _ => ⟨⟨hX.nobusy, ?_, fun h => absurd rfl h,
        hX.out_last, rfl, hX.wf, hX.closing⟩, rfl⟩⟩
      intro h1
      rcases hX.pool h1 with h2 | h2 | h2
      · exact absurd (hrest hb) h2
      · exact Or.inr (Or.inl h2)
      · exact Or.inr (Or.inr h2)
  simp only []
  by_cases hrc0 : rc0 = NGX_OK
  · rw [if_neg (by simpa using hrc0)]
    obtain ⟨hX0, hout0⟩ := hA0.2 hrc0
    have hok := add_input_ok env hco.1 w0 c0 chain
    rcases h1 : add_input env w0 c0 chain with ⟨rc1, w1, c1⟩
    rw [h1] at hok
    obtain ⟨k1, _, _, _, _, _, _, _, _, _, k11⟩ := add_input_cases env w0 c0 chain rc1 w1 c1 h1
    simp only []
    rcases k11 with ⟨_, _, k13⟩ | ⟨k12, _⟩
    · have hok1 : rc1 = NGX_OK := hok
      rw [if_neg (by simpa using hok1)]
      have hX1 : CoExtra conf fut w1 c1 := by
        rw [k13]
        refine ⟨hX0.nobusy, by rw [k1]; exact hX0.pool, by rw [k1]; exact hX0.cur_tag,
          by rw [k1]; exact hX0.out_last, hX0.win, ?_, ?_⟩
        · intro b hb
          rcases List.mem_append.mp hb with h2 | h2
          · exact hX0.wf b h2
          · exact hwf b h2
        · rcases hX0.closing with h2 | h2
          · exact Or.inl h2
          · right
            show ∃ b ∈ (c0.in_ ++ chain) ++ fut, b.last_buf = true
            rw [List.append_assoc]; exact h2
      have hb1 : c1.busy = [] := hX1.nobusy
      have hout1 : c1.out = c.out := by rw [k13]; exact hout0
      unfold flush_busy
      by_cases hn : c1.nomem = true
      · simp only [hn, if_true]
        rcases hN : ngx_http_next_body_filter env w1 c1.busy [] with ⟨rc2, w2⟩
        obtain ⟨hrc2, hw2⟩ := next_body_filter_eq env w1 _ _ rc2 w2 hN
        have he : rc2 ≠ NGX_ERROR := by rw [hrc2]; exact hco.2.1 _
        simp only [he, if_false]
        have hh2 : w2.heap = w1.heap := by rw [hw2, hb1]; rfl
        refine ⟨trivial, ?_, hout1⟩
        have hu : ngx_chain_update_chains w2.heap c1.free c1.busy []
            = (w1.heap, c1.free, []) := by
          rw [hh2, hb1]; rfl
        rw [hu]
        exact coextra_transfer hX1 rfl hb1.symm rfl rfl rfl rfl rfl rfl rfl rfl rfl rfl
      · simp only [hn, Bool.false_eq_true, if_false]
        exact ⟨by simp [hb1], hX1, hout1⟩
    · have hok1 : rc1 = NGX_OK := hok
      rw [k12] at hok1
      exact absurd hok1 (by decide)
  · rw [if_pos (by simpa using hrc0)]
    exact hA0.1 hrc0

/-- The failure log is empty, or holds one refusal of the encoder. -/
def EncoderOnly (w : World E) : Prop :=
  w.failures = [] ∨ w.failures = [Failure.encoder_step] ∨
    w.failures = [Failure.encoder_create]

/-- In a cooperative environment, with an encoder that makes progress, every
invocation past the pass-through check returns, given enough iterations. -/
theorem session_total (enc : BrotliEncoder E) (hb : EncoderBounds enc)
    (rank : E → BrotliEncoderOperation → Nat → Nat) (hp : EncoderProgress enc rank)
    (conf : ngx_http_brotli_conf_t) (fut : List ngx_buf_t) (env : Env)
    (hco : Cooperative env conf) (hsz : 0 < conf.bufs_size) (hnum : 1 ≤ conf.bufs_num)
    (ho : Bool) (w : World E) (c : ngx_http_brotli_ctx_t E) (chain : List ngx_buf_t)
    (hP : CoIdle conf (chain ++ fut) w c) (hwf : ∀ b ∈ chain, b.last ≤ b.mem.length) :
    ∃ N o, (∀ fuel, N ≤ fuel → body_filter_session enc env conf fuel ho w c chain = o) ∧
      SessionGood conf fut o := by
  have hrest : c.bro = none → c.available_out = 0 := by
    intro hn
    rcases hP.1.2.2 with ⟨_, _, _, h⟩ | h
    · exact absurd hn h
    · exact h.1
  have hO := out_prologue enc conf env w c chain hP.1
  have hC := coextra_prologue enc conf fut env w c chain hco hP.2 hrest hwf
  rcases hPr : prologue enc env w c chain with ⟨w1, c1⟩ | ⟨flush, w1, c1⟩
  · rw [hPr] at hC
    obtain ⟨r, c2, e1, e2, e3, e4⟩ := failed_done ho w1 c1
    refine ⟨0, Outcome.returned NGX_ERROR r, fun fuel _ => ?_,
      ⟨c2, e3, Or.inl ⟨e4, Or.inr (Or.inr ?_)⟩⟩⟩
    · unfold body_filter_session
      rw [hPr]
      exact e1
    · rw [e2]
      have hC' : w1.failures = w.failures ++ [Failure.encoder_create] := hC
      rw [hC', hP.1.1.quiet]
      rfl
  · rw [hPr] at hC hO
    obtain ⟨hf, hX, hout⟩ := hC
    have hO' : OutRun conf w1 c1 := hO
    have hout1 : c1.out = [] := by rw [hout]; exact hP.1.2.1
    obtain ⟨N, o, hN, hgood⟩ := cycle_total enc hb rank hp conf fut env hco hsz hnum ho c1 w1
      ⟨hO', hX⟩ hout1
    refine ⟨N, o, fun fuel hfuel => ?_, hgood⟩
    unfold body_filter_session
    rw [hPr]
    have hf' : flush = false := hf
    rw [hf']
    exact hN fuel fuel hfuel hfuel

/-- In a cooperative environment, with an encoder that makes progress, every
run over chains whose closing chunk is among them reaches `ctx->done`, given
enough iterations. -/
theorem drive_total (enc : BrotliEncoder E) (hb : EncoderBounds enc)
    (rank : E → BrotliEncoderOperation → Nat → Nat) (hp : EncoderProgress enc rank)
    (conf : ngx_http_brotli_conf_t) (env : Env)
    (hco : Cooperative env conf) (hsz : 0 < conf.bufs_size) (hnum : 1 ≤ conf.bufs_num)
    (chains : List (List ngx_buf_t)) :
    ∀ (r : ngx_http_request_t E), r.header_only = false →
      (∃ c, r.ctx = some c ∧
        ((c.done = true ∧ EncoderOnly r.w) ∨
         (CoIdle conf (chain_chunks chains) r.w c ∧ Drained c))) →
      (∀ b ∈ chain_chunks chains, b.last ≤ b.mem.length) →
      ∃ N r1, (∀ fuel, N ≤ fuel → drive enc env conf fuel chains r = some r1) ∧
        ∃ c1, r1.ctx = some c1 ∧ c1.done = true ∧ EncoderOnly r1.w := by
  induction chains with
  | nil =>
      intro r _ hI _
      obtain ⟨c, hc, hinv⟩ := hI
      refine ⟨0, r, fun fuel _ => rfl, c, hc, ?_⟩
      rcases hinv with h1 | ⟨h1, h2⟩
      · exact h1
      · exfalso
        rcases h1.2.closing with h3 | ⟨b, hb1, _⟩
        · rw [h2.2.2.1] at h3; cases h3
        · rw [h2.1] at hb1
          cases hb1
  | cons chain rest ih =>
      intro r hho hI hwf
      obtain ⟨c, hc, hinv⟩ := hI
      by_cases hd : c.done = true
      · refine ⟨0, r, fun fuel _ => ?_, c, hc, hd, ?_⟩
        · unfold drive
          rw [hc]
          simp only [hd, if_true]
        · rcases hinv with h1 | ⟨h1, _⟩
          · exact h1.2
          · rw [h1.1.1.running] at hd; cases hd
      · have hd' : c.done = false := by simpa using hd
        have hP : CoIdle conf (chain ++ chain_chunks rest) r.w c := by
          rcases hinv with h1 | ⟨h1, _⟩
          · exact absurd h1.1 hd
          · exact h1
        obtain ⟨N1, o, hN1, hgood⟩ := session_total enc hb rank hp conf (chain_chunks rest) env
          hco hsz hnum r.header_only r.w c chain hP
          (fun b hb1 => hwf b (List.mem_append_left _ hb1))
        cases o with
        | timeout r2 => exact False.elim hgood
        | returned rc r2 =>
            have hho2 : r2.header_only = false := by
              have := session_header_only enc env conf N1 r.header_only r.w c chain
              rw [hN1 N1 (le_refl _)] at this
              rw [← hho]; exact this
            obtain ⟨N2, r1, hN2, hres⟩ := ih r2 hho2 hgood
              (fun b hb1 => hwf b (List.mem_append_right _ hb1))
            refine ⟨max N1 N2, r1, fun fuel hfuel => ?_, hres⟩
            have h1 : N1 ≤ fuel := le_trans (le_max_left N1 N2) hfuel
            have h2 : N2 ≤ fuel := le_trans (le_max_right N1 N2) hfuel
            unfold drive
            rw [hc]
            simp only [hd, if_false]
            rw [body_filter_past_check enc env conf fuel r c chain hc hd' hho, hN1 fuel h1]
            exact hN2 fuel h2

theorem fresh_co_idle (conf : ngx_http_brotli_conf_t) (fut : List ngx_buf_t)
    (hclose : ∃ b ∈ fut, b.last_buf = true) :
    CoIdle conf fut (fresh_world E) (fresh_ctx E) ∧ Drained (fresh_ctx E) := by
  refine ⟨⟨fresh_out_idle conf, ⟨rfl, ?_, fun h => absurd rfl h, ?_, rfl, ?_, Or.inr hclose⟩⟩,
    rfl, rfl, rfl, rfl⟩
  · intro h
    have h1 : (1 : Int) ≤ 0 := h
    exact absurd h1 (by decide)
  · intro i hi
    cases hi
  · intro b hb
    cases hb

/-- The rank of the test encoder: the bytes it still has to write. -/
def toy_rank (e : ToyState) (op : BrotliEncoderOperation) (n : Nat) : Nat :=
  e.pending.length + n + (if op = FINISH ∧ e.closed = false then 1 else 0)

theorem toy_progress : EncoderProgress toy toy_rank := by
  intro e op inp avail e1 used outb hs hav
  simp only [toy] at hs
  split at hs
  · cases hs
  · simp only [Option.some.injEq, Prod.mk.injEq] at hs
    obtain ⟨h1, h2, h3⟩ := hs
    rw [← h1, ← h2, ← h3]
    simp only [toy_rank, toy, List.length_take, List.length_drop, List.length_append]
    constructor
    · intro hfull
      by_cases hop : op = FINISH
      · cases hcl : e.closed <;> simp [hop, hcl] at hfull ⊢ <;> omega
      · simp [hop] at hfull ⊢
        omega
    · intro hnfull
      refine ⟨trivial, fun hop => ?_⟩
      cases hcl : e.closed <;> simp [hop, hcl] at hnfull ⊢ <;> omega

/-- A run that reaches `ctx->done` without failure event has handed to the
next body filter an output that decodes to the input. -/
theorem round_trip_safe (enc : BrotliEncoder E) (decode : List Nat → List Nat)
    (hk : EncoderContract enc decode) (env : Env) (conf : ngx_http_brotli_conf_t)
    (fuel : Nat) (chains : List (List ngx_buf_t)) (r1 : ngx_http_request_t E)
    (c1 : ngx_http_brotli_ctx_t E) (hlast : NoEarlyLast (chain_chunks chains))
    (hrun : drive enc env conf fuel chains (fresh_request E) = some r1)
    (hctx : r1.ctx = some c1) (hdone : c1.done = true) (hquiet : r1.w.failures = []) :
    decode (sent_bytes r1.w.sent) = chunks_bytes (chain_chunks chains) := by
  have hO := drive_out_done enc hk.1 env conf fuel chains r1 c1 hrun hctx hdone hquiet
  obtain ⟨c2, h1, h2⟩ := drive_in enc decode hk (chunks_bytes (chain_chunks chains)) env conf
    fuel chains (fresh_request E) r1 rfl
    ⟨fresh_ctx E, rfl, fun _ => Or.inl (fresh_in_idle enc _ hlast)⟩ hrun
  rw [hctx] at h1
  cases h1
  rw [hO.2.1]
  exact h2 hquiet hdone

/-- C1.  For every encoder that honours the contract with its decoder, every
configuration and every sequence of chains in which no chunk but the last one
carries `last_buf` (zero-length chunks and flush chunks anywhere):
whatever the allocator and the next body filter do, if driving the body filter
from a new session over the chains reaches `ctx->done` without failure event,
then decoding the concatenation of the byte ranges of all chunks handed to the
next body filter gives exactly the concatenation of the byte ranges of the
input chunks; and in a cooperative environment, for an encoder that makes
progress, output buffer size > 0, pool capacity >= 1 and chains whose closing
chunk is marked `last_buf`, driving with enough loop iterations does reach
`ctx->done`, with no failure event other than a refusal of the encoder, and
with that round trip when there is none. -/
theorem C1_round_trip (enc : BrotliEncoder E) (decode : List Nat → List Nat)
    (hk : EncoderContract enc decode) (env : Env) (conf : ngx_http_brotli_conf_t)
    (chains : List (List ngx_buf_t)) (hlast : NoEarlyLast (chain_chunks chains)) :
    (∀ (fuel : Nat) (r1 : ngx_http_request_t E) (c1 : ngx_http_brotli_ctx_t E),
        drive enc env conf fuel chains (fresh_request E) = some r1 → r1.ctx = some c1 →
        c1.done = true → r1.w.failures = [] →
        decode (sent_bytes r1.w.sent) = chunks_bytes (chain_chunks chains)) ∧
    (∀ rank : E → BrotliEncoderOperation → Nat → Nat, EncoderProgress enc rank →
        Cooperative env conf → 0 < conf.bufs_size → 1 ≤ conf.bufs_num →
        (∀ b ∈ chain_chunks chains, b.last ≤ b.mem.length) →
        (∃ b ∈ chain_chunks chains, b.last_buf = true) →
        ∃ N, ∀ fuel, N ≤ fuel → ∃ r1 c1,
          drive enc env conf fuel chains (fresh_request E) = some r1 ∧ r1.ctx = some c1 ∧
          c1.done = true ∧ EncoderOnly r1.w ∧
          (r1.w.failures = [] →
            decode (sent_bytes r1.w.sent) = chunks_bytes (chain_chunks chains))) := by
  have hsafe : ∀ (fuel : Nat) (r1 : ngx_http_request_t E) (c1 : ngx_http_brotli_ctx_t E),
      drive enc env conf fuel chains (fresh_request E) = some r1 → r1.ctx = some c1 →
      c1.done = true → r1.w.failures = [] →
      decode (sent_bytes r1.w.sent) = chunks_bytes (chain_chunks chains) :=
    fun fuel r1 c1 h1 h2 h3 h4 =>
      round_trip_safe enc decode hk env conf fuel chains r1 c1 hlast h1 h2 h3 h4
  refine ⟨hsafe, ?_⟩
  intro rank hp hco hsz hnum hwf hclose
  obtain ⟨N, r1, hN, c1, hctx, hdone, hfail⟩ :=
    drive_total enc hk.1 rank hp conf env hco hsz hnum chains (fresh_request E) rfl
      ⟨fresh_ctx E, rfl, Or.inr (fresh_co_idle conf _ hclose)⟩ hwf
  exact ⟨N, fun fuel hfuel => ⟨r1, c1, hN fuel hfuel, hctx, hdone, hfail,
    fun hq => hsafe fuel r1 c1 (hN fuel hfuel) hctx hdone hq⟩⟩

set_option maxRecDepth 8000 in
theorem C1_round_trip_witness :
    toy_decode (sent_bytes (two_call_run.getD (fresh_request ToyState)).w.sent)
      = [1, 2, 3, 4, 5] ∧
    ∃ N, ∀ fuel, N ≤ fuel → ∃ r1 c1,
      drive toy env_ok { bufs_num := 2, bufs_size := 2 } fuel
        [[chunk [1, 2, 3] true false, chunk [] false false], [chunk [4, 5] false true]]
        (fresh_request ToyState) = some r1 ∧ r1.ctx = some c1 ∧
      c1.done = true ∧ EncoderOnly r1.w ∧
      (r1.w.failures = [] → toy_decode (sent_bytes r1.w.sent) = [1, 2, 3, 4, 5]) :=
  ⟨(C1_round_trip toy toy_decode toy_contract env_ok { bufs_num := 2, bufs_size := 2 }
      [[chunk [1, 2, 3] true false, chunk [] false false], [chunk [4, 5] false true]]
      (by simp [chain_chunks, NoEarlyLast, chunk])).1 16
      (two_call_run.getD (fresh_request ToyState)) _ rfl rfl rfl rfl,
   (C1_round_trip toy toy_decode toy_contract env_ok { bufs_num := 2, bufs_size := 2 }
      [[chunk [1, 2, 3] true false, chunk [] false false], [chunk [4, 5] false true]]
      (by simp [chain_chunks, NoEarlyLast, chunk])).2 toy_rank toy_progress
      ⟨fun _ => rfl, fun _ => (by decide : NGX_OK ≠ NGX_ERROR),
        fun _ _ => (by decide : 2 ≤ 1000)⟩ (by decide) (by decide)
      (by simp [chain_chunks, chunk])
      ⟨chunk [4, 5] false true, by simp [chain_chunks], rfl⟩⟩

/-! ## Input pull and mode selection (C14) -/

/-- C14: `ngx_http_brotli_filter_add_data`.  With input left for the encoder, a
mode other than PROCESS, or `redo` set, it returns `NGX_OK` and leaves the
session as it is.  Otherwise an empty `ctx->in` gives `NGX_DECLINED`, session
unchanged.  Otherwise the head chunk `b`, a byte range with `pos ≤ last`,
leaves `ctx->in` and becomes `ctx->in_buf`, with `next_in = b->pos` and
`available_in = b->last - b->pos`; `flush` becomes FINISH when `b` has
`last_buf` (with or without `flush`), FLUSH when it has only `flush`, and stays
PROCESS otherwise; the result is `NGX_AGAIN` exactly when `b` is zero-length
and the mode is still PROCESS, and `NGX_OK` otherwise; the output side of the
session is not touched. -/
theorem C14_add_data_contract (c : ngx_http_brotli_ctx_t E) :
    ((c.available_in ≠ 0 ∨ c.flush ≠ PROCESS ∨ c.redo = true) →
        ngx_http_brotli_filter_add_data c = (NGX_OK, c)) ∧
    (c.available_in = 0 → c.flush = PROCESS → c.redo = false → c.in_ = [] →
        ngx_http_brotli_filter_add_data c = (NGX_DECLINED, c)) ∧
    (∀ b rest, c.available_in = 0 → c.flush = PROCESS → c.redo = false → c.in_ = b :: rest →
        b.pos ≤ b.last →
        ∃ rc c1, ngx_http_brotli_filter_add_data c = (rc, c1) ∧
          c1.in_ = rest ∧ c1.in_buf = some b ∧ c1.next_in = some b.pos ∧
          c1.available_in = b.last - b.pos ∧
          c1.flush = (if b.last_buf = true then FINISH
                      else if b.flush = true then FLUSH else PROCESS) ∧
          (rc = NGX_AGAIN ↔ (b.last - b.pos = 0 ∧ b.last_buf = false ∧ b.flush = false)) ∧
          (rc ≠ NGX_AGAIN → rc = NGX_OK) ∧
          c1.out = c.out ∧ c1.busy = c.busy ∧ c1.free = c.free ∧ c1.out_buf = c.out_buf ∧
          c1.bufs = c.bufs ∧ c1.bro = c.bro ∧ c1.redo = false ∧ c1.done = c.done) := by
  refine ⟨fun h => ?_, fun h1 h2 h3 h4 => ?_, fun b rest h1 h2 h3 h4 _ => ?_⟩
  · unfold ngx_http_brotli_filter_add_data
    rw [if_pos h]
  · unfold ngx_http_brotli_filter_add_data
    rw [if_neg (by simp [h1, h2, h3]), h4]
  · have hg : ¬ (c.available_in ≠ 0 ∨ c.flush ≠ PROCESS ∨ c.redo = true) := by
      simp [h1, h2, h3]
    rcases hA : ngx_http_brotli_filter_add_data c with ⟨rc, c1⟩
    rcases add_data_cases c rc c1 hA with ⟨_, _, hg1⟩ | ⟨_, _, hin, _⟩ |
      ⟨b1, rest1, hin, _, hc, hrc⟩
    · exact absurd hg1 hg
    · rw [h4] at hin; cases hin
    · rw [h4] at hin
      simp only [List.cons.injEq] at hin
      obtain ⟨rfl, rfl⟩ := hin
      refine ⟨rc, c1, rfl, ?_⟩
      rw [hc]
      refine ⟨rfl, rfl, rfl, rfl, ?_, ?_, ?_, rfl, rfl, rfl, rfl, rfl, rfl, h3, rfl⟩
      · simp only [pulled, h2]
      · rw [hrc]
        simp only [pulled, h2]
        cases hl : b.last_buf <;> cases hf : b.flush <;> by_cases hz : b.last - b.pos = 0 <;>
          simp [hz]
      · intro hne
        rw [hrc] at hne ⊢
        split at hne
        · exact absurd rfl hne
        · rw [if_neg (by assumption)]

theorem C14_add_data_contract_witness :
    (∃ rc c1, ngx_http_brotli_filter_add_data
          ({ fresh_ctx Unit with in_ := [chunk [7] true true, chunk [9] false false] })
          = (rc, c1) ∧
        c1.in_ = [chunk [9] false false] ∧ c1.in_buf = some (chunk [7] true true) ∧
        c1.next_in = some 0 ∧ c1.available_in = 1 ∧ c1.flush = FINISH ∧ rc = NGX_OK) ∧
    ngx_http_brotli_filter_add_data ({ fresh_ctx Unit with flush := FLUSH })
      = (NGX_OK, { fresh_ctx Unit with flush := FLUSH }) ∧
    ngx_http_brotli_filter_add_data (fresh_ctx Unit) = (NGX_DECLINED, fresh_ctx Unit) :=
  ⟨(fun h => h.elim fun rc h1 => h1.elim fun c1 h2 =>
      ⟨rc, c1, h2.1, h2.2.1, h2.2.2.1, h2.2.2.2.1, h2.2.2.2.2.1, h2.2.2.2.2.2.1,
        h2.2.2.2.2.2.2.2.1 (fun ha => absurd (h2.2.2.2.2.2.2.1.1 ha).1 (by decide))⟩)
      ((C14_add_data_contract
          ({ fresh_ctx Unit with in_ := [chunk [7] true true, chunk [9] false false] })).2.2
        (chunk [7] true true) [chunk [9] false false] rfl rfl rfl rfl (by decide)),
   (C14_add_data_contract ({ fresh_ctx Unit with flush := FLUSH })).1
      (Or.inr (Or.inl (by decide))),
   (C14_add_data_contract (fresh_ctx Unit)).2.1 rfl rfl rfl rfl⟩

/-! ## The header filter: `accept_br` (C19, C20) -/

/-- What a run of `accept_br` does: its result (`none` stands for a read
outside the header value, which the C code leaves undefined), the indices of
the bytes it read, in order, and the number of iterations of its loop. -/
structure ScanTrace where
  result : Option Int
  reads : List Nat
  iterations : Nat
deriving DecidableEq, Repr

/-- The loop `while (len >= 2)` of `accept_br` on the value `v`, entered with
`len` and with `ptr` at index `p`; `rd` and `it` are the reads and iterations
so far.  The byte after `r` is compared up to three times; it is logged
once. -/
def accept_br_loop (v : List Nat) : Nat → Nat → List Nat → Nat → ScanTrace
  | 0, _, rd, it => { result := some NGX_DECLINED, reads := rd, iterations := it }
  | 1, _, rd, it => { result := some NGX_DECLINED, reads := rd, iterations := it }
  | len + 2, p, rd, it =>
      -- `len--` leaves `len + 1`; `*ptr++` reads index `p`
      match v[p]? with
      | none => { result := none, reads := rd ++ [p], iterations := it + 1 }
      | some x =>
        if x ≠ 98 then accept_br_loop v (len + 1) (p + 1) (rd ++ [p]) (it + 1)
        else
          match v[p + 1]? with
          | none => { result := none, reads := rd ++ [p, p + 1], iterations := it + 1 }
          | some y =>
            if y = 114 then
              if len + 1 = 1 then
                { result := some NGX_OK, reads := rd ++ [p, p + 1], iterations := it + 1 }
              else
                match v[p + 2]? with
                | none =>
                    { result := none, reads := rd ++ [p, p + 1, p + 2], iterations := it + 1 }
                | some z =>
                  if z = 44 ∨ z = 59 ∨ z = 32 then
                    { result := some NGX_OK, reads := rd ++ [p, p + 1, p + 2],
                      iterations := it + 1 }
                  else accept_br_loop v (len + 1) (p + 1) (rd ++ [p, p + 1, p + 2]) (it + 1)
            else accept_br_loop v (len + 1) (p + 1) (rd ++ [p, p + 1]) (it + 1)

/-- The function `accept_br` on the `Accept-Encoding` header (`none` when the
request has none), with its reads and iterations. -/
def accept_br_trace (ae : Option (List Nat)) : ScanTrace :=
  match ae with
  | none => { result := some NGX_DECLINED, reads := [], iterations := 0 }
  | some v =>
      if v.length < 2 then { result := some NGX_DECLINED, reads := [], iterations := 0 }
      else accept_br_loop v v.length 0 [] 0

/-- The function `accept_br`. -/
def accept_br (ae : Option (List Nat)) : Option Int := (accept_br_trace ae).result

/-- The bytes of an ASCII string. -/
def ascii (s : String) : List Nat := s.toList.map Char.toNat

/-- The value has `br` at index `i`, followed by the end of the value or by
one of `,`, `;` and the blank. -/
def BrAt (v : List Nat) (i : Nat) : Prop :=
  i + 1 < v.length ∧ v[i]? = some 98 ∧ v[i + 1]? = some 114 ∧
    (i + 2 = v.length ∨ v[i + 2]? = some 44 ∨ v[i + 2]? = some 59 ∨ v[i + 2]? = some 32)
/-- What a scan from index `p` has to satisfy: it answers `NGX_OK` exactly
when `br` stands at some index from `p` on, `NGX_DECLINED` otherwise; it
reads only inside the value; and it runs at most `bound` iterations. -/
def ScanOk (v : List Nat) (p : Nat) (rd : List Nat) (bound : Nat) (t : ScanTrace) : Prop :=
  ((t.result = some NGX_OK ∧ ∃ i, p ≤ i ∧ BrAt v i) ∨
   (t.result = some NGX_DECLINED ∧ ¬ ∃ i, p ≤ i ∧ BrAt v i)) ∧
  (∃ new, t.reads = rd ++ new ∧ ∀ i ∈ new, i < v.length) ∧
  t.iterations ≤ bound

theorem scanOk_step (v : List Nat) (p : Nat) (rd extra : List Nat) (b1 b2 : Nat)
    (t : ScanTrace) (h : ScanOk v (p + 1) (rd ++ extra) b1 t) (hno : ¬ BrAt v p)
    (hex : ∀ i ∈ extra, i < v.length) (hb : b1 ≤ b2) : ScanOk v p rd b2 t := by
  obtain ⟨h1, ⟨new, h2, h3⟩, h4⟩ := h
  refine ⟨?_, ⟨extra ++ new, by rw [h2, List.append_assoc], ?_⟩, le_trans h4 hb⟩
  · rcases h1 with ⟨a, i, hi, hbr⟩ | ⟨a, hn⟩
    · exact Or.inl ⟨a, i, by omega, hbr⟩
    · refine Or.inr ⟨a, ?_⟩
      rintro ⟨i, hi, hbr⟩
      rcases Nat.eq_or_lt_of_le hi with h5 | h5
      · rw [← h5] at hbr; exact hno hbr
      · exact hn ⟨i, h5, hbr⟩
  · intro i hi
    rcases List.mem_append.mp hi with h5 | h5
    · exact hex i h5
    · exact h3 i h5

theorem accept_br_loop_spec (v : List Nat) :
    ∀ (len p : Nat) (rd : List Nat) (it : Nat), p + len = v.length →
      ScanOk v p rd (it + (len - 1)) (accept_br_loop v len p rd it) := by
  intro len
  induction len with
  | zero =>
      intro p rd it hp
      refine ⟨Or.inr ⟨rfl, ?_⟩, ⟨[], by simp [accept_br_loop], by simp⟩, by simp [accept_br_loop]⟩
      rintro ⟨i, hi, hbr, _⟩
      omega
  | succ n ih =>
      intro p rd it hp
      cases n with
      | zero =>
          refine ⟨Or.inr ⟨rfl, ?_⟩, ⟨[], by simp [accept_br_loop], by simp⟩,
            by simp [accept_br_loop]⟩
          rintro ⟨i, hi, hbr, _⟩
          omega
      | succ m =>
          have hp0 : p < v.length := by omega
          have hp1 : p + 1 < v.length := by omega
          have e0 : v[p]? = some v[p] := List.getElem?_eq_getElem hp0
          have e1 : v[p + 1]? = some v[p + 1] := List.getElem?_eq_getElem hp1
          have hrec := fun extra => ih (p + 1) (rd ++ extra) (it + 1) (by omega)
          rw [accept_br_loop, e0]
          simp only []
          by_cases hx : v[p] = 98
          · rw [if_neg (by simpa using hx), e1]
            simp only []
            by_cases hy : v[p + 1] = 114
            · rw [if_pos hy]
              by_cases hl : m + 1 = 1
              · rw [if_pos hl]
                refine ⟨Or.inl ⟨rfl, p, le_refl _, hp1, by rw [e0, hx], by rw [e1, hy],
                  Or.inl (by omega)⟩, ⟨[p, p + 1], rfl, ?_⟩, by simp⟩
                intro i hi
                simp only [List.mem_cons, List.mem_singleton, List.not_mem_nil, or_false] at hi
                omega
              · rw [if_neg hl]
                have hp2 : p + 2 < v.length := by omega
                have e2 : v[p + 2]? = some v[p + 2] := List.getElem?_eq_getElem hp2
                rw [e2]
                simp only []
                have hex : ∀ i ∈ [p, p + 1, p + 2], i < v.length := by
                  intro i hi
                  simp only [List.mem_cons, List.mem_singleton, List.not_mem_nil,
                    or_false] at hi
                  omega
                by_cases hz : v[p + 2] = 44 ∨ v[p + 2] = 59 ∨ v[p + 2] = 32
                · rw [if_pos hz]
                  refine ⟨Or.inl ⟨rfl, p, le_refl _, hp1, by rw [e0, hx], by rw [e1, hy],
                    Or.inr ?_⟩, ⟨[p, p + 1, p + 2], rfl, hex⟩, by simp⟩
                  rw [e2]
                  simpa using hz
                · rw [if_neg hz]
                  refine scanOk_step v p rd _ _ _ _ (hrec _) ?_ hex (by omega)
                  rintro ⟨_, _, _, h4⟩
                  rw [e2] at h4
                  simp only [Option.some.injEq] at h4
                  rcases h4 with h4 | h4
                  · omega
                  · exact hz h4
            · rw [if_neg hy]
              refine scanOk_step v p rd _ _ _ _ (hrec _) ?_ ?_ (by omega)
              · rintro ⟨_, _, h3, _⟩
                rw [e1] at h3
                simp only [Option.some.injEq] at h3
                exact hy h3
              · intro i hi
                simp only [List.mem_cons, List.mem_singleton, List.not_mem_nil, or_false] at hi
                omega
          · rw [if_pos (by simpa using hx)]
            refine scanOk_step v p rd _ _ _ _ (hrec _) ?_ ?_ (by omega)
            · rintro ⟨_, h2, _⟩
              rw [e0] at h2
              simp only [Option.some.injEq] at h2
              exact hx h2
            · intro i hi
              simp only [List.mem_singleton] at hi
              omega
theorem accept_br_trace_spec (v : List Nat) :
    ScanOk v 0 [] (v.length - 1) (accept_br_trace (some v)) := by
  unfold accept_br_trace
  simp only []
  by_cases h : v.length < 2
  · rw [if_pos h]
    refine ⟨Or.inr ⟨rfl, ?_⟩, ⟨[], rfl, by simp⟩, Nat.zero_le _⟩
    rintro ⟨i, _, hbr, _⟩
    omega
  · rw [if_neg h]
    have := accept_br_loop_spec v v.length 0 [] 0 (by omega)
    simpa using this

theorem getElem?_after (pre l : List Nat) (k : Nat) :
    (pre ++ l)[pre.length + k]? = l[k]? := by
  rw [List.getElem?_append_right (by omega)]
  congr 1
  omega

/-- C19: `accept_br` answers `NGX_OK` exactly when the header value has `br`
at some index `i` with `i + 1 < n`, followed by the end of the value or by one
of `,`, `;` and the blank; otherwise it answers `NGX_DECLINED`, as it does
without header and for `n < 2`.  What stands before `b` and what follows the
separator play no part: any value with `br;` somewhere is accepted. -/
theorem C19_accept_br_exact (v : List Nat) :
    (accept_br (some v) = some NGX_OK ↔ ∃ i, BrAt v i) ∧
    (accept_br (some v) = some NGX_DECLINED ↔ ¬ ∃ i, BrAt v i) ∧
    accept_br none = some NGX_DECLINED ∧
    (v.length < 2 → accept_br (some v) = some NGX_DECLINED) ∧
    (∀ pre post : List Nat, accept_br (some (pre ++ [98, 114, 59] ++ post)) = some NGX_OK) := by
  have key : ∀ u : List Nat,
      (accept_br (some u) = some NGX_OK ∧ ∃ i, BrAt u i) ∨
      (accept_br (some u) = some NGX_DECLINED ∧ ¬ ∃ i, BrAt u i) := by
    intro u
    rcases (accept_br_trace_spec u).1 with ⟨h1, i, _, hi⟩ | ⟨h1, h2⟩
    · exact Or.inl ⟨h1, i, hi⟩
    · refine Or.inr ⟨h1, ?_⟩
      rintro ⟨i, hi⟩
      exact h2 ⟨i, Nat.zero_le _, hi⟩
  refine ⟨?_, ?_, rfl, ?_, ?_⟩
  · rcases key v with ⟨h1, h2⟩ | ⟨h1, h2⟩
    · exact ⟨fun _ => h2, fun _ => h1⟩
    · refine ⟨fun h => ?_, fun h => absurd h h2⟩
      rw [h1] at h
      exact absurd h (by decide)
  · rcases key v with ⟨h1, h2⟩ | ⟨h1, h2⟩
    · refine ⟨fun h => ?_, fun h => absurd h2 h⟩
      rw [h1] at h
      exact absurd h (by decide)
    · exact ⟨fun _ => h2, fun _ => h1⟩
  · intro h
    rcases key v with ⟨_, i, hi, _⟩ | ⟨h1, _⟩
    · omega
    · exact h1
  · intro pre post
    rcases key (pre ++ [98, 114, 59] ++ post) with ⟨h1, _⟩ | ⟨_, h2⟩
    · exact h1
    · exfalso
      apply h2
      have e0 := getElem?_after pre ([98, 114, 59] ++ post) 0
      have e1 := getElem?_after pre ([98, 114, 59] ++ post) 1
      have e2 := getElem?_after pre ([98, 114, 59] ++ post) 2
      rw [List.append_assoc]
      refine ⟨pre.length, by simp, ?_, ?_, Or.inr (Or.inr (Or.inl ?_))⟩
      · rw [← Nat.add_zero pre.length, e0]; rfl
      · rw [e1]; rfl
      · rw [e2]; simp

theorem C19_accept_br_exact_witness :
    accept_br (some [103, 122, 105, 112, 44, 32, 97, 98, 114, 59, 113, 61, 48]) = some NGX_OK ∧
    accept_br (some [98, 114]) = some NGX_OK ∧
    accept_br (some [98, 114, 111, 116, 108, 105]) = some NGX_DECLINED ∧
    accept_br (some [98]) = some NGX_DECLINED :=
  ⟨(C19_accept_br_exact []).2.2.2.2 [103, 122, 105, 112, 44, 32, 97] [113, 61, 48],
   (C19_accept_br_exact [98, 114]).1.mpr ⟨0, by unfold BrAt; decide⟩,
   (C19_accept_br_exact [98, 114, 111, 116, 108, 105]).2.1.mpr (by
      rintro ⟨i, h1, h2, h3, h4⟩
      have hi : i < 5 := by simp at h1; omega
      interval_cases i <;> simp at h2 h3 h4),
   (C19_accept_br_exact [98]).2.2.2.1 (by decide)⟩

/-- C20: on every header value, `accept_br` reads only at indices inside the
value (so the byte after `r` is read only when there is one), its loop runs
at most `n - 1` iterations, and it returns; without header it reads nothing. -/
theorem C20_accept_br_bounds (v : List Nat) :
    (accept_br_trace (some v)).result ≠ none ∧
    (∀ i ∈ (accept_br_trace (some v)).reads, i < v.length) ∧
    (accept_br_trace (some v)).iterations ≤ v.length - 1 ∧
    accept_br_trace none = { result := some NGX_DECLINED, reads := [], iterations := 0 } := by
  obtain ⟨h1, ⟨new, h2, h3⟩, h4⟩ := accept_br_trace_spec v
  refine ⟨?_, ?_, h4, rfl⟩
  · rcases h1 with ⟨h, _⟩ | ⟨h, _⟩ <;> rw [h] <;> exact Option.some_ne_none _
  · intro i hi
    rw [h2] at hi
    exact h3 i (by simpa using hi)

theorem C20_accept_br_bounds_witness :
    accept_br_trace (some [98, 114, 111])
      = { result := some NGX_DECLINED, reads := [0, 1, 2, 1], iterations := 2 } ∧
    (∀ i ∈ (accept_br_trace (some [98, 114, 111])).reads, i < 3) ∧
    (accept_br_trace (some [98, 114, 111])).iterations ≤ 3 - 1 :=
  ⟨rfl, (C20_accept_br_bounds [98, 114, 111]).2.1, (C20_accept_br_bounds [98, 114, 111]).2.2.1⟩

/-! ## The header filter: eligibility (C16) -/

abbrev NGX_HTTP_OK : Nat := 200
abbrev NGX_HTTP_FORBIDDEN : Nat := 403
abbrev NGX_HTTP_NOT_FOUND : Nat := 404

/-- The request as the header filter sees it: the fields of `r`,
`r->headers_in` and `r->headers_out` it reads or writes.  A header line is
its value; `headers` are the lines pushed on `r->headers_out.headers`, key and
value; `ctx` is the module context slot; `nalloc` counts the pool
allocations. -/
structure ngx_http_header_request_t (E : Type) where
  header_only : Bool
  status : Nat
  content_length_n : Int
  content_length : Option (List Nat)
  content_encoding : Option (List Nat)
  accept_ranges : Option (List Nat)
  allow_ranges : Bool
  etag : Option (List Nat)
  headers : List (List Nat × List Nat)
  accept_encoding : Option (List Nat)
  gzip_vary : Bool
  gzip_tested : Bool
  gzip_ok : Bool
  main_filter_need_in_memory : Bool
  ctx : Option (ngx_http_brotli_ctx_t E)
  nalloc : Nat

/-- What is external to the header filter: the pool allocator (`alloc_ok k`
tells whether the `k`-th allocation succeeds), the result of the next header
filter, whether `ngx_http_test_content_type` finds the content type of the
response in `conf->types`, what `ngx_http_weak_etag` makes of the `ETag` line,
and whether the module is built with `NGX_HTTP_GZIP`. -/
structure HeaderEnv where
  alloc_ok : Nat → Bool
  next_rc : Int
  content_type_listed : Bool
  weak_etag : Option (List Nat) → Option (List Nat)
  with_gzip : Bool

/-- The test `content_encoding && content_encoding->value.len`. -/
def has_content_encoding (ce : Option (List Nat)) : Bool :=
  match ce with
  | none => false
  | some v => decide (v.length ≠ 0)

/-- The function `ngx_http_brotli_header_filter`.  The next header filter is
external: its result is returned and its effect on the request is left
out.  The back pointer `ctx->request` has no field in the session. -/
def ngx_http_brotli_header_filter (henv : HeaderEnv) (conf : ngx_http_brotli_conf_t)
    (r : ngx_http_header_request_t E) : Int × ngx_http_header_request_t E :=
  if conf.enable = 0
      ∨ (r.status ≠ NGX_HTTP_OK ∧ r.status ≠ NGX_HTTP_FORBIDDEN ∧ r.status ≠ NGX_HTTP_NOT_FOUND)
      ∨ (r.content_length_n ≠ -1 ∧ r.content_length_n < conf.min_length)
      ∨ henv.content_type_listed = false
      ∨ r.header_only = true then
    (henv.next_rc, r)
  else if has_content_encoding r.content_encoding = true then (henv.next_rc, r)
  else if accept_br r.accept_encoding ≠ some NGX_OK then (henv.next_rc, r)
  else if henv.alloc_ok r.nalloc = false then
    -- `ngx_pcalloc` of the session
    (NGX_ERROR, { r with nalloc := r.nalloc + 1 })
  else
    let r1 : ngx_http_header_request_t E :=
      { r with nalloc := r.nalloc + 1,
               gzip_vary := if henv.with_gzip = true then true else r.gzip_vary,
               gzip_tested := if henv.with_gzip = true then true else r.gzip_tested,
               gzip_ok := if henv.with_gzip = true then false else r.gzip_ok,
               ctx := some (fresh_ctx E) }
    if henv.alloc_ok r1.nalloc = false then
      -- `ngx_list_push`
      (NGX_ERROR, { r1 with nalloc := r1.nalloc + 1 })
    else
      (henv.next_rc,
        { r1 with nalloc := r1.nalloc + 1,
                  headers := r1.headers ++ [(ascii "Content-Encoding", ascii "br")],
                  content_encoding := some (ascii "br"),
                  main_filter_need_in_memory := true,
                  content_length_n := -1, content_length := none,
                  allow_ranges := false, accept_ranges := none,
                  etag := henv.weak_etag r1.etag })

/-- The conditions of the claim under which the response is compressed. -/
def Eligible (henv : HeaderEnv) (conf : ngx_http_brotli_conf_t)
    (r : ngx_http_header_request_t E) : Prop :=
  conf.enable ≠ 0 ∧
  (r.status = 200 ∨ r.status = 403 ∨ r.status = 404) ∧
  (r.content_length_n = -1 ∨ conf.min_length ≤ r.content_length_n) ∧
  henv.content_type_listed = true ∧
  r.header_only = false ∧
  (∀ v, r.content_encoding = some v → v = []) ∧
  accept_br r.accept_encoding = some NGX_OK

/-- The first test of the header filter fails exactly when the first five
conditions hold. -/
theorem eligible_iff (henv : HeaderEnv) (conf : ngx_http_brotli_conf_t)
    (r : ngx_http_header_request_t E) :
    Eligible henv conf r ↔
      (¬ (conf.enable = 0
          ∨ (r.status ≠ NGX_HTTP_OK ∧ r.status ≠ NGX_HTTP_FORBIDDEN
              ∧ r.status ≠ NGX_HTTP_NOT_FOUND)
          ∨ (r.content_length_n ≠ -1 ∧ r.content_length_n < conf.min_length)
          ∨ henv.content_type_listed = false
          ∨ r.header_only = true)
        ∧ ¬ has_content_encoding r.content_encoding = true
        ∧ ¬ accept_br r.accept_encoding ≠ some NGX_OK) := by
  have hce : (¬ has_content_encoding r.content_encoding = true) ↔
      (∀ v, r.content_encoding = some v → v = []) := by
    cases hc : r.content_encoding with
    | none => simp [has_content_encoding]
    | some v => simp [has_content_encoding, List.length_eq_zero]
  unfold Eligible
  rw [hce]
  simp only [NGX_HTTP_OK, NGX_HTTP_FORBIDDEN, NGX_HTTP_NOT_FOUND, not_or, not_and, not_not,
    Bool.not_eq_false, Bool.not_eq_true, not_lt, ne_eq]
  constructor
  · rintro ⟨a, b, c, d, e, f, g⟩
    refine ⟨⟨a, ?_, ?_, d, e⟩, f, g⟩
    · intro h1 h2
      rcases b with b | b | b
      · exact absurd b h1
      · exact absurd b h2
      · exact b
    · intro h1
      rcases c with c | c
      · exact absurd c h1
      · exact c
  · rintro ⟨⟨a, b, c, d, e⟩, f, g⟩
    refine ⟨a, ?_, ?_, d, e, f, g⟩
    · by_cases h1 : r.status = 200
      · exact Or.inl h1
      · by_cases h2 : r.status = 403
        · exact Or.inr (Or.inl h2)
        · exact Or.inr (Or.inr (b h1 h2))
    · by_cases h1 : r.content_length_n = -1
      · exact Or.inl h1
      · exact Or.inr (c h1)

/-- C16 (eligibility decision of the header filter).  When the two pool
allocations succeed and the request has no session yet: if the conditions of
`Eligible` hold the filter creates a zeroed session, pushes the header line
`Content-Encoding: br` and makes it the content encoding, clears the content
length and the accept-ranges line, keeps gzip from running when built with it,
and returns the result of the next header filter; otherwise it returns the
result of the next header filter with the request unchanged; so a session
exists, or the response is marked, afterwards exactly when the conditions
hold. -/
theorem C16_header_filter_eligibility (henv : HeaderEnv) (conf : ngx_http_brotli_conf_t)
    (r : ngx_http_header_request_t E)
    (ha1 : henv.alloc_ok r.nalloc = true) (ha2 : henv.alloc_ok (r.nalloc + 1) = true)
    (hctx : r.ctx = none) :
    (Eligible henv conf r →
      ∃ r1, ngx_http_brotli_header_filter henv conf r = (henv.next_rc, r1) ∧
        r1.ctx = some (fresh_ctx E) ∧
        r1.headers = r.headers ++ [(ascii "Content-Encoding", ascii "br")] ∧
        r1.content_encoding = some (ascii "br") ∧
        r1.content_length_n = -1 ∧ r1.content_length = none ∧
        r1.allow_ranges = false ∧ r1.accept_ranges = none ∧
        r1.main_filter_need_in_memory = true ∧
        r1.etag = henv.weak_etag r.etag ∧
        (henv.with_gzip = true →
          r1.gzip_vary = true ∧ r1.gzip_tested = true ∧ r1.gzip_ok = false) ∧
        r1.status = r.status ∧ r1.header_only = r.header_only ∧
        r1.accept_encoding = r.accept_encoding) ∧
    (¬ Eligible henv conf r →
      ngx_http_brotli_header_filter henv conf r = (henv.next_rc, r)) ∧
    ((ngx_http_brotli_header_filter henv conf r).2.ctx ≠ none ↔ Eligible henv conf r) ∧
    ((ngx_http_brotli_header_filter henv conf r).2.headers
        = r.headers ++ [(ascii "Content-Encoding", ascii "br")] ↔ Eligible henv conf r) := by
  have hyes : Eligible henv conf r →
      ngx_http_brotli_header_filter henv conf r = (henv.next_rc,
        { r with nalloc := r.nalloc + 1 + 1,
                 gzip_vary := if henv.with_gzip = true then true else r.gzip_vary,
                 gzip_tested := if henv.with_gzip = true then true else r.gzip_tested,
                 gzip_ok := if henv.with_gzip = true then false else r.gzip_ok,
                 ctx := some (fresh_ctx E),
                 headers := r.headers ++ [(ascii "Content-Encoding", ascii "br")],
                 content_encoding := some (ascii "br"),
                 main_filter_need_in_memory := true,
                 content_length_n := -1, content_length := none,
                 allow_ranges := false, accept_ranges := none,
                 etag := henv.weak_etag r.etag }) := by
    intro he
    obtain ⟨h1, h2, h3⟩ := (eligible_iff henv conf r).1 he
    unfold ngx_http_brotli_header_filter
    rw [if_neg h1, if_neg h2, if_neg h3]
    simp only [ha1, ha2, Bool.true_eq_false, if_false]
  have hno : ¬ Eligible henv conf r →
      ngx_http_brotli_header_filter henv conf r = (henv.next_rc, r) := by
    intro he
    rw [eligible_iff] at he
    unfold ngx_http_brotli_header_filter
    by_cases h1 : (conf.enable = 0
          ∨ (r.status ≠ NGX_HTTP_OK ∧ r.status ≠ NGX_HTTP_FORBIDDEN
              ∧ r.status ≠ NGX_HTTP_NOT_FOUND)
          ∨ (r.content_length_n ≠ -1 ∧ r.content_length_n < conf.min_length)
          ∨ henv.content_type_listed = false
          ∨ r.header_only = true)
    · rw [if_pos h1]
    · rw [if_neg h1]
      by_cases h2 : has_content_encoding r.content_encoding = true
      · rw [if_pos h2]
      · rw [if_neg h2]
        by_cases h3 : accept_br r.accept_encoding ≠ some NGX_OK
        · rw [if_pos h3]
        · exact absurd ⟨h1, h2, h3⟩ he
  refine ⟨?_, hno, ?_, ?_⟩
  · intro he
    refine ⟨_, hyes he, rfl, rfl, rfl, rfl, rfl, rfl, rfl, rfl, rfl, ?_, rfl, rfl, rfl⟩
    intro hg
    simp only [hg, if_true, and_self]
  · constructor
    · intro h
      by_contra he
      rw [hno he] at h
      exact h hctx
    · intro he
      rw [hyes he]
      simp
  · constructor
    · intro h
      by_contra he
      rw [hno he] at h
      have := congrArg List.length h
      simp at this
    · intro he
      rw [hyes he]

/-- A request for a long HTML page from a client that accepts `gzip, br`. -/
def page_request : ngx_http_header_request_t Unit :=
  { header_only := false, status := 200, content_length_n := 5000,
    content_length := some (ascii "5000"), content_encoding := none,
    accept_ranges := some (ascii "bytes"), allow_ranges := true, etag := none,
    headers := [], accept_encoding := some (ascii "gzip, br"),
    gzip_vary := false, gzip_tested := false, gzip_ok := true,
    main_filter_need_in_memory := false, ctx := none, nalloc := 0 }

/-- An environment where allocations succeed and the content type is listed. -/
def page_env : HeaderEnv :=
  { alloc_ok := fun _ => true, next_rc := NGX_OK, content_type_listed := true,
    weak_etag := fun e => e, with_gzip := true }

theorem C16_header_filter_eligibility_witness :
    page_env.alloc_ok page_request.nalloc = true ∧
    page_env.alloc_ok (page_request.nalloc + 1) = true ∧
    page_request.ctx = none ∧
    Eligible page_env { bufs_num := 2, bufs_size := 4, enable := 1 } page_request ∧
    ((ngx_http_brotli_header_filter page_env { bufs_num := 2, bufs_size := 4, enable := 1 }
        page_request).2.ctx ≠ none ↔
      Eligible page_env { bufs_num := 2, bufs_size := 4, enable := 1 } page_request) :=
  ⟨rfl, rfl, rfl,
    ⟨by decide, Or.inl rfl, Or.inr (by decide), rfl, rfl, (fun v h => by cases h), by decide⟩,
    (C16_header_filter_eligibility page_env { bufs_num := 2, bufs_size := 4, enable := 1 }
      page_request rfl rfl rfl).2.2.1⟩

/-! ## Bounds of the input cursor (C12) -/

/-- The current input chunk is not read past its end: `pos ≤ last`, and while
`next_in` is not NULL, `next_in + available_in` is the chunk's `last`; the
queued chunks have `pos ≤ last`. -/
def InBounds (c : ngx_http_brotli_ctx_t E) : Prop :=
  (∀ b, c.in_buf = some b →
    b.pos ≤ b.last ∧ ∀ p, c.next_in = some p → p + c.available_in = b.last) ∧
  (∀ b ∈ c.in_, b.pos ≤ b.last)

/-- An encoder step consumes no more than it is given. -/
def ConsumesAvailable (enc : BrotliEncoder E) : Prop :=
  ∀ e op inp avail e1 used outb, enc.compressStream e op inp avail = some (e1, used, outb) →
    used ≤ inp.length

theorem input_window_length (c : ngx_http_brotli_ctx_t E) :
    (input_window c).length ≤ c.available_in := by
  unfold input_window
  cases c.next_in <;> cases c.in_buf <;> simp

theorem inbounds_add (c : ngx_http_brotli_ctx_t E) (rc : Int) (c1 : ngx_http_brotli_ctx_t E)
    (hI : InBounds c) (h : ngx_http_brotli_filter_add_data c = (rc, c1)) : InBounds c1 := by
  rcases add_data_cases c rc c1 h with ⟨_, rfl, _⟩ | ⟨_, rfl, _⟩ | ⟨b, rest, hin, _, rfl, _⟩
  · exact hI
  · exact hI
  · have hb : b.pos ≤ b.last := hI.2 b (by rw [hin]; exact List.mem_cons_self _ _)
    constructor
    · intro b1 h1
      simp only [pulled, Option.some.injEq] at h1
      subst h1
      refine ⟨hb, ?_⟩
      intro p hp
      simp only [pulled, Option.some.injEq] at hp
      subst hp
      simp only [pulled]
      omega
    · intro b1 h1
      simp only [pulled] at h1
      exact hI.2 b1 (by rw [hin]; exact List.mem_cons_of_mem _ h1)

theorem inbounds_call (c : ngx_http_brotli_ctx_t E) (e1 : E) (used : Nat) (outb : List Nat)
    (hI : InBounds c) (hu : used ≤ c.available_in) :
    InBounds (encoder_call_ctx c e1 used outb) := by
  constructor
  · intro b1 h1
    cases hn : c.next_in with
    | none =>
        simp only [encoder_call_ctx, hn] at h1
        refine ⟨(hI.1 b1 h1).1, ?_⟩
        intro p hp
        simp [encoder_call_ctx, hn] at hp
    | some q =>
        cases hb : c.in_buf with
        | none => simp [encoder_call_ctx, hn, hb] at h1
        | some b =>
            simp only [encoder_call_ctx, hn, hb, Option.map_some', Option.some.injEq] at h1
            subst h1
            have h2 := (hI.1 b hb).2 q hn
            refine ⟨by simp only; omega, ?_⟩
            intro p hp
            simp only [encoder_call_ctx, hn, Option.map_some'] at hp
            by_cases hz : c.available_in - used = 0
            · simp [hz] at hp
            · simp only [hz, if_false, Option.some.injEq] at hp
              subst hp
              simp only [encoder_call_ctx]
              omega
  · intro b hb
    exact hI.2 b hb

theorem inbounds_cmp (enc : BrotliEncoder E) (hb : ConsumesAvailable enc) (env : Env)
    (w w1 : World E) (c c1 : ngx_http_brotli_ctx_t E) (rc : Int) (hI : InBounds c)
    (h : ngx_http_brotli_filter_compress enc env w c = (rc, w1, c1)) : InBounds c1 := by
  have key : ∀ e ob e1 used outb, Stepped enc c e ob e1 used outb →
      InBounds (encoder_call_ctx c e1 used outb) := by
    intro e ob e1 used outb hs
    exact inbounds_call c e1 used outb hI
      (le_trans (hb _ _ _ _ _ _ _ hs.2.2) (input_window_length c))
  have hcase := compress_cases enc env w c rc w1 c1 h
  cases hcase with
  | null _ => exact hI
  | step_failed _ _ _ _ _ => exact hI
  | full_nolink e ob e1 used outb hs _ _ => exact key e ob e1 used outb hs
  | full e ob e1 used outb hs _ _ => exact key e ob e1 used outb hs
  | flush_nolink e ob e1 used outb hs _ _ _ => exact key e ob e1 used outb hs
  | flush_nomarker e ob e1 used outb hs _ _ _ _ _ => exact key e ob e1 used outb hs
  | flush_marker e ob e1 used outb hs _ _ _ _ _ => exact key e ob e1 used outb hs
  | flush_buf e ob e1 used outb hs _ _ _ _ => exact key e ob e1 used outb hs
  | end_nolink e ob e1 used outb hs _ _ _ _ => exact key e ob e1 used outb hs
  | ended e ob e1 used outb hs _ _ _ _ => exact key e ob e1 used outb hs
  | more e ob e1 used outb hs _ _ _ => exact key e ob e1 used outb hs

theorem add_copy_mem (env : Env) (chain : List ngx_buf_t) :
    ∀ (w : World E) (dst : List ngx_buf_t) (rc : Int) (w1 : World E) (l : List ngx_buf_t),
      ngx_chain_add_copy env w dst chain = (rc, w1, l) → ∀ b ∈ l, b ∈ dst ∨ b ∈ chain := by
  induction chain with
  | nil =>
      intro w dst rc w1 l h b hb
      simp [ngx_chain_add_copy] at h
      obtain ⟨_, _, rfl⟩ := h
      exact Or.inl hb
  | cons a rest ih =>
      intro w dst rc w1 l h b hb
      unfold ngx_chain_add_copy at h
      rcases hA : ngx_alloc env w with ⟨ok, w2⟩
      rw [hA] at h
      cases ok with
      | true =>
          simp only [] at h
          rcases ih w2 (dst ++ [a]) rc w1 l h b hb with h1 | h1
          · rcases List.mem_append.1 h1 with h2 | h2
            · exact Or.inl h2
            · exact Or.inr (by simp at h2; simp [h2])
          · exact Or.inr (List.mem_cons_of_mem _ h1)
      | false =>
          simp only [Prod.mk.injEq] at h
          obtain ⟨_, _, rfl⟩ := h
          exact Or.inl hb

theorem inbounds_of_eq (c c1 : ngx_http_brotli_ctx_t E) (hI : InBounds c)
    (h1 : c1.in_buf = c.in_buf) (h2 : c1.next_in = c.next_in)
    (h3 : c1.available_in = c.available_in) (h4 : c1.in_ = c.in_) : InBounds c1 := by
  unfold InBounds
  rw [h1, h2, h3, h4]
  exact hI

theorem inbounds_prologue (enc : BrotliEncoder E) (env : Env) (w : World E)
    (c : ngx_http_brotli_ctx_t E) (chain : List ngx_buf_t) (hI : InBounds c)
    (hch : ∀ b ∈ chain, b.pos ≤ b.last) :
    match prologue enc env w c chain with
    | Entry.failed _ c1 => InBounds c1
    | Entry.go _ _ c1 => InBounds c1 := by
  unfold prologue
  rcases h0 : start_if_needed enc w c with ⟨rc0, w0, c0⟩
  have hI1 : InBounds c0 := by
    rcases start_if_needed_cases enc w c rc0 w0 c0 h0 with
      ⟨_, _, rfl, rfl⟩ | ⟨_, _, _, rfl, rfl⟩ | ⟨e, _, _, _, rfl, rfl⟩
    · exact hI
    · exact inbounds_of_eq c _ hI rfl rfl rfl rfl
    · refine ⟨fun b hb => ⟨(hI.1 b hb).1, fun p hp => ?_⟩, hI.2⟩
      simp at hp
  simp only []
  by_cases hrc0 : rc0 = NGX_OK
  · rw [if_neg (by simpa using hrc0)]
    rcases h1 : add_input env w0 c0 chain with ⟨rc1, w1, c1⟩
    have hI2 : InBounds c1 := by
      unfold add_input at h1
      cases chain with
      | nil =>
          simp only [Prod.mk.injEq] at h1
          obtain ⟨_, _, rfl⟩ := h1
          exact hI1
      | cons a rest =>
          simp only [] at h1
          rcases hA : ngx_chain_add_copy env w0 c0.in_ (a :: rest) with ⟨rc, w2, l⟩
          rw [hA] at h1
          simp only [Prod.mk.injEq] at h1
          obtain ⟨_, _, rfl⟩ := h1
          refine ⟨hI1.1, ?_⟩
          intro b hb
          rcases add_copy_mem env _ _ _ _ _ _ hA b hb with h | h
          · exact hI1.2 b h
          · exact hch b h
    simp only []
    by_cases hrc1 : rc1 = NGX_OK
    · rw [if_neg (by simpa using hrc1)]
      unfold flush_busy
      by_cases hn : c1.nomem = true
      · simp only [hn, if_true]
        rcases hN : ngx_http_next_body_filter env w1 c1.busy [] with ⟨rc2, w2⟩
        simp only []
        by_cases he : rc2 = NGX_ERROR
        · simp only [he, if_true]
          exact hI2
        · simp only [he, if_false]
          exact inbounds_of_eq c1 _ hI2 rfl rfl rfl rfl
      · simp only [hn, if_false]
        exact hI2
    · rw [if_pos (by simpa using hrc1)]
      exact hI2
  · rw [if_pos (by simpa using hrc0)]
    exact hI1

/-- The input cursor stays in bounds through an invocation past the
pass-through check. -/
theorem session_inbounds (enc : BrotliEncoder E) (hb : ConsumesAvailable enc) (env : Env)
    (conf : ngx_http_brotli_conf_t) (fuel : Nat) (ho : Bool) (w : World E)
    (c : ngx_http_brotli_ctx_t E) (chain : List ngx_buf_t) (hI : InBounds c)
    (hch : ∀ b ∈ chain, b.pos ≤ b.last) :
    ∃ c1, (body_filter_session enc env conf fuel ho w c chain).req.ctx = some c1 ∧
      InBounds c1 := by
  have hfail : ∀ (w1 : World E) (c1 : ngx_http_brotli_ctx_t E), InBounds c1 →
      ∃ c2, (body_filter_failed ho w1 c1).req.ctx = some c2 ∧ InBounds c2 := by
    intro w1 c1 h
    exact ⟨_, rfl, inbounds_of_eq c1 _ h rfl rfl rfl rfl⟩
  unfold body_filter_session
  have hp := inbounds_prologue enc env w c chain hI hch
  rcases hP : prologue enc env w c chain with ⟨w1, c1⟩ | ⟨flush, w1, c1⟩
  · rw [hP] at hp
    exact hfail w1 c1 hp
  · rw [hP] at hp
    refine cycle_rule enc env conf ho (fun _ c => InBounds c) (fun _ c => InBounds c)
      (fun _ c => InBounds c) (fun _ c => InBounds c)
      (fun o => ∃ c1, o.req.ctx = some c1 ∧ InBounds c1)
      ?_ ?_ ?_ ?_ ?_ ?_ ?_ fuel fuel flush w1 c1 hp
    · intro w' c' rc c1' hI' h
      exact ⟨fun _ => inbounds_add c' rc c1' hI' h, fun _ => inbounds_add c' rc c1' hI' h⟩
    · intro w' c' rc w1' c1' hI' h
      have g := get_buf_frame env conf w' w1' c' c1' rc h
      have := inbounds_of_eq c' c1' hI' g.2.2.2.2.2.2.2.2.2.2.2.2.2.2.2.2.2.1
        g.2.2.2.2.2.2.2.2.2.2.2.2.2.2.2.2.2.2.1 g.2.2.2.2.2.2.2.2.2.2.2.2.2.2.2.2.2.2.2.1
        g.2.2.2.1
      exact ⟨fun _ => this, fun _ => this, fun _ _ => this⟩
    · intro w' c' rc w1' c1' hI' h
      have := inbounds_cmp enc hb env w' w1' c' c1' rc hI' h
      exact ⟨fun _ => this, fun _ => this, fun _ _ => this⟩
    · intro w' c' hI'
      exact hfail w' c' hI'
    · intro w' c' hI'
      exact ⟨c', rfl, hI'⟩
    · intro w' c' hI' _
      exact ⟨_, rfl, inbounds_of_eq c' _ hI' rfl rfl rfl rfl⟩
    · intro w' c' rc w2 hI' _
      have hA : InBounds (after_next w2 c').2 := inbounds_of_eq c' _ hI' rfl rfl rfl rfl
      exact ⟨fun _ => hI', fun _ => ⟨fun _ => ⟨_, rfl, hA⟩, fun _ => hA⟩⟩

/-- C12 (input bounds invariant).  For an encoder whose steps consume no
more than the input they are given: `ngx_http_brotli_filter_add_data` and
`ngx_http_brotli_filter_compress` keep the current chunk at `pos ≤ last` and,
while `next_in` is not NULL, `next_in + available_in` at the chunk's `last`;
the zeroed session satisfies this, and so does the session after every
invocation of the body filter on a chain of chunks with `pos ≤ last`. -/
theorem C12_input_bounds (enc : BrotliEncoder E) (hb : ConsumesAvailable enc) :
    InBounds (fresh_ctx E) ∧
    (∀ (c : ngx_http_brotli_ctx_t E) rc c1, InBounds c →
      ngx_http_brotli_filter_add_data c = (rc, c1) → InBounds c1) ∧
    (∀ env w c rc w1 c1, InBounds c →
      ngx_http_brotli_filter_compress enc env w c = (rc, w1, c1) → InBounds c1) ∧
    (∀ env conf fuel r chain c, r.ctx = some c → InBounds c →
      (∀ b ∈ chain, b.pos ≤ b.last) →
      ∃ c1, (ngx_http_brotli_body_filter enc env conf fuel r chain).req.ctx = some c1 ∧
        InBounds c1) := by
  refine ⟨⟨fun b hb => ?_, fun b hb => ?_⟩, ?_, ?_, ?_⟩
  · simp [fresh_ctx] at hb
  · simp [fresh_ctx] at hb
  · intro c rc c1 hI h
    exact inbounds_add c rc c1 hI h
  · intro env w c rc w1 c1 hI h
    exact inbounds_cmp enc hb env w w1 c c1 rc hI h
  · intro env conf fuel r chain c hctx hI hch
    unfold ngx_http_brotli_body_filter
    simp only [hctx]
    by_cases hd : c.done = true ∨ r.header_only = true
    · rw [if_pos hd]
      exact ⟨c, rfl, hI⟩
    · rw [if_neg hd]
      exact session_inbounds enc hb env conf fuel r.header_only r.w c chain hI hch

theorem C12_input_bounds_witness :
    ConsumesAvailable toy ∧
    ∃ c1, (ngx_http_brotli_body_filter toy env_ok { bufs_num := 2, bufs_size := 2 } 16
        (fresh_request ToyState) [chunk [1, 2, 3] true false]).req.ctx = some c1 ∧
      InBounds c1 :=
  ⟨fun e op inp avail e1 used outb h => (toy_bounds e op inp avail e1 used outb h).1,
    (C12_input_bounds toy
      (fun e op inp avail e1 used outb h => (toy_bounds e op inp avail e1 used outb h).1)).2.2.2
      env_ok { bufs_num := 2, bufs_size := 2 } 16 (fresh_request ToyState)
      [chunk [1, 2, 3] true false] (fresh_ctx ToyState) rfl
      ⟨fun b hb => by simp [fresh_ctx] at hb, fun b hb => by simp [fresh_ctx] at hb⟩
      (fun b hb => by simp [chunk] at hb; subst hb; decide)⟩

/-! ## The encoder is created once and destroyed once (C11) -/

/-- The encoder of a running session: created once, not destroyed. -/
def OnceRunning (w : World E) (c : ngx_http_brotli_ctx_t E) : Prop :=
  c.done = false ∧ c.bro ≠ none ∧ w.created = 1 ∧ w.destroyed = []

/-- No encoder is live, and each encoder created (at most one) has been
destroyed once. -/
def OnceGone (w : World E) (c : ngx_http_brotli_ctx_t E) : Prop :=
  c.bro = none ∧ w.created ≤ 1 ∧ w.destroyed.length = w.created

/-- A session between invocations of the body filter: not started, running,
or done with each created encoder destroyed once. -/
def Once (w : World E) (c : ngx_http_brotli_ctx_t E) : Prop :=
  (c.done = false ∧ c.bro = none ∧ w.created = 0 ∧ w.destroyed = []) ∨
  OnceRunning w c ∨ (c.done = true ∧ OnceGone w c)

/-- The same for a request; without session no encoder is ever created. -/
def OnceReq (r : ngx_http_request_t E) : Prop :=
  match r.ctx with
  | some c => Once r.w c
  | none => r.w.created = 0 ∧ r.w.destroyed = []

/-- Invoke the body filter once for each chain of `chains`, whatever the
state of the session.  `none` when an invocation runs out of its iteration
budget. -/
def invoke_each (enc : BrotliEncoder E) (env : Env) (conf : ngx_http_brotli_conf_t)
    (fuel : Nat) : List (List ngx_buf_t) → ngx_http_request_t E → Option (ngx_http_request_t E)
  | [], r => some r
  | chain :: rest, r =>
      match ngx_http_brotli_body_filter enc env conf fuel r chain with
      | Outcome.returned _ r1 => invoke_each enc env conf fuel rest r1
      | Outcome.timeout _ => none

theorem once_cmp (enc : BrotliEncoder E) (env : Env) (w w1 : World E)
    (c c1 : ngx_http_brotli_ctx_t E) (rc : Int) (hI : OnceRunning w c)
    (h : ngx_http_brotli_filter_compress enc env w c = (rc, w1, c1)) :
    (rc = NGX_ERROR → OnceRunning w1 c1 ∨ OnceGone w1 c1) ∧
    (rc = NGX_OK → OnceRunning w1 c1 ∨ (c1.done = true ∧ OnceGone w1 c1)) ∧
    (rc ≠ NGX_ERROR → rc ≠ NGX_OK → OnceRunning w1 c1) := by
  obtain ⟨h1, h2, h3, h4⟩ := hI
  have hcase := compress_cases enc env w c rc w1 c1 h
  cases hcase with
  | null _ =>
      exact ⟨fun _ => Or.inl ⟨h1, h2, h3, h4⟩, fun h => absurd h (by decide),
        fun h => absurd rfl h⟩
  | step_failed _ _ _ _ _ =>
      exact ⟨fun _ => Or.inl ⟨h1, h2, h3, h4⟩, fun h => absurd h (by decide),
        fun h => absurd rfl h⟩
  | full_nolink e ob e1 used outb hs _ _ =>
      refine ⟨fun _ => Or.inl ⟨h1, ?_, h3, h4⟩, fun h => absurd h (by decide),
        fun h => absurd rfl h⟩
      simp [encoder_call_ctx]
  | full e ob e1 used outb hs _ _ =>
      have : OnceRunning { encoder_call_world w c ob used outb with nalloc := w.nalloc + 1 }
          { link_out (encoder_call_ctx c e1 used outb) ob with redo := true } :=
        ⟨h1, by simp [encoder_call_ctx, link_out], h3, h4⟩
      exact ⟨fun _ => Or.inl this, fun h => absurd h (by decide), fun _ _ => this⟩
  | flush_nolink e ob e1 used outb hs _ _ _ =>
      refine ⟨fun _ => Or.inl ⟨h1, ?_, h3, h4⟩, fun h => absurd h (by decide),
        fun h => absurd rfl h⟩
      simp [encoder_call_ctx]
  | flush_nomarker e ob e1 used outb hs _ _ _ _ _ =>
      refine ⟨fun _ => Or.inl ⟨h1, ?_, h3, h4⟩, fun h => absurd h (by decide),
        fun h => absurd rfl h⟩
      simp [encoder_call_ctx]
  | flush_marker e ob e1 used outb hs _ _ _ _ _ =>
      refine ⟨fun h => absurd h (by decide), fun _ => Or.inl ⟨h1, ?_, h3, h4⟩,
        fun _ h => absurd rfl h⟩
      simp [encoder_call_ctx, link_out]
  | flush_buf e ob e1 used outb hs _ _ _ _ =>
      refine ⟨fun h => absurd h (by decide), fun _ => Or.inl ⟨h1, ?_, h3, h4⟩,
        fun _ h => absurd rfl h⟩
      simp [encoder_call_ctx, link_out]
  | end_nolink e ob e1 used outb hs _ _ _ _ =>
      refine ⟨fun _ => Or.inr ⟨rfl, ?_, ?_⟩, fun h => absurd h (by decide),
        fun h => absurd rfl h⟩
      · exact le_of_eq h3
      · show (w.destroyed ++ [e1]).length = w.created
        rw [h4, h3]; rfl
  | ended e ob e1 used outb hs _ _ _ _ =>
      refine ⟨fun h => absurd h (by decide), fun _ => Or.inr ⟨rfl, rfl, ?_, ?_⟩,
        fun _ h => absurd rfl h⟩
      · exact le_of_eq h3
      · show (w.destroyed ++ [e1]).length = w.created
        rw [h4, h3]; rfl
  | more e ob e1 used outb hs _ _ _ =>
      have : OnceRunning (encoder_call_world w c ob used outb)
          { encoder_call_ctx c e1 used outb with redo := false } :=
        ⟨h1, by simp [encoder_call_ctx], h3, h4⟩
      exact ⟨fun _ => Or.inl this, fun h => absurd h (by decide), fun _ _ => this⟩

theorem once_failed (ho : Bool) (w : World E) (c : ngx_http_brotli_ctx_t E)
    (h : OnceRunning w c ∨ OnceGone w c) : OnceReq (body_filter_failed ho w c).req := by
  unfold body_filter_failed ngx_http_brotli_filter_free_copy_buf
  refine Or.inr (Or.inr ⟨rfl, rfl, ?_⟩)
  rcases h with ⟨_, h2, h3, h4⟩ | ⟨h2, h3, h4⟩
  · cases hb : c.bro with
    | none => exact absurd hb h2
    | some e =>
        refine ⟨le_of_eq h3, ?_⟩
        show (w.destroyed ++ [e]).length = w.created
        rw [h4, h3]; rfl
  · simp only [h2]
    exact ⟨h3, h4⟩

theorem once_prologue (enc : BrotliEncoder E) (env : Env) (w : World E)
    (c : ngx_http_brotli_ctx_t E) (chain : List ngx_buf_t) (hI : Once w c)
    (hd : c.done = false) :
    match prologue enc env w c chain with
    | Entry.failed w1 c1 => OnceRunning w1 c1 ∨ OnceGone w1 c1
    | Entry.go _ w1 c1 => OnceRunning w1 c1 := by
  unfold prologue
  rcases h0 : start_if_needed enc w c with ⟨rc0, w0, c0⟩
  have hI1 : (rc0 = NGX_OK → OnceRunning w0 c0) ∧ (OnceRunning w0 c0 ∨ OnceGone w0 c0) := by
    rcases start_if_needed_cases enc w c rc0 w0 c0 h0 with
      ⟨_, hb, rfl, rfl⟩ | ⟨hr, hb, _, rfl, rfl⟩ | ⟨e, _, hb, _, rfl, rfl⟩
    · rcases hI with ⟨_, h2, _⟩ | h | ⟨h1, _⟩
      · exact absurd h2 hb
      · exact ⟨fun _ => h, Or.inl h⟩
      · rw [hd] at h1; cases h1
    · rcases hI with ⟨_, _, h3, h4⟩ | ⟨_, h2, _⟩ | ⟨h1, _⟩
      · refine ⟨fun h => ?_, Or.inr ⟨rfl, ?_, ?_⟩⟩
        · rw [hr] at h; exact absurd h (by decide)
        · show w.created ≤ 1
          omega
        · show w.destroyed.length = w.created
          rw [h3, h4]; rfl
      · exact absurd hb h2
      · rw [hd] at h1; cases h1
    · rcases hI with ⟨_, _, h3, h4⟩ | ⟨_, h2, _⟩ | ⟨h1, _⟩
      · have : OnceRunning { w with created := w.created + 1 }
            { c with bro := some e, last_out := 0, next_in := none, next_out := 0,
                     available_in := 0, available_out := 0 } :=
          ⟨hd, by simp, by show w.created + 1 = 1; omega, h4⟩
        exact ⟨fun _ => this, Or.inl this⟩
      · exact absurd hb h2
      · rw [hd] at h1; cases h1
  simp only []
  by_cases hrc0 : rc0 = NGX_OK
  · rw [if_neg (by simpa using hrc0)]
    rcases h1 : add_input env w0 c0 chain with ⟨rc1, w1, c1⟩
    obtain ⟨_, k2, _, _, _, _, _, k8, _, ⟨l, rfl⟩, _⟩ :=
      add_input_cases env w0 c0 chain rc1 w1 c1 h1
    obtain ⟨a1, a2, a3, a4⟩ := hI1.1 hrc0
    have hI2 : OnceRunning w1 { c0 with in_ := l } :=
      ⟨a1, a2, by rw [k8]; exact a3, by rw [k2]; exact a4⟩
    simp only []
    by_cases hrc1 : rc1 = NGX_OK
    · rw [if_neg (by simpa using hrc1)]
      unfold flush_busy
      by_cases hn : c0.nomem = true
      · simp only [hn, if_true]
        rcases hN : ngx_http_next_body_filter env w1 c0.busy [] with ⟨rc2, w2⟩
        obtain ⟨n1, _, _, _, _, n6, _⟩ := next_body_filter_frame env w1 _ _ rc2 w2 hN
        have hI3 : OnceRunning w2 { c0 with in_ := l } :=
          ⟨a1, a2, by rw [n6]; exact hI2.2.2.1, by rw [n1]; exact hI2.2.2.2⟩
        simp only []
        by_cases he : rc2 = NGX_ERROR
        · simp only [he, if_true]
          exact Or.inl hI3
        · simp only [he, if_false]
          exact ⟨a1, a2, hI3.2.2.1, hI3.2.2.2⟩
      · simp only [hn, if_false]
        exact hI2
    · rw [if_pos (by simpa using hrc1)]
      exact Or.inl hI2
  · rw [if_pos (by simpa using hrc0)]
    exact hI1.2

/-- One invocation past the pass-through check keeps the encoder created at
most once and destroyed at most once. -/
theorem session_once (enc : BrotliEncoder E) (env : Env) (conf : ngx_http_brotli_conf_t)
    (fuel : Nat) (ho : Bool) (w : World E) (c : ngx_http_brotli_ctx_t E)
    (chain : List ngx_buf_t) (hI : Once w c) (hd : c.done = false) :
    ∀ rc r1, body_filter_session enc env conf fuel ho w c chain = Outcome.returned rc r1 →
      OnceReq r1 := by
  have hQ : ∀ o : Outcome E, OnceReq o.req →
      ∀ rc r1, o = Outcome.returned rc r1 → OnceReq r1 := by
    intro o h rc r1 ho
    rw [ho] at h
    exact h
  unfold body_filter_session
  have hp := once_prologue enc env w c chain hI hd
  rcases hP : prologue enc env w c chain with ⟨w1, c1⟩ | ⟨flush, w1, c1⟩
  · rw [hP] at hp
    exact hQ _ (once_failed ho w1 c1 hp)
  · rw [hP] at hp
    refine cycle_rule enc env conf ho OnceRunning OnceRunning
      (fun w c => OnceRunning w c ∨ (c.done = true ∧ OnceGone w c))
      (fun w c => OnceRunning w c ∨ OnceGone w c)
      (fun o => ∀ rc r1, o = Outcome.returned rc r1 → OnceReq r1)
      ?_ ?_ ?_ ?_ ?_ ?_ ?_ fuel fuel flush w1 c1 hp
    · intro w' c' rc c1' hI' h
      obtain ⟨g1, g2, _⟩ := add_data_frame c' rc c1' h
      have : OnceRunning w' c1' :=
        ⟨by rw [g1]; exact hI'.1, by rw [g2]; exact hI'.2.1, hI'.2.2.1, hI'.2.2.2⟩
      exact ⟨fun _ => Or.inl this, fun _ => this⟩
    · intro w' c' rc w1' c1' hI' h
      have g := get_buf_frame env conf w' w1' c' c1' rc h
      have : OnceRunning w1' c1' :=
        ⟨by rw [g.2.2.2.2.2.2.2.2.2.2.2.2.2.2.1]; exact hI'.1,
          by rw [g.2.2.2.2.2.2.2.2.2.2.2.2.2.2.2.1]; exact hI'.2.1,
          by rw [g.2.2.2.2.2.2.2.2.2.2.2.1]; exact hI'.2.2.1,
          by rw [g.2.2.2.2.2.2.2.2.2.2.2.2.1]; exact hI'.2.2.2⟩
      exact ⟨fun _ => Or.inl this, fun _ => Or.inl this, fun _ _ => this⟩
    · intro w' c' rc w1' c1' hI' h
      exact once_cmp enc env w' w1' c' c1' rc hI' h
    · intro w' c' hI'
      exact hQ _ (once_failed ho w' c' hI')
    · intro w' c' _ rc r1 h
      cases h
    · intro w' c' hI' _
      refine hQ _ ?_
      unfold idle_return ngx_http_brotli_filter_free_copy_buf
      rcases hI' with h | h
      · exact Or.inr (Or.inl h)
      · exact Or.inr (Or.inr h)
    · intro w' c' rc w2 hI' hN
      obtain ⟨n1, _, _, _, _, n6, _⟩ := next_body_filter_frame env w' _ _ rc w2 hN
      have hI2 : OnceRunning w2 c' ∨ (c'.done = true ∧ OnceGone w2 c') := by
        rcases hI' with ⟨a1, a2, a3, a4⟩ | ⟨a1, a2, a3, a4⟩
        · exact Or.inl ⟨a1, a2, by rw [n6]; exact a3, by rw [n1]; exact a4⟩
        · exact Or.inr ⟨a1, a2, by rw [n6]; exact a3, by rw [n1, n6]; exact a4⟩
      have hA : OnceRunning (after_next w2 c').1 (after_next w2 c').2 ∨
          ((after_next w2 c').2.done = true ∧
            OnceGone (after_next w2 c').1 (after_next w2 c').2) := by
        simp only [after_next, ngx_http_brotli_filter_free_copy_buf]
        exact hI2
      refine ⟨fun _ => ?_, fun _ => ⟨fun _ => hQ _ ?_, fun hnd => ?_⟩⟩
      · rcases hI2 with h | h
        · exact Or.inl h
        · exact Or.inr h.2
      · rcases hA with h | h
        · exact Or.inr (Or.inl h)
        · exact Or.inr (Or.inr h)
      · rcases hA with h | h
        · exact h
        · exact absurd h.1 hnd

/-- One invocation of the body filter, in any state of the session, keeps the
encoder created at most once and destroyed at most once. -/
theorem once_invocation (enc : BrotliEncoder E) (env : Env) (conf : ngx_http_brotli_conf_t)
    (fuel : Nat) (r : ngx_http_request_t E) (chain : List ngx_buf_t) (rc : Int)
    (r1 : ngx_http_request_t E) (hI : OnceReq r)
    (h : ngx_http_brotli_body_filter enc env conf fuel r chain = Outcome.returned rc r1) :
    OnceReq r1 := by
  unfold ngx_http_brotli_body_filter at h
  cases hc : r.ctx with
  | none =>
      simp only [hc] at h
      rcases hN : ngx_http_next_body_filter env r.w [] chain with ⟨rc2, w2⟩
      obtain ⟨n1, _, _, _, _, n6, _⟩ := next_body_filter_frame env r.w _ _ rc2 w2 hN
      rw [hN] at h
      simp only [Outcome.returned.injEq] at h
      obtain ⟨_, rfl⟩ := h
      unfold OnceReq at hI ⊢
      simp only [hc] at hI ⊢
      exact ⟨by rw [n6]; exact hI.1, by rw [n1]; exact hI.2⟩
  | some c =>
      simp only [hc] at h
      have hI1 : Once r.w c := by
        unfold OnceReq at hI
        simpa only [hc] using hI
      by_cases hd : c.done = true ∨ r.header_only = true
      · rw [if_pos hd] at h
        rcases hN : ngx_http_next_body_filter env r.w c.busy chain with ⟨rc2, w2⟩
        obtain ⟨n1, _, _, _, _, n6, _⟩ := next_body_filter_frame env r.w _ _ rc2 w2 hN
        rw [hN] at h
        simp only [Outcome.returned.injEq] at h
        obtain ⟨_, rfl⟩ := h
        unfold OnceReq
        simp only [hc]
        unfold Once OnceRunning OnceGone at hI1 ⊢
        simp only [n1, n6]
        exact hI1
      · rw [if_neg hd] at h
        have hd1 : c.done = false := by
          cases hx : c.done with
          | false => rfl
          | true => exact absurd (Or.inl hx) hd
        exact session_once enc env conf fuel r.header_only r.w c chain hI1 hd1 rc r1 h

theorem once_invoke_each (enc : BrotliEncoder E) (env : Env) (conf : ngx_http_brotli_conf_t)
    (fuel : Nat) (chains : List (List ngx_buf_t)) :
    ∀ (r r1 : ngx_http_request_t E), OnceReq r →
      invoke_each enc env conf fuel chains r = some r1 → OnceReq r1 := by
  induction chains with
  | nil =>
      intro r r1 hI h
      simp only [invoke_each, Option.some.injEq] at h
      rw [← h]
      exact hI
  | cons chain rest ih =>
      intro r r1 hI h
      unfold invoke_each at h
      rcases hB : ngx_http_brotli_body_filter enc env conf fuel r chain with ⟨rc, r2⟩ | ⟨r2⟩
      · rw [hB] at h
        exact ih r2 r1 (once_invocation enc env conf fuel r chain rc r2 hI hB) h
      · rw [hB] at h
        cases h

/-- C11 (no double destroy).  From a session that has not started, is
running, or is done (as `OnceReq` says; the zeroed session is one), after any
sequence of invocations of the body filter: at most one encoder has been
created, `BrotliEncoderDestroyInstance` has been applied to a live encoder at
most once and not more often than an encoder was created, exactly as often when
`ctx->done` is set, and not at all while `ctx->bro` is not NULL.  When
`ngx_http_brotli_filter_end` returns `NGX_ERROR` it has destroyed the encoder
and set `ctx->bro` to NULL, and the failure path of the body filter that
follows destroys nothing more. -/
theorem C11_no_double_destroy (enc : BrotliEncoder E) (env : Env)
    (conf : ngx_http_brotli_conf_t) (fuel : Nat) (chains : List (List ngx_buf_t))
    (r r1 : ngx_http_request_t E) (h0 : OnceReq r)
    (hrun : invoke_each enc env conf fuel chains r = some r1) :
    r1.w.created ≤ 1 ∧ r1.w.destroyed.length ≤ 1 ∧
    r1.w.destroyed.length ≤ r1.w.created ∧
    (∀ c1, r1.ctx = some c1 → c1.done = true →
      c1.bro = none ∧ r1.w.destroyed.length = r1.w.created) ∧
    (∀ c1, r1.ctx = some c1 → c1.bro ≠ none → r1.w.destroyed = []) ∧
    (∀ (w : World E) (c : ngx_http_brotli_ctx_t E) (e : E) (ob : Nat) (w1 : World E)
        (c1 : ngx_http_brotli_ctx_t E) (ho : Bool),
      ngx_http_brotli_filter_end env w c e ob = (NGX_ERROR, w1, c1) →
      c1.bro = none ∧ w1.destroyed = w.destroyed ++ [e] ∧
        (body_filter_failed ho w1 c1).req.w.destroyed = w.destroyed ++ [e]) := by
  have hI := once_invoke_each enc env conf fuel chains r r1 h0 hrun
  have hend : ∀ (w : World E) (c : ngx_http_brotli_ctx_t E) (e : E) (ob : Nat) (w1 : World E)
        (c1 : ngx_http_brotli_ctx_t E) (ho : Bool),
      ngx_http_brotli_filter_end env w c e ob = (NGX_ERROR, w1, c1) →
      c1.bro = none ∧ w1.destroyed = w.destroyed ++ [e] ∧
        (body_filter_failed ho w1 c1).req.w.destroyed = w.destroyed ++ [e] := by
    intro w c e ob w1 c1 ho h
    unfold ngx_http_brotli_filter_end at h
    simp only [] at h
    rcases hA : ngx_alloc env { w with destroyed := w.destroyed ++ [e] } with ⟨ok, w2⟩
    rw [hA] at h
    cases ok with
    | true =>
        simp only [Prod.mk.injEq] at h
        exact absurd h.1 (by decide)
    | false =>
        simp only [Prod.mk.injEq] at h
        obtain ⟨_, rfl, rfl⟩ := h
        obtain ⟨rfl, _⟩ := ngx_alloc_false env _ _ hA
        refine ⟨rfl, rfl, ?_⟩
        simp [body_filter_failed, ngx_http_brotli_filter_free_copy_buf, Outcome.req]
  unfold OnceReq at hI
  cases hc : r1.ctx with
  | none =>
      simp only [hc] at hI
      refine ⟨by omega, by simp [hI.2], by simp [hI.2], ?_, ?_, hend⟩
      · intro c1 h; cases h
      · intro c1 h; cases h
  | some c =>
      simp only [hc] at hI
      rcases hI with ⟨a1, a2, a3, a4⟩ | ⟨a1, a2, a3, a4⟩ | ⟨a1, a2, a3, a4⟩
      · refine ⟨by omega, by simp [a4], by simp [a4], ?_, ?_, hend⟩
        · intro c1 h hd
          simp only [Option.some.injEq] at h
          subst h
          rw [a1] at hd; cases hd
        · intro c1 h hb
          exact a4
      · refine ⟨by omega, by simp [a4], by simp [a4], ?_, ?_, hend⟩
        · intro c1 h hd
          simp only [Option.some.injEq] at h
          subst h
          rw [a1] at hd; cases hd
        · intro c1 h hb
          exact a4
      · refine ⟨a3, by omega, by omega, ?_, ?_, hend⟩
        · intro c1 h hd
          simp only [Option.some.injEq] at h
          subst h
          exact ⟨a2, a4⟩
        · intro c1 h hb
          simp only [Option.some.injEq] at h
          subst h
          exact absurd a2 hb

/-- Three invocations on a fresh session: a flush chunk, the last chunk, and
one more chain after the session is done. -/
def three_call_run : Option (ngx_http_request_t ToyState) :=
  invoke_each toy env_ok { bufs_num := 2, bufs_size := 2 } 16
    [[chunk [1, 2, 3] true false], [chunk [4, 5] false true], [chunk [6] false false]]
    (fresh_request ToyState)

set_option maxRecDepth 8000 in
theorem C11_no_double_destroy_witness :
    OnceReq (fresh_request ToyState) ∧
    three_call_run = some (three_call_run.getD (fresh_request ToyState)) ∧
    (three_call_run.getD (fresh_request ToyState)).w.created = 1 ∧
    (three_call_run.getD (fresh_request ToyState)).w.destroyed.length = 1 ∧
    (three_call_run.getD (fresh_request ToyState)).w.created ≤ 1 ∧
    (three_call_run.getD (fresh_request ToyState)).w.destroyed.length ≤ 1 :=
  ⟨Or.inl ⟨rfl, rfl, rfl, rfl⟩, rfl, rfl, rfl,
    (C11_no_double_destroy toy env_ok { bufs_num := 2, bufs_size := 2 } 16
      [[chunk [1, 2, 3] true false], [chunk [4, 5] false true], [chunk [6] false false]]
      (fresh_request ToyState) (three_call_run.getD (fresh_request ToyState))
      (Or.inl ⟨rfl, rfl, rfl, rfl⟩) rfl).1,
    (C11_no_double_destroy toy env_ok { bufs_num := 2, bufs_size := 2 } 16
      [[chunk [1, 2, 3] true false], [chunk [4, 5] false true], [chunk [6] false false]]
      (fresh_request ToyState) (three_call_run.getD (fresh_request ToyState))
      (Or.inl ⟨rfl, rfl, rfl, rfl⟩) rfl).2.1⟩

/-! ## The result of an invocation and the next body filter (C15) -/

/-- One invocation with a single 4-byte output buffer: a flush chunk `[1]`,
then the last chunk `[2]`; the next filter sends everything. -/
def reused_flush_run : Outcome ToyState :=
  ngx_http_brotli_body_filter toy env_ok { bufs_num := 1, bufs_size := 4 } 8
    (fresh_request ToyState) [chunk [1] true false, chunk [2] false true]

/-- Taking a buffer from `ctx->free`, `ngx_http_brotli_filter_get_buf` writes
no field of the buffer: the heap is unchanged. -/
theorem get_buf_reuse (env : Env) (conf : ngx_http_brotli_conf_t) (w : World E)
    (c : ngx_http_brotli_ctx_t E) (i : Nat) (rest : List Nat)
    (h0 : c.available_out = 0) (hf : c.free = i :: rest) :
    ngx_http_brotli_filter_get_buf env conf w c =
      (NGX_OK, w, { c with out_buf := some i, free := rest, next_out := (getBuf w.heap i).pos,
                           available_out := conf.bufs_size }) := by
  unfold ngx_http_brotli_filter_get_buf
  simp [h0, hf]

set_option maxRecDepth 8000 in
/-- C18 fails in the code: in `reused_flush_run` the only output buffer is
handed over by the flush branch with `flush = 1`, recycled into `ctx->free`,
taken again by `ngx_http_brotli_filter_get_buf`, which does not clear the flag,
and appended by `ngx_http_brotli_filter_end`; the chunk handed over then
carries `last_buf` and still `flush = 1`, although the input chunk `[2]` asked
for no flush. -/
theorem C18_counterexample :
    ∃ r1 c1 x1 x2,
      reused_flush_run = Outcome.returned NGX_OK r1 ∧ r1.w.failures = [] ∧
      r1.ctx = some c1 ∧ c1.done = true ∧ c1.bufs = 1 ∧ r1.w.heap.length = 1 ∧
      r1.w.sent = [[x1], [x2]] ∧
      x1.bytes = [1] ∧ x1.flush = true ∧ x1.last_buf = false ∧
      x2.bytes = [2, 3] ∧ x2.last_buf = true ∧ x2.flush = true :=
  ⟨reused_flush_run.req, _, _, _, rfl, rfl, rfl, rfl, rfl, rfl, rfl, rfl, rfl, rfl, rfl, rfl,
    rfl⟩

/-! ## Order preservation (C13) -/

/-- The chunks of a list up to and including the first one marked
`last_buf`. -/
def upto_last : List ngx_buf_t → List ngx_buf_t
  | [] => []
  | b :: rest => if b.last_buf = true then [b] else b :: upto_last rest

/-- The account of the input of a session for the bytes `total`, of which
the chunks `fut` arrive in later invocations: what the encoder has consumed,
then the window it may read, then the queued and coming chunks up to the first
one marked `last_buf`, make up `total`, and nothing follows the window once
FINISH is requested; the encoder state is reached by the calls made so far,
and before the encoder is created nothing has been consumed. -/
def Acct (enc : BrotliEncoder E) (total : List Nat) (fut : List ngx_buf_t) (w : World E)
    (c : ngx_http_brotli_ctx_t E) : Prop :=
  (c.flush ≠ FINISH →
    w.fed ++ input_window c ++ chunks_bytes (upto_last (c.in_ ++ fut)) = total) ∧
  (c.flush = FINISH → w.fed ++ input_window c = total) ∧
  (match c.bro with
   | some e => ∃ fin, EncReach enc e w.fed w.produced fin ∧ (fin = true → c.flush = FINISH)
   | none => w.fed = [] ∧ w.produced = [] ∧ input_window c = [])

/-- A call that leaves the stream finished belongs to a stream for which
FINISH was requested and has consumed all the input it was given (the part of
`EncoderContract` that does not mention the decoder). -/
def FinishesOnRequest (enc : BrotliEncoder E) : Prop :=
  ∀ e i o fin, EncReach enc e i o fin →
    ∀ op inp avail e1 used outb, enc.compressStream e op inp avail = some (e1, used, outb) →
      enc.isFinished e1 = true → (fin = true ∨ op = FINISH) ∧ inp.take used = inp

/-- The input-side state of a session that is done: what the encoder
consumed is a prefix of `total`, and all of it when no failure event occurred
and the encoder finishes on request only. -/
def Closed (enc : BrotliEncoder E) (total : List Nat) (w : World E)
    (c : ngx_http_brotli_ctx_t E) : Prop :=
  c.done = true ∧ (∃ rest, w.fed ++ rest = total) ∧
    (FinishesOnRequest enc → w.failures = [] → w.fed = total)

/-- The input-side state of a session between invocations: running with its
account kept, or done. -/
def Ordered (enc : BrotliEncoder E) (total : List Nat) (fut : List ngx_buf_t) (w : World E)
    (c : ngx_http_brotli_ctx_t E) : Prop :=
  (c.done = false ∧ Acct enc total fut w c) ∨ Closed enc total w c

/-- The account of a session inside the loops of the body filter. -/
def Feeding (enc : BrotliEncoder E) (total : List Nat) (fut : List ngx_buf_t) (w : World E)
    (c : ngx_http_brotli_ctx_t E) : Prop :=
  c.done = false ∧ c.bro ≠ none ∧ Acct enc total fut w c

/-- The input-side state at a jump to the label failed. -/
def Spoiled (total : List Nat) (w : World E) : Prop :=
  (∃ rest, w.fed ++ rest = total) ∧ w.failures ≠ []

theorem finishes_of_contract (enc : BrotliEncoder E) (decode : List Nat → List Nat)
    (hk : EncoderContract enc decode) : FinishesOnRequest enc := by
  intro e i o fin hr op inp avail e1 used outb hs hf
  obtain ⟨k1, k2, _⟩ := hk.2 e i o fin hr op inp avail e1 used outb hs hf
  exact ⟨k1, k2⟩

theorem acct_transfer {enc : BrotliEncoder E} {total : List Nat} {fut : List ngx_buf_t}
    {w w1 : World E} {c c1 : ngx_http_brotli_ctx_t E} (h : Acct enc total fut w c)
    (h1 : w1.fed = w.fed) (h2 : w1.produced = w.produced)
    (h4 : c1.in_ = c.in_) (h5 : c1.flush = c.flush) (h6 : c1.bro = c.bro)
    (h7 : c1.next_in = c.next_in) (h8 : c1.in_buf = c.in_buf)
    (h9 : c1.available_in = c.available_in) : Acct enc total fut w1 c1 := by
  have hw : input_window c1 = input_window c := by
    unfold input_window
    rw [h7, h8, h9]
  unfold Acct at h ⊢
  rw [h1, h2, h4, h5, h6, hw]
  exact h

theorem acct_initial {enc : BrotliEncoder E} {total : List Nat} {fut : List ngx_buf_t}
    {w : World E} {c : ngx_http_brotli_ctx_t E} (h : Acct enc total fut w c) (used : Nat) :
    ∃ rest, (w.fed ++ (input_window c).take used) ++ rest = total := by
  by_cases hf : c.flush = FINISH
  · refine ⟨(input_window c).drop used, ?_⟩
    rw [List.append_assoc, List.take_append_drop]
    exact h.2.1 hf
  · refine ⟨(input_window c).drop used ++ chunks_bytes (upto_last (c.in_ ++ fut)), ?_⟩
    rw [List.append_assoc, ← List.append_assoc _ ((input_window c).drop used),
      List.take_append_drop, ← List.append_assoc]
    exact h.1 hf

theorem acct_initial_now {enc : BrotliEncoder E} {total : List Nat} {fut : List ngx_buf_t}
    {w : World E} {c : ngx_http_brotli_ctx_t E} (h : Acct enc total fut w c) :
    ∃ rest, w.fed ++ rest = total := by
  obtain ⟨rest, hr⟩ := acct_initial h 0
  exact ⟨rest, by simpa using hr⟩

theorem acct_add (enc : BrotliEncoder E) (total : List Nat) (fut : List ngx_buf_t)
    (w : World E) (c : ngx_http_brotli_ctx_t E) (rc : Int) (c1 : ngx_http_brotli_ctx_t E)
    (hI : Acct enc total fut w c) (hbro : c.bro ≠ none)
    (h : ngx_http_brotli_filter_add_data c = (rc, c1)) : Acct enc total fut w c1 := by
  rcases add_data_cases c rc c1 h with ⟨_, hc, _⟩ | ⟨_, hc, _⟩ | ⟨b, rest, hin, hg, hc, _⟩
  · rw [hc]; exact hI
  · rw [hc]; exact hI
  · have ha : c.available_in = 0 := by
      by_contra h0
      exact hg (Or.inl h0)
    have hf : c.flush = PROCESS := by
      by_contra h0
      exact hg (Or.inr (Or.inl h0))
    obtain ⟨i1, _, i3⟩ := hI
    have hw0 : input_window c = [] := input_window_zero c ha
    have hw1 : input_window (pulled c b rest) = b.bytes := by
      simp [input_window, pulled, ngx_buf_t.bytes]
    have hall := i1 (by rw [hf]; decide)
    rw [hin, hw0] at hall
    simp only [List.cons_append, upto_last, List.append_nil] at hall
    rw [hc]
    refine ⟨?_, ?_, ?_⟩
    · intro hfl
      have hlb : ¬ b.last_buf = true := by
        intro hx
        exact hfl (by simp [pulled, hx])
      rw [hw1]
      rw [if_neg hlb] at hall
      simpa [chunks_bytes, pulled] using hall
    · intro hfl
      have hlb : b.last_buf = true := by
        by_contra hx
        have : (pulled c b rest).flush = (if b.flush = true then FLUSH else c.flush) := by
          simp [pulled, hx]
        rw [this, hf] at hfl
        by_cases hbf : b.flush = true
        · rw [if_pos hbf] at hfl; cases hfl
        · rw [if_neg hbf] at hfl; cases hfl
      rw [hw1]
      rw [if_pos hlb] at hall
      simpa [chunks_bytes] using hall
    · show (match c.bro with
        | some e => ∃ fin, EncReach enc e w.fed w.produced fin ∧
            (fin = true → (pulled c b rest).flush = FINISH)
        | none => w.fed = [] ∧ w.produced = [] ∧ input_window (pulled c b rest) = [])
      cases hb : c.bro with
      | none => exact absurd hb hbro
      | some e =>
          rw [hb] at i3
          obtain ⟨fin, r1, r2⟩ := i3
          refine ⟨fin, r1, ?_⟩
          intro hfin
          have := r2 hfin
          rw [hf] at this
          cases this

/-- One successful encoder call keeps the account. -/
theorem acct_step (enc : BrotliEncoder E) (total : List Nat) (fut : List ngx_buf_t)
    (w : World E) (c : ngx_http_brotli_ctx_t E) (e : E) (ob : Nat) (e1 : E) (used : Nat)
    (outb : List Nat) (hI : Acct enc total fut w c) (hs : Stepped enc c e ob e1 used outb) :
    Acct enc total fut (encoder_call_world w c ob used outb)
      (encoder_call_ctx c e1 used outb) := by
  obtain ⟨i1, i2, i3⟩ := hI
  obtain ⟨s1, _, s3⟩ := hs
  rw [s1] at i3
  obtain ⟨fin, r1, r2⟩ := i3
  have hfed : ∀ tl : List Nat,
      (w.fed ++ (input_window c).take used) ++ (input_window c).drop used ++ tl
        = w.fed ++ input_window c ++ tl := by
    intro tl
    rw [List.append_assoc w.fed, List.take_append_drop]
  refine ⟨?_, ?_, ?_⟩
  · intro hf
    rw [input_window_step]
    show (w.fed ++ (input_window c).take used) ++ (input_window c).drop used
      ++ chunks_bytes (upto_last (c.in_ ++ fut)) = total
    rw [hfed]
    exact i1 hf
  · intro hf
    rw [input_window_step]
    show (w.fed ++ (input_window c).take used) ++ (input_window c).drop used = total
    have := hfed []
    simp only [List.append_nil] at this
    rw [this]
    exact i2 hf
  · show ∃ fin1, EncReach enc e1 (w.fed ++ (input_window c).take used) (w.produced ++ outb) fin1 ∧
      (fin1 = true → c.flush = FINISH)
    refine ⟨fin || decide (c.flush = FINISH), ?_, ?_⟩
    · exact EncReach.step _ w.fed w.produced fin c.flush (input_window c) c.available_out e1
        used outb r1 s3
    · intro hfin
      rcases Bool.or_eq_true _ _ |>.mp hfin with h | h
      · exact r2 h
      · exact of_decide_eq_true h

theorem acct_unflush {enc : BrotliEncoder E} {total : List Nat} {fut : List ngx_buf_t}
    {w w1 : World E} {c c1 : ngx_http_brotli_ctx_t E} (h : Acct enc total fut w c)
    (hf : c.flush = FLUSH) (hf1 : c1.flush = PROCESS)
    (h1 : w1.fed = w.fed) (h2 : w1.produced = w.produced)
    (h4 : c1.in_ = c.in_) (h6 : c1.bro = c.bro)
    (h7 : c1.next_in = c.next_in) (h8 : c1.in_buf = c.in_buf)
    (h9 : c1.available_in = c.available_in) : Acct enc total fut w1 c1 := by
  have hw : input_window c1 = input_window c := by
    unfold input_window
    rw [h7, h8, h9]
  obtain ⟨i1, _, i3⟩ := h
  refine ⟨?_, ?_, ?_⟩
  · intro _
    rw [h1, hw, h4]
    exact i1 (by rw [hf]; decide)
  · intro hfin
    rw [hf1] at hfin
    cases hfin
  · rw [h6, h1, h2, hw]
    cases hb : c.bro with
    | none =>
        rw [hb] at i3
        exact i3
    | some e =>
        rw [hb] at i3
        obtain ⟨fin, r1, r2⟩ := i3
        refine ⟨fin, r1, ?_⟩
        intro hfin
        have := r2 hfin
        rw [hf] at this
        cases this

/-- The call that leaves the stream finished has consumed everything. -/
theorem acct_finish (enc : BrotliEncoder E) (hk : FinishesOnRequest enc) (total : List Nat)
    (fut : List ngx_buf_t) (w : World E) (c : ngx_http_brotli_ctx_t E) (e : E) (ob : Nat)
    (e1 : E) (used : Nat) (outb : List Nat)
    (hI : Acct enc total fut w c) (hs : Stepped enc c e ob e1 used outb)
    (hfin : enc.isFinished e1 = true) :
    w.fed ++ (input_window c).take used = total := by
  obtain ⟨_, i2, i3⟩ := hI
  obtain ⟨s1, _, s3⟩ := hs
  rw [s1] at i3
  obtain ⟨fin, r1, r2⟩ := i3
  obtain ⟨k1, k2⟩ := hk _ _ _ _ r1 _ _ _ _ _ _ s3 hfin
  have hfl : c.flush = FINISH := by
    rcases k1 with h | h
    · exact r2 h
    · exact h
  rw [k2]
  exact i2 hfl

theorem acct_cmp (enc : BrotliEncoder E) (total : List Nat) (fut : List ngx_buf_t) (env : Env)
    (w : World E) (c : ngx_http_brotli_ctx_t E) (rc : Int) (w1 : World E)
    (c1 : ngx_http_brotli_ctx_t E) (hJ : Feeding enc total fut w c)
    (h : ngx_http_brotli_filter_compress enc env w c = (rc, w1, c1)) :
    (rc = NGX_ERROR → Spoiled total w1) ∧
    (rc = NGX_OK → Feeding enc total fut w1 c1 ∨ Closed enc total w1 c1) ∧
    (rc ≠ NGX_ERROR → rc ≠ NGX_OK → Feeding enc total fut w1 c1) := by
  obtain ⟨hd, hb, hA⟩ := hJ
  have hcase := compress_cases enc env w c rc w1 c1 h
  cases hcase with
  | null h0 =>
      exact ⟨fun _ => ⟨acct_initial_now hA, by simp [World.fail]⟩, fun h => absurd h (by decide),
        fun h => absurd rfl h⟩
  | step_failed e ob hb ho hs =>
      exact ⟨fun _ => ⟨acct_initial_now hA, by simp [World.fail]⟩, fun h => absurd h (by decide),
        fun h => absurd rfl h⟩
  | full_nolink e ob e1 used outb hs h0 ha =>
      exact ⟨fun _ => ⟨acct_initial hA used, by simp⟩, fun h => absurd h (by decide),
        fun h => absurd rfl h⟩
  | full e ob e1 used outb hs h0 ha =>
      refine ⟨fun h => absurd h (by decide), fun h => absurd h (by decide), fun _ _ => ?_⟩
      exact ⟨hd, by simp [encoder_call_ctx, link_out],
        acct_transfer (acct_step enc total fut w c e ob e1 used outb hA hs)
          rfl rfl rfl rfl rfl rfl rfl rfl⟩
  | flush_nolink e ob e1 used outb hs h0 hf ha =>
      exact ⟨fun _ => ⟨acct_initial hA used, by simp⟩, fun h => absurd h (by decide),
        fun h => absurd rfl h⟩
  | flush_nomarker e ob e1 used outb hs h0 hf ha hz ha2 =>
      exact ⟨fun _ => ⟨acct_initial hA used, by simp⟩, fun h => absurd h (by decide),
        fun h => absurd rfl h⟩
  | flush_marker e ob e1 used outb hs h0 hf ha hz ha2 =>
      refine ⟨fun h => absurd h (by decide),
        fun _ => Or.inl ⟨hd, by simp [encoder_call_ctx, link_out], ?_⟩, fun _ h => absurd rfl h⟩
      exact acct_unflush (acct_step enc total fut w c e ob e1 used outb hA hs) hf rfl
        rfl rfl rfl rfl rfl rfl rfl
  | flush_buf e ob e1 used outb hs h0 hf ha hz =>
      refine ⟨fun h => absurd h (by decide),
        fun _ => Or.inl ⟨hd, by simp [encoder_call_ctx, link_out], ?_⟩, fun _ h => absurd rfl h⟩
      exact acct_unflush (acct_step enc total fut w c e ob e1 used outb hA hs) hf rfl
        rfl rfl rfl rfl rfl rfl rfl
  | end_nolink e ob e1 used outb hs h0 hf hfin ha =>
      exact ⟨fun _ => ⟨acct_initial hA used, by simp⟩, fun h => absurd h (by decide),
        fun h => absurd rfl h⟩
  | ended e ob e1 used outb hs h0 hf hfin ha =>
      refine ⟨fun h => absurd h (by decide), fun _ => Or.inr ⟨rfl, ?_, ?_⟩,
        fun _ h => absurd rfl h⟩
      · exact acct_initial hA used
      · intro hk _
        exact acct_finish enc hk total fut w c e ob e1 used outb hA hs hfin
  | more e ob e1 used outb hs h0 hf hfin =>
      refine ⟨fun h => absurd h (by decide), fun h => absurd h (by decide), fun _ _ => ?_⟩
      exact ⟨hd, by simp [encoder_call_ctx],
        acct_transfer (acct_step enc total fut w c e ob e1 used outb hA hs)
          rfl rfl rfl rfl rfl rfl rfl rfl⟩

theorem acct_get (enc : BrotliEncoder E) (total : List Nat) (fut : List ngx_buf_t)
    (conf : ngx_http_brotli_conf_t) (env : Env) (w : World E)
    (c : ngx_http_brotli_ctx_t E) (rc : Int) (w1 : World E) (c1 : ngx_http_brotli_ctx_t E)
    (hI : Feeding enc total fut w c)
    (h : ngx_http_brotli_filter_get_buf env conf w c = (rc, w1, c1)) :
    (rc = NGX_ERROR → Spoiled total w1) ∧ (rc ≠ NGX_ERROR → Feeding enc total fut w1 c1) := by
  obtain ⟨hd, hb, hA⟩ := hI
  rcases get_buf_cases env conf w w1 c c1 rc h with
    ⟨rfl, _, rfl, rfl⟩ | ⟨rfl, _, rfl, i, rest, _, rfl⟩ | ⟨rfl, _, _, _, _, rfl, rfl⟩ |
    ⟨rfl, _, _, _, _, rfl, rfl⟩ | ⟨rfl, _, _, _, rfl, rfl⟩
  · exact ⟨fun h => absurd h (by decide), fun _ => ⟨hd, hb, hA⟩⟩
  · exact ⟨fun h => absurd h (by decide),
      fun _ => ⟨hd, hb, acct_transfer hA rfl rfl rfl rfl rfl rfl rfl rfl⟩⟩
  · exact ⟨fun h => absurd h (by decide),
      fun _ => ⟨hd, hb, acct_transfer hA rfl rfl rfl rfl rfl rfl rfl rfl⟩⟩
  · exact ⟨fun _ => ⟨acct_initial_now hA, by simp⟩, fun h => absurd rfl h⟩
  · exact ⟨fun h => absurd h (by decide),
      fun _ => ⟨hd, hb, acct_transfer hA rfl rfl rfl rfl rfl rfl rfl rfl⟩⟩

theorem ordered_failed (enc : BrotliEncoder E) (total : List Nat) (fut : List ngx_buf_t)
    (ho : Bool) (w : World E) (c : ngx_http_brotli_ctx_t E) (h : Spoiled total w) :
    ∃ c1, (body_filter_failed ho w c).req.ctx = some c1 ∧
      Ordered enc total fut (body_filter_failed ho w c).req.w c1 := by
  obtain ⟨r, h1, h2, _⟩ := failed_failures ho w c
  unfold body_filter_failed ngx_http_brotli_filter_free_copy_buf
  refine ⟨_, rfl, Or.inr ⟨rfl, ?_, ?_⟩⟩
  · cases c.bro <;> exact h.1
  · intro _ hq
    cases hb : c.bro <;> simp only [hb, Outcome.req] at hq <;> exact absurd hq h.2

/-- Queuing the chain of an invocation moves its chunks from the chunks to
come to `ctx->in`. -/
theorem acct_queue {enc : BrotliEncoder E} {total : List Nat} {fut chain : List ngx_buf_t}
    {w w1 : World E} {c : ngx_http_brotli_ctx_t E} (h : Acct enc total (chain ++ fut) w c)
    (h1 : w1.fed = w.fed) (h2 : w1.produced = w.produced) :
    Acct enc total fut w1 { c with in_ := c.in_ ++ chain } := by
  obtain ⟨i1, i2, i3⟩ := h
  have hw : input_window { c with in_ := c.in_ ++ chain } = input_window c := rfl
  refine ⟨?_, ?_, ?_⟩
  · intro hf
    rw [h1, hw]
    show w.fed ++ input_window c ++ chunks_bytes (upto_last ((c.in_ ++ chain) ++ fut)) = total
    rw [List.append_assoc c.in_]
    exact i1 hf
  · intro hf
    rw [h1, hw]
    exact i2 hf
  · show (match c.bro with
      | some e => ∃ fin, EncReach enc e w1.fed w1.produced fin ∧ (fin = true → c.flush = FINISH)
      | none => w1.fed = [] ∧ w1.produced = [] ∧ input_window c = [])
    rw [h1, h2]
    exact i3

theorem acct_prologue (enc : BrotliEncoder E) (total : List Nat) (fut : List ngx_buf_t)
    (env : Env) (w : World E) (c : ngx_http_brotli_ctx_t E) (chain : List ngx_buf_t)
    (hd : c.done = false) (hP : Acct enc total (chain ++ fut) w c) :
    match prologue enc env w c chain with
    | Entry.failed w1 _ => Spoiled total w1
    | Entry.go _ w1 c1 => Feeding enc total fut w1 c1 := by
  unfold prologue
  rcases h0 : start_if_needed enc w c with ⟨rc0, w0, c0⟩
  have hA0 : (rc0 ≠ NGX_OK → Spoiled total w0) ∧
      (rc0 = NGX_OK → Feeding enc total (chain ++ fut) w0 c0) := by
    rcases start_if_needed_cases enc w c rc0 w0 c0 h0 with
      ⟨rfl, hb, hw, hc⟩ | ⟨rfl, hb, hc, rfl, rfl⟩ | ⟨e, rfl, hb, hc, rfl, rfl⟩
    · rw [hw, hc]
      exact ⟨fun h => absurd rfl h, fun _ => ⟨hd, hb, hP⟩⟩
    · exact ⟨fun _ => ⟨acct_initial_now hP, by simp [World.fail]⟩,
        fun h => absurd h (by decide)⟩
    · refine ⟨fun h => absurd rfl h, fun _ => ⟨hd, by simp, ?_⟩⟩
      obtain ⟨i1, i2, i3⟩ := hP
      rw [hb] at i3
      obtain ⟨p3, p4, p5⟩ := i3
      rw [p5] at i1 i2
      refine ⟨?_, ?_, ?_⟩
      · intro hf
        show w.fed ++ [] ++ chunks_bytes (upto_last (c.in_ ++ (chain ++ fut))) = total
        exact i1 hf
      · intro hf
        show w.fed ++ [] = total
        exact i2 hf
      · show ∃ fin, EncReach enc e w.fed w.produced fin ∧ (fin = true → c.flush = FINISH)
        rw [p3, p4]
        exact ⟨false, EncReach.init e hc, fun h => absurd h (by decide)⟩
  simp only []
  by_cases hrc0 : rc0 = NGX_OK
  · rw [if_neg (by simpa using hrc0)]
    obtain ⟨q1, q2, q3⟩ := hA0.2 hrc0
    rcases h1 : add_input env w0 c0 chain with ⟨rc1, w1, c1⟩
    obtain ⟨_, _, _, _, k5, k6, _, _, _, ⟨l, rfl⟩, k11⟩ :=
      add_input_cases env w0 c0 chain rc1 w1 c1 h1
    simp only []
    rcases k11 with ⟨rfl, _, k13⟩ | ⟨rfl, k12⟩
    · simp only [ne_eq, not_true_eq_false, if_false]
      have hR1 : Feeding enc total fut w1 { c0 with in_ := l } := by
        rw [k13]
        exact ⟨q1, q2, acct_queue q3 k5 k6⟩
      unfold flush_busy
      by_cases hn : c0.nomem = true
      · simp only [hn, if_true]
        rcases hN : ngx_http_next_body_filter env w1 c0.busy [] with ⟨rc2, w2⟩
        obtain ⟨_, hw2⟩ := next_body_filter_eq env w1 _ _ rc2 w2 hN
        simp only []
        by_cases he : rc2 = NGX_ERROR
        · simp only [he, if_true]
          refine ⟨?_, ?_⟩
          · rw [hw2]
            exact acct_initial_now hR1.2.2
          · rw [hw2]
            simp [he]
        · simp only [he, if_false]
          exact ⟨hR1.1, hR1.2.1,
            acct_transfer hR1.2.2 (by rw [hw2]) (by rw [hw2]) rfl rfl rfl rfl rfl rfl⟩
      · simp only [hn, Bool.false_eq_true, if_false]
        exact hR1
    · simp only [ne_eq, show ¬ (NGX_ERROR = NGX_OK) by decide, not_false_eq_true, if_true]
      refine ⟨?_, by rw [k12]; simp⟩
      rw [k5]
      exact acct_initial_now q3
  · rw [if_pos (by simpa using hrc0)]
    exact hA0.1 hrc0

/-- What an invocation leaves on the input side. -/
def OrderedVerdict (enc : BrotliEncoder E) (total : List Nat) (fut : List ngx_buf_t) :
    Outcome E → Prop
  | Outcome.timeout _ => True
  | Outcome.returned _ r => ∃ c1, r.ctx = some c1 ∧ Ordered enc total fut r.w c1

theorem ordered_transfer {enc : BrotliEncoder E} {total : List Nat} {fut : List ngx_buf_t}
    {w w1 : World E} {c c1 : ngx_http_brotli_ctx_t E} (h : Ordered enc total fut w c)
    (h1 : w1.fed = w.fed) (h2 : w1.produced = w.produced) (h0 : w1.failures = w.failures)
    (h3 : c1.done = c.done) (h4 : c1.in_ = c.in_) (h5 : c1.flush = c.flush)
    (h6 : c1.bro = c.bro) (h7 : c1.next_in = c.next_in) (h8 : c1.in_buf = c.in_buf)
    (h9 : c1.available_in = c.available_in) : Ordered enc total fut w1 c1 := by
  rcases h with ⟨a, b⟩ | ⟨a, b, d⟩
  · exact Or.inl ⟨by rw [h3]; exact a, acct_transfer b h1 h2 h4 h5 h6 h7 h8 h9⟩
  · exact Or.inr ⟨by rw [h3]; exact a, by rw [h1]; exact b, by rw [h0, h1]; exact d⟩

theorem ordered_of_break {enc : BrotliEncoder E} {total : List Nat} {fut : List ngx_buf_t}
    {w : World E} {c : ngx_http_brotli_ctx_t E}
    (h : Feeding enc total fut w c ∨ Closed enc total w c) : Ordered enc total fut w c := by
  rcases h with h | h
  · exact Or.inl ⟨h.1, h.2.2⟩
  · exact Or.inr h

/-- Every invocation past the pass-through check keeps the input in order. -/
theorem session_ordered (enc : BrotliEncoder E) (total : List Nat) (fut : List ngx_buf_t)
    (env : Env) (conf : ngx_http_brotli_conf_t) (fuel : Nat) (ho : Bool) (w : World E)
    (c : ngx_http_brotli_ctx_t E) (chain : List ngx_buf_t)
    (hd : c.done = false) (hP : Acct enc total (chain ++ fut) w c) :
    OrderedVerdict enc total fut (body_filter_session enc env conf fuel ho w c chain) := by
  have hfail : ∀ (w1 : World E) (c1 : ngx_http_brotli_ctx_t E), Spoiled total w1 →
      OrderedVerdict enc total fut (body_filter_failed ho w1 c1) := by
    intro w1 c1 h
    obtain ⟨r, h1, h2, _⟩ := failed_failures ho w1 c1
    have := ordered_failed enc total fut ho w1 c1 h
    rw [h1] at this ⊢
    exact this
  unfold body_filter_session
  have hp := acct_prologue enc total fut env w c chain hd hP
  rcases hPr : prologue enc env w c chain with ⟨w1, c1⟩ | ⟨flush, w1, c1⟩
  · rw [hPr] at hp
    exact hfail w1 c1 hp
  · rw [hPr] at hp
    refine cycle_rule enc env conf ho (Feeding enc total fut) (Feeding enc total fut)
      (fun w' c' => Feeding enc total fut w' c' ∨ Closed enc total w' c')
      (fun w' _ => Spoiled total w')
      (OrderedVerdict enc total fut) ?_ ?_ ?_ ?_ ?_ ?_ ?_ fuel fuel flush w1 c1 hp
    · intro w' c' rc c1' hI h
      obtain ⟨g1, g2, _⟩ := add_data_frame c' rc c1' h
      have : Feeding enc total fut w' c1' :=
        ⟨by rw [g1]; exact hI.1, by rw [g2]; exact hI.2.1,
          acct_add enc total fut w' c' rc c1' hI.2.2 hI.2.1 h⟩
      exact ⟨fun _ => Or.inl this, fun _ => this⟩
    · intro w' c' rc w1' c1' hI h
      obtain ⟨g1, g2⟩ := acct_get enc total fut conf env w' c' rc w1' c1' hI h
      exact ⟨fun hr => Or.inl (g2 (by rw [hr]; decide)), g1, fun _ he => g2 he⟩
    · intro w' c' rc w1' c1' hJ h
      exact acct_cmp enc total fut env w' c' rc w1' c1' hJ h
    · intro w' c' hF
      exact hfail w' c' hF
    · intro w' c' _
      trivial
    · intro w' c' hB _
      unfold idle_return ngx_http_brotli_filter_free_copy_buf
      exact ⟨_, rfl, ordered_transfer (ordered_of_break hB) rfl rfl rfl rfl rfl rfl rfl rfl rfl rfl⟩
    · intro w' c' rc w2 hB hN
      obtain ⟨_, hw2⟩ := next_body_filter_eq env w' _ _ rc w2 hN
      refine ⟨fun he => ?_, fun he => ?_⟩
      · refine ⟨?_, by rw [hw2]; simp [he]⟩
        rw [hw2]
        rcases hB with ⟨_, _, b⟩ | ⟨_, b, _⟩
        · exact acct_initial_now b
        · exact b
      · have hfed : w2.fed = w'.fed := by rw [hw2]
        have hprod : w2.produced = w'.produced := by rw [hw2]
        have hfl : w2.failures = w'.failures := by rw [hw2]; simp [he]
        rw [after_next_eq]
        refine ⟨fun _ => ⟨_, rfl, ?_⟩, fun hnd => ?_⟩
        · exact ordered_transfer (ordered_of_break hB) hfed hprod hfl
            rfl rfl rfl rfl rfl rfl rfl
        · rcases hB with ⟨a, b, d⟩ | ⟨a, _⟩
          · exact ⟨a, b, acct_transfer d hfed hprod rfl rfl rfl rfl rfl rfl⟩
          · exact absurd a hnd

/-- The input stays in order along every run of `drive`. -/
theorem drive_ordered (enc : BrotliEncoder E) (total : List Nat) (env : Env)
    (conf : ngx_http_brotli_conf_t) (fuel : Nat) (chains : List (List ngx_buf_t)) :
    ∀ (r r1 : ngx_http_request_t E), r.header_only = false →
      (∃ c, r.ctx = some c ∧ Ordered enc total (chain_chunks chains) r.w c) →
      drive enc env conf fuel chains r = some r1 →
      ∃ c1 fut, r1.ctx = some c1 ∧ Ordered enc total fut r1.w c1 := by
  induction chains with
  | nil =>
      intro r r1 _ hI h
      simp only [drive, Option.some.injEq] at h
      rw [← h]
      obtain ⟨c, hc, hinv⟩ := hI
      exact ⟨c, _, hc, hinv⟩
  | cons chain rest ih =>
      intro r r1 hho hI h
      obtain ⟨c, hc, hinv⟩ := hI
      unfold drive at h
      rw [hc] at h
      simp only [] at h
      by_cases hd : c.done = true
      · rw [if_pos hd] at h
        simp only [Option.some.injEq] at h
        rw [← h]
        exact ⟨c, _, hc, hinv⟩
      · rw [if_neg hd] at h
        have hd1 : c.done = false := by simpa using hd
        rw [body_filter_past_check enc env conf fuel r c chain hc hd1 hho] at h
        have hP : Acct enc total (chain ++ chain_chunks rest) r.w c := by
          rcases hinv with h1 | h1
          · exact h1.2
          · exact absurd h1.1 hd
        have hv := session_ordered enc total (chain_chunks rest) env conf fuel r.header_only
          r.w c chain hd1 hP
        rcases hO : body_filter_session enc env conf fuel r.header_only r.w c chain with
          ⟨rc, r2⟩ | ⟨r2⟩
        · rw [hO] at h hv
          simp only [] at h
          refine ih r2 r1 ?_ hv h
          have := session_header_only enc env conf fuel r.header_only r.w c chain
          rw [hO] at this
          rw [← hho]; exact this
        · rw [hO] at h
          simp at h

theorem fresh_ordered (enc : BrotliEncoder E) (fut : List ngx_buf_t) :
    Ordered enc (chunks_bytes (upto_last fut)) fut (fresh_world E) (fresh_ctx E) :=
  Or.inl ⟨rfl, fun _ => rfl, fun h => (by cases h), rfl, rfl, rfl⟩

theorem ordered_initial {enc : BrotliEncoder E} {total : List Nat} {fut : List ngx_buf_t}
    {w : World E} {c : ngx_http_brotli_ctx_t E} (h : Ordered enc total fut w c) :
    (∃ rest, w.fed ++ rest = total) ∧
    (c.done = true → FinishesOnRequest enc → w.failures = [] → w.fed = total) := by
  rcases h with ⟨a, b⟩ | ⟨a, b, d⟩
  · exact ⟨acct_initial_now b, fun hd => by rw [a] at hd; cases hd⟩
  · exact ⟨b, fun _ => d⟩

/-- A chunk that `ngx_http_brotli_filter_compress` appends goes to the tail of
`ctx->out`. -/
theorem compress_tail (enc : BrotliEncoder E) (env : Env) (w w1 : World E)
    (c c1 : ngx_http_brotli_ctx_t E) (rc : Int) (ht : c.last_out = c.out.length)
    (h : ngx_http_brotli_filter_compress enc env w c = (rc, w1, c1)) :
    c1.last_out = c1.out.length ∧ (c1.out = c.out ∨ ∃ i, c1.out = c.out ++ [i]) := by
  have hcase := compress_cases enc env w c rc w1 c1 h
  cases hcase <;>
    simp [link_out, encoder_call_ctx, ht]

/-- C13 (order preservation).  Along every run of the body filter on a fresh
session, whatever the encoder and the environment: (a) the bytes the encoder
has consumed, in call order, are a prefix of the bytes of the input chunks in
arrival order up to and including the first chunk marked `last_buf`, and all
of them once the session is done without failure event, for an encoder that
finishes only on request and with its input consumed; (b) without failure
event, for an encoder that respects its cursors, the bytes handed to the next
body filter, in hand-over order, are a prefix of the bytes the encoder wrote,
in call order, and all of them once the session is done; (c)
`ngx_http_brotli_filter_compress` and `ngx_http_brotli_filter_end` append to
the tail of `ctx->out` only. -/
theorem C13_order_preservation (enc : BrotliEncoder E) (env : Env)
    (conf : ngx_http_brotli_conf_t) (fuel : Nat) (chains : List (List ngx_buf_t))
    (r1 : ngx_http_request_t E) (c1 : ngx_http_brotli_ctx_t E)
    (hrun : drive enc env conf fuel chains (fresh_request E) = some r1)
    (hctx : r1.ctx = some c1) :
    (∃ rest, r1.w.fed ++ rest = chunks_bytes (upto_last (chain_chunks chains))) ∧
    (c1.done = true → FinishesOnRequest enc → r1.w.failures = [] →
      r1.w.fed = chunks_bytes (upto_last (chain_chunks chains))) ∧
    (EncoderBounds enc → r1.w.failures = [] →
      (∃ pending, sent_bytes r1.w.sent ++ pending = r1.w.produced) ∧
      (c1.done = true → sent_bytes r1.w.sent = r1.w.produced)) ∧
    (∀ (env1 : Env) (w w2 : World E) (c c2 : ngx_http_brotli_ctx_t E) (rc : Int),
      c.last_out = c.out.length →
      ngx_http_brotli_filter_compress enc env1 w c = (rc, w2, c2) →
      c2.last_out = c2.out.length ∧ (c2.out = c.out ∨ ∃ i, c2.out = c.out ++ [i])) ∧
    (∀ (env1 : Env) (w w2 : World E) (c c2 : ngx_http_brotli_ctx_t E) (e : E) (ob : Nat),
      c.last_out = c.out.length →
      ngx_http_brotli_filter_end env1 w c e ob = (NGX_OK, w2, c2) →
      c2.out = c.out ++ [ob]) := by
  obtain ⟨c2, fut, h1, h2⟩ := drive_ordered enc (chunks_bytes (upto_last (chain_chunks chains)))
    env conf fuel chains (fresh_request E) r1 rfl
    ⟨fresh_ctx E, rfl, fresh_ordered enc (chain_chunks chains)⟩ hrun
  rw [hctx] at h1
  cases h1
  obtain ⟨p1, p2⟩ := ordered_initial h2
  refine ⟨p1, p2, ?_, ?_, ?_⟩
  · intro hb hq
    obtain ⟨c3, h3, h4⟩ := drive_out enc hb env conf fuel chains (fresh_request E) r1 rfl
      ⟨fresh_ctx E, rfl, fun _ => Or.inl (fresh_out_idle conf)⟩ hrun
    rw [hctx] at h3
    cases h3
    rcases h4 hq with ⟨hS, hout, hL⟩ | ⟨hd, hbytes, _⟩
    · refine ⟨?_, fun hd => ?_⟩
      · rcases hL with ⟨ob, hl, _⟩ | hr
        · refine ⟨(getBuf r1.w.heap ob).bytes, ?_⟩
          have := hl.bytes
          rw [hout] at this
          simpa [chain_bytes, chunks_bytes] using this
        · refine ⟨[], ?_⟩
          have := hr.2
          rw [hout] at this
          simpa [chain_bytes, chunks_bytes] using this
      · have := hS.running
        rw [hd] at this
        cases this
    · exact ⟨⟨[], by simpa using hbytes⟩, fun _ => hbytes⟩
  · intro env1 w w2 c c2 rc ht h
    exact compress_tail enc env1 w w2 c c2 rc ht h
  · intro env1 w w2 c c2 e ob ht h
    unfold ngx_http_brotli_filter_end at h
    simp only [] at h
    rcases hA : ngx_alloc env1 { w with destroyed := w.destroyed ++ [e] } with ⟨ok, w3⟩
    rw [hA] at h
    cases ok with
    | false =>
        simp only [Prod.mk.injEq] at h
        exact absurd h.1 (by decide)
    | true =>
        simp only [Prod.mk.injEq] at h
        obtain ⟨_, _, rfl⟩ := h
        simp [link_out, ht]

/-- Two invocations in which a chunk follows the chunk marked `last_buf`. -/
def early_last_run : Option (ngx_http_request_t ToyState) :=
  drive toy env_ok { bufs_num := 2, bufs_size := 4 } 16
    [[chunk [1, 2] false false], [chunk [3] false true, chunk [9] false false]]
    (fresh_request ToyState)

set_option maxRecDepth 8000 in
theorem C13_order_preservation_witness :
    early_last_run = some (early_last_run.getD (fresh_request ToyState)) ∧
    (early_last_run.getD (fresh_request ToyState)).w.fed = [1, 2, 3] ∧
    (early_last_run.getD (fresh_request ToyState)).w.fed =
      chunks_bytes (upto_last (chain_chunks
        [[chunk [1, 2] false false], [chunk [3] false true, chunk [9] false false]])) :=
  ⟨rfl, rfl,
    (C13_order_preservation toy env_ok { bufs_num := 2, bufs_size := 4 } 16
      [[chunk [1, 2] false false], [chunk [3] false true, chunk [9] false false]]
      (early_last_run.getD (fresh_request ToyState))
      ((early_last_run.getD (fresh_request ToyState)).ctx.getD (fresh_ctx ToyState))
      rfl rfl).2.1 rfl (finishes_of_contract toy toy_decode toy_contract) rfl⟩

/-! ## Termination of one invocation (C17) -/

/-- The input cursor is readable: `available_in` bytes lie at `next_in`, and
the queued chunks lie within their memory. -/
def Readable (c : ngx_http_brotli_ctx_t E) : Prop :=
  (input_window c).length = c.available_in ∧ ∀ b ∈ c.in_, b.last ≤ b.mem.length

theorem readable_of_eq {c c1 : ngx_http_brotli_ctx_t E} (h : Readable c)
    (h7 : c1.next_in = c.next_in) (h8 : c1.in_buf = c.in_buf)
    (h9 : c1.available_in = c.available_in) (h10 : c1.in_ = c.in_) : Readable c1 := by
  have hw : input_window c1 = input_window c := by
    unfold input_window
    rw [h7, h8, h9]
  unfold Readable
  rw [hw, h9, h10]
  exact h

theorem readable_add (c : ngx_http_brotli_ctx_t E) (rc : Int) (c1 : ngx_http_brotli_ctx_t E)
    (hX : Readable c) (h : ngx_http_brotli_filter_add_data c = (rc, c1)) : Readable c1 := by
  rcases add_data_cases c rc c1 h with ⟨_, hc, _⟩ | ⟨_, hc, _⟩ | ⟨b, rest, hin, _, hc, _⟩
  · rw [hc]; exact hX
  · rw [hc]; exact hX
  · have hwf := hX.2
    rw [hin] at hwf
    rw [hc]
    constructor
    · have hb := hwf b (List.mem_cons_self _ _)
      simp only [input_window, pulled, List.length_take, List.length_drop]
      omega
    · intro x hx
      exact hwf x (List.mem_cons_of_mem _ hx)

theorem readable_step (c : ngx_http_brotli_ctx_t E) (e1 : E) (used : Nat) (outb : List Nat)
    (hX : Readable c) : Readable (encoder_call_ctx c e1 used outb) := by
  constructor
  · rw [input_window_step, List.length_drop, hX.1]
    rfl
  · exact hX.2

/-- The streaming contract of the claim: a successful step that is given
output space consumes all its input or fills the output space, and a FINISH
step that leaves output space leaves the stream finished. -/
def StreamingContract (enc : BrotliEncoder E) : Prop :=
  ∀ e op inp avail e1 used outb, enc.compressStream e op inp avail = some (e1, used, outb) →
    0 < avail →
    (used = inp.length ∨ outb.length = avail) ∧
    (op = FINISH → outb.length < avail → enc.isFinished e1 = true)

/-- What a call of `compress` does to the order of the loops, for an encoder
that makes progress. -/
theorem run_cmp (enc : BrotliEncoder E) (hb : EncoderBounds enc)
    (rank : E → BrotliEncoderOperation → Nat → Nat) (hp : EncoderProgress enc rank)
    (env : Env) (w : World E) (c : ngx_http_brotli_ctx_t E) (rc : Int) (w1 : World E)
    (c1 : ngx_http_brotli_ctx_t E) (hX : Readable c) (h0 : c.available_out ≠ 0)
    (hnf : ¬ Fed c) (h : ngx_http_brotli_filter_compress enc env w c = (rc, w1, c1)) :
    rc = NGX_ERROR ∨
    (rc = NGX_AGAIN ∧ Readable c1 ∧ c1.in_.length = c.in_.length ∧
      work rank c1 < work rank c) ∨
    (rc = NGX_OK ∧
      (c1.done = true ∨ (Readable c1 ∧ Fed c1 ∧ c1.in_.length = c.in_.length))) := by
  have hpos : 0 < c.available_out := Nat.pos_of_ne_zero h0
  have hcase := compress_cases enc env w c rc w1 c1 h
  cases hcase with
  | null hn => exact Or.inl rfl
  | step_failed e ob hbro ho hs => exact Or.inl rfl
  | full_nolink e ob e1 used outb hs h1 ha => exact Or.inl rfl
  | flush_nolink e ob e1 used outb hs h1 hf ha => exact Or.inl rfl
  | flush_nomarker e ob e1 used outb hs h1 hf ha hz ha2 => exact Or.inl rfl
  | end_nolink e ob e1 used outb hs h1 hf hfin ha => exact Or.inl rfl
  | full e ob e1 used outb hs h1 ha =>
      have k2 := (hb _ _ _ _ _ _ _ hs.2.2).2
      have hfull : outb.length = c.available_out := by
        have : c.available_out - outb.length = 0 := h1
        omega
      have hr := (hp _ _ _ _ _ _ _ hs.2.2 hpos).1 hfull
      rw [hX.1] at hr
      refine Or.inr (Or.inl ⟨rfl, ?_, rfl, ?_⟩)
      · exact readable_of_eq (readable_step c e1 used outb hX) rfl rfl rfl rfl
      · rw [work_unfed rank c e hnf hs.1]
        have hnf1 : ¬ Fed ({ link_out (encoder_call_ctx c e1 used outb) ob with redo := true }
            : ngx_http_brotli_ctx_t E) := fun hf => by cases hf.2.2
        rw [work_unfed rank _ e1 hnf1 rfl]
        show 1 + rank e1 c.flush (c.available_in - used) < 1 + rank e c.flush c.available_in
        omega
  | more e ob e1 used outb hs h1 hf hfin =>
      have hnfull : outb.length ≠ c.available_out := by
        have : c.available_out - outb.length ≠ 0 := h1
        omega
      obtain ⟨p1, p2⟩ := (hp _ _ _ _ _ _ _ hs.2.2 hpos).2 hnfull
      rw [hX.1] at p1
      have hfl : c.flush = PROCESS := by
        cases hc : c.flush with
        | PROCESS => rfl
        | FLUSH => exact absurd hc hf
        | FINISH => exact absurd (p2 hc) hfin
      have hfed : Fed ({ encoder_call_ctx c e1 used outb with redo := false }
          : ngx_http_brotli_ctx_t E) := by
        refine ⟨?_, hfl, rfl⟩
        show c.available_in - used = 0
        omega
      refine Or.inr (Or.inl ⟨rfl, ?_, rfl, ?_⟩)
      · exact readable_of_eq (readable_step c e1 used outb hX) rfl rfl rfl rfl
      · rw [work_fed rank _ hfed, work_unfed rank c e hnf hs.1]
        omega
  | flush_marker e ob e1 used outb hs h1 hf ha hz ha2 =>
      have hnfull : outb.length ≠ c.available_out := by
        have : c.available_out - outb.length ≠ 0 := h1
        omega
      obtain ⟨p1, _⟩ := (hp _ _ _ _ _ _ _ hs.2.2 hpos).2 hnfull
      rw [hX.1] at p1
      refine Or.inr (Or.inr ⟨rfl, Or.inr ⟨?_, ⟨?_, rfl, rfl⟩, rfl⟩⟩)
      · exact readable_of_eq (readable_step c e1 used outb hX) rfl rfl rfl rfl
      · show c.available_in - used = 0
        omega
  | flush_buf e ob e1 used outb hs h1 hf ha hz =>
      have hnfull : outb.length ≠ c.available_out := by
        have : c.available_out - outb.length ≠ 0 := h1
        omega
      obtain ⟨p1, _⟩ := (hp _ _ _ _ _ _ _ hs.2.2 hpos).2 hnfull
      rw [hX.1] at p1
      refine Or.inr (Or.inr ⟨rfl, Or.inr ⟨?_, ⟨?_, rfl, rfl⟩, rfl⟩⟩)
      · exact readable_of_eq (readable_step c e1 used outb hX) rfl rfl rfl rfl
      · show c.available_in - used = 0
        omega
  | ended e ob e1 used outb hs h1 hf hfin ha =>
      exact Or.inr (Or.inr ⟨rfl, Or.inl rfl⟩)

theorem run_get (rank : E → BrotliEncoderOperation → Nat → Nat) (env : Env)
    (conf : ngx_http_brotli_conf_t) (hsz : 0 < conf.bufs_size) (w w1 : World E)
    (c c1 : ngx_http_brotli_ctx_t E) (rc : Int) (hX : Readable c)
    (h : ngx_http_brotli_filter_get_buf env conf w c = (rc, w1, c1)) :
    Readable c1 ∧ c1.in_.length = c.in_.length ∧ work rank c1 = work rank c ∧
    (Fed c1 ↔ Fed c) ∧ c1.out = c.out ∧ (rc = NGX_OK → c1.available_out ≠ 0) := by
  have g := get_buf_frame env conf w w1 c c1 rc h
  obtain ⟨_, _, _, g4, _, _, g7, _, _, _, _, _, _, _, _, g16, g17, g18, g19, g20, g21⟩ := g
  have hw := work_congr rank c1 c g20 g17 g21 g16
  refine ⟨readable_of_eq hX g19 g18 g20 g4, by rw [g4], hw.1, hw.2, g7, ?_⟩
  intro hrc
  have hsz1 : conf.bufs_size ≠ 0 := by omega
  rcases get_buf_cases env conf w w1 c c1 rc h with
    ⟨_, h0, _, rfl⟩ | ⟨_, _, _, i, rest, _, rfl⟩ | ⟨_, _, _, _, _, _, rfl⟩ |
    ⟨h1, _⟩ | ⟨h1, _⟩
  · exact h0
  · exact hsz1
  · exact hsz1
  · rw [h1] at hrc; exact absurd hrc (by decide)
  · rw [h1] at hrc; exact absurd hrc (by decide)

/-- What a run of the inner loop from session `c` ends with: a jump to
`failed`, or a break with the session done or not later in the order of the
loops and, unless it is earlier, with `ctx->out` as it was. -/
def Advanced (rank : E → BrotliEncoderOperation → Nat → Nat) (c : ngx_http_brotli_ctx_t E) :
    Flow E → Prop
  | Flow.timeout _ _ => False
  | Flow.failed _ _ => True
  | Flow.brk _ c1 =>
      c1.done = true ∨
      (Readable c1 ∧ LessEq rank c1 c ∧ (Less rank c1 c ∨ c1.out = c.out))

theorem advanced_of_less (rank : E → BrotliEncoderOperation → Nat → Nat)
    (c1 c : ngx_http_brotli_ctx_t E) (fl : Flow E) (h : Advanced rank c1 fl)
    (hl : Less rank c1 c) : Advanced rank c fl := by
  cases fl with
  | timeout w2 c2 => exact h
  | failed w2 c2 => exact h
  | brk w2 c2 =>
      rcases h with h1 | ⟨h1, h2, _⟩
      · exact Or.inl h1
      · have hl2 := less_of_le_of_less rank c2 c1 c h2 hl
        exact Or.inr ⟨h1, Or.inl hl2, Or.inl hl2⟩

theorem advanced_of_le (rank : E → BrotliEncoderOperation → Nat → Nat)
    (c1 c : ngx_http_brotli_ctx_t E) (fl : Flow E) (h : Advanced rank c1 fl)
    (hl : LessEq rank c1 c) (ho : c1.out = c.out) : Advanced rank c fl := by
  cases fl with
  | timeout w2 c2 => exact h
  | failed w2 c2 => exact h
  | brk w2 c2 =>
      rcases h with h1 | ⟨h1, h2, h3⟩
      · exact Or.inl h1
      · refine Or.inr ⟨h1, le_of_le_of_le rank c2 c1 c h2 hl, ?_⟩
        rcases h3 with h3 | h3
        · exact Or.inl (less_of_less_of_le rank c2 c1 c h3 hl)
        · exact Or.inr (by rw [h3, ho])

/-- The inner loop ends, whatever the environment does. -/
theorem feed_returns (enc : BrotliEncoder E) (hb : EncoderBounds enc)
    (rank : E → BrotliEncoderOperation → Nat → Nat) (hp : EncoderProgress enc rank)
    (conf : ngx_http_brotli_conf_t) (env : Env) (hsz : 0 < conf.bufs_size) :
    ∀ (c : ngx_http_brotli_ctx_t E) (w : World E), Readable c →
      ∃ N fl, (∀ k, N ≤ k → feed enc env conf k w c = fl) ∧ Advanced rank c fl := by
  intro c
  refine less_induction rank (fun c => ∀ w, Readable c →
    ∃ N fl, (∀ k, N ≤ k → feed enc env conf k w c = fl) ∧ Advanced rank c fl) ?_ c
  intro c ih w hX
  rcases hA : ngx_http_brotli_filter_add_data c with ⟨rc, c1⟩
  have hX1 : Readable c1 := readable_add c rc c1 hX hA
  rcases add_measure c rc c1 hA with ⟨h1, h2, _⟩ | ⟨h1, h2⟩ | ⟨h1, h2, h3⟩
  · rw [h1] at hA
    rw [h2] at hA
    refine ⟨1, Flow.brk w c, fun k hk => ?_, Or.inr ⟨hX, Or.inr ⟨rfl, rfl⟩, Or.inr rfl⟩⟩
    obtain ⟨k1, rfl⟩ : ∃ k1, k = k1 + 1 := ⟨k - 1, by omega⟩
    exact feed_declined enc env conf k1 w c c hA
  · rw [h1] at hA
    have hl : Less rank c1 c := Or.inl h2
    obtain ⟨N, fl, hN, hfl⟩ := ih c1 hl w hX1
    refine ⟨N + 1, fl, fun k hk => ?_, advanced_of_less rank c1 c fl hfl hl⟩
    obtain ⟨k1, rfl⟩ : ∃ k1, k = k1 + 1 := ⟨k - 1, by omega⟩
    rw [feed_again enc env conf k1 w c c1 hA]
    exact hN k1 (by omega)
  · rw [h1] at hA
    have hle : LessEq rank c1 c := by
      rcases h3 with h3 | h3
      · rw [h3]; exact Or.inr ⟨rfl, rfl⟩
      · exact Or.inl (Or.inl h3)
    have hout : c1.out = c.out := (add_data_frame c NGX_OK c1 hA).2.2.2.2.1
    rcases hG : ngx_http_brotli_filter_get_buf env conf w c1 with ⟨rc2, w2, c2⟩
    obtain ⟨hX2, g2, g3, g4, g5, g6⟩ := run_get rank env conf hsz w w2 c1 c2 rc2 hX1 hG
    have hle2 : LessEq rank c2 c := le_of_le_of_le rank c2 c1 c (Or.inr ⟨g2, g3⟩) hle
    rcases get_buf_rc env conf w w2 c1 c2 rc2 hG with hrc | hrc | hrc
    · rw [hrc] at hG
      have hnf2 : ¬ Fed c2 := fun hf => h2 (g4.1 hf)
      rcases hC : ngx_http_brotli_filter_compress enc env w2 c2 with ⟨rc3, w3, c3⟩
      have hstep : ∀ k, feed enc env conf (k + 1) w c =
          if rc3 = NGX_OK then Flow.brk w3 c3
          else if rc3 = NGX_ERROR then Flow.failed w3 c3
          else feed enc env conf k w3 c3 :=
        fun k => feed_compress enc env conf k w w2 w3 c c1 c2 c3 rc3 hA hG hC
      rcases run_cmp enc hb rank hp env w2 c2 rc3 w3 c3 hX2 (g6 hrc) hnf2 hC with
        h5 | ⟨h5, h6, h7, h8⟩ | ⟨h5, h6⟩
      · refine ⟨1, Flow.failed w3 c3, fun k hk => ?_, trivial⟩
        obtain ⟨k1, rfl⟩ : ∃ k1, k = k1 + 1 := ⟨k - 1, by omega⟩
        rw [hstep, h5]
        rfl
      · have hl3 : Less rank c3 c := less_of_less_of_le rank c3 c2 c (Or.inr ⟨h7, h8⟩) hle2
        obtain ⟨N, fl, hN, hfl⟩ := ih c3 hl3 w3 h6
        refine ⟨N + 1, fl, fun k hk => ?_, advanced_of_less rank c3 c fl hfl hl3⟩
        obtain ⟨k1, rfl⟩ : ∃ k1, k = k1 + 1 := ⟨k - 1, by omega⟩
        rw [hstep, h5]
        exact hN k1 (by omega)
      · refine ⟨1, Flow.brk w3 c3, fun k hk => ?_, ?_⟩
        · obtain ⟨k1, rfl⟩ : ∃ k1, k = k1 + 1 := ⟨k - 1, by omega⟩
          rw [hstep, h5]
          rfl
        · rcases h6 with h6 | ⟨h6, h7, h8⟩
          · exact Or.inl h6
          · have hl3 : Less rank c3 c2 := by
              refine Or.inr ⟨h8, ?_⟩
              rw [work_fed rank c3 h7]
              exact work_pos rank c2 hnf2
            have hl4 := less_of_less_of_le rank c3 c2 c hl3 hle2
            exact Or.inr ⟨h6, Or.inl hl4, Or.inl hl4⟩
    · rw [hrc] at hG
      refine ⟨1, Flow.failed w2 c2, fun k hk => ?_, trivial⟩
      obtain ⟨k1, rfl⟩ : ∃ k1, k = k1 + 1 := ⟨k - 1, by omega⟩
      rw [feed, hA]
      simp only [show ¬ (NGX_OK = NGX_DECLINED) by decide,
        show ¬ (NGX_OK = NGX_AGAIN) by decide, if_false, hG,
        show ¬ (NGX_ERROR = NGX_DECLINED) by decide, if_true]
    · rw [hrc] at hG
      refine ⟨1, Flow.brk w2 c2, fun k hk => ?_, Or.inr ⟨hX2, hle2, Or.inr (by rw [g5, hout])⟩⟩
      obtain ⟨k1, rfl⟩ : ∃ k1, k = k1 + 1 := ⟨k - 1, by omega⟩
      exact feed_get_declined enc env conf k1 w w2 c c1 c2 hA hG

/-- One iteration of the outer loop, once the inner loop has ended: the body
filter returns, or the outer loop goes on with an empty `ctx->out` from a
readable session that is earlier in the order of the loops if this iteration
started with an empty `ctx->out` and no pending flush. -/
theorem cycle_unroll (enc : BrotliEncoder E)
    (rank : E → BrotliEncoderOperation → Nat → Nat) (conf : ngx_http_brotli_conf_t)
    (env : Env) (ho : Bool) (flush : Bool) (w : World E) (c : ngx_http_brotli_ctx_t E)
    (N1 : Nat) (fl : Flow E) (hF : ∀ k, N1 ≤ k → feed enc env conf k w c = fl)
    (hfl : Advanced rank c fl) :
    (∀ k n, N1 ≤ k → ∃ rc r, cycle enc env conf ho k (n + 1) flush w c
        = Outcome.returned rc r) ∨
    (∃ w4 c4, Readable c4 ∧ c4.out = [] ∧ (flush = false → c.out = [] → Less rank c4 c) ∧
      ∀ k n, N1 ≤ k → cycle enc env conf ho k (n + 1) flush w c
        = cycle enc env conf ho k n false w4 c4) := by
  cases fl with
  | timeout w1 c1 => exact False.elim hfl
  | failed w1 c1 =>
      left
      intro k n hk
      obtain ⟨r, e1, _⟩ := failed_failures ho w1 c1
      exact ⟨NGX_ERROR, r, by
        rw [cycle_failed enc env conf ho k n flush w w1 c c1 (hF k hk), e1]⟩
  | brk w1 c1 =>
      by_cases hidle : c1.out = [] ∧ flush = false
      · left
        intro k n hk
        have hI : ∃ rc r, idle_return ho w1 c1 = Outcome.returned rc r := ⟨_, _, rfl⟩
        obtain ⟨rc, r, hI⟩ := hI
        refine ⟨rc, r, ?_⟩
        rw [cycle, hF k hk]
        simp only [hidle, and_self, if_true]
        exact hI
      · rcases hNx : ngx_http_next_body_filter env w1 (c1.busy ++ c1.out)
            (c1.out.map (getBuf w1.heap)) with ⟨rc, w2⟩
        have hstep : ∀ k n, N1 ≤ k → cycle enc env conf ho k (n + 1) flush w c =
            if rc = NGX_ERROR then body_filter_failed ho w2 c1
            else if (after_next w2 c1).2.done = true then
              Outcome.returned rc { ctx := some (after_next w2 c1).2, header_only := ho,
                                    w := (after_next w2 c1).1 }
            else cycle enc env conf ho k n false (after_next w2 c1).1 (after_next w2 c1).2 := by
          intro k n hk
          rw [cycle, hF k hk]
          simp only [hidle, if_false, hNx]
        by_cases he : rc = NGX_ERROR
        · left
          intro k n hk
          obtain ⟨r, e1, _⟩ := failed_failures ho w2 c1
          exact ⟨NGX_ERROR, r, by rw [hstep k n hk, if_pos he, e1]⟩
        · by_cases hd : (after_next w2 c1).2.done = true
          · left
            intro k n hk
            exact ⟨rc, _, by rw [hstep k n hk, if_neg he, if_pos hd]⟩
          · right
            have hfr := after_next_frame w2 c1
            have hnd1 : c1.done ≠ true := by rw [← hfr.1]; exact hd
            rcases hfl with h1 | ⟨h1, h2, h3⟩
            · exact absurd h1 hnd1
            · refine ⟨(after_next w2 c1).1, (after_next w2 c1).2, ?_, ?_, ?_, ?_⟩
              · rw [after_next_eq]
                exact readable_of_eq h1 rfl rfl rfl rfl
              · rw [after_next_eq]
              · intro hf hout
                have hl : Less rank c1 c := by
                  rcases h3 with h3 | h3
                  · exact h3
                  · exact absurd ⟨by rw [h3, hout], hf⟩ hidle
                refine less_of_le_of_less rank _ c1 c (Or.inr ⟨?_, ?_⟩) hl
                · rw [after_next_eq]
                · rw [after_next_eq]
                  exact (work_congr rank _ c1 rfl rfl rfl rfl).1
              · intro k n hk
                rw [hstep k n hk, if_neg he, if_neg hd]

/-- The outer loop returns from every readable session with an empty
`ctx->out` and no pending flush. -/
theorem cycle_returns (enc : BrotliEncoder E) (hb : EncoderBounds enc)
    (rank : E → BrotliEncoderOperation → Nat → Nat) (hp : EncoderProgress enc rank)
    (conf : ngx_http_brotli_conf_t) (env : Env) (hsz : 0 < conf.bufs_size) (ho : Bool) :
    ∀ (c : ngx_http_brotli_ctx_t E) (w : World E), Readable c → c.out = [] →
      ∃ N, ∀ k n, N ≤ k → N ≤ n →
        ∃ rc r, cycle enc env conf ho k n false w c = Outcome.returned rc r := by
  intro c
  refine less_induction rank (fun c => ∀ w, Readable c → c.out = [] →
    ∃ N, ∀ k n, N ≤ k → N ≤ n →
      ∃ rc r, cycle enc env conf ho k n false w c = Outcome.returned rc r) ?_ c
  intro c ih w hX hout
  obtain ⟨N1, fl, hN1, hfl⟩ := feed_returns enc hb rank hp conf env hsz c w hX
  rcases cycle_unroll enc rank conf env ho false w c N1 fl hN1 hfl with h | ⟨w4, c4, a1, a2, a3, a4⟩
  · refine ⟨N1 + 1, fun k n hk hn => ?_⟩
    obtain ⟨n1, rfl⟩ : ∃ n1, n = n1 + 1 := ⟨n - 1, by omega⟩
    exact h k n1 (by omega)
  · obtain ⟨N2, hN2⟩ := ih c4 (a3 rfl hout) w4 a1 a2
    refine ⟨max N1 N2 + 1, fun k n hk hn => ?_⟩
    obtain ⟨n1, rfl⟩ : ∃ n1, n = n1 + 1 := ⟨n - 1, by omega⟩
    have hk1 : N1 ≤ k := le_trans (le_max_left N1 N2) (by omega)
    have hk2 : N2 ≤ k := le_trans (le_max_right N1 N2) (by omega)
    have hn2 : N2 ≤ n1 := by
      have := le_max_right N1 N2
      omega
    rw [a4 k n1 hk1]
    exact hN2 k n1 hk2 hn2

/-- The outer loop returns from every readable session. -/
theorem cycle_returns_any (enc : BrotliEncoder E) (hb : EncoderBounds enc)
    (rank : E → BrotliEncoderOperation → Nat → Nat) (hp : EncoderProgress enc rank)
    (conf : ngx_http_brotli_conf_t) (env : Env) (hsz : 0 < conf.bufs_size) (ho : Bool)
    (flush : Bool) (c : ngx_http_brotli_ctx_t E) (w : World E) (hX : Readable c) :
    ∃ N, ∀ k n, N ≤ k → N ≤ n →
      ∃ rc r, cycle enc env conf ho k n flush w c = Outcome.returned rc r := by
  obtain ⟨N1, fl, hN1, hfl⟩ := feed_returns enc hb rank hp conf env hsz c w hX
  rcases cycle_unroll enc rank conf env ho flush w c N1 fl hN1 hfl with h | ⟨w4, c4, a1, a2, _, a4⟩
  · refine ⟨N1 + 1, fun k n hk hn => ?_⟩
    obtain ⟨n1, rfl⟩ : ∃ n1, n = n1 + 1 := ⟨n - 1, by omega⟩
    exact h k n1 (by omega)
  · obtain ⟨N2, hN2⟩ := cycle_returns enc hb rank hp conf env hsz ho c4 w4 a1 a2
    refine ⟨max N1 N2 + 1, fun k n hk hn => ?_⟩
    obtain ⟨n1, rfl⟩ : ∃ n1, n = n1 + 1 := ⟨n - 1, by omega⟩
    have hk1 : N1 ≤ k := le_trans (le_max_left N1 N2) (by omega)
    have hk2 : N2 ≤ k := le_trans (le_max_right N1 N2) (by omega)
    have hn2 : N2 ≤ n1 := by
      have := le_max_right N1 N2
      omega
    rw [a4 k n1 hk1]
    exact hN2 k n1 hk2 hn2

theorem readable_prologue (enc : BrotliEncoder E) (env : Env) (w : World E)
    (c : ngx_http_brotli_ctx_t E) (chain : List ngx_buf_t) (hX : Readable c)
    (hch : ∀ b ∈ chain, b.last ≤ b.mem.length) :
    match prologue enc env w c chain with
    | Entry.failed _ _ => True
    | Entry.go _ _ c1 => Readable c1 := by
  unfold prologue
  rcases h0 : start_if_needed enc w c with ⟨rc0, w0, c0⟩
  have hX0 : Readable c0 := by
    rcases start_if_needed_cases enc w c rc0 w0 c0 h0 with
      ⟨_, _, _, rfl⟩ | ⟨_, _, _, _, rfl⟩ | ⟨e, _, _, _, _, rfl⟩
    · exact hX
    · exact readable_of_eq hX rfl rfl rfl rfl
    · exact ⟨rfl, hX.2⟩
  simp only []
  by_cases hrc0 : rc0 = NGX_OK
  · rw [if_neg (by simpa using hrc0)]
    rcases h1 : add_input env w0 c0 chain with ⟨rc1, w1, c1⟩
    have hX1 : Readable c1 := by
      unfold add_input at h1
      cases chain with
      | nil =>
          simp only [Prod.mk.injEq] at h1
          obtain ⟨_, _, rfl⟩ := h1
          exact hX0
      | cons a rest =>
          simp only [] at h1
          rcases hA : ngx_chain_add_copy env w0 c0.in_ (a :: rest) with ⟨rc, w2, l⟩
          rw [hA] at h1
          simp only [Prod.mk.injEq] at h1
          obtain ⟨_, _, rfl⟩ := h1
          refine ⟨hX0.1, ?_⟩
          intro b hb
          rcases add_copy_mem env _ _ _ _ _ _ hA b hb with h | h
          · exact hX0.2 b h
          · exact hch b h
    simp only []
    by_cases hrc1 : rc1 = NGX_OK
    · rw [if_neg (by simpa using hrc1)]
      unfold flush_busy
      by_cases hn : c1.nomem = true
      · simp only [hn, if_true]
        rcases hN : ngx_http_next_body_filter env w1 c1.busy [] with ⟨rc2, w2⟩
        simp only []
        by_cases he : rc2 = NGX_ERROR
        · simp only [he, if_true]
        · simp only [he, if_false]
          exact readable_of_eq hX1 rfl rfl rfl rfl
      · simp only [hn, if_false]
        exact hX1
    · rw [if_pos (by simpa using hrc1)]
      trivial
  · rw [if_pos (by simpa using hrc0)]
    trivial

/-- C17, with the progress the code needs: for an encoder that respects its
cursors and makes progress (a successful step given output space fills it,
and then `rank` goes down, or consumes all its input and, for FINISH, leaves
the stream finished), output buffers of at least one byte, any pool capacity,
any allocator and any next body filter, and every session whose input cursor
is readable, an invocation of the body filter on a chain of chunks lying
within their memory returns, whenever its iteration budget is at least some
`N`. -/
theorem C17_invocation_returns (enc : BrotliEncoder E) (hb : EncoderBounds enc)
    (rank : E → BrotliEncoderOperation → Nat → Nat) (hp : EncoderProgress enc rank)
    (env : Env) (conf : ngx_http_brotli_conf_t) (hsz : 0 < conf.bufs_size)
    (r : ngx_http_request_t E) (chain : List ngx_buf_t)
    (hX : ∀ c, r.ctx = some c → Readable c)
    (hch : ∀ b ∈ chain, b.last ≤ b.mem.length) :
    ∃ N, ∀ fuel, N ≤ fuel →
      ∃ rc r1, ngx_http_brotli_body_filter enc env conf fuel r chain
        = Outcome.returned rc r1 := by
  cases hc : r.ctx with
  | none =>
      refine ⟨0, fun fuel _ => ⟨(ngx_http_next_body_filter env r.w [] chain).1,
        { r with w := (ngx_http_next_body_filter env r.w [] chain).2 }, ?_⟩⟩
      unfold ngx_http_brotli_body_filter
      rw [hc]
  | some c =>
      by_cases hd : c.done = true ∨ r.header_only = true
      · refine ⟨0, fun fuel _ => ⟨(ngx_http_next_body_filter env r.w c.busy chain).1,
          { r with w := (ngx_http_next_body_filter env r.w c.busy chain).2 }, ?_⟩⟩
        unfold ngx_http_brotli_body_filter
        rw [hc]
        simp only []
        rw [if_pos hd]
      · have hp1 := readable_prologue enc env r.w c chain (hX c hc) hch
        have hbody : ∀ fuel, ngx_http_brotli_body_filter enc env conf fuel r chain =
            body_filter_session enc env conf fuel r.header_only r.w c chain := by
          intro fuel
          unfold ngx_http_brotli_body_filter
          simp only [hc]
          rw [if_neg hd]
        rcases hP : prologue enc env r.w c chain with ⟨w1, c1⟩ | ⟨flush, w1, c1⟩
        · obtain ⟨r1, e1, _⟩ := failed_failures r.header_only w1 c1
          refine ⟨0, fun fuel _ => ⟨NGX_ERROR, r1, ?_⟩⟩
          rw [hbody, body_filter_session, hP]
          exact e1
        · rw [hP] at hp1
          obtain ⟨N, hN⟩ := cycle_returns_any enc hb rank hp conf env hsz r.header_only flush
            c1 w1 hp1
          refine ⟨N, fun fuel hf => ?_⟩
          rw [hbody, body_filter_session, hP]
          exact hN fuel fuel hf hf

theorem C17_invocation_returns_witness :
    EncoderBounds toy ∧ EncoderProgress toy toy_rank ∧
    ∃ N, ∀ fuel, N ≤ fuel →
      ∃ rc r1, ngx_http_brotli_body_filter toy env_stall { bufs_num := 1, bufs_size := 1 } fuel
        (fresh_request ToyState) [chunk [1, 2, 3] false false] = Outcome.returned rc r1 :=
  ⟨toy_bounds, toy_progress,
    C17_invocation_returns toy toy_bounds toy_rank toy_progress env_stall
      { bufs_num := 1, bufs_size := 1 } (by decide) (fresh_request ToyState)
      [chunk [1, 2, 3] false false]
      (fun c h => by
        simp only [fresh_request, Option.some.injEq] at h
        rw [← h]
        exact ⟨rfl, fun b hb => by simp [fresh_ctx] at hb⟩)
      (fun b hb => by
        simp only [List.mem_singleton] at hb
        rw [hb]
        decide)⟩

/-- An encoder that keeps the streaming contract of the claim and never
stops writing: every step consumes all its input and fills the output
space. -/
def gusher : BrotliEncoder Unit :=
  { create := some (),
    compressStream := fun e _ inp avail => some (e, inp.length, List.replicate avail 0),
    isFinished := fun _ => false }

/-- The one output buffer of the run of `gusher`, reset. -/
def gush_buf : ngx_buf_t :=
  { pos := 0, last := 0, start := 0, mem := [0], tag := true, flush := false,
    last_buf := false, recycled := true }

/-- The session of the run of `gusher` at the head of the outer loop, from
the second iteration on. -/
def gush_ctx : ngx_http_brotli_ctx_t Unit :=
  { in_ := [], free := [0], busy := [], out := [], last_out := 0, copied := [],
    copy_buf := none,
    in_buf := some { pos := 1, last := 1, start := 0, mem := [1], tag := false, flush := false,
                     last_buf := false, recycled := false },
    out_buf := some 0, bufs := 1, bro := some (), next_in := none, next_out := 1,
    available_in := 0, available_out := 0, flush := PROCESS, redo := true, done := false,
    nomem := false }

theorem gusher_contract : StreamingContract gusher ∧ EncoderBounds gusher := by
  constructor
  · intro e op inp avail e1 used outb h _
    simp only [gusher, Option.some.injEq, Prod.mk.injEq] at h
    obtain ⟨_, h2, h3⟩ := h
    refine ⟨Or.inl h2.symm, fun _ hlt => ?_⟩
    rw [← h3] at hlt
    simp at hlt
  · intro e op inp avail e1 used outb h
    simp only [gusher, Option.some.injEq, Prod.mk.injEq] at h
    obtain ⟨_, h2, h3⟩ := h
    rw [← h2, ← h3]
    simp

set_option maxRecDepth 8000 in
/-- From the second iteration on the outer loop of the run of `gusher` comes
back to the same session, so it never returns. -/
theorem gusher_loop (k : Nat) :
    ∀ (n : Nat) (b : Bool) (na nn : Nat) (fr : List Nat) (s : List (List ngx_buf_t))
      (fd pr : List Nat) (cr st : Nat) (ds : List Unit) (fl : List Failure),
      ∃ r, cycle gusher env_ok { bufs_num := 1, bufs_size := 1 } false (k + 2) n false
          ⟨[gush_buf], b, na, nn, fr, s, fd, pr, cr, st, ds, fl⟩ gush_ctx
        = Outcome.timeout r := by
  intro n
  induction n with
  | zero =>
      intro b na nn fr s fd pr cr st ds fl
      exact ⟨_, rfl⟩
  | succ n ih =>
      intro b na nn fr s fd pr cr st ds fl
      have hstep : cycle gusher env_ok { bufs_num := 1, bufs_size := 1 } false (k + 2) (n + 1)
            false ⟨[gush_buf], b, na, nn, fr, s, fd, pr, cr, st, ds, fl⟩ gush_ctx =
          cycle gusher env_ok { bufs_num := 1, bufs_size := 1 } false (k + 2) n false
            ⟨[gush_buf], b, na + 1, nn + 1, fr ++ [], s ++ [[{ gush_buf with last := 1 }]],
              fd ++ [], pr ++ [0], cr, st + 1, ds, fl⟩ gush_ctx := rfl
      rw [hstep]
      exact ih b (na + 1) (nn + 1) (fr ++ []) (s ++ [[{ gush_buf with last := 1 }]])
        (fd ++ []) (pr ++ [0]) cr (st + 1) ds fl

set_option maxRecDepth 8000 in
/-- C17 as stated fails: `gusher` keeps the streaming contract of the claim
(and respects its cursors), the output buffer has one byte and the pool one
buffer, the next body filter sends everything, and the invocation on a fresh
session with the chunk `[1]` runs out of every iteration budget: after each
hand-over the one buffer is recycled and filled again. -/
theorem C17_counterexample :
    StreamingContract gusher ∧ EncoderBounds gusher ∧
    ∀ fuel, ∃ r,
      ngx_http_brotli_body_filter gusher env_ok { bufs_num := 1, bufs_size := 1 } fuel
        (fresh_request Unit) [chunk [1] false false] = Outcome.timeout r := by
  refine ⟨gusher_contract.1, gusher_contract.2, ?_⟩
  intro fuel
  match fuel with
  | 0 => exact ⟨_, rfl⟩
  | 1 => exact ⟨_, rfl⟩
  | k + 2 =>
      have hfirst : ngx_http_brotli_body_filter gusher env_ok { bufs_num := 1, bufs_size := 1 }
            (k + 2) (fresh_request Unit) [chunk [1] false false] =
          cycle gusher env_ok { bufs_num := 1, bufs_size := 1 } false (k + 2) (k + 1) false
            ⟨[gush_buf], true, 3, 1, [], [[{ gush_buf with last := 1 }]], [1], [0], 1, 1,
              [], []⟩ gush_ctx := rfl
      rw [hfirst]
      exact gusher_loop k (k + 1) true 3 1 [] [[{ gush_buf with last := 1 }]] [1] [0] 1 1 [] []

/-! ## Copied input on the failure path (C8) -/

end NgxBrotli
